import Mathlib

/-!
Mykron UI core: a shallow embedding of `src/ui/ui.c`

Conventions of the embedding.

* `F32`/`F64` values are exact rationals in the definitions over `Ui`.
  Rounding is modelled where a property rests on it, on scaled integers: in
  `grow_capacity` (the growth factor of the dynamic array), and in second
  definitions with the suffix `_f32` or `_b32` for the rect arithmetic of the
  clip stack and of the hit test and for `animate_f32` (the sections on binary
  floating point, the dynamic array, binary32 rectangles, `animate_f32` in
  binary32 and the hit test in binary32).  The one place where the code tests
  for NaN is the pair of floating offsets of a style, so those are
  `Option F32` with `none` standing for NaN.
* A `UiBox *` is a `BoxId`, an index into the heap `Ui.boxes`; the null pointer
  is `none`.  `mem_new` hands out the index `Ui.box_count`.
* `Map(UiKey, UiBox*)` is a list of `(key, value)` entries, one per filled
  slot, in slot order; `map_get_ptr`, `map_add` and `map_iter` are the
  operations of `base/map.h` that `ui.c` uses on it.
* The arrays `box_stack`, `free_boxes` and `clip_stack` are only ever accessed
  at their last element; they are stored last-element-first, so `array_push`
  is `::` and `array_pop` takes the head.  All other arrays are in index order.
* The cascade recurses over the tree below `ui->root`; there the tree is a
  value of `BoxTree` (a box with the subtrees of `box->children`, in order),
  and `box->parent->children` enters through `ParentLink`.  The array
  `active_rules` is the list of its elements in `apply_style_rules_box`, and
  the list with the capacity of the array in `apply_style_rules_box_array`,
  where a push can end the program; a run of the second is a run of the first.
* Outcomes of a call are `Except Fault`: `fatal_error` is `error_fmt`,
  `panic` a failed `assert_always`/bounds check, `segfault` a null
  dereference and `diverge` a loop that never ends.  `not_finite` marks a
  division by zero: the C program goes on with a NaN or an infinity, which a
  rational cannot hold, so the embedded call ends there.
-/

namespace Mykron

abbrev F32 := ℚ
abbrev UiKey := Nat
abbrev BoxId := Nat

inductive Fault where
  | fatal_error
  | panic
  | segfault
  | diverge
  | not_finite
  deriving DecidableEq, Repr

inductive EventTag where
  | EVENT_DUMMY
  | EVENT_EATEN
  | EVENT_WINDOW_SIZE
  | EVENT_MOUSE_MOVE
  | EVENT_SCROLL
  | EVENT_KEY_PRESS
  | EVENT_KEY_RELEASE
  deriving DecidableEq, Repr

structure Event where
  tag : EventTag
  x : F32
  y : F32
  key : Int
  mods : Int
  scancode : Int
  deriving DecidableEq, Repr

/-- GLFW's `GLFW_KEY_ENTER` (vendor header `GLFW/glfw3.h`). -/
def GLFW_KEY_ENTER : Int := 257

/-- GLFW's `GLFW_MOUSE_BUTTON_LEFT` (vendor header `GLFW/glfw3.h`). -/
def GLFW_MOUSE_BUTTON_LEFT : Int := 0

structure Vec2 where
  x : F32
  y : F32
  deriving DecidableEq, Repr

structure Vec4 where
  x : F32
  y : F32
  z : F32
  w : F32
  deriving DecidableEq, Repr

/-- Component `v[axis]` of a `Vec2` (`axis` is 0 or 1 at every call site). -/
def Vec2.v (p : Vec2) (axis : Nat) : F32 := if axis = 0 then p.x else p.y

inductive UiSizeTag where
  | UI_SIZE_TEXT
  | UI_SIZE_PIXELS
  | UI_SIZE_PCT_PARENT
  | UI_SIZE_CHILDREN_SUM
  deriving DecidableEq, Repr

structure UiSize where
  tag : UiSizeTag
  value : F32
  strictness : F32
  deriving DecidableEq, Repr

def UI_ALIGN_START : Nat := 0
def UI_ALIGN_MIDDLE : Nat := 1
def UI_ALIGN_END : Nat := 2

def UI_AXIS_HORIZONTAL : Nat := 0
def UI_AXIS_VERTICAL : Nat := 1

inductive UiStyleAttribute where
  | UI_WIDTH
  | UI_HEIGHT
  | UI_AXIS
  | UI_BG_COLOR
  | UI_BG_COLOR2
  | UI_TEXT_COLOR
  | UI_RADIUS
  | UI_PADDING
  | UI_SPACING
  | UI_ALIGN_X
  | UI_ALIGN_Y
  | UI_FLOAT_X
  | UI_FLOAT_Y
  | UI_OVERFLOW_X
  | UI_OVERFLOW_Y
  | UI_EDGE_SOFTNESS
  | UI_BORDER_COLOR
  | UI_BORDER_WIDTHS
  | UI_INSET_SHADOW_COLOR
  | UI_OUTSET_SHADOW_COLOR
  | UI_INSET_SHADOW_WIDTH
  | UI_OUTSET_SHADOW_WIDTH
  | UI_SHADOW_OFFSETS
  | UI_BLUR_RADIUS
  | UI_ANIMATION
  | UI_ANIMATION_TIME
  deriving DecidableEq, Repr

open UiStyleAttribute in
/-- Numeric value of the enumerator (its position in the C enum). -/
def UiStyleAttribute.toNat : UiStyleAttribute → Nat
  | UI_WIDTH => 0
  | UI_HEIGHT => 1
  | UI_AXIS => 2
  | UI_BG_COLOR => 3
  | UI_BG_COLOR2 => 4
  | UI_TEXT_COLOR => 5
  | UI_RADIUS => 6
  | UI_PADDING => 7
  | UI_SPACING => 8
  | UI_ALIGN_X => 9
  | UI_ALIGN_Y => 10
  | UI_FLOAT_X => 11
  | UI_FLOAT_Y => 12
  | UI_OVERFLOW_X => 13
  | UI_OVERFLOW_Y => 14
  | UI_EDGE_SOFTNESS => 15
  | UI_BORDER_COLOR => 16
  | UI_BORDER_WIDTHS => 17
  | UI_INSET_SHADOW_COLOR => 18
  | UI_OUTSET_SHADOW_COLOR => 19
  | UI_INSET_SHADOW_WIDTH => 20
  | UI_OUTSET_SHADOW_WIDTH => 21
  | UI_SHADOW_OFFSETS => 22
  | UI_BLUR_RADIUS => 23
  | UI_ANIMATION => 24
  | UI_ANIMATION_TIME => 25

/-- The C struct `UiStyle`; `size`, `align`, `floating` and `overflow` are the
two-element arrays, written out per axis. -/
structure UiStyle where
  size_width : UiSize
  size_height : UiSize
  axis : Nat
  bg_color : Vec4
  bg_color2 : Vec4
  text_color : Vec4
  radius : Vec4
  padding : Vec2
  spacing : F32
  align_x : Nat
  align_y : Nat
  edge_softness : F32
  floating_x : Option F32
  floating_y : Option F32
  overflow_x : Nat
  overflow_y : Nat
  border_color : Vec4
  border_widths : Vec4
  inset_shadow_color : Vec4
  outset_shadow_color : Vec4
  inset_shadow_width : F32
  outset_shadow_width : F32
  shadow_offsets : Vec2
  blur_radius : F32
  animation_mask : Nat
  animation_time : F32
  deriving DecidableEq, Repr

def UiStyle.size (s : UiStyle) (axis : Nat) : UiSize :=
  if axis = 0 then s.size_width else s.size_height

def UiStyle.set_size (s : UiStyle) (axis : Nat) (v : UiSize) : UiStyle :=
  if axis = 0 then { s with size_width := v } else { s with size_height := v }

def UiStyle.align (s : UiStyle) (axis : Nat) : Nat :=
  if axis = 0 then s.align_x else s.align_y

def UiStyle.floating (s : UiStyle) (axis : Nat) : Option F32 :=
  if axis = 0 then s.floating_x else s.floating_y

def UiStyle.overflow (s : UiStyle) (axis : Nat) : Nat :=
  if axis = 0 then s.overflow_x else s.overflow_y

def Vec4.zero : Vec4 := ⟨0, 0, 0, 0⟩
def Vec2.zero : Vec2 := ⟨0, 0⟩

def default_box_style : UiStyle where
  size_width := ⟨.UI_SIZE_CHILDREN_SUM, 0, 0⟩
  size_height := ⟨.UI_SIZE_CHILDREN_SUM, 0, 0⟩
  axis := 0
  bg_color := Vec4.zero
  bg_color2 := ⟨-1, 0, 0, 0⟩
  text_color := ⟨1, 1, 1, 8 / 10⟩
  radius := Vec4.zero
  padding := Vec2.zero
  spacing := 0
  align_x := 0
  align_y := 0
  edge_softness := 1
  floating_x := none
  floating_y := none
  overflow_x := 0
  overflow_y := 0
  border_color := Vec4.zero
  border_widths := Vec4.zero
  inset_shadow_color := Vec4.zero
  outset_shadow_color := Vec4.zero
  inset_shadow_width := 0
  outset_shadow_width := 0
  shadow_offsets := Vec2.zero
  blur_radius := 0
  animation_mask := 0
  animation_time := 15 / 100

inductive UiPatternTag where
  | UI_PATTERN_PATH
  | UI_PATTERN_AND
  | UI_PATTERN_ANY
  | UI_PATTERN_ID
  | UI_PATTERN_TAG
  | UI_PATTERN_IS_ODD
  | UI_PATTERN_IS_EVEN
  | UI_PATTERN_IS_FIRST
  | UI_PATTERN_IS_LAST
  deriving DecidableEq, Repr

structure UiSpecificity where
  id : Nat
  tag : Nat
  deriving DecidableEq, Repr

/-- A leaf `UiPattern` node: one atomic selector of a segment. -/
structure UiSelector where
  tag : UiPatternTag
  string : String
  deriving DecidableEq, Repr

/-- A `UiPattern` node with tag `UI_PATTERN_AND`: one path segment. -/
structure UiPatternAnd where
  specificity : UiSpecificity
  patterns : List UiSelector
  deriving DecidableEq, Repr

/-- A `UiPattern` node with tag `UI_PATTERN_PATH`: the root of a pattern; its
children are the segments still to be matched. -/
structure UiPattern where
  specificity : UiSpecificity
  patterns : List UiPatternAnd
  deriving DecidableEq, Repr

/-- The C struct `UiStyleRule`.  The field `style` of the source is a pointer
into frame memory: `style_ptr` is its address and `style` the style it points
to.  A rule derived from another one shares the address. -/
structure UiStyleRule where
  style_ptr : Nat
  style : UiStyle
  pattern : UiPattern
  mask : Nat
  deriving DecidableEq, Repr

structure UiSignal where
  hovered : Bool
  pressed : Bool
  clicked : Bool
  focused : Bool
  deriving DecidableEq, Repr

structure UiRect where
  x : F32
  y : F32
  w : F32
  h : F32
  deriving DecidableEq, Repr

def UiRect.zero : UiRect := ⟨0, 0, 0, 0⟩

def UiRect.size (r : UiRect) (axis : Nat) : F32 := if axis = 0 then r.w else r.h

def UiRect.set_size (r : UiRect) (axis : Nat) (v : F32) : UiRect :=
  if axis = 0 then { r with w := v } else { r with h := v }

def UiRect.top_left (r : UiRect) (axis : Nat) : F32 := if axis = 0 then r.x else r.y

def UiRect.set_top_left (r : UiRect) (axis : Nat) (v : F32) : UiRect :=
  if axis = 0 then { r with x := v } else { r with y := v }

def UI_BOX_REACTIVE : Nat := 1
def UI_BOX_CAN_FOCUS : Nat := 2
def UI_BOX_INVISIBLE : Nat := 4
def UI_BOX_CLIPPING : Nat := 8
def UI_BOX_CLICK_THROUGH : Nat := 16
def UI_BOX_DRAW_TEXT : Nat := 32

structure UiBox where
  parent : Option BoxId
  children : List BoxId
  style : UiStyle
  next_style : UiStyle
  style_rules : List UiStyleRule
  tags : List String
  signal : UiSignal
  label : String
  key : UiKey
  flags : Nat
  gc_flag : Nat
  scratch : Nat
  rect : UiRect
  text_rect : UiRect
  content : UiRect
  deriving DecidableEq, Repr

/-- An all-zero `UiStyle` (zeroed memory: the floating offsets are 0, not NaN). -/
def UiStyle.zeroed : UiStyle where
  size_width := ⟨.UI_SIZE_TEXT, 0, 0⟩
  size_height := ⟨.UI_SIZE_TEXT, 0, 0⟩
  axis := 0
  bg_color := Vec4.zero
  bg_color2 := Vec4.zero
  text_color := Vec4.zero
  radius := Vec4.zero
  padding := Vec2.zero
  spacing := 0
  align_x := 0
  align_y := 0
  edge_softness := 0
  floating_x := some 0
  floating_y := some 0
  overflow_x := 0
  overflow_y := 0
  border_color := Vec4.zero
  border_widths := Vec4.zero
  inset_shadow_color := Vec4.zero
  outset_shadow_color := Vec4.zero
  inset_shadow_width := 0
  outset_shadow_width := 0
  shadow_offsets := Vec2.zero
  blur_radius := 0
  animation_mask := 0
  animation_time := 0

/-- A zero-initialised `UiBox`, as `mem_new` returns it. -/
def UiBox.zeroed : UiBox where
  parent := none
  children := []
  style := UiStyle.zeroed
  next_style := UiStyle.zeroed
  style_rules := []
  tags := []
  signal := ⟨false, false, false, false⟩
  label := ""
  key := 0
  flags := 0
  gc_flag := 0
  scratch := 0
  rect := UiRect.zero
  text_rect := UiRect.zero
  content := UiRect.zero

/-- The global `Ui` context, limited to the fields the box store, the signal
router, the layout, the style setters and the widgets read or write.
`pressed_keys` is the `Map(U32, U8)` as a list of entries; `current_style_rule`
points at an element of a box's `style_rules` (the box and the index);
`frame_mem_count` is the number of `UiStyle` objects handed out by
`mem_new(ui->frame_mem, UiStyle)`, the next one getting that number as
address. -/
structure Ui where
  gc_flag : Nat
  event : Event
  mouse : Vec2
  dt : F32
  boxes : BoxId → UiBox
  box_count : Nat
  root : Option BoxId
  active : Option BoxId
  hovered : Option BoxId
  focused : Option BoxId
  focus_idx : Nat
  depth_first : List BoxId
  free_boxes : List BoxId
  box_stack : List BoxId
  box_cache : List (UiKey × BoxId)
  clip_stack : List UiRect
  mouse_dt : Vec2
  pressed_keys : List (Nat × Nat)
  current_style_rule : Option (BoxId × Nat)
  frame_mem_count : Nat

/-- Overwrites one heap cell. -/
def Ui.set_box (ui : Ui) (b : BoxId) (v : UiBox) : Ui :=
  { ui with boxes := Function.update ui.boxes b v }

/-- Applies `f` to one heap cell. -/
def Ui.modify_box (ui : Ui) (b : BoxId) (f : UiBox → UiBox) : Ui :=
  ui.set_box b (f (ui.boxes b))

/-! ## `base/map.h` as used by the box cache -/

def map_get_ptr (m : List (UiKey × BoxId)) (k : UiKey) : Option BoxId :=
  match m with
  | [] => none
  | (k', v) :: rest => if k' = k then some v else map_get_ptr rest k

def map_add (m : List (UiKey × BoxId)) (k : UiKey) (v : BoxId) : List (UiKey × BoxId) :=
  match m with
  | [] => [(k, v)]
  | (k', v') :: rest => if k' = k then (k', v) :: rest else (k', v') :: map_add rest k v

/-! ## Signals -/

def within_box (r : UiRect) (p : Vec2) : Bool :=
  decide (p.x > r.x) && decide (p.x < r.x + r.w) && decide (p.y > r.y) && decide (p.y < r.y + r.h)

/-- The function `compute_rect_intersect` in exact arithmetic;
`compute_rect_intersect_f32` has the sums and differences rounded. -/
def compute_rect_intersect (r0 r1 : UiRect) : UiRect :=
  let x0 := max r0.x r1.x
  let y0 := max r0.y r1.y
  let x1 := min (r0.x + r0.w) (r1.x + r1.w)
  let y1 := min (r0.y + r0.h) (r1.y + r1.h)
  ⟨x0, y0, max 0 (x1 - x0), max 0 (y1 - y0)⟩

/-- The loop `for (b = ui->hovered; b; b = b->parent) if (b == box) ...` of
`compute_signals`: `some true` when the walk reaches `box`, `some false` when it
reaches the null parent first, `none` when `fuel` links were followed without
either. -/
def hovered_walk (boxes : BoxId → UiBox) (box : BoxId) : Nat → Option BoxId → Option Bool
  | _, none => some false
  | 0, some _ => none
  | fuel + 1, some b =>
    if b = box then some true else hovered_walk boxes box fuel (boxes b).parent

/-- The local `hovered` of `compute_signals`.  A walk over more than
`box_count` links has met some box twice, so the C loop never ends. -/
def compute_hovered (ui : Ui) (box : BoxId) : Except Fault Bool :=
  match hovered_walk ui.boxes box (ui.box_count + 1) ui.hovered with
  | none => .error .diverge
  | some false => .ok false
  | some true =>
    match ui.clip_stack with
    | [] => .error .panic
    | clip :: _ => .ok (within_box (compute_rect_intersect (ui.boxes box).rect clip) ui.mouse)

def compute_signals (ui : Ui) (box : BoxId) : Except Fault Ui :=
  let ui := ui.modify_box box (fun b => { b with signal := ⟨false, false, false, false⟩ })
  if (ui.boxes box).flags &&& UI_BOX_REACTIVE = 0 then .ok ui else
  let focused := decide (some box = ui.focused)
  let clicked := focused && decide (ui.event.tag = .EVENT_KEY_PRESS) &&
    decide (ui.event.key = GLFW_KEY_ENTER)
  match compute_hovered ui box with
  | .error e => .error e
  | .ok hovered =>
    match ui.active with
    | none =>
      if ui.hovered = some box ∧ ui.event.tag = .EVENT_KEY_PRESS ∧
          ui.event.key = GLFW_MOUSE_BUTTON_LEFT then
        .ok ({ ui with active := some box }.modify_box box
          (fun b => { b with signal := ⟨hovered, true, clicked, focused⟩ }))
      else
        .ok (ui.modify_box box (fun b => { b with signal := ⟨hovered, false, clicked, focused⟩ }))
    | some a =>
      if a = box then
        if ui.event.tag = .EVENT_KEY_RELEASE ∧ ui.event.key = GLFW_MOUSE_BUTTON_LEFT then
          .ok ({ ui with active := none }.modify_box box
            (fun b => { b with signal := ⟨hovered, false, clicked || hovered, focused⟩ }))
        else
          .ok (ui.modify_box box (fun b => { b with signal := ⟨hovered, true, clicked, focused⟩ }))
      else
        .ok (ui.modify_box box (fun b => { b with signal := ⟨false, false, clicked, focused⟩ }))

/-! ## Box store -/

/-- The function `ui_build_key`; `str_hash_seed` is XXH3 with a seed (vendor
code), taken as a parameter. -/
def ui_build_key (str_hash_seed : String → UiKey → UiKey) (ui : Ui) (string : String) : UiKey :=
  let seed := match ui.box_stack with
    | [] => 0
    | parent :: _ => (ui.boxes parent).key
  str_hash_seed string seed

def ui_push_parent (ui : Ui) (box : BoxId) : Ui := { ui with box_stack := box :: ui.box_stack }

def ui_pop_parent (ui : Ui) : Except Fault Ui :=
  match ui.box_stack with
  | [] => .error .panic
  | _ :: rest => .ok { ui with box_stack := rest }

def ui_tag_box_str (ui : Ui) (box : BoxId) (tag : String) : Ui :=
  ui.modify_box box (fun b => { b with tags := b.tags ++ [tag] })

def ui_tag (ui : Ui) (tag : String) : Except Fault Ui :=
  match ui.box_stack with
  | [] => .error .panic
  | box :: _ => .ok (ui_tag_box_str ui box tag)

/-- Lines 845-873 of `ui_box_push_str`: the lookup of the key and the three
ways of obtaining the box. -/
def ui_box_acquire (ui : Ui) (key : UiKey) : Except Fault (Ui × BoxId) :=
  match map_get_ptr ui.box_cache key with
  | some box =>
    if (ui.boxes box).gc_flag = ui.gc_flag then .error .fatal_error
    else
      .ok (ui.modify_box box (fun b =>
        { b with parent := none, tags := [], children := [], style_rules := [] }), box)
  | none =>
    match ui.free_boxes with
    | box :: rest =>
      .ok ({ ui with free_boxes := rest, box_cache := map_add ui.box_cache key box }.modify_box box
        (fun b => { b with parent := none, tags := [], children := [], style_rules := [],
                           style := default_box_style, rect := UiRect.zero,
                           text_rect := UiRect.zero, content := UiRect.zero, scratch := 0 }), box)
    | [] =>
      let box := ui.box_count
      .ok ({ ui with box_count := ui.box_count + 1,
                     box_cache := map_add ui.box_cache key box }.set_box box
        { UiBox.zeroed with style := default_box_style }, box)

/-- Lines 875-884 of `ui_box_push_str`: the box is stamped, appended to
`depth_first`, linked under the top of the parent stack and pushed on it. -/
def ui_box_link (ui : Ui) (box : BoxId) (key : UiKey) (flags : Nat) (label : String) : Ui :=
  let ui := ui.modify_box box (fun b => { b with next_style := default_box_style })
  let ui := { ui with depth_first := ui.depth_first ++ [box] }
  let ui := ui.modify_box box (fun b =>
    { b with label := label, key := key, gc_flag := ui.gc_flag, flags := flags })
  let parent := ui.box_stack.head?
  let ui := match parent with
    | some p => ui.modify_box p (fun b => { b with children := b.children ++ [box] })
    | none => ui
  let ui := ui.modify_box box (fun b => { b with parent := parent })
  ui_push_parent ui box

/-- Lines 886-888 of `ui_box_push_str`: the signal tags. -/
def ui_box_signal_tags (ui : Ui) (box : BoxId) : Except Fault Ui :=
  match (if (ui.boxes box).signal.focused then ui_tag ui "focus" else .ok ui) with
  | .error e => .error e
  | .ok ui =>
    match (if (ui.boxes box).signal.hovered then ui_tag ui "hover" else .ok ui) with
    | .error e => .error e
    | .ok ui => if (ui.boxes box).signal.pressed then ui_tag ui "press" else .ok ui

def ui_box_push_str (str_hash_seed : String → UiKey → UiKey) (ui : Ui) (flags : Nat)
    (label : String) : Except Fault (Ui × BoxId) :=
  let key := ui_build_key str_hash_seed ui label
  match ui_box_acquire ui key with
  | .error e => .error e
  | .ok (ui, box) =>
    match compute_signals (ui_box_link ui box key flags label) box with
    | .error e => .error e
    | .ok ui =>
      match ui_box_signal_tags ui box with
      | .error e => .error e
      | .ok ui => .ok (ui, box)

/-- One call of the declarative build code that touches the parent stack. -/
inductive BuildOp where
  | push (flags : Nat) (label : String)
  | pop
  deriving DecidableEq, Repr

def run_op (str_hash_seed : String → UiKey → UiKey) (ui : Ui) : BuildOp → Except Fault Ui
  | .push flags label =>
    match ui_box_push_str str_hash_seed ui flags label with
    | .error e => .error e
    | .ok (ui, _) => .ok ui
  | .pop => ui_pop_parent ui

def run_ops (str_hash_seed : String → UiKey → UiKey) (ui : Ui) : List BuildOp → Except Fault Ui
  | [] => .ok ui
  | op :: rest =>
    match run_op str_hash_seed ui op with
    | .error e => .error e
    | .ok ui => run_ops str_hash_seed ui rest

/-- The loop `map_iter (slot, &ui->box_cache)` of `ui_frame` (lines 2357-2369)
over the remaining slots: returns the slots left filled, `ui->active` and the
free list.  The slots are visited in the order of the list, which stands for
the order of the table; the order of the boxes within the free list follows
from it. -/
def sweep_slots (boxes : BoxId → UiBox) (gc_flag : Nat) :
    List (UiKey × BoxId) → Option BoxId → List BoxId →
      List (UiKey × BoxId) × Option BoxId × List BoxId
  | [], active, free_boxes => ([], active, free_boxes)
  | (key, box) :: rest, active, free_boxes =>
    if (boxes box).gc_flag ≠ gc_flag then
      sweep_slots boxes gc_flag rest (if active = some box then none else active)
        (box :: free_boxes)
    else
      let r := sweep_slots boxes gc_flag rest active free_boxes
      ((key, box) :: r.1, r.2.1, r.2.2)

/-- The sweep of `ui_frame` that removes unused boxes from the cache. -/
def gc_sweep (ui : Ui) : Ui :=
  let r := sweep_slots ui.boxes ui.gc_flag ui.box_cache ui.active ui.free_boxes
  { ui with box_cache := r.1, active := r.2.1, free_boxes := r.2.2 }

/-- Line 2371: `ui->gc_flag = !ui->gc_flag`. -/
def gc_toggle (ui : Ui) : Ui := { ui with gc_flag := if ui.gc_flag = 0 then 1 else 0 }

/-- Line 2343: `ui->depth_first.count = 0`. -/
def depth_first_reset (ui : Ui) : Ui := { ui with depth_first := [] }

/-- One rebuild pass of `ui_frame` as far as the box store goes: the list is
reset, the build code runs, the cache is swept and the flag toggled. -/
def rebuild_pass (str_hash_seed : String → UiKey → UiKey) (ui : Ui) (ops : List BuildOp) :
    Except Fault Ui :=
  match run_ops str_hash_seed (depth_first_reset ui) ops with
  | .error e => .error e
  | .ok ui => .ok (gc_toggle (gc_sweep ui))

/-- The state `ui_init` builds, for a window of the given size. -/
def ui_init (win_width win_height : F32) (event : Event) : Ui where
  gc_flag := 0
  event := event
  mouse := Vec2.zero
  dt := 0
  boxes := fun _ => UiBox.zeroed
  box_count := 0
  root := none
  active := none
  hovered := none
  focused := none
  focus_idx := 0
  depth_first := []
  free_boxes := []
  box_stack := []
  box_cache := []
  clip_stack := [⟨0, 0, win_width, win_height⟩]
  mouse_dt := Vec2.zero
  pressed_keys := []
  current_style_rule := none
  frame_mem_count := 0

/-! ## Animation -/

/-- The function `animate_f32` in exact arithmetic (`epsilon` is 1/1000, no
operation is rounded); `powf` is the C library's, taken as a parameter, and
`dt` is `ui->dt`.  `animate_f32_b32` has the binary32 value of `epsilon` and
every operation rounded. -/
def animate_f32 (powf : F32 → F32 → F32) (dt : F32) (current final duration : F32) : F32 :=
  let epsilon : F32 := 1 / 1000
  if |current - final| ≤ epsilon then final
  else current + (final - current) * (1 - powf epsilon (dt / duration))

def animate_vec2 (powf : F32 → F32 → F32) (dt : F32) (current final : Vec2) (duration : F32) :
    Vec2 :=
  ⟨animate_f32 powf dt current.x final.x duration, animate_f32 powf dt current.y final.y duration⟩

def animate_vec4 (powf : F32 → F32 → F32) (dt : F32) (current final : Vec4) (duration : F32) :
    Vec4 :=
  ⟨animate_f32 powf dt current.x final.x duration, animate_f32 powf dt current.y final.y duration,
   animate_f32 powf dt current.z final.z duration, animate_f32 powf dt current.w final.w duration⟩

def animate_size (powf : F32 → F32 → F32) (dt : F32) (current final : UiSize) (duration : F32) :
    UiSize :=
  ⟨final.tag, animate_f32 powf dt current.value final.value duration, final.strictness⟩

/-- The function `style_attr_to_mask`: `1 << attr`. -/
def style_attr_to_mask (attr : UiStyleAttribute) : Nat := 1 <<< attr.toNat

/-- The test `mask & M` of the macro `X` in `animate_style`. -/
def mask_has (mask : Nat) (attr : UiStyleAttribute) : Bool :=
  mask &&& style_attr_to_mask attr != 0

/-- The function `animate_style` on the pair `box->style`, `box->next_style`:
the new value of `box->style`. -/
def animate_style (powf : F32 → F32 → F32) (dt : F32) (a b : UiStyle) : UiStyle :=
  let duration := b.animation_time
  let mask := b.animation_mask
  { a with
    size_width := if mask_has mask .UI_WIDTH then animate_size powf dt a.size_width b.size_width duration else b.size_width
    size_height := if mask_has mask .UI_HEIGHT then animate_size powf dt a.size_height b.size_height duration else b.size_height
    bg_color := if mask_has mask .UI_BG_COLOR then animate_vec4 powf dt a.bg_color b.bg_color duration else b.bg_color
    bg_color2 := if mask_has mask .UI_BG_COLOR2 then animate_vec4 powf dt a.bg_color2 b.bg_color2 duration else b.bg_color2
    text_color := if mask_has mask .UI_TEXT_COLOR then animate_vec4 powf dt a.text_color b.text_color duration else b.text_color
    radius := if mask_has mask .UI_RADIUS then animate_vec4 powf dt a.radius b.radius duration else b.radius
    padding := if mask_has mask .UI_PADDING then animate_vec2 powf dt a.padding b.padding duration else b.padding
    spacing := if mask_has mask .UI_SPACING then animate_f32 powf dt a.spacing b.spacing duration else b.spacing
    border_color := if mask_has mask .UI_BORDER_COLOR then animate_vec4 powf dt a.border_color b.border_color duration else b.border_color
    border_widths := if mask_has mask .UI_BORDER_WIDTHS then animate_vec4 powf dt a.border_widths b.border_widths duration else b.border_widths
    inset_shadow_color := if mask_has mask .UI_INSET_SHADOW_COLOR then animate_vec4 powf dt a.inset_shadow_color b.inset_shadow_color duration else b.inset_shadow_color
    outset_shadow_color := if mask_has mask .UI_OUTSET_SHADOW_COLOR then animate_vec4 powf dt a.outset_shadow_color b.outset_shadow_color duration else b.outset_shadow_color
    inset_shadow_width := if mask_has mask .UI_INSET_SHADOW_WIDTH then animate_f32 powf dt a.inset_shadow_width b.inset_shadow_width duration else b.inset_shadow_width
    outset_shadow_width := if mask_has mask .UI_OUTSET_SHADOW_WIDTH then animate_f32 powf dt a.outset_shadow_width b.outset_shadow_width duration else b.outset_shadow_width
    shadow_offsets := if mask_has mask .UI_SHADOW_OFFSETS then animate_vec2 powf dt a.shadow_offsets b.shadow_offsets duration else b.shadow_offsets
    blur_radius := if mask_has mask .UI_BLUR_RADIUS then animate_f32 powf dt a.blur_radius b.blur_radius duration else b.blur_radius
    axis := b.axis
    align_x := b.align_x
    align_y := b.align_y
    edge_softness := b.edge_softness
    floating_x := b.floating_x
    floating_y := b.floating_y
    overflow_x := b.overflow_x
    overflow_y := b.overflow_y }

/-! ## Style rules and the cascade -/

/-- The value of one style attribute. -/
inductive AttrValue where
  | size (v : UiSize)
  | u32 (v : Nat)
  | f32 (v : F32)
  | float (v : Option F32)
  | vec2 (v : Vec2)
  | vec4 (v : Vec4)
  deriving DecidableEq, Repr

open UiStyleAttribute in
/-- The field of a style that an attribute names. -/
def get_attr (attr : UiStyleAttribute) (s : UiStyle) : AttrValue :=
  match attr with
  | UI_WIDTH => .size s.size_width
  | UI_HEIGHT => .size s.size_height
  | UI_AXIS => .u32 s.axis
  | UI_BG_COLOR => .vec4 s.bg_color
  | UI_BG_COLOR2 => .vec4 s.bg_color2
  | UI_TEXT_COLOR => .vec4 s.text_color
  | UI_RADIUS => .vec4 s.radius
  | UI_PADDING => .vec2 s.padding
  | UI_SPACING => .f32 s.spacing
  | UI_ALIGN_X => .u32 s.align_x
  | UI_ALIGN_Y => .u32 s.align_y
  | UI_FLOAT_X => .float s.floating_x
  | UI_FLOAT_Y => .float s.floating_y
  | UI_OVERFLOW_X => .u32 s.overflow_x
  | UI_OVERFLOW_Y => .u32 s.overflow_y
  | UI_EDGE_SOFTNESS => .f32 s.edge_softness
  | UI_BORDER_COLOR => .vec4 s.border_color
  | UI_BORDER_WIDTHS => .vec4 s.border_widths
  | UI_INSET_SHADOW_COLOR => .vec4 s.inset_shadow_color
  | UI_OUTSET_SHADOW_COLOR => .vec4 s.outset_shadow_color
  | UI_INSET_SHADOW_WIDTH => .f32 s.inset_shadow_width
  | UI_OUTSET_SHADOW_WIDTH => .f32 s.outset_shadow_width
  | UI_SHADOW_OFFSETS => .vec2 s.shadow_offsets
  | UI_BLUR_RADIUS => .f32 s.blur_radius
  | UI_ANIMATION => .u32 s.animation_mask
  | UI_ANIMATION_TIME => .f32 s.animation_time

open UiStyleAttribute in
/-- The assignment `box->next_style.F = rule->style->F` of `apply_style_rule`
for the field `F` of an attribute. -/
def copy_attr (attr : UiStyleAttribute) (src dst : UiStyle) : UiStyle :=
  match attr with
  | UI_WIDTH => { dst with size_width := src.size_width }
  | UI_HEIGHT => { dst with size_height := src.size_height }
  | UI_AXIS => { dst with axis := src.axis }
  | UI_BG_COLOR => { dst with bg_color := src.bg_color }
  | UI_BG_COLOR2 => { dst with bg_color2 := src.bg_color2 }
  | UI_TEXT_COLOR => { dst with text_color := src.text_color }
  | UI_RADIUS => { dst with radius := src.radius }
  | UI_PADDING => { dst with padding := src.padding }
  | UI_SPACING => { dst with spacing := src.spacing }
  | UI_ALIGN_X => { dst with align_x := src.align_x }
  | UI_ALIGN_Y => { dst with align_y := src.align_y }
  | UI_FLOAT_X => { dst with floating_x := src.floating_x }
  | UI_FLOAT_Y => { dst with floating_y := src.floating_y }
  | UI_OVERFLOW_X => { dst with overflow_x := src.overflow_x }
  | UI_OVERFLOW_Y => { dst with overflow_y := src.overflow_y }
  | UI_EDGE_SOFTNESS => { dst with edge_softness := src.edge_softness }
  | UI_BORDER_COLOR => { dst with border_color := src.border_color }
  | UI_BORDER_WIDTHS => { dst with border_widths := src.border_widths }
  | UI_INSET_SHADOW_COLOR => { dst with inset_shadow_color := src.inset_shadow_color }
  | UI_OUTSET_SHADOW_COLOR => { dst with outset_shadow_color := src.outset_shadow_color }
  | UI_INSET_SHADOW_WIDTH => { dst with inset_shadow_width := src.inset_shadow_width }
  | UI_OUTSET_SHADOW_WIDTH => { dst with outset_shadow_width := src.outset_shadow_width }
  | UI_SHADOW_OFFSETS => { dst with shadow_offsets := src.shadow_offsets }
  | UI_BLUR_RADIUS => { dst with blur_radius := src.blur_radius }
  | UI_ANIMATION => { dst with animation_mask := src.animation_mask }
  | UI_ANIMATION_TIME => { dst with animation_time := src.animation_time }

open UiStyleAttribute in
/-- The attributes in the order of the statements of `apply_style_rule`. -/
def all_attributes : List UiStyleAttribute :=
  [UI_WIDTH, UI_HEIGHT, UI_AXIS, UI_BG_COLOR, UI_BG_COLOR2, UI_TEXT_COLOR, UI_RADIUS, UI_PADDING,
   UI_SPACING, UI_ALIGN_X, UI_ALIGN_Y, UI_FLOAT_X, UI_FLOAT_Y, UI_OVERFLOW_X, UI_OVERFLOW_Y,
   UI_EDGE_SOFTNESS, UI_BORDER_COLOR, UI_BORDER_WIDTHS, UI_INSET_SHADOW_COLOR,
   UI_OUTSET_SHADOW_COLOR, UI_INSET_SHADOW_WIDTH, UI_OUTSET_SHADOW_WIDTH, UI_SHADOW_OFFSETS,
   UI_BLUR_RADIUS, UI_ANIMATION, UI_ANIMATION_TIME]

/-- The array `UiSpecificity specs[UI_ATTRIBUTE_COUNT]`. -/
abbrev Specs := UiStyleAttribute → UiSpecificity

def Specs.zero : Specs := fun _ => ⟨0, 0⟩

def rule_applies (rule : UiStyleRule) (a : UiSpecificity) (specs : Specs)
    (attr : UiStyleAttribute) : Bool :=
  if rule.mask &&& style_attr_to_mask attr = 0 then false
  else
    let b := specs attr
    decide (a.id > b.id) || (decide (a.id = b.id) && decide (a.tag ≥ b.tag))

/-- One statement of `apply_style_rule`. -/
def apply_style_rule_attr (rule : UiStyleRule) (st : UiStyle × Specs) (attr : UiStyleAttribute) :
    UiStyle × Specs :=
  let s := rule.pattern.specificity
  if rule_applies rule s st.2 attr then
    (copy_attr attr rule.style st.1, Function.update st.2 attr s)
  else st

/-- The function `apply_style_rule` on `box->next_style` and `specs`. -/
def apply_style_rule (rule : UiStyleRule) (st : UiStyle × Specs) : UiStyle × Specs :=
  all_attributes.foldl (apply_style_rule_attr rule) st

/-- The position of a box below its parent: its index in
`box->parent->children` and the count of that array. -/
structure ParentLink where
  idx : Nat
  count : Nat
  deriving DecidableEq, Repr

/-- The C library's `strncmp(s1, s2, n) == 0` on two byte strings that hold at
least `n` bytes: the bytes are compared in order, and the comparison ends at
the first difference, at a zero byte (equal in both), or after `n` bytes. -/
def strncmp_eq : List Char → List Char → Nat → Bool
  | _, _, 0 => true
  | c1 :: s1, c2 :: s2, n + 1 =>
    if c1 ≠ c2 then false else if c1 = Char.ofNat 0 then true else strncmp_eq s1 s2 n
  | _, _, _ + 1 => true

/-- The function `str_match` of `base/string.c`:
`(s1.count == s2.count) && (! strncmp(s1.data, s2.data, s1.count))`. -/
def str_match (s1 s2 : String) : Bool :=
  s1.length == s2.length && strncmp_eq s1.data s2.data s1.length

/-- One case of the `switch` of `match_pattern`; `link` is `none` for a box
without parent, whose `box_idx` is 0. -/
def match_selector (box : UiBox) (link : Option ParentLink) (selector : UiSelector) :
    Except Fault Bool :=
  let box_idx := match link with
    | some l => l.idx
    | none => 0
  match selector.tag with
  | .UI_PATTERN_ID => .ok (str_match box.label selector.string)
  | .UI_PATTERN_IS_ODD => .ok (decide (box_idx % 2 ≠ 0))
  | .UI_PATTERN_IS_EVEN => .ok (decide (box_idx % 2 = 0))
  | .UI_PATTERN_IS_FIRST => .ok (decide (box_idx = 0))
  | .UI_PATTERN_IS_LAST =>
    match link with
    | none => .error .segfault
    | some l => .ok (decide (box_idx = (l.count + 2 ^ 64 - 1) % 2 ^ 64))
  | .UI_PATTERN_TAG => .ok (box.tags.any (fun tag => str_match tag selector.string))
  | .UI_PATTERN_ANY => .ok true
  | .UI_PATTERN_PATH => .error .panic
  | .UI_PATTERN_AND => .error .panic

/-- The loop of `match_pattern` over the selectors of a segment. -/
def match_selectors (box : UiBox) (link : Option ParentLink) : List UiSelector → Except Fault Bool
  | [] => .ok true
  | selector :: rest =>
    match match_selector box link selector with
    | .error e => .error e
    | .ok false => .ok false
    | .ok true => match_selectors box link rest

def match_pattern (box : UiBox) (link : Option ParentLink) (pattern : UiPatternAnd) :
    Except Fault Bool :=
  match_selectors box link pattern.patterns

def derive_new_rule (old_rule : UiStyleRule) : UiStyleRule :=
  { style_ptr := old_rule.style_ptr
    style := old_rule.style
    mask := old_rule.mask
    pattern := { old_rule.pattern with patterns := old_rule.pattern.patterns.tail } }

/-- The state of the rule loop of `apply_style_rules_box`: the target style,
the specificities, and the derived rules pushed so far. -/
abbrev ScanState := UiStyle × Specs × List UiStyleRule

/-- One iteration of the rule loop of `apply_style_rules_box`, on the elements
of `active_rules`: the `array_push` of the derived rule is taken to succeed
(`scan_rule_array` carries the capacity). -/
def scan_rule (box : UiBox) (link : Option ParentLink) (st : ScanState) (rule : UiStyleRule) :
    Except Fault ScanState :=
  match rule.pattern.patterns with
  | [] => .error .panic
  | head_of_rule :: _ =>
    match match_pattern box link head_of_rule with
    | .error e => .error e
    | .ok false => .ok st
    | .ok true =>
      if rule.pattern.patterns.length = 1 then
        let r := apply_style_rule rule (st.1, st.2.1)
        .ok (r.1, r.2, st.2.2)
      else .ok (st.1, st.2.1, st.2.2 ++ [derive_new_rule rule])

/-- The rule loop of `apply_style_rules_box` over the rules up to `stop_at`. -/
def scan_rules (box : UiBox) (link : Option ParentLink) :
    List UiStyleRule → ScanState → Except Fault ScanState
  | [], st => .ok st
  | rule :: rest, st =>
    match scan_rule box link st rule with
    | .error e => .error e
    | .ok st => scan_rules box link rest st

/-- The tree below a box: the box and the trees of `box->children`. -/
inductive BoxTree where
  | node (box : UiBox) (children : List BoxTree)

def BoxTree.box : BoxTree → UiBox
  | .node box _ => box

def BoxTree.children : BoxTree → List BoxTree
  | .node _ children => children

mutual
/-- The function `apply_style_rules_box`: returns the tree with the new
styles and the elements of the array `active_rules` as the call leaves it.
The pushes are taken to succeed; `apply_style_rules_box_array` carries the
capacity and ends where a push fails. -/
def apply_style_rules_box (powf : F32 → F32 → F32) (dt : F32) (link : Option ParentLink) :
    BoxTree → List UiStyleRule → Except Fault (BoxTree × List UiStyleRule)
  | .node box children, active_rules =>
    let restore_point := active_rules.length
    let rules := active_rules ++ box.style_rules
    match scan_rules box link rules (box.next_style, Specs.zero, []) with
    | .error e => .error e
    | .ok st =>
      match apply_style_rules_children powf dt children.length 0 children (rules ++ st.2.2) with
      | .error e => .error e
      | .ok (children', active_rules') =>
        .ok (.node { box with next_style := st.1, style := animate_style powf dt box.style st.1 }
              children', active_rules'.take restore_point)
/-- The loop `array_iter (child, &box->children)` of `apply_style_rules_box`
from the child of index `idx` on. -/
def apply_style_rules_children (powf : F32 → F32 → F32) (dt : F32) (count : Nat) :
    Nat → List BoxTree → List UiStyleRule → Except Fault (List BoxTree × List UiStyleRule)
  | _, [], active_rules => .ok ([], active_rules)
  | idx, child :: rest, active_rules =>
    match apply_style_rules_box powf dt (some ⟨idx, count⟩) child active_rules with
    | .error e => .error e
    | .ok (child', active_rules') =>
      match apply_style_rules_children powf dt count (idx + 1) rest active_rules' with
      | .error e => .error e
      | .ok (rest', active_rules'') => .ok (child' :: rest', active_rules'')
end

/-- The function `apply_style_rules` on the tree below `ui->root`. -/
def apply_style_rules (powf : F32 → F32 → F32) (dt : F32) (root : BoxTree) : Except Fault BoxTree :=
  match apply_style_rules_box powf dt none root [] with
  | .error e => .error e
  | .ok (root', _) => .ok root'

/-! ## Layout -/

/-- The function `compute_standalone_sizes` for one box. -/
def compute_standalone_sizes_box (ui : Ui) (axis : Nat) (box : BoxId) : Ui :=
  let b := ui.boxes box
  let size := b.style.size axis
  if size.tag = .UI_SIZE_PIXELS then
    ui.modify_box box (fun b => { b with rect := b.rect.set_size axis size.value })
  else if size.tag = .UI_SIZE_TEXT then
    ui.modify_box box (fun b =>
      { b with rect := b.rect.set_size axis (b.text_rect.size axis + 2 * b.style.padding.v axis) })
  else ui

def compute_standalone_sizes (ui : Ui) (axis : Nat) : Ui :=
  ui.depth_first.foldl (fun ui box => compute_standalone_sizes_box ui axis box) ui

/-- The loop that adds up the children on the layout axis (lines 1341-1345,
1370-1374): floating children are skipped, and `spacing` is added after a
child unless it is the last element of the child array
(`ARRAY_ITER_DONE`). -/
def sum_children (boxes : BoxId → UiBox) (axis : Nat) (spacing : F32) : List BoxId → F32 → F32
  | [], acc => acc
  | child :: rest, acc =>
    if ((boxes child).style.floating axis).isSome then sum_children boxes axis spacing rest acc
    else
      let acc := acc + (boxes child).rect.size axis
      let acc := if rest = [] then acc else acc + spacing
      sum_children boxes axis spacing rest acc

/-- The loop that takes the maximum over the children on the other axis
(lines 1347-1350). -/
def max_children (boxes : BoxId → UiBox) (axis : Nat) (padding : F32) : List BoxId → F32 → F32
  | [], acc => acc
  | child :: rest, acc =>
    if ((boxes child).style.floating axis).isSome then max_children boxes axis padding rest acc
    else max_children boxes axis padding rest (max acc ((boxes child).rect.size axis + 2 * padding))

/-- The body of the loop of `compute_downward_dependent_sizes` for one box. -/
def compute_downward_dependent_sizes_box (ui : Ui) (axis : Nat) (box : BoxId) : Ui :=
  let b := ui.boxes box
  if (b.style.size axis).tag ≠ .UI_SIZE_CHILDREN_SUM then ui
  else
    let cycle := b.children.any
      (fun child => decide (((ui.boxes child).style.size axis).tag = .UI_SIZE_PCT_PARENT))
    let ui := if cycle then
        ui.modify_box box (fun b =>
          { b with style := b.style.set_size axis ⟨.UI_SIZE_PCT_PARENT, 1, (b.style.size axis).strictness⟩ })
      else ui
    let b := ui.boxes box
    let padding := b.style.padding.v axis
    let final_size :=
      if b.style.axis = axis then sum_children ui.boxes axis b.style.spacing b.children (2 * padding)
      else max_children ui.boxes axis padding b.children (2 * padding)
    ui.modify_box box (fun b => { b with rect := b.rect.set_size axis final_size })

/-- The function `compute_downward_dependent_sizes`: the boxes of
`depth_first` from the last to the first. -/
def compute_downward_dependent_sizes (ui : Ui) (axis : Nat) : Ui :=
  ui.depth_first.reverse.foldl (fun ui box => compute_downward_dependent_sizes_box ui axis box) ui

/-- The loop that adds up the slack of the non-floating children
(lines 1380-1383). -/
def total_slack (boxes : BoxId → UiBox) (axis : Nat) : List BoxId → F32 → F32
  | [], acc => acc
  | child :: rest, acc =>
    if ((boxes child).style.floating axis).isSome then total_slack boxes axis rest acc
    else
      total_slack boxes axis rest
        (acc + (boxes child).rect.size axis * (1 - ((boxes child).style.size axis).strictness))

/-- The loop that shrinks the non-floating children (lines 1387-1390). -/
def shrink_children (axis : Nat) (slack_fraction : F32) : List BoxId → Ui → Ui
  | [], ui => ui
  | child :: rest, ui =>
    let c := ui.boxes child
    if (c.style.floating axis).isSome then shrink_children axis slack_fraction rest ui
    else
      let size := c.rect.size axis
      shrink_children axis slack_fraction rest
        (ui.modify_box child (fun c => { c with rect := (c.rect.set_size axis
          (size - size * (1 - (c.style.size axis).strictness) * slack_fraction)) }))

/-- The loop over the children on the other axis (lines 1394-1401). -/
def clamp_children (axis : Nat) (box_size : F32) (overflow_allowed : Bool) : List BoxId → Ui → Ui
  | [], ui => ui
  | child :: rest, ui =>
    let c := ui.boxes child
    if (c.style.floating axis).isSome then clamp_children axis box_size overflow_allowed rest ui
    else if box_size ≥ c.rect.size axis then clamp_children axis box_size overflow_allowed rest ui
    else if overflow_allowed then clamp_children axis box_size overflow_allowed rest ui
    else
      let overflow := c.rect.size axis - box_size
      let slack := c.rect.size axis * (1 - (c.style.size axis).strictness)
      if slack ≥ overflow then
        clamp_children axis box_size overflow_allowed rest
          (ui.modify_box child (fun c =>
            { c with rect := c.rect.set_size axis (c.rect.size axis - overflow) }))
      else clamp_children axis box_size overflow_allowed rest ui

/-- The body of the loop of `fix_overflow` for one box. -/
def fix_overflow_box (ui : Ui) (axis : Nat) (box : BoxId) : Ui :=
  let b := ui.boxes box
  let box_size := b.rect.size axis - 2 * b.style.padding.v axis
  if b.style.axis = axis then
    let children_size := sum_children ui.boxes axis b.style.spacing b.children 0
    if box_size < children_size ∧ b.style.overflow axis = 0 then
      let overflow := children_size - box_size
      let slack := total_slack ui.boxes axis b.children 0
      if slack ≥ overflow then
        shrink_children axis (overflow / slack) b.children ui
      else ui
    else ui
  else clamp_children axis box_size (decide (b.style.overflow axis ≠ 0)) b.children ui

def fix_overflow (ui : Ui) (axis : Nat) : Ui :=
  ui.depth_first.foldl (fun ui box => fix_overflow_box ui axis box) ui

/-! ## Keyboard focus -/

/-- The loop of `find_next_focus` (lines 2307-2312); `start` is the local of
that name.  Only `focus_idx` and `focused` change, and after the first
iteration `focus_idx` runs cyclically through the indices below the count, so a
loop that has not ended after `count + 1` iterations never ends.  The remainder
by a zero count traps. -/
def find_next_focus_loop (start : Nat) : Nat → Ui → Except Fault Ui
  | 0, _ => .error .diverge
  | fuel + 1, ui =>
    if ui.depth_first.length = 0 then .error .panic
    else
      let focus_idx := ((ui.focus_idx + 1) % 2 ^ 64) % ui.depth_first.length
      match ui.depth_first[focus_idx]? with
      | none => .error .panic
      | some box =>
        let ui := { ui with focus_idx := focus_idx, focused := some box }
        if (ui.boxes box).flags &&& UI_BOX_CAN_FOCUS ≠ 0 then .ok ui
        else if focus_idx = start then .ok ui
        else find_next_focus_loop start fuel ui

def find_next_focus (ui : Ui) : Except Fault Ui :=
  find_next_focus_loop ui.focus_idx (ui.depth_first.length + 1) ui

/-- The loop of `find_prev_focus` (lines 2317-2323); `array_get` checks the
index against the count. -/
def find_prev_focus_loop (start : Nat) : Nat → Ui → Except Fault Ui
  | 0, _ => .error .diverge
  | fuel + 1, ui =>
    let focus_idx := (ui.focus_idx + 2 ^ 64 - 1) % 2 ^ 64
    let focus_idx :=
      if focus_idx = 2 ^ 64 - 1 then (ui.depth_first.length + 2 ^ 64 - 1) % 2 ^ 64 else focus_idx
    match ui.depth_first[focus_idx]? with
    | none => .error .panic
    | some box =>
      let ui := { ui with focus_idx := focus_idx, focused := some box }
      if (ui.boxes box).flags &&& UI_BOX_CAN_FOCUS ≠ 0 then .ok ui
      else if focus_idx = start then .ok ui
      else find_prev_focus_loop start fuel ui

def find_prev_focus (ui : Ui) : Except Fault Ui :=
  find_prev_focus_loop ui.focus_idx (ui.depth_first.length + 1) ui

/-! ## Strings (`base/string.c`) and the pattern parser

A `String` of the source (a slice of bytes) is a `List Char` here; the strings
stored in selectors, labels and tags are Lean strings made of those
characters. -/

/-- The function `str_slice`. -/
def str_slice (str : List Char) (offset count : Nat) : List Char :=
  let offset := min offset str.length
  let count := min count (str.length - offset)
  (str.drop offset).take count

/-- The function `str_starts_with`, for a second argument without NUL bytes
(`str_match` compares with `strncmp`). -/
def str_starts_with (str pre : List Char) : Bool :=
  if str.length < pre.length then false else decide (str.take pre.length = pre)

/-- The loop of `str_split` over the bytes from index `idx` on; returns
`prev_pos` and the tokens pushed so far. -/
def str_split_loop (str separators : List Char) (keep_separators keep_empties : Bool) :
    List Char → Nat → Nat → List (List Char) → Nat × List (List Char)
  | [], _, prev_pos, out => (prev_pos, out)
  | c :: rest, idx, prev_pos, out =>
    if c ∉ separators then
      str_split_loop str separators keep_separators keep_empties rest (idx + 1) prev_pos out
    else
      let out := if keep_empties ∨ idx > prev_pos then
          out ++ [str_slice str prev_pos (idx - prev_pos)]
        else out
      let out := if keep_separators then out ++ [str_slice str idx 1] else out
      str_split_loop str separators keep_separators keep_empties rest (idx + 1) (idx + 1) out

/-- The function `str_split`; the result is the content of `out`. -/
def str_split (str separators : List Char) (keep_separators keep_empties : Bool) :
    List (List Char) :=
  let r := str_split_loop str separators keep_separators keep_empties str 0 0 []
  if keep_empties ∨ str.length > r.1 then r.2 ++ [str_slice str r.1 (str.length - r.1)]
  else r.2

/-- The test `c == '#' || c == '.' || c == ':' || c == ' '` of
`parse_pattern_name`. -/
def pattern_name_end (c : Char) : Bool :=
  c = '#' || c = '.' || c = ':' || c = ' '

/-- The function `parse_pattern_name`: returns the name and the chunk advanced
past it. -/
def parse_pattern_name (chunk : List Char) : Except Fault (List Char × List Char) :=
  let n := chunk.findIdx pattern_name_end
  if n = 0 then .error .fatal_error
  else .ok (str_slice chunk 0 n, chunk.drop n)

/-- Appends a selector to the AND-node under construction. -/
def UiPatternAnd.push (result : UiPatternAnd) (tag : UiPatternTag) (string : List Char) :
    UiPatternAnd :=
  { result with patterns := result.patterns ++ [⟨tag, String.mk string⟩] }

/-- The statement `result->specificity.id++` on a `U32`. -/
def UiPatternAnd.inc_id (result : UiPatternAnd) : UiPatternAnd :=
  { result with specificity := { result.specificity with
      id := (result.specificity.id + 1) % 2 ^ 32 } }

/-- The statement `result->specificity.tag++` on a `U32`. -/
def UiPatternAnd.inc_tag (result : UiPatternAnd) : UiPatternAnd :=
  { result with specificity := { result.specificity with
      tag := (result.specificity.tag + 1) % 2 ^ 32 } }

/-- The loop `while (chunk.count)` of `parse_pattern_and`.  Every iteration
takes at least one byte off the chunk, so `fuel` iterations are enough for a
chunk of `fuel` bytes. -/
def parse_pattern_and_loop : Nat → List Char → UiPatternAnd → Except Fault UiPatternAnd
  | _, [], result => .ok result
  | 0, _ :: _, _ => .error .diverge
  | fuel + 1, c :: chunk, result =>
    if c = '*' then parse_pattern_and_loop fuel chunk (result.push .UI_PATTERN_ANY [])
    else if c = '#' then
      match parse_pattern_name chunk with
      | .error e => .error e
      | .ok (name, chunk) =>
        parse_pattern_and_loop fuel chunk (result.inc_id.push .UI_PATTERN_ID name)
    else if c = '.' then
      match parse_pattern_name chunk with
      | .error e => .error e
      | .ok (name, chunk) =>
        parse_pattern_and_loop fuel chunk (result.inc_tag.push .UI_PATTERN_TAG name)
    else if c = ':' then
      if str_starts_with chunk ['f', 'i', 'r', 's', 't'] then
        parse_pattern_and_loop fuel (chunk.drop 5) (result.inc_tag.push .UI_PATTERN_IS_FIRST [])
      else if str_starts_with chunk ['l', 'a', 's', 't'] then
        parse_pattern_and_loop fuel (chunk.drop 4) (result.inc_tag.push .UI_PATTERN_IS_LAST [])
      else if str_starts_with chunk ['o', 'd', 'd'] then
        parse_pattern_and_loop fuel (chunk.drop 3) (result.inc_tag.push .UI_PATTERN_IS_ODD [])
      else if str_starts_with chunk ['e', 'v', 'e', 'n'] then
        parse_pattern_and_loop fuel (chunk.drop 4) (result.inc_tag.push .UI_PATTERN_IS_EVEN [])
      else .error .fatal_error
    else .error .fatal_error

/-- The function `parse_pattern_and`. -/
def parse_pattern_and (chunk : List Char) : Except Fault UiPatternAnd :=
  parse_pattern_and_loop chunk.length chunk ⟨⟨0, 0⟩, []⟩

/-- The loop of `parse_pattern` over the chunks. -/
def parse_pattern_chunks : List (List Char) → UiPattern → Except Fault UiPattern
  | [], p => .ok p
  | chunk :: rest, p =>
    match parse_pattern_and chunk with
    | .error e => .error e
    | .ok child =>
      parse_pattern_chunks rest
        { specificity := ⟨(p.specificity.id + child.specificity.id) % 2 ^ 32,
                          (p.specificity.tag + child.specificity.tag) % 2 ^ 32⟩
          patterns := p.patterns ++ [child] }

/-- The function `parse_pattern`. -/
def parse_pattern (pattern : String) : Except Fault UiPattern :=
  parse_pattern_chunks (str_split pattern.data [' '] false false) ⟨⟨0, 0⟩, []⟩

/-! ## Style setters and style-rule scopes -/

/-- The common part of the typed setters: `s` is the style of the rule whose
scope is open, or else the target style of the box; `f` is the assignment of
the matching `case`; with a scope open the bit of the attribute is or-ed into
the mask of the rule (lines 1106 and 1116). -/
def ui_style_store (ui : Ui) (box : BoxId) (attr : UiStyleAttribute) (f : UiStyle → UiStyle) :
    Except Fault Ui :=
  match ui.current_style_rule with
  | none => .ok (ui.modify_box box (fun b => { b with next_style := f b.next_style }))
  | some (rule_box, idx) =>
    match (ui.boxes rule_box).style_rules[idx]? with
    | none => .error .segfault
    | some rule =>
      let rule' : UiStyleRule :=
        { rule with style := f rule.style, mask := rule.mask ||| style_attr_to_mask attr }
      .ok (ui.modify_box rule_box (fun b =>
        { b with style_rules := b.style_rules.set idx rule' }))

/-- The setter for `U32` values.  The fields behind the attributes are `U32`,
except `axis`, a `UiAxis` of one byte: the assignment keeps the low byte of
`val`. -/
def ui_style_box_u32 (ui : Ui) (box : BoxId) (attr : UiStyleAttribute) (val : Nat) :
    Except Fault Ui :=
  match attr with
  | .UI_ANIMATION => ui_style_store ui box attr (fun s => { s with animation_mask := val })
  | .UI_ALIGN_X => ui_style_store ui box attr (fun s => { s with align_x := val })
  | .UI_ALIGN_Y => ui_style_store ui box attr (fun s => { s with align_y := val })
  | .UI_OVERFLOW_X => ui_style_store ui box attr (fun s => { s with overflow_x := val })
  | .UI_OVERFLOW_Y => ui_style_store ui box attr (fun s => { s with overflow_y := val })
  | .UI_AXIS => ui_style_store ui box attr (fun s => { s with axis := val % 2 ^ 8 })
  | _ => .error .fatal_error

/-- The setter for `F32` values; `val` is a number (not NaN). -/
def ui_style_box_f32 (ui : Ui) (box : BoxId) (attr : UiStyleAttribute) (val : F32) :
    Except Fault Ui :=
  match attr with
  | .UI_ANIMATION_TIME => ui_style_store ui box attr (fun s => { s with animation_time := val })
  | .UI_BLUR_RADIUS => ui_style_store ui box attr (fun s => { s with blur_radius := val })
  | .UI_FLOAT_X => ui_style_store ui box attr (fun s => { s with floating_x := some val })
  | .UI_FLOAT_Y => ui_style_store ui box attr (fun s => { s with floating_y := some val })
  | .UI_SPACING => ui_style_store ui box attr (fun s => { s with spacing := val })
  | .UI_EDGE_SOFTNESS => ui_style_store ui box attr (fun s => { s with edge_softness := val })
  | .UI_INSET_SHADOW_WIDTH =>
    ui_style_store ui box attr (fun s => { s with inset_shadow_width := val })
  | .UI_OUTSET_SHADOW_WIDTH =>
    ui_style_store ui box attr (fun s => { s with outset_shadow_width := val })
  | _ => .error .fatal_error

def ui_style_box_vec2 (ui : Ui) (box : BoxId) (attr : UiStyleAttribute) (val : Vec2) :
    Except Fault Ui :=
  match attr with
  | .UI_PADDING => ui_style_store ui box attr (fun s => { s with padding := val })
  | .UI_SHADOW_OFFSETS => ui_style_store ui box attr (fun s => { s with shadow_offsets := val })
  | _ => .error .fatal_error

def ui_style_box_vec4 (ui : Ui) (box : BoxId) (attr : UiStyleAttribute) (val : Vec4) :
    Except Fault Ui :=
  match attr with
  | .UI_BG_COLOR => ui_style_store ui box attr (fun s => { s with bg_color := val })
  | .UI_BG_COLOR2 => ui_style_store ui box attr (fun s => { s with bg_color2 := val })
  | .UI_TEXT_COLOR => ui_style_store ui box attr (fun s => { s with text_color := val })
  | .UI_RADIUS => ui_style_store ui box attr (fun s => { s with radius := val })
  | .UI_BORDER_COLOR => ui_style_store ui box attr (fun s => { s with border_color := val })
  | .UI_BORDER_WIDTHS => ui_style_store ui box attr (fun s => { s with border_widths := val })
  | .UI_INSET_SHADOW_COLOR =>
    ui_style_store ui box attr (fun s => { s with inset_shadow_color := val })
  | .UI_OUTSET_SHADOW_COLOR =>
    ui_style_store ui box attr (fun s => { s with outset_shadow_color := val })
  | _ => .error .fatal_error

def ui_style_box_size (ui : Ui) (box : BoxId) (attr : UiStyleAttribute) (val : UiSize) :
    Except Fault Ui :=
  match attr with
  | .UI_WIDTH => ui_style_store ui box attr (fun s => { s with size_width := val })
  | .UI_HEIGHT => ui_style_store ui box attr (fun s => { s with size_height := val })
  | _ => .error .fatal_error

/-- The macro `array_get_last(&ui->box_stack)`. -/
def box_stack_last (ui : Ui) : Except Fault BoxId :=
  match ui.box_stack with
  | [] => .error .panic
  | box :: _ => .ok box

def ui_style_u32 (ui : Ui) (attr : UiStyleAttribute) (val : Nat) : Except Fault Ui :=
  match box_stack_last ui with
  | .error e => .error e
  | .ok box => ui_style_box_u32 ui box attr val

def ui_style_f32 (ui : Ui) (attr : UiStyleAttribute) (val : F32) : Except Fault Ui :=
  match box_stack_last ui with
  | .error e => .error e
  | .ok box => ui_style_box_f32 ui box attr val

def ui_style_vec2 (ui : Ui) (attr : UiStyleAttribute) (val : Vec2) : Except Fault Ui :=
  match box_stack_last ui with
  | .error e => .error e
  | .ok box => ui_style_box_vec2 ui box attr val

def ui_style_vec4 (ui : Ui) (attr : UiStyleAttribute) (val : Vec4) : Except Fault Ui :=
  match box_stack_last ui with
  | .error e => .error e
  | .ok box => ui_style_box_vec4 ui box attr val

def ui_style_size (ui : Ui) (attr : UiStyleAttribute) (val : UiSize) : Except Fault Ui :=
  match box_stack_last ui with
  | .error e => .error e
  | .ok box => ui_style_box_size ui box attr val

/-- The function `ui_style_rule_push`: the new rule is the last element of
`box->style_rules`, its style a fresh object of frame memory. -/
def ui_style_rule_push (ui : Ui) (box : BoxId) (pattern : String) : Except Fault Ui :=
  if ui.current_style_rule ≠ none then .error .fatal_error
  else
    match parse_pattern pattern with
    | .error e => .error e
    | .ok p =>
      let rule : UiStyleRule :=
        { style_ptr := ui.frame_mem_count, style := default_box_style, pattern := p, mask := 0 }
      let idx := (ui.boxes box).style_rules.length
      let ui := ui.modify_box box (fun b => { b with style_rules := b.style_rules ++ [rule] })
      .ok { ui with current_style_rule := some (box, idx)
                    frame_mem_count := ui.frame_mem_count + 1 }

def ui_style_rule_pop (ui : Ui) : Ui := { ui with current_style_rule := none }

/-! ## The frame -/

/-- GLFW's `GLFW_KEY_TAB` (vendor header `GLFW/glfw3.h`). -/
def GLFW_KEY_TAB : Int := 258

/-- GLFW's `GLFW_MOD_SHIFT` (vendor header `GLFW/glfw3.h`). -/
def GLFW_MOD_SHIFT : Int := 1

/-- GLFW's `GLFW_KEY_LEFT_CONTROL` (vendor header `GLFW/glfw3.h`). -/
def GLFW_KEY_LEFT_CONTROL : Int := 341

/-- The macro `map_remove` on a map as a list of entries. -/
def map_remove (m : List (Nat × Nat)) (k : Nat) : List (Nat × Nat) :=
  m.filter (fun e => decide (e.1 ≠ k))

/-- The cast of an `Int` key to the `U32` key of `pressed_keys`. -/
def key_u32 (key : Int) : Nat := (key % 2 ^ 32).toNat

def is_key_pressed (ui : Ui) (key : Int) : Bool :=
  (map_get_ptr ui.pressed_keys (key_u32 key)).isSome

def update_input_state (ui : Ui) (event : Event) : Ui :=
  let ui := { ui with event := event }
  match event.tag with
  | .EVENT_DUMMY => ui
  | .EVENT_EATEN => ui
  | .EVENT_SCROLL => ui
  | .EVENT_WINDOW_SIZE => ui
  | .EVENT_KEY_PRESS => { ui with pressed_keys := map_add ui.pressed_keys (key_u32 event.key) 0 }
  | .EVENT_KEY_RELEASE => { ui with pressed_keys := map_remove ui.pressed_keys (key_u32 event.key) }
  | .EVENT_MOUSE_MOVE =>
    { ui with mouse_dt := ⟨event.x - ui.mouse.x, event.y - ui.mouse.y⟩
              mouse := ⟨event.x, event.y⟩ }

/-- The stages of a frame, for the record of what `ui_frame` ran. -/
inductive FrameStage where
  | rebuild (event : Event)
  | cascade
  | layout
  | hit_test
  | render
  deriving DecidableEq, Repr

/-- The functions `ui_frame` calls that are taken as parameters here: the
build code of the application and the four stages after the event loop. -/
structure FrameHooks where
  build : Ui → Except Fault Ui
  apply_style_rules : Ui → Except Fault Ui
  compute_layout : Ui → Except Fault Ui
  find_topmost_hovered_box : Ui → Except Fault Ui
  render_box : Ui → Except Fault Ui

/-- Lines 2332-2334: the size of the clip rectangle at the top of the stack is
set to the window size. -/
def ui_frame_root_clip (win_width win_height : F32) (ui : Ui) : Except Fault Ui :=
  match ui.clip_stack with
  | [] => .error .panic
  | clip :: rest => .ok { ui with clip_stack := { clip with w := win_width, h := win_height } :: rest }

/-- Lines 2336-2341: a press of Tab moves the focus. -/
def ui_frame_focus (ui : Ui) (event : Event) : Except Fault Ui :=
  if ui.depth_first.length ≠ 0 then
    if ui.event.tag = .EVENT_KEY_PRESS ∧ event.key = GLFW_KEY_TAB then
      if event.mods = GLFW_MOD_SHIFT then find_prev_focus ui else find_next_focus ui
    else .ok ui
  else .ok ui

/-- Lines 2345-2354: the root box is declared, styled and sized, and the build
code runs inside it. -/
def ui_frame_root (str_hash_seed : String → UiKey → UiKey) (build : Ui → Except Fault Ui)
    (win_width win_height : F32) (ui : Ui) : Except Fault Ui :=
  match ui_box_push_str str_hash_seed ui 0 "root" with
  | .error e => .error e
  | .ok (ui, root) =>
    let ui := { ui with root := some root }
    match ui_style_size ui .UI_WIDTH ⟨.UI_SIZE_PIXELS, win_width, 0⟩ with
    | .error e => .error e
    | .ok ui =>
      match ui_style_size ui .UI_HEIGHT ⟨.UI_SIZE_PIXELS, win_height, 0⟩ with
      | .error e => .error e
      | .ok ui =>
        match ui_style_vec2 ui .UI_PADDING ⟨0, 0⟩ with
        | .error e => .error e
        | .ok ui =>
          match ui_style_f32 ui .UI_SPACING 0 with
          | .error e => .error e
          | .ok ui =>
            let ui := ui.modify_box root (fun b =>
              { b with rect := { b.rect with w := win_width, h := win_height } })
            match build ui with
            | .error e => .error e
            | .ok ui => ui_pop_parent ui

/-- The body of the loop of `ui_frame` over the events. -/
def ui_frame_event (str_hash_seed : String → UiKey → UiKey) (build : Ui → Except Fault Ui)
    (win_width win_height : F32) (ui : Ui) (event : Event) : Except Fault Ui :=
  match ui_frame_root_clip win_width win_height (update_input_state ui event) with
  | .error e => .error e
  | .ok ui =>
    match ui_frame_focus ui event with
    | .error e => .error e
    | .ok ui =>
      match ui_frame_root str_hash_seed build win_width win_height (depth_first_reset ui) with
      | .error e => .error e
      | .ok ui => .ok (gc_toggle (gc_sweep ui))

/-- The loop of `ui_frame` over the events, in the order of the array; the
second component records the rebuilds. -/
def ui_frame_events (str_hash_seed : String → UiKey → UiKey) (build : Ui → Except Fault Ui)
    (win_width win_height : F32) :
    List Event → Ui × List FrameStage → Except Fault (Ui × List FrameStage)
  | [], st => .ok st
  | event :: rest, (ui, log) =>
    match ui_frame_event str_hash_seed build win_width win_height ui event with
    | .error e => .error e
    | .ok ui =>
      ui_frame_events str_hash_seed build win_width win_height rest
        (ui, log ++ [.rebuild event])

/-- The function `ui_frame`; `events` is the global event array and the second
component of the result records the stages that ran, in order. -/
def ui_frame (str_hash_seed : String → UiKey → UiKey) (hooks : FrameHooks)
    (win_width win_height : F32) (events : List Event) (dt : F32) (ui : Ui) :
    Except Fault (Ui × List FrameStage) :=
  match ui_frame_events str_hash_seed hooks.build win_width win_height events
      ({ ui with dt := dt }, []) with
  | .error e => .error e
  | .ok (ui, log) =>
    match hooks.apply_style_rules ui with
    | .error e => .error e
    | .ok ui =>
      match hooks.compute_layout ui with
      | .error e => .error e
      | .ok ui =>
        match hooks.find_topmost_hovered_box ui with
        | .error e => .error e
        | .ok ui =>
          match hooks.render_box ui with
          | .error e => .error e
          | .ok ui => .ok (ui, log ++ [.cascade, .layout, .hit_test, .render])

/-! ## Clip stack, scroll bars and the scroll box -/

/-- The macro `clamp` of `base/core.h`. -/
def clamp (x a b : F32) : F32 := if x < a then a else if x > b then b else x

def ui_push_clip_rect (ui : Ui) (rect : UiRect) : Except Fault (Ui × UiRect) :=
  match ui.clip_stack with
  | [] => .error .panic
  | top :: _ =>
    let intersection := compute_rect_intersect rect top
    .ok ({ ui with clip_stack := intersection :: ui.clip_stack }, intersection)

def ui_push_clip_box (ui : Ui) (box : BoxId) : Except Fault (Ui × UiRect) :=
  let ui := ui.modify_box box (fun b => { b with flags := b.flags ||| UI_BOX_CLIPPING })
  let b := ui.boxes box
  ui_push_clip_rect ui
    ⟨b.rect.x + b.style.border_widths.z, b.rect.y + b.style.border_widths.y,
      b.rect.w - (b.style.border_widths.x + b.style.border_widths.z),
      b.rect.h - (b.style.border_widths.w + b.style.border_widths.y)⟩

def ui_pop_clip (ui : Ui) : Except Fault (Ui × UiRect) :=
  match ui.clip_stack with
  | [] => .error .panic
  | _ :: rest =>
    match rest with
    | [] => .error .panic
    | top :: _ => .ok ({ ui with clip_stack := rest }, top)

/-- The statement `ui_style_rule(PATTERN) { ui_style_vec4(ATTR, VAL); }`: the
rule is declared on the box at the top of the parent stack, and its scope is
closed when the block is left. -/
def ui_style_rule_vec4 (ui : Ui) (pattern : String) (attr : UiStyleAttribute) (val : Vec4) :
    Except Fault Ui := do
  let box ← box_stack_last ui
  let ui ← ui_style_rule_push ui box pattern
  let ui ← ui_style_vec4 ui attr val
  pure (ui_style_rule_pop ui)

/-- The statement `ui->event->tag = EVENT_EATEN`. -/
def eat_event (ui : Ui) : Ui := { ui with event := { ui.event with tag := .EVENT_EATEN } }

/-- The function `ui_vscroll_bar`; returns the container and the value of
`*val` on return. -/
def ui_vscroll_bar (str_hash_seed : String → UiKey → UiKey) (ui : Ui) (label : String)
    (rect : UiRect) (ratio val : F32) : Except Fault (Ui × BoxId × F32) := do
  let (ui, container) ← ui_box_push_str str_hash_seed ui UI_BOX_REACTIVE label
  let padding := (ui.boxes container).style.padding.x
  let ui ← ui_style_f32 ui .UI_FLOAT_X (rect.x - 2 * padding)
  let ui ← ui_style_f32 ui .UI_FLOAT_Y rect.y
  let ui ← ui_style_size ui .UI_WIDTH ⟨.UI_SIZE_CHILDREN_SUM, 0, 1⟩
  let ui ← ui_style_size ui .UI_HEIGHT ⟨.UI_SIZE_PIXELS, rect.h, 0⟩
  let ui ← ui_style_vec4 ui .UI_BG_COLOR ⟨0, 0, 0, 2 / 5⟩
  let ui ← ui_style_u32 ui .UI_AXIS UI_AXIS_VERTICAL
  let ui ← ui_style_vec2 ui .UI_PADDING ⟨4, 4⟩
  let ui ← ui_style_f32 ui .UI_EDGE_SOFTNESS 0
  let val := if (ui.boxes container).signal.pressed then
      clamp (ui.mouse.y - (ui.boxes container).rect.y - ratio * rect.h / 2) 0
        ((1 - ratio) * rect.h)
    else val
  let wheel := (ui.boxes container).signal.hovered && decide (ui.event.tag = .EVENT_SCROLL)
  let val := if wheel then clamp (val - 15 * ui.event.y) 0 ((1 - ratio) * rect.h) else val
  let ui := if wheel then eat_event ui else ui
  let ui ← ui_style_rule_vec4 ui ".hover #scroll_bar_knob" .UI_BG_COLOR ⟨1, 1, 1, 4 / 5⟩
  let ui ← ui_style_rule_vec4 ui ".press #scroll_bar_knob" .UI_BG_COLOR ⟨1, 1, 1, 4 / 5⟩
  let ui ← ui_style_rule_vec4 ui "#scroll_bar_knob.hover" .UI_BG_COLOR ⟨1, 1, 1, 4 / 5⟩
  let ui ← ui_style_rule_vec4 ui "#scroll_bar_knob.press" .UI_BG_COLOR ⟨1, 1, 1, 4 / 5⟩
  let (ui, _) ← ui_box_push_str str_hash_seed ui (UI_BOX_CLICK_THROUGH ||| UI_BOX_INVISIBLE)
    "scroll_bar_spacer"
  let ui ← ui_style_size ui .UI_HEIGHT ⟨.UI_SIZE_PIXELS, val, 0⟩
  let ui ← ui_pop_parent ui
  let (ui, knob) ← ui_box_push_str str_hash_seed ui UI_BOX_REACTIVE "scroll_bar_knob"
  let ui ← ui_style_size ui .UI_WIDTH ⟨.UI_SIZE_PIXELS, rect.w, 1⟩
  let ui ← ui_style_size ui .UI_HEIGHT ⟨.UI_SIZE_PIXELS, ratio * rect.h, 1⟩
  let ui ← ui_style_vec4 ui .UI_BG_COLOR ⟨1, 1, 1, 2 / 5⟩
  let ui ← ui_style_f32 ui .UI_EDGE_SOFTNESS 0
  let val := if (ui.boxes knob).signal.pressed && decide (ui.event.tag = .EVENT_MOUSE_MOVE) then
      clamp (val + ui.mouse_dt.y) 0 ((1 - ratio) * rect.h)
    else val
  let ui ← ui_pop_parent ui
  let ui ← ui_pop_parent ui
  pure (ui, container, val)

/-- The function `ui_hscroll_bar`; returns the container and the value of
`*val` on return. -/
def ui_hscroll_bar (str_hash_seed : String → UiKey → UiKey) (ui : Ui) (label : String)
    (rect : UiRect) (ratio val : F32) : Except Fault (Ui × BoxId × F32) := do
  let (ui, container) ← ui_box_push_str str_hash_seed ui UI_BOX_REACTIVE label
  let padding := (ui.boxes container).style.padding.y
  let ui ← ui_style_f32 ui .UI_FLOAT_X rect.x
  let ui ← ui_style_f32 ui .UI_FLOAT_Y (rect.y - 2 * padding)
  let ui ← ui_style_size ui .UI_WIDTH ⟨.UI_SIZE_PIXELS, rect.w, 1⟩
  let ui ← ui_style_size ui .UI_HEIGHT ⟨.UI_SIZE_CHILDREN_SUM, 0, 1⟩
  let ui ← ui_style_vec4 ui .UI_BG_COLOR ⟨0, 0, 0, 2 / 5⟩
  let ui ← ui_style_u32 ui .UI_AXIS UI_AXIS_HORIZONTAL
  let ui ← ui_style_vec2 ui .UI_PADDING ⟨4, 4⟩
  let ui ← ui_style_f32 ui .UI_EDGE_SOFTNESS 0
  let val := if (ui.boxes container).signal.pressed then
      clamp (ui.mouse.x - (ui.boxes container).rect.x - ratio * rect.w / 2) 0
        ((1 - ratio) * rect.w)
    else val
  let wheel := (ui.boxes container).signal.hovered && decide (ui.event.tag = .EVENT_SCROLL)
  let val := if wheel then clamp (val - 25 * ui.event.y) 0 ((1 - ratio) * rect.w) else val
  let ui := if wheel then eat_event ui else ui
  let ui ← ui_style_rule_vec4 ui ".hover #scroll_bar_knob" .UI_BG_COLOR ⟨1, 1, 1, 4 / 5⟩
  let ui ← ui_style_rule_vec4 ui ".press #scroll_bar_knob" .UI_BG_COLOR ⟨1, 1, 1, 4 / 5⟩
  let ui ← ui_style_rule_vec4 ui "#scroll_bar_knob.hover" .UI_BG_COLOR ⟨1, 1, 1, 4 / 5⟩
  let ui ← ui_style_rule_vec4 ui "#scroll_bar_knob.press" .UI_BG_COLOR ⟨1, 1, 1, 4 / 5⟩
  let (ui, _) ← ui_box_push_str str_hash_seed ui (UI_BOX_CLICK_THROUGH ||| UI_BOX_INVISIBLE)
    "scroll_bar_spacer"
  let ui ← ui_style_size ui .UI_WIDTH ⟨.UI_SIZE_PIXELS, val, 0⟩
  let ui ← ui_pop_parent ui
  let (ui, knob) ← ui_box_push_str str_hash_seed ui UI_BOX_REACTIVE "scroll_bar_knob"
  let ui ← ui_style_size ui .UI_HEIGHT ⟨.UI_SIZE_PIXELS, rect.h, 1⟩
  let ui ← ui_style_size ui .UI_WIDTH ⟨.UI_SIZE_PIXELS, ratio * rect.w, 1⟩
  let ui ← ui_style_vec4 ui .UI_BG_COLOR ⟨1, 1, 1, 2 / 5⟩
  let ui ← ui_style_f32 ui .UI_EDGE_SOFTNESS 0
  let val := if (ui.boxes knob).signal.pressed && decide (ui.event.tag = .EVENT_MOUSE_MOVE) then
      clamp (val + ui.mouse_dt.x) 0 ((1 - ratio) * rect.w)
    else val
  let ui ← ui_pop_parent ui
  let ui ← ui_pop_parent ui
  pure (ui, container, val)

def ui_scroll_box_push (str_hash_seed : String → UiKey → UiKey) (ui : Ui) (label : String) :
    Except Fault (Ui × BoxId) := do
  let (ui, container) ← ui_box_push_str str_hash_seed ui UI_BOX_REACTIVE label
  let ui ← ui_style_box_u32 ui container .UI_OVERFLOW_X 1
  let ui ← ui_style_box_u32 ui container .UI_OVERFLOW_Y 1
  let ui := ui.modify_box container (fun c =>
    { c with scratch := (ui.depth_first.length + 2 ^ 64 - 1) % 2 ^ 64 })
  let (ui, _) ← ui_push_clip_box ui container
  pure (ui, container)

/-- Lines 1799-1813 of `ui_scroll_box_pop`: the content offset follows the
focused box (`focused` is its rect, `view` the rect of the container). -/
def scroll_follow (content focused view : UiRect) : UiRect :=
  let fx1 := focused.x + focused.w
  let cx1 := view.x + view.w
  let content :=
    if fx1 > cx1 then { content with x := content.x - (fx1 - cx1) }
    else if focused.x < view.x then { content with x := content.x + (view.x - focused.x) }
    else content
  let fy1 := focused.y + focused.h
  let cy1 := view.y + view.h
  if fy1 > cy1 then { content with y := content.y - (fy1 - cy1) }
  else if focused.y < view.y then { content with y := content.y + (view.y - focused.y) }
  else content

/-- Lines 1797-1814 of `ui_scroll_box_pop`. -/
def ui_scroll_box_follow (ui : Ui) (container : BoxId) : Except Fault Ui :=
  let contains_focused := decide (ui.focus_idx ≥ (ui.boxes container).scratch)
  if contains_focused ∧ ui.event.tag = .EVENT_KEY_PRESS ∧ ui.event.key = GLFW_KEY_TAB then
    match ui.focused with
    | none => .error .segfault
    | some focused =>
      .ok (ui.modify_box container (fun c =>
        { c with content := scroll_follow c.content (ui.boxes focused).rect c.rect }))
  else .ok ui

/-- Lines 1819-1833 of `ui_scroll_box_pop`: the horizontal axis.  The quotients
by `content.w` (line 1820) and by `rect.w` (line 1823) are not finite numbers
when the divisor is 0. -/
def ui_scroll_box_axis_x (str_hash_seed : String → UiKey → UiKey) (ui : Ui) (container : BoxId) :
    Except Fault Ui :=
  let c := ui.boxes container
  if c.rect.w < c.content.w then
    if c.content.w = 0 then .error .not_finite
    else
      match ui_hscroll_bar str_hash_seed ui "scroll_bar_x"
          ⟨0, c.rect.h - 8, c.rect.w, 8⟩ (c.rect.w / c.content.w)
          ((|c.content.x| / c.content.w) * c.rect.w) with
      | .error e => .error e
      | .ok (ui, _, scroll_val) =>
        if (ui.boxes container).rect.w = 0 then .error .not_finite
        else
          let ui := ui.modify_box container (fun c =>
            { c with content := { c.content with x := -(scroll_val / c.rect.w * c.content.w) } })
          let wheel := (ui.boxes container).signal.hovered &&
            decide (ui.event.tag = .EVENT_SCROLL) && is_key_pressed ui GLFW_KEY_LEFT_CONTROL
          let ui := if wheel then
              eat_event (ui.modify_box container (fun c =>
                { c with content := { c.content with x := c.content.x + 25 * ui.event.y } }))
            else ui
          .ok (ui.modify_box container (fun c =>
            { c with content := { c.content with
                x := clamp c.content.x (-(c.content.w - c.rect.w)) 0 } }))
  else
    .ok (ui.modify_box container (fun c => { c with content := { c.content with x := 0 } }))

/-- Lines 1835-1849 of `ui_scroll_box_pop`: the vertical axis, with the same
two quotients. -/
def ui_scroll_box_axis_y (str_hash_seed : String → UiKey → UiKey) (ui : Ui) (container : BoxId) :
    Except Fault Ui :=
  let c := ui.boxes container
  if c.rect.h < c.content.h then
    if c.content.h = 0 then .error .not_finite
    else
      match ui_vscroll_bar str_hash_seed ui "scroll_bar_y"
          ⟨c.rect.w - 8, 0, 8, c.rect.h⟩ (c.rect.h / c.content.h)
          ((|c.content.y| / c.content.h) * c.rect.h) with
      | .error e => .error e
      | .ok (ui, _, scroll_val) =>
        if (ui.boxes container).rect.h = 0 then .error .not_finite
        else
          let ui := ui.modify_box container (fun c =>
            { c with content := { c.content with y := -(scroll_val / c.rect.h * c.content.h) } })
          let wheel := (ui.boxes container).signal.hovered &&
            decide (ui.event.tag = .EVENT_SCROLL) && !is_key_pressed ui GLFW_KEY_LEFT_CONTROL
          let ui := if wheel then
              eat_event (ui.modify_box container (fun c =>
                { c with content := { c.content with y := c.content.y + 25 * ui.event.y } }))
            else ui
          .ok (ui.modify_box container (fun c =>
            { c with content := { c.content with
                y := clamp c.content.y (-(c.content.h - c.rect.h)) 0 } }))
  else
    .ok (ui.modify_box container (fun c => { c with content := { c.content with y := 0 } }))

def ui_scroll_box_pop (str_hash_seed : String → UiKey → UiKey) (ui : Ui) : Except Fault Ui := do
  let container ← box_stack_last ui
  let ui ← ui_scroll_box_follow ui container
  let ui ← ui_scroll_box_axis_x str_hash_seed ui container
  let ui ← ui_scroll_box_axis_y str_hash_seed ui container
  let (ui, _) ← ui_pop_clip ui
  ui_pop_parent ui


/-! ## The hash map (`base/map.c`, `base/map.h`)

An open addressing table. An entry is the record `hash, key, val` of the typed
wrapper `Map(K, V)`; the untyped layout (`entry_size`, `key_offset`,
`key_size`) and the allocator are left out, and an entry pointer is the index
of its slot. The entry array is a function of the slot index: a probe only
reads slots below `capacity`, since every index goes through `& mask`. Counts
and capacities are `U64` in the source and `Nat` here; the two products that
the source guards with `safe_mul` keep their guard. -/

def MAX_LOAD : Nat := 70
def MIN_LOAD : Nat := 20
def MIN_CAPACITY : Nat := 16

def MAP_HASH_OF_EMPTY_ENTRY : Nat := 0
def MAP_HASH_OF_TOMB_ENTRY : Nat := 1
def MAP_HASH_OF_FILLED_ENTRY : Nat := 2

structure UMapEntry (K V : Type) where
  hash : Nat
  key : K
  val : V

structure UMapSchema (K : Type) where
  cmp : K → K → Bool
  hasher : K → Nat

structure UMap (K V : Type) where
  count : Nat
  capacity : Nat
  tomb_count : Nat
  entries : Nat → UMapEntry K V
  shrink_on_del : Bool
  schema : UMapSchema K

/-- The entry of a zeroed allocation: `default` stands for the all-zero key and
value. -/
def UMapEntry.zeroed {K V : Type} [Inhabited K] [Inhabited V] : UMapEntry K V :=
  ⟨0, default, default⟩

/-- The macro `safe_mul(A, B)`: the product in the type of `A`, of `width` bits;
`assert_always` stops the program when the product does not fit. -/
def safe_mul (width a b : Nat) : Except Fault Nat :=
  if a * b < 2 ^ width then .ok (a * b) else .error .panic

def bit_ceil_loop (x : Nat) : Nat → Nat → Nat
  | 0, p => p
  | fuel + 1, p => if x ≤ p then p else bit_ceil_loop x fuel (2 * p)

/-- The macro `next_pow2` on a `U64`: `stdc_bit_ceil`, the least power of two
that is at least `x`, and 0 when that power does not fit 64 bits. -/
def next_pow2 (x : Nat) : Nat :=
  if 2 ^ 63 < x then 0 else bit_ceil_loop x 64 1

/-- The test `cmp && (hashof(entry) == hash) && cmp(key, entry + koffset)` of
`probe`; `cmp` and `key` are `none` for the null pointers that `rehash`
passes. -/
def probe_match {K V : Type} (cmp : Option (K → K → Bool)) (key : Option K)
    (hash : Nat) (entry : UMapEntry K V) : Except Fault Bool :=
  match cmp with
  | none => .ok false
  | some f =>
    if entry.hash = hash then
      match key with
      | none => .error .segfault
      | some k => .ok (f k entry.key)
    else .ok false

/-- The loop of `probe`, at slot `idx` with increment `inc`. The fuel counts
the slots still to visit. -/
def probe_loop {K V : Type} (map : UMap K V) (cmp : Option (K → K → Bool))
    (key : Option K) (hash : Nat) : Nat → Nat → Nat → Except Fault Nat
  | 0, _, _ => .error .diverge
  | fuel + 1, idx, inc =>
    let entry := map.entries idx
    if entry.hash = MAP_HASH_OF_EMPTY_ENTRY then .ok idx
    else
      match probe_match cmp key hash entry with
      | .error e => .error e
      | .ok true => .ok idx
      | .ok false =>
        probe_loop map cmp key hash fuel
          (((idx + inc) % 2 ^ 64) &&& (map.capacity - 1)) ((inc + 1) % 2 ^ 64)

/-- Quadratic probing via triangular numbers: the slot of the first entry on
the probe sequence of `hash` that is empty or holds `key`. With a capacity that
is a power of two the first `capacity` probes visit every slot, so a probe that
has not returned by then never returns (`diverge`). -/
def probe {K V : Type} (map : UMap K V) (cmp : Option (K → K → Bool))
    (key : Option K) (hash : Nat) : Except Fault Nat :=
  probe_loop map cmp key hash map.capacity (hash &&& (map.capacity - 1)) 1

/-- The map of `rehash` after the first `n` rounds of its `umap_iter` loop over
`old_map`: every filled entry of the slots below `n` has been copied to the
slot that `probe` gives for its hash. -/
def rehash_loop {K V : Type} (old_map : UMap K V) (map : UMap K V) :
    Nat → Except Fault (UMap K V)
  | 0 => .ok map
  | MAP_IDX + 1 =>
    match rehash_loop old_map map MAP_IDX with
    | .error e => .error e
    | .ok map =>
      let o := old_map.entries MAP_IDX
      if MAP_HASH_OF_FILLED_ENTRY ≤ o.hash then
        match probe map none none o.hash with
        | .error e => .error e
        | .ok dst => .ok { map with entries := Function.update map.entries dst o }
      else .ok map

def rehash {K V : Type} [Inhabited K] [Inhabited V] (map : UMap K V) (new_cap : Nat) :
    Except Fault (UMap K V) :=
  rehash_loop map
    { map with tomb_count := 0, capacity := new_cap, entries := fun _ => UMapEntry.zeroed }
    map.capacity

/-- The product `safe_mul(2u, map->capacity)` has the type of `2u`, 32 bits. -/
def maybe_grow {K V : Type} [Inhabited K] [Inhabited V] (map : UMap K V) :
    Except Fault (UMap K V) :=
  match safe_mul 64 map.capacity MAX_LOAD with
  | .error e => .error e
  | .ok p =>
    let max_load := p / 100
    if map.count + map.tomb_count > max_load then
      if map.count > max_load then
        match safe_mul 32 2 map.capacity with
        | .error e => .error e
        | .ok new_cap => rehash map new_cap
      else rehash map map.capacity
    else .ok map

def maybe_shrink {K V : Type} [Inhabited K] [Inhabited V] (map : UMap K V) :
    Except Fault (UMap K V) :=
  if map.capacity ≤ MIN_CAPACITY then .ok map
  else
    match safe_mul 64 map.capacity MIN_LOAD with
    | .error e => .error e
    | .ok p =>
      let min_load := p / 100
      if map.count < min_load then rehash map (map.capacity / 2) else .ok map

def umap_clear {K V : Type} [Inhabited K] [Inhabited V] (map : UMap K V) : UMap K V :=
  { map with entries := fun _ => UMapEntry.zeroed, tomb_count := 0, count := 0 }

/-- The slot of the entry of `key`, `none` for the null pointer. -/
def umap_get {K V : Type} (map : UMap K V) (key : K) : Except Fault (Option Nat) :=
  let hash := max (map.schema.hasher key) MAP_HASH_OF_FILLED_ENTRY
  match probe map (some map.schema.cmp) (some key) hash with
  | .error e => .error e
  | .ok entry =>
    .ok (if (map.entries entry).hash < MAP_HASH_OF_FILLED_ENTRY then none else some entry)

/-- The map, the slot of the entry of `key` and `*out_found`. The value of the
entry is left to the caller. -/
def umap_add {K V : Type} [Inhabited K] [Inhabited V] (map : UMap K V) (key : K) :
    Except Fault (UMap K V × Nat × Bool) :=
  match maybe_grow map with
  | .error e => .error e
  | .ok map =>
    let hash := max (map.schema.hasher key) MAP_HASH_OF_FILLED_ENTRY
    match probe map (some map.schema.cmp) (some key) hash with
    | .error e => .error e
    | .ok entry =>
      let found := decide (MAP_HASH_OF_FILLED_ENTRY ≤ (map.entries entry).hash)
      if ! found then
        .ok ({ map with
                count := (map.count + 1) % 2 ^ 64,
                entries := Function.update map.entries entry
                  { map.entries entry with hash := hash, key := key } },
             entry, found)
      else .ok (map, entry, found)

def umap_remove {K V : Type} [Inhabited K] [Inhabited V] (map : UMap K V) (key : K) :
    Except Fault (UMap K V × Bool) :=
  let hash := max (map.schema.hasher key) MAP_HASH_OF_FILLED_ENTRY
  match probe map (some map.schema.cmp) (some key) hash with
  | .error e => .error e
  | .ok entry =>
    let found := decide (MAP_HASH_OF_FILLED_ENTRY ≤ (map.entries entry).hash)
    if found then
      let map : UMap K V :=
        { map with
          count := (map.count + 2 ^ 64 - 1) % 2 ^ 64,
          tomb_count := (map.tomb_count + 1) % 2 ^ 64,
          entries := Function.update map.entries entry
            { map.entries entry with hash := MAP_HASH_OF_TOMB_ENTRY } }
      if map.shrink_on_del then
        match maybe_shrink map with
        | .error e => .error e
        | .ok map => .ok (map, found)
      else .ok (map, found)
    else .ok (map, found)

/-- The fields that `umap_init` writes; `shrink_on_del` is the caller's. -/
def umap_init {K V : Type} [Inhabited K] [Inhabited V] (map : UMap K V) (cap : Nat)
    (schema : UMapSchema K) : Except Fault (UMap K V) :=
  match safe_mul 64 (cap / MAX_LOAD) 100 with
  | .error e => .error e
  | .ok p =>
    let cap := max MIN_CAPACITY (next_pow2 p)
    .ok { map with
          count := 0, capacity := cap, tomb_count := 0,
          entries := fun _ => UMapEntry.zeroed, schema := schema }

/-- The macro `map_add(M, K, V)`: `umap_add`, then the write of the value into
the returned entry. -/
def UMap.map_add {K V : Type} [Inhabited K] [Inhabited V] (map : UMap K V) (key : K)
    (val : V) : Except Fault (UMap K V) :=
  match umap_add map key with
  | .error e => .error e
  | .ok (map, entry, _) =>
    .ok { map with
          entries := Function.update map.entries entry { map.entries entry with val := val } }

/-- The macro `map_remove(M, K)`. -/
def UMap.map_remove {K V : Type} [Inhabited K] [Inhabited V] (map : UMap K V) (key : K) :
    Except Fault (UMap K V × Bool) :=
  umap_remove map key

/-- The macro `map_get(M, K, O)`: the value written to `*O` when the key is
found, `none` when the macro yields false. -/
def UMap.map_get {K V : Type} (map : UMap K V) (key : K) : Except Fault (Option V) :=
  match umap_get map key with
  | .error e => .error e
  | .ok none => .ok none
  | .ok (some entry) => .ok (some (map.entries entry).val)
/-! ## Specification vocabulary for the box store -/

/-- The three ways `ui_box_push_str` obtains its box. -/
inductive Acquired (ui : Ui) (key : UiKey) (ui' : Ui) (box : BoxId) : Prop where
  | reused (hget : map_get_ptr ui.box_cache key = some box)
      (hgc : (ui.boxes box).gc_flag ≠ ui.gc_flag)
      (hcache : ui'.box_cache = ui.box_cache) (hfree : ui'.free_boxes = ui.free_boxes)
      (hcount : ui'.box_count = ui.box_count)
      (hstyle : (ui'.boxes box).style = (ui.boxes box).style)
      (hrect : (ui'.boxes box).rect = (ui.boxes box).rect)
      (hcontent : (ui'.boxes box).content = (ui.boxes box).content)
      (htext : (ui'.boxes box).text_rect = (ui.boxes box).text_rect)
      (hscratch : (ui'.boxes box).scratch = (ui.boxes box).scratch)
  | recycled (hget : map_get_ptr ui.box_cache key = none)
      (hfree : ui.free_boxes = box :: ui'.free_boxes)
      (hcache : ui'.box_cache = map_add ui.box_cache key box)
      (hcount : ui'.box_count = ui.box_count)
  | fresh (hget : map_get_ptr ui.box_cache key = none)
      (hfree : ui.free_boxes = []) (hfree' : ui'.free_boxes = [])
      (hbox : box = ui.box_count)
      (hcache : ui'.box_cache = map_add ui.box_cache key box)
      (hcount : ui'.box_count = ui.box_count + 1)

/-- The tags `ui_box_push_str` adds for a signal record (lines 886-888). -/
def signal_tags (s : UiSignal) : List String :=
  (if s.focused then ["focus"] else []) ++ (if s.hovered then ["hover"] else []) ++
    (if s.pressed then ["press"] else [])

/-- The effect of a call of `ui_box_push_str` that returns. -/
structure PushSpec (key : UiKey) (ui : Ui) (flags : Nat) (label : String) (ui' : Ui)
    (box : BoxId) : Prop where
  hgc_flag : ui'.gc_flag = ui.gc_flag
  hbox_stack : ui'.box_stack = box :: ui.box_stack
  hdepth_first : ui'.depth_first = ui.depth_first ++ [box]
  hclip_stack : ui'.clip_stack = ui.clip_stack
  hothers : ∀ b, b ≠ box → ∃ ch, ui'.boxes b = { ui.boxes b with children := ch }
  hkey : (ui'.boxes box).key = key
  hgc : (ui'.boxes box).gc_flag = ui.gc_flag
  hlabel : (ui'.boxes box).label = label
  hflags : (ui'.boxes box).flags = flags
  hparent : (ui'.boxes box).parent = ui.box_stack.head?
  hchildren : ui.box_stack.head? ≠ some box → (ui'.boxes box).children = []
  hstyle_rules : (ui'.boxes box).style_rules = []
  hnext_style : (ui'.boxes box).next_style = default_box_style
  htags : (ui'.boxes box).tags = signal_tags (ui'.boxes box).signal
  hacquired : Acquired ui key ui' box

/-- Well-formedness of the box store: the cache is a finite map (one slot per
key) whose values are distinct allocated boxes stamped with their key, and the
free list holds distinct allocated boxes that are not in the cache. -/
structure StoreWF (ui : Ui) : Prop where
  keys_nodup : (ui.box_cache.map Prod.fst).Nodup
  vals_nodup : (ui.box_cache.map Prod.snd).Nodup
  free_nodup : ui.free_boxes.Nodup
  disjoint : ∀ b ∈ ui.free_boxes, b ∉ ui.box_cache.map Prod.snd
  vals_lt : ∀ b ∈ ui.box_cache.map Prod.snd, b < ui.box_count
  free_lt : ∀ b ∈ ui.free_boxes, b < ui.box_count
  key_ok : ∀ e ∈ ui.box_cache, (ui.boxes e.2).key = e.1

/-- The key of a box declared under a path of labels, innermost label first:
`str_hash_seed` of the label seeded with the key of the rest, 0 at the root. -/
def chain_key (str_hash_seed : String → UiKey → UiKey) : List String → UiKey
  | [] => 0
  | label :: rest => str_hash_seed label (chain_key str_hash_seed rest)

/-- The labels of the boxes on the parent stack, innermost first. -/
def stack_labels (ui : Ui) : List String := ui.box_stack.map (fun b => (ui.boxes b).label)

/-- Every box on the parent stack carries the key of its label path. -/
def stack_chain (str_hash_seed : String → UiKey → UiKey) (boxes : BoxId → UiBox) :
    List BoxId → Prop
  | [] => True
  | b :: rest =>
    (boxes b).key = chain_key str_hash_seed ((b :: rest).map (fun c => (boxes c).label)) ∧
      stack_chain str_hash_seed boxes rest

/-- The invariant of a rebuild pass in progress. -/
structure PassInv (str_hash_seed : String → UiKey → UiKey) (ui : Ui) : Prop where
  wf : StoreWF ui
  marked : ∀ e ∈ ui.box_cache, ((ui.boxes e.2).gc_flag = ui.gc_flag ↔ e.2 ∈ ui.depth_first)
  declared : ∀ b ∈ ui.depth_first, b ∈ ui.box_cache.map Prod.snd
  depth_nodup : ui.depth_first.Nodup
  stack_declared : ∀ b ∈ ui.box_stack, b ∈ ui.depth_first
  chain : stack_chain str_hash_seed ui.boxes ui.box_stack

/-- The invariant between two rebuild passes: the parent stack is empty and no
cached box carries the current value of the flag. -/
structure PassStart (ui : Ui) : Prop where
  wf : StoreWF ui
  stack_empty : ui.box_stack = []
  unmarked : ∀ e ∈ ui.box_cache, (ui.boxes e.2).gc_flag ≠ ui.gc_flag

/-- The relation between two contexts that differ only in what the stages
outside the rebuild pass write (input state, cascade, layout, hit test): the
store, the flag and every box's key and flag are the same. -/
structure SameStore (u v : Ui) : Prop where
  gc_flag : v.gc_flag = u.gc_flag
  box_count : v.box_count = u.box_count
  free_boxes : v.free_boxes = u.free_boxes
  box_stack : v.box_stack = u.box_stack
  box_cache : v.box_cache = u.box_cache
  key : ∀ b, (v.boxes b).key = (u.boxes b).key
  gc : ∀ b, (v.boxes b).gc_flag = (u.boxes b).gc_flag

/-- The contexts that arise from `ui_init` by balanced rebuild passes that
return, interleaved with the other stages of a frame. -/
inductive Reachable (str_hash_seed : String → UiKey → UiKey) : Ui → Prop where
  | init (w h : F32) (e : Event) : Reachable str_hash_seed (ui_init w h e)
  | pass {u u1 : Ui} (ops : List BuildOp) (hu : Reachable str_hash_seed u)
      (hrun : run_ops str_hash_seed (depth_first_reset u) ops = .ok u1)
      (hbal : u1.box_stack = []) : Reachable str_hash_seed (gc_toggle (gc_sweep u1))
  | other {u v : Ui} (hu : Reachable str_hash_seed u) (hs : SameStore u v) :
      Reachable str_hash_seed v

/-- The boxes of the cache slots that the sweep empties, in slot order. -/
def evicted (boxes : BoxId → UiBox) (gc_flag : Nat) (m : List (UiKey × BoxId)) : List BoxId :=
  (m.filter (fun e : UiKey × BoxId => decide ((boxes e.2).gc_flag ≠ gc_flag))).map Prod.snd

/-! ## Specification vocabulary for the cascade -/

/-- The rule loop applies `rule` to the box and the rule sets `attr`: the rule
has exactly one remaining segment, the segment matches the box, and the mask
of the rule holds the bit of `attr`. -/
def rule_selects (box : UiBox) (link : Option ParentLink) (rule : UiStyleRule)
    (attr : UiStyleAttribute) : Prop :=
  (∃ head, rule.pattern.patterns = [head] ∧ match_pattern box link head = .ok true) ∧
    rule.mask &&& style_attr_to_mask attr ≠ 0

/-- The box at a path of child indices below a tree, with its position below
its parent (`link` is the position of the root of the tree). -/
def node_at (link : Option ParentLink) : BoxTree → List Nat → Option (UiBox × Option ParentLink)
  | t, [] => some (t.box, link)
  | t, i :: p =>
    match t.children[i]? with
    | none => none
    | some c => node_at (some ⟨i, t.children.length⟩) c p

/-- The rules the rule loop of `apply_style_rules_box` iterates over at the box
at a path, when the cascade enters the root of the tree with the list
`active_rules`: the list on entry to that box followed by the box's own rules.
On the way down every box hands its children its own list followed by the
rules it derived. -/
def rules_at (link : Option ParentLink) :
    BoxTree → List UiStyleRule → List Nat → Except Fault (List UiStyleRule)
  | t, active_rules, [] => .ok (active_rules ++ t.box.style_rules)
  | t, active_rules, i :: p =>
    match scan_rules t.box link (active_rules ++ t.box.style_rules)
        (t.box.next_style, Specs.zero, []) with
    | .error e => .error e
    | .ok st =>
      match t.children[i]? with
      | none => .error .panic
      | some c =>
        rules_at (some ⟨i, t.children.length⟩) c
          (active_rules ++ t.box.style_rules ++ st.2.2) p

/-- The segment `A` matches the box at the path `q` below the tree. -/
def matches_at (link : Option ParentLink) (t : BoxTree) (q : List Nat) (A : UiPatternAnd) : Prop :=
  ∃ box lk, node_at link t q = some (box, lk) ∧ match_pattern box lk A = .ok true

/-- The rule loop pushes a rule derived from `rule` at the box: the head
segment matches and it is not the only segment left. -/
def rule_derives (box : UiBox) (link : Option ParentLink) (rule : UiStyleRule) : Prop :=
  ∃ head tail, rule.pattern.patterns = head :: tail ∧ match_pattern box link head = .ok true ∧
    rule.pattern.patterns.length ≠ 1

mutual
/-- The rules declared on the boxes of a tree. -/
def declared_rules : BoxTree → List UiStyleRule
  | .node box children => box.style_rules ++ declared_rules_list children
/-- The rules declared on the boxes of a list of trees. -/
def declared_rules_list : List BoxTree → List UiStyleRule
  | [] => []
  | c :: rest => declared_rules c ++ declared_rules_list rest
end

/-- The loop applies to the box a rule that carries the style pointer `ptr`:
such a rule is among the rules iterated at the box, has one segment left, and
that segment matches the box. -/
def applied_at (ptr : Nat) (box : UiBox) (link : Option ParentLink) (L : List UiStyleRule) :
    Prop :=
  ∃ r ∈ L, r.style_ptr = ptr ∧
    ∃ head, r.pattern.patterns = [head] ∧ match_pattern box link head = .ok true

/-- What the cascade computes at the box at a path, in terms of `rules_at`. -/
def CascadeAt (powf : F32 → F32 → F32) (dt : F32) (t : BoxTree) : Prop :=
  ∀ (link : Option ParentLink) (active : List UiStyleRule) (t' : BoxTree)
    (active' : List UiStyleRule),
    apply_style_rules_box powf dt link t active = .ok (t', active') →
    active' = active ∧
    ∀ (p : List Nat) (box : UiBox) (lk : Option ParentLink),
      node_at link t p = some (box, lk) →
      ∃ L st box', rules_at link t active p = .ok L ∧
        scan_rules box lk L (box.next_style, Specs.zero, []) = .ok st ∧
        node_at link t' p = some (box', lk) ∧ box'.next_style = st.1

/-! ## Specification vocabulary for the layout -/

/-- Two heaps that differ at most in the rects of their boxes. -/
def SameButRects (boxes boxes' : BoxId → UiBox) : Prop :=
  ∀ b, ∃ r, boxes' b = { boxes b with rect := r }

/-- The sizes on an axis of the non-floating children of a child list. -/
def inflow_sizes (boxes : BoxId → UiBox) (axis : Nat) : List BoxId → List F32
  | [] => []
  | child :: rest =>
    if ((boxes child).style.floating axis).isSome then inflow_sizes boxes axis rest
    else (boxes child).rect.size axis :: inflow_sizes boxes axis rest

/-- The number of non-floating children of a child list that are not the last
element of the list. -/
def inflow_not_last (boxes : BoxId → UiBox) (axis : Nat) : List BoxId → Nat
  | [] => 0
  | child :: rest =>
    if ((boxes child).style.floating axis).isSome then inflow_not_last boxes axis rest
    else (if rest = [] then 0 else 1) + inflow_not_last boxes axis rest

/-! ## Sample inputs -/

/-- A sample hash function standing in for the vendor hash. -/
def demo_hash : String → UiKey → UiKey := fun s seed => s.length + 10 * seed + 1

def demo_event : Event := ⟨.EVENT_DUMMY, 0, 0, 0, 0, 0⟩

/-- The context of an `.ok` outcome, `d` otherwise. -/
def ok_or (d : Ui) : Except Fault Ui → Ui
  | .ok u => u
  | .error _ => d

/-- The context and box of an `.ok` outcome of a push, `d` otherwise. -/
def ok_or_push (d : Ui × BoxId) : Except Fault (Ui × BoxId) → Ui × BoxId
  | .ok r => r
  | .error _ => d

def demo_init : Ui := ui_init 800 600 demo_event

/-- First sample pass: `root` with the children `a` and `bb`. -/
def demo_pre1 : List BuildOp := [.push 0 "root", .push 0 "a", .pop]

def demo_post1 : List BuildOp := [.pop, .pop]

def demo_u1 : Ui := ok_or demo_init (run_ops demo_hash (depth_first_reset demo_init) demo_pre1)

def demo_u2 : Ui × BoxId := ok_or_push (demo_init, 0) (ui_box_push_str demo_hash demo_u1 0 "bb")

def demo_u3 : Ui := ok_or demo_init (run_ops demo_hash demo_u2.1 demo_post1)

def demo_v0 : Ui := gc_toggle (gc_sweep demo_u3)

/-- Second sample pass: `root` with the only child `bb`. -/
def demo_pre2 : List BuildOp := [.push 0 "root"]

def demo_v1 : Ui := ok_or demo_init (run_ops demo_hash (depth_first_reset demo_v0) demo_pre2)

def demo_v2 : Ui × BoxId := ok_or_push (demo_init, 0) (ui_box_push_str demo_hash demo_v1 0 "bb")

def demo_v3 : Ui := ok_or demo_init (run_ops demo_hash demo_v2.1 demo_post1)

/-- A context in which box 0 is reactive, active and under the pointer, at a
release of the primary button. -/
def demo_release : Ui :=
  { ui_init 800 600 ⟨.EVENT_KEY_RELEASE, 0, 0, GLFW_MOUSE_BUTTON_LEFT, 0, 0⟩ with
    boxes := fun _ => { UiBox.zeroed with flags := UI_BOX_REACTIVE, rect := ⟨0, 0, 100, 50⟩ }
    box_count := 1
    active := some 0
    hovered := some 0
    mouse := ⟨10, 10⟩ }

/-- The tree of an `.ok` outcome of the cascade, `d` otherwise. -/
def tree_or (d : BoxTree) : Except Fault (BoxTree × List UiStyleRule) → BoxTree
  | .ok r => r.1
  | .error _ => d

/-- A sample `powf` (the cascade samples animate nothing). -/
def demo_powf : F32 → F32 → F32 := fun _ _ => 0

/-- The rule `.a` with specificity (0,1), setting the background colour. -/
def demo_rule_tag : UiStyleRule where
  style_ptr := 1
  style := { default_box_style with bg_color := ⟨1, 0, 0, 1⟩ }
  pattern := ⟨⟨0, 1⟩, [⟨⟨0, 1⟩, [⟨.UI_PATTERN_TAG, "a"⟩]⟩]⟩
  mask := style_attr_to_mask .UI_BG_COLOR

/-- The rule `#x.a` with specificity (1,1), setting the background colour. -/
def demo_rule_id : UiStyleRule where
  style_ptr := 2
  style := { default_box_style with bg_color := ⟨0, 0, 1, 1⟩ }
  pattern := ⟨⟨1, 1⟩, [⟨⟨1, 1⟩, [⟨.UI_PATTERN_ID, "x"⟩, ⟨.UI_PATTERN_TAG, "a"⟩]⟩]⟩
  mask := style_attr_to_mask .UI_BG_COLOR

/-- A box with label `x` and tag `a` that declares `#x.a` before `.a`. -/
def demo_box_x : UiBox :=
  { UiBox.zeroed with label := "x", tags := ["a"], style := default_box_style,
                      next_style := default_box_style,
                      style_rules := [demo_rule_id, demo_rule_tag] }

def demo_cascade_x : BoxTree :=
  tree_or (.node demo_box_x [])
    (apply_style_rules_box demo_powf 0 none (.node demo_box_x []) [])

/-- The rule `#x .b`: segments `#x` and `.b`. -/
def demo_rule_path : UiStyleRule where
  style_ptr := 7
  style := { default_box_style with bg_color := ⟨0, 1, 0, 1⟩ }
  pattern := ⟨⟨1, 1⟩, [⟨⟨1, 0⟩, [⟨.UI_PATTERN_ID, "x"⟩]⟩, ⟨⟨0, 1⟩, [⟨.UI_PATTERN_TAG, "b"⟩]⟩]⟩
  mask := style_attr_to_mask .UI_BG_COLOR

/-- A box `x` that declares `#x .b`, with one child tagged `b`. -/
def demo_tree_path : BoxTree :=
  .node { UiBox.zeroed with label := "x", style_rules := [demo_rule_path] }
    [.node { UiBox.zeroed with label := "y", tags := ["b"] } []]

/-- A box that is an in-flow child of the given pixel size on both axes. -/
def demo_child (size : F32) : UiBox :=
  { UiBox.zeroed with parent := some 0,
                      style := { default_box_style with
                                 size_width := ⟨.UI_SIZE_PIXELS, size, 0⟩,
                                 size_height := ⟨.UI_SIZE_PIXELS, size, 0⟩ },
                      rect := ⟨0, 0, size, size⟩ }

/-- A box that is a floating child (offset 0 on both axes). -/
def demo_floating_child (size : F32) : UiBox :=
  { UiBox.zeroed with parent := some 0,
                      style := { default_box_style with
                                 size_width := ⟨.UI_SIZE_PIXELS, size, 0⟩,
                                 size_height := ⟨.UI_SIZE_PIXELS, size, 0⟩,
                                 floating_x := some 0, floating_y := some 0 },
                      rect := ⟨0, 0, size, size⟩ }

/-- The scenario of the specification: a root laid out along axis 0, sized by
its children, with padding 8 and spacing 4, and two children of 100 and 140. -/
def demo_layout : Ui :=
  { ui_init 800 600 demo_event with
    boxes := fun b =>
      if b = 0 then
        { UiBox.zeroed with children := [1, 2]
                            style := { default_box_style with padding := ⟨8, 8⟩, spacing := 4 } }
      else if b = 1 then demo_child 100
      else demo_child 140
    box_count := 3
    depth_first := [0, 1, 2] }

/-- The same root with a floating third child at the end of the child list. -/
def demo_layout_floating : Ui :=
  { ui_init 800 600 demo_event with
    boxes := fun b =>
      if b = 0 then
        { UiBox.zeroed with children := [1, 2, 3]
                            style := { default_box_style with padding := ⟨8, 8⟩, spacing := 4 } }
      else if b = 1 then demo_child 100
      else if b = 2 then demo_child 140
      else demo_floating_child 30
    box_count := 4
    depth_first := [0, 1, 2, 3] }

/-- A box of 100 pixels that does not allow overflow, with spacing 10, one
in-flow child of size 120 (strictness 0) and a floating child after it. -/
def demo_overflow_floating : Ui :=
  { ui_init 800 600 demo_event with
    boxes := fun b =>
      if b = 0 then
        { UiBox.zeroed with children := [1, 2]
                            style := { default_box_style with
                                       spacing := 10,
                                       size_width := ⟨.UI_SIZE_PIXELS, 100, 1⟩,
                                       size_height := ⟨.UI_SIZE_PIXELS, 100, 1⟩ }
                            rect := ⟨0, 0, 100, 100⟩ }
      else if b = 1 then demo_child 120
      else demo_floating_child 30
    box_count := 3
    depth_first := [0, 1, 2] }

/-- The same box with overflow allowed on axis 0. -/
def demo_overflow_allowed : Ui :=
  { ui_init 800 600 demo_event with
    boxes := fun b =>
      if b = 0 then
        { UiBox.zeroed with children := [1, 2]
                            style := { default_box_style with
                                       spacing := 10,
                                       overflow_x := 1,
                                       size_width := ⟨.UI_SIZE_PIXELS, 100, 1⟩,
                                       size_height := ⟨.UI_SIZE_PIXELS, 100, 1⟩ }
                            rect := ⟨0, 0, 100, 100⟩ }
      else if b = 1 then demo_child 120
      else demo_child 30
    box_count := 3
    depth_first := [0, 1, 2] }

/-! ## More sample inputs -/

/-- A context in which box 0 is reactive and under the pointer, no box is
active, at a press of the primary button. -/
def demo_press : Ui :=
  { ui_init 800 600 ⟨.EVENT_KEY_PRESS, 0, 0, GLFW_MOUSE_BUTTON_LEFT, 0, 0⟩ with
    boxes := fun _ => { UiBox.zeroed with flags := UI_BOX_REACTIVE, rect := ⟨0, 0, 100, 50⟩ }
    box_count := 1
    hovered := some 0
    mouse := ⟨10, 10⟩ }

/-- A context with three boxes in `depth_first`, the first and the last of
which can take the focus; the focus is on the last. -/
def demo_focus : Ui :=
  { ui_init 800 600 demo_event with
    boxes := fun b => if b = 1 then UiBox.zeroed
      else { UiBox.zeroed with flags := UI_BOX_CAN_FOCUS }
    box_count := 3
    depth_first := [0, 1, 2]
    focus_idx := 2
    focused := some 2 }

/-- A context with one box in `depth_first`, which cannot take the focus;
nothing is focused. -/
def demo_no_focus : Ui :=
  { ui_init 800 600 demo_event with
    box_count := 1
    depth_first := [0] }
/-! ## Specification vocabulary for the focus -/

/-- The box at index `j` of `depth_first` carries the can-focus flag. -/
def can_focus_at (ui : Ui) (j : Nat) : Prop :=
  ∃ box, ui.depth_first[j]? = some box ∧ (ui.boxes box).flags &&& UI_BOX_CAN_FOCUS ≠ 0

/-! ## Specification vocabulary for the pattern grammar -/

/-- An atom of the grammar: `'*' | '#'ident | '.'ident | ':'pseudo`. -/
inductive PatternAtom where
  | any
  | id (name : List Char)
  | tag (name : List Char)
  | first
  | last
  | odd
  | even
  deriving DecidableEq, Repr

/-- The text of an atom. -/
def PatternAtom.text : PatternAtom → List Char
  | .any => ['*']
  | .id name => '#' :: name
  | .tag name => '.' :: name
  | .first => [':', 'f', 'i', 'r', 's', 't']
  | .last => [':', 'l', 'a', 's', 't']
  | .odd => [':', 'o', 'd', 'd']
  | .even => [':', 'e', 'v', 'e', 'n']

/-- The selector that stands for an atom in an AND-node. -/
def PatternAtom.selector : PatternAtom → UiSelector
  | .any => ⟨.UI_PATTERN_ANY, ""⟩
  | .id name => ⟨.UI_PATTERN_ID, String.mk name⟩
  | .tag name => ⟨.UI_PATTERN_TAG, String.mk name⟩
  | .first => ⟨.UI_PATTERN_IS_FIRST, ""⟩
  | .last => ⟨.UI_PATTERN_IS_LAST, ""⟩
  | .odd => ⟨.UI_PATTERN_IS_ODD, ""⟩
  | .even => ⟨.UI_PATTERN_IS_EVEN, ""⟩

/-- The atom carries a name (`'#'ident` or `'.'ident`). -/
def PatternAtom.named : PatternAtom → Bool
  | .id _ => true
  | .tag _ => true
  | _ => false

/-- A name is a non-empty run of characters other than `'#'`, `'.'`, `':'` and
the space. -/
def PatternAtom.wf : PatternAtom → Prop
  | .id name => name ≠ [] ∧ ∀ c ∈ name, c ≠ '#' ∧ c ≠ '.' ∧ c ≠ ':' ∧ c ≠ ' '
  | .tag name => name ≠ [] ∧ ∀ c ∈ name, c ≠ '#' ∧ c ≠ '.' ∧ c ≠ ':' ∧ c ≠ ' '
  | _ => True

/-- The text of a segment: its atoms one after the other. -/
def segment_text : List PatternAtom → List Char
  | [] => []
  | a :: rest => a.text ++ segment_text rest

/-- Every name of the segment runs up to the next `'#'`, `'.'`, `':'` or the
end of the segment: no `'*'` atom stands right after a named atom (the `'*'`
would be part of the name). -/
def names_maximal : List PatternAtom → Prop
  | [] => True
  | [_] => True
  | a :: b :: rest => (a.named = true → b ≠ .any) ∧ names_maximal (b :: rest)

/-- A segment of the grammar (`atom+`) with its atoms. -/
def GrammarSegment (atoms : List PatternAtom) : Prop :=
  atoms ≠ [] ∧ (∀ a ∈ atoms, a.wf) ∧ names_maximal atoms

/-- The text of a path: its segments separated by one space. -/
def path_text : List (List PatternAtom) → List Char
  | [] => []
  | [seg] => segment_text seg
  | seg :: rest => segment_text seg ++ ' ' :: path_text rest

/-- A path of the grammar (`segment (' ' segment)*`) with its segments. -/
def GrammarPath (segs : List (List PatternAtom)) : Prop :=
  segs ≠ [] ∧ ∀ seg ∈ segs, GrammarSegment seg

/-- A segment that is malformed in one of the two ways of the claim: after a
run of well-formed atoms comes an atom that begins with a character other than
`'*'`, `'#'`, `'.'`, `':'` (the run does not end in a name, of which the
character would be part), or a `':'` that none of `first`, `last`, `odd`,
`even` follows. -/
def BadSegment (seg : List Char) : Prop :=
  ∃ (atoms : List PatternAtom) (rest : List Char),
    seg = segment_text atoms ++ rest ∧ (∀ a ∈ atoms, a.wf) ∧ names_maximal atoms ∧
    ((∃ c r, rest = c :: r ∧ c ≠ '*' ∧ c ≠ '#' ∧ c ≠ '.' ∧ c ≠ ':' ∧
        ∀ a, atoms.getLast? = some a → a.named = false) ∨
      (∃ r, rest = ':' :: r ∧ ¬ (['f', 'i', 'r', 's', 't'] <+: r) ∧
        ¬ (['l', 'a', 's', 't'] <+: r) ∧ ¬ (['o', 'd', 'd'] <+: r) ∧
        ¬ (['e', 'v', 'e', 'n'] <+: r)))

/-- The tokens `str_split` is to emit for the bytes `rest` after the bytes
`cur` of the token under way (none of them a separator). -/
def split_tokens (separators : List Char) (keep_separators keep_empties : Bool) :
    List Char → List Char → List (List Char)
  | cur, [] => if keep_empties ∨ cur ≠ [] then [cur] else []
  | cur, c :: rest =>
    if c ∉ separators then
      split_tokens separators keep_separators keep_empties (cur ++ [c]) rest
    else
      (if keep_empties ∨ cur ≠ [] then [cur] else []) ++
        (if keep_separators then [[c]] else []) ++
        split_tokens separators keep_separators keep_empties [] rest

/-- The text after a name ends the name: it is empty or begins with `'#'`,
`'.'`, `':'` or a space. -/
def name_stops (l : List Char) : Prop :=
  ∀ c, l.head? = some c → pattern_name_end c = true

/-- The atoms are well formed and every name among them ends where the text of
the next atom, or else `rest`, begins. -/
def atoms_then (rest : List Char) : List PatternAtom → Prop
  | [] => True
  | a :: as => a.wf ∧ (a.named = true → name_stops (segment_text as ++ rest)) ∧
      atoms_then rest as

/-- The AND-node after one more atom: the selector is appended, and a
`'#'` atom counts in `specificity.id`, a `'.'` or `':'` atom in
`specificity.tag`. -/
def absorb_atom (result : UiPatternAnd) : PatternAtom → UiPatternAnd
  | .any => result.push .UI_PATTERN_ANY []
  | .id name => result.inc_id.push .UI_PATTERN_ID name
  | .tag name => result.inc_tag.push .UI_PATTERN_TAG name
  | .first => result.inc_tag.push .UI_PATTERN_IS_FIRST []
  | .last => result.inc_tag.push .UI_PATTERN_IS_LAST []
  | .odd => result.inc_tag.push .UI_PATTERN_IS_ODD []
  | .even => result.inc_tag.push .UI_PATTERN_IS_EVEN []

/-- The AND-node after a run of atoms. -/
def absorb_atoms (result : UiPatternAnd) : List PatternAtom → UiPatternAnd
  | [] => result
  | a :: rest => absorb_atoms (absorb_atom result a) rest

/-! ## Specification vocabulary for the style setters -/

/-- The five kinds of value of a style attribute. -/
inductive ValueKind where
  | u32
  | f32
  | vec2
  | vec4
  | size
  deriving DecidableEq, Repr

/-- A value handed to a typed setter, with its kind. -/
inductive StyleValue where
  | u32 (val : Nat)
  | f32 (val : F32)
  | vec2 (val : Vec2)
  | vec4 (val : Vec4)
  | size (val : UiSize)

def StyleValue.kind : StyleValue → ValueKind
  | .u32 _ => .u32
  | .f32 _ => .f32
  | .vec2 _ => .vec2
  | .vec4 _ => .vec4
  | .size _ => .size

/-- The call of the typed setter of the kind of the value. -/
def ui_style_box (ui : Ui) (box : BoxId) (attr : UiStyleAttribute) : StyleValue → Except Fault Ui
  | .u32 val => ui_style_box_u32 ui box attr val
  | .f32 val => ui_style_box_f32 ui box attr val
  | .vec2 val => ui_style_box_vec2 ui box attr val
  | .vec4 val => ui_style_box_vec4 ui box attr val
  | .size val => ui_style_box_size ui box attr val

open UiStyleAttribute in
/-- The kind of value of each attribute. -/
def attr_kind : UiStyleAttribute → ValueKind
  | UI_WIDTH => .size
  | UI_HEIGHT => .size
  | UI_AXIS => .u32
  | UI_BG_COLOR => .vec4
  | UI_BG_COLOR2 => .vec4
  | UI_TEXT_COLOR => .vec4
  | UI_RADIUS => .vec4
  | UI_PADDING => .vec2
  | UI_SPACING => .f32
  | UI_ALIGN_X => .u32
  | UI_ALIGN_Y => .u32
  | UI_FLOAT_X => .f32
  | UI_FLOAT_Y => .f32
  | UI_OVERFLOW_X => .u32
  | UI_OVERFLOW_Y => .u32
  | UI_EDGE_SOFTNESS => .f32
  | UI_BORDER_COLOR => .vec4
  | UI_BORDER_WIDTHS => .vec4
  | UI_INSET_SHADOW_COLOR => .vec4
  | UI_OUTSET_SHADOW_COLOR => .vec4
  | UI_INSET_SHADOW_WIDTH => .f32
  | UI_OUTSET_SHADOW_WIDTH => .f32
  | UI_SHADOW_OFFSETS => .vec2
  | UI_BLUR_RADIUS => .f32
  | UI_ANIMATION => .u32
  | UI_ANIMATION_TIME => .f32

/-! ## Specification vocabulary for the scroll box -/

/-- The box `c` is a live box of the store: it is allocated, not on the free
list, and every slot of the identity map that holds it finds it stamped with
the current flag (it was declared in the pass under way). -/
def Live (c : BoxId) (ui : Ui) : Prop :=
  c < ui.box_count ∧ c ∉ ui.free_boxes ∧
    ∀ k, map_get_ptr ui.box_cache k = some c → (ui.boxes c).gc_flag = ui.gc_flag

/-- From `u` to `v` the box `c` keeps its rect and the extent of its content,
and stays a live box if it was one. -/
structure SizeKeeps (c : BoxId) (u v : Ui) : Prop where
  rect : (v.boxes c).rect = (u.boxes c).rect
  content_w : (v.boxes c).content.w = (u.boxes c).content.w
  content_h : (v.boxes c).content.h = (u.boxes c).content.h
  gc : (v.boxes c).gc_flag = (u.boxes c).gc_flag
  gc_flag : v.gc_flag = u.gc_flag
  box_count : u.box_count ≤ v.box_count
  free_boxes : ∀ b ∈ v.free_boxes, b ∈ u.free_boxes
  box_cache : ∀ k, map_get_ptr v.box_cache k = some c → map_get_ptr u.box_cache k = some c

/-- From `u` to `v` the box `c` keeps its rect and its content rect, offsets
included. -/
def Keeps (c : BoxId) (u v : Ui) : Prop :=
  SizeKeeps c u v ∧ (v.boxes c).content = (u.boxes c).content

/-! ## Sample inputs for the pattern parser -/

/-- The path `#x.a:first *`: two segments, the first with three atoms. -/
def demo_path : List (List PatternAtom) :=
  [[.id ['x'], .tag ['a'], .first], [.any]]

/-- Frame hooks that do nothing: an empty build code and no-op stages. -/
def demo_hooks : FrameHooks := ⟨.ok, .ok, .ok, .ok, .ok⟩

/-- The record of stages of an outcome of `ui_frame`. -/
def frame_log : Except Fault (Ui × List FrameStage) → Option (List FrameStage)
  | .ok r => some r.2
  | .error _ => none

/-- A mouse-move event. -/
def demo_move : Event := ⟨.EVENT_MOUSE_MOVE, 5, 7, 0, 0, 0⟩

/-- The outcome of a frame with two events on the initial context. -/
def demo_frame : Ui × List FrameStage :=
  match ui_frame demo_hash demo_hooks 800 600 [demo_move, demo_event] 0 demo_init with
  | .ok r => r
  | .error _ => (demo_init, [])

/-- A context inside a rebuild pass: the root (box 0) and a scroll container
(box 1) of view 300 x 200 with content 300 x 500 are declared and on the parent
stack, the container was scrolled to -450, and the event is a wheel turn. -/
def demo_scroll : Ui :=
  { ui_init 800 600 ⟨.EVENT_SCROLL, 0, 3, 0, 0, 0⟩ with
    boxes := fun b =>
      if b = 0 then
        { UiBox.zeroed with label := "root", key := demo_hash "root" 0, children := [1],
                            rect := ⟨0, 0, 800, 600⟩ }
      else if b = 1 then
        { UiBox.zeroed with label := "list", key := demo_hash "list" (demo_hash "root" 0),
                            parent := some 0, flags := UI_BOX_REACTIVE ||| UI_BOX_CLIPPING,
                            scratch := 1, rect := ⟨0, 0, 300, 200⟩,
                            content := ⟨0, -450, 300, 500⟩ }
      else UiBox.zeroed
    box_count := 2
    root := some 0
    depth_first := [0, 1]
    box_stack := [1, 0]
    box_cache := [(demo_hash "root" 0, 0), (demo_hash "list" (demo_hash "root" 0), 1)]
    clip_stack := [⟨0, 0, 300, 200⟩, ⟨0, 0, 800, 600⟩] }

/-- The context after `ui_scroll_box_pop` on the sample (the sample itself if
the call fails). -/
def demo_scroll_out : Ui := ok_or demo_scroll (ui_scroll_box_pop demo_hash demo_scroll)


/-! ## Specification vocabulary for the hash map -/

/-- A call of the map interface; `add` is `umap_add` together with the value
that the caller writes into the returned entry. -/
inductive UMapCall (K V : Type) where
  | add (key : K) (val : V)
  | remove (key : K)
  | get (key : K)

/-- The map after one call. -/
def umap_call {K V : Type} [Inhabited K] [Inhabited V] (map : UMap K V) :
    UMapCall K V → Except Fault (UMap K V)
  | .add key val => map.map_add key val
  | .remove key =>
    match umap_remove map key with
    | .error e => .error e
    | .ok (map, _) => .ok map
  | .get key =>
    match umap_get map key with
    | .error e => .error e
    | .ok _ => .ok map

/-- The map after a sequence of calls, first call first. -/
def umap_calls {K V : Type} [Inhabited K] [Inhabited V] (map : UMap K V) :
    List (UMapCall K V) → Except Fault (UMap K V)
  | [] => .ok map
  | c :: rest =>
    match umap_call map c with
    | .error e => .error e
    | .ok map => umap_calls map rest

/-- The value of the last `add` of `key` that no `remove` of `key` followed,
for calls listed latest first. -/
def last_add_rev {K V : Type} [DecidableEq K] : List (UMapCall K V) → K → Option V
  | [], _ => none
  | .add key val :: earlier, k => if key = k then some val else last_add_rev earlier k
  | .remove key :: earlier, k => if key = k then none else last_add_rev earlier k
  | .get _ :: earlier, k => last_add_rev earlier k

/-- The value of the last `add` of `key` that no `remove` of `key` followed. -/
def last_add {K V : Type} [DecidableEq K] (calls : List (UMapCall K V)) (key : K) :
    Option V :=
  last_add_rev calls.reverse key

/-- A finite map after one call. -/
def finite_map_call {K V : Type} [DecidableEq K] (f : K → Option V) :
    UMapCall K V → K → Option V
  | .add key val => Function.update f key (some val)
  | .remove key => Function.update f key none
  | .get _ => f

/-- A finite map after a sequence of calls, first call first. -/
def finite_map_calls {K V : Type} [DecidableEq K] (f : K → Option V) :
    List (UMapCall K V) → K → Option V
  | [] => f
  | c :: rest => finite_map_calls (finite_map_call f c) rest

/-- The `n`-th triangular number. -/
def tri (n : Nat) : Nat := n * (n + 1) / 2

/-- The slot of the `n`-th probe for `hash`. -/
def probe_idx (capacity hash n : Nat) : Nat := (hash + tri n) % capacity

/-- The loop of `probe` stops at slot `i`. -/
def probe_hit {K V : Type} (map : UMap K V) (cmp : Option (K → K → Bool)) (key : Option K)
    (hash i : Nat) : Prop :=
  (map.entries i).hash = 0 ∨ probe_match cmp key hash (map.entries i) = .ok true

/-- The slots below `n` whose hash satisfies `p`. -/
def slots {K V : Type} (entries : Nat → UMapEntry K V) (n : Nat) (p : Nat → Prop)
    [DecidablePred p] : Finset Nat :=
  (Finset.range n).filter (fun i => p (entries i).hash)

/-- The filled entry of slot `i` is met by the probe for its hash before any
empty slot. -/
def ProbeReachable {K V : Type} (map : UMap K V) (i : Nat) : Prop :=
  ∃ n, n < map.capacity ∧ probe_idx map.capacity (map.entries i).hash n = i ∧
    ∀ j, j < n → (map.entries (probe_idx map.capacity (map.entries i).hash j)).hash ≠ 0

/-- The key comparison of the schema is equality of keys. -/
def UMapSchema.lawful {K : Type} (schema : UMapSchema K) : Prop :=
  ∀ a b, schema.cmp a b = true ↔ a = b

/-- The representation invariant of the table. -/
structure UMapInv {K V : Type} (map : UMap K V) : Prop where
  lawful : map.schema.lawful
  pow2 : ∃ e, map.capacity = 2 ^ e
  cap_min : 16 ≤ map.capacity
  cap_max : map.capacity ≤ 2 ^ 31
  hash_ok : ∀ i, i < map.capacity → 2 ≤ (map.entries i).hash →
    (map.entries i).hash = max (map.schema.hasher (map.entries i).key) 2
  distinct : ∀ i j, i < map.capacity → j < map.capacity → 2 ≤ (map.entries i).hash →
    2 ≤ (map.entries j).hash → (map.entries i).key = (map.entries j).key → i = j
  reach : ∀ i, i < map.capacity → 2 ≤ (map.entries i).hash → ProbeReachable map i
  count_eq : map.count = (slots map.entries map.capacity (fun h => 2 ≤ h)).card
  tomb_eq : map.tomb_count = (slots map.entries map.capacity (fun h => h = 1)).card
  load : map.count + map.tomb_count ≤ map.capacity * 70 / 100 + 1

/-- Some filled entry of the table has the key and the value. -/
def UMap.holds {K V : Type} (map : UMap K V) (key : K) (val : V) : Prop :=
  ∃ i, i < map.capacity ∧ 2 ≤ (map.entries i).hash ∧ (map.entries i).key = key ∧
    (map.entries i).val = val

/-- The table holds the pairs of the finite map `f`, and no other. -/
def Represents {K V : Type} (map : UMap K V) (f : K → Option V) : Prop :=
  ∀ k v, f k = some v ↔ map.holds k v

/-- The invariant of the loop of `rehash` after `n` rounds: `map` is the new
table, `old_map` the table being copied. -/
structure RehashInv {K V : Type} (old_map map : UMap K V) (n : Nat) : Prop where
  no_tomb : ∀ s, s < map.capacity → (map.entries s).hash ≠ 1
  origin : ∀ s, s < map.capacity → 2 ≤ (map.entries s).hash →
    ∃ i, i < n ∧ 2 ≤ (old_map.entries i).hash ∧ map.entries s = old_map.entries i
  placed : ∀ i, i < n → 2 ≤ (old_map.entries i).hash →
    ∃ s, s < map.capacity ∧ map.entries s = old_map.entries i
  distinct : ∀ i j, i < map.capacity → j < map.capacity → 2 ≤ (map.entries i).hash →
    2 ≤ (map.entries j).hash → (map.entries i).key = (map.entries j).key → i = j
  reach : ∀ s, s < map.capacity → 2 ≤ (map.entries s).hash → ProbeReachable map s
  card : (slots map.entries map.capacity (fun h => 2 ≤ h)).card =
    (slots old_map.entries n (fun h => 2 ≤ h)).card

/-! ## Sample run of the hash map -/

/-- The schema of the usage example of `map.h`: `U64` keys, compared with `==`
and hashed to the key plus one. -/
def demo_umap_schema : UMapSchema Nat := ⟨fun a b => a == b, fun k => (k + 1) % 2 ^ 64⟩

/-- A map structure before `umap_init`. -/
def demo_umap_blank : UMap Nat Nat :=
  ⟨0, 0, 0, fun _ => UMapEntry.zeroed, false, demo_umap_schema⟩

/-- Thirteen keys, which makes the table of 16 slots grow, then a removal and
a second value for key 3. -/
def demo_umap_calls : List (UMapCall Nat Nat) :=
  (List.range 13).map (fun k => .add k (10 * k)) ++ [.remove 5, .add 3 33, .get 3]

/-- The map of an `.ok` outcome, `d` otherwise. -/
def umap_ok_or {K V : Type} (d : UMap K V) : Except Fault (UMap K V) → UMap K V
  | .ok m => m
  | .error _ => d

/-- The map after `umap_init` for no requested size and the sample calls. -/
def demo_umap : UMap Nat Nat :=
  umap_ok_or demo_umap_blank
    (umap_calls (umap_ok_or demo_umap_blank (umap_init demo_umap_blank 0 demo_umap_schema))
      demo_umap_calls)

/-- The table of `umap_init` for no requested size, without entries. -/
def demo_umap_fresh : UMap Nat Nat :=
  umap_ok_or demo_umap_blank (umap_init demo_umap_blank 0 demo_umap_schema)

/-- The map, entry and flag of an `.ok` outcome of `umap_add`. -/
def umap_add_or {K V : Type} (d : UMap K V) : Except Fault (UMap K V × Nat × Bool) →
    UMap K V × Nat × Bool
  | .ok r => r
  | .error _ => (d, 0, false)

/-- The outcome of a first `umap_add` of key 7 on the fresh table. -/
def demo_umap_first : UMap Nat Nat × Nat × Bool :=
  umap_add_or demo_umap_blank (umap_add demo_umap_fresh 7)

/-- The outcome of a second `umap_add` of key 7. -/
def demo_umap_second : UMap Nat Nat × Nat × Bool :=
  umap_add_or demo_umap_blank (umap_add demo_umap_first.1 7)

/-! ## Sample inputs for the animation -/

/-- A current style with animation mask 5 and animation time 2. -/
def demo_style_current : UiStyle :=
  { default_box_style with animation_mask := 5, animation_time := 2 }

/-- A target style that animates nothing, with animation time 1 and another
background colour. -/
def demo_style_target : UiStyle :=
  { default_box_style with animation_mask := 0, animation_time := 1, bg_color := ⟨1, 0, 0, 1⟩ }

/-! ## Specification vocabulary for the selectors -/

/-- What the specification says of an atom, for a box at index `idx` among the
`count` children of its parent. -/
def PatternAtom.holds (box : UiBox) (l : ParentLink) : PatternAtom → Prop
  | .any => True
  | .id name => box.label = String.mk name
  | .tag name => String.mk name ∈ box.tags
  | .first => l.idx = 0
  | .last => l.idx + 1 = l.count
  | .odd => l.idx % 2 = 1
  | .even => l.idx % 2 = 0

/-- The name of the atom holds no zero byte, as every name does that is cut
from a pattern text given as a C string. -/
def PatternAtom.no_zero : PatternAtom → Prop
  | .id name => Char.ofNat 0 ∉ name
  | .tag name => Char.ofNat 0 ∉ name
  | _ => True

/-- A box labelled `x`, tagged `a` and `b`. -/
def demo_box_tagged : UiBox := { UiBox.zeroed with label := "x", tags := ["a", "b"] }

/-! ## Specification vocabulary for the specificity -/

/-- The atom is a `'#'` atom. -/
def PatternAtom.is_id : PatternAtom → Bool
  | .id _ => true
  | _ => false

/-- The atom is a `'.'` atom or a `':'` pseudo atom. -/
def PatternAtom.is_tag_or_pseudo : PatternAtom → Bool
  | .tag _ => true
  | .first => true
  | .last => true
  | .odd => true
  | .even => true
  | _ => false

/-- The pair of the specification for the atoms of a pattern: the number of
`'#'` atoms, and the number of `'.'` atoms plus the number of `':'` atoms. -/
def atoms_specificity (atoms : List PatternAtom) : UiSpecificity :=
  ⟨atoms.countP PatternAtom.is_id, atoms.countP PatternAtom.is_tag_or_pseudo⟩

/-! ## Specification vocabulary for `str_split` -/

/-- The text of a string cut at its separator bytes: the run before the first
separator, then each separator byte with the run that follows it. -/
def split_text (head : List Char) : List (Char × List Char) → List Char
  | [] => head
  | (sep, run) :: rest => head ++ sep :: split_text run rest

/-- The cut is the one at the separator bytes: the runs hold no separator (so
they are the maximal runs of other bytes), and the bytes between them are
separators. -/
def SplitRuns (separators head : List Char) (tail : List (Char × List Char)) : Prop :=
  (∀ c ∈ head, c ∉ separators) ∧ ∀ p ∈ tail, p.1 ∈ separators ∧ ∀ c ∈ p.2, c ∉ separators

/-- The token of a run: empty runs are left out unless `keep_empties`. -/
def emit_run (keep_empties : Bool) (run : List Char) : List (List Char) :=
  if keep_empties ∨ run ≠ [] then [run] else []

/-- The token of a separator byte, emitted when `keep_separators`. -/
def emit_sep (keep_separators : Bool) (sep : Char) : List (List Char) :=
  if keep_separators then [[sep]] else []

/-- The tokens of the specification, in position. -/
def split_emit (keep_separators keep_empties : Bool) (head : List Char) :
    List (Char × List Char) → List (List Char)
  | [] => emit_run keep_empties head
  | (sep, run) :: rest =>
    emit_run keep_empties head ++ emit_sep keep_separators sep ++
      split_emit keep_separators keep_empties run rest

/-- The cut of a string at its separator bytes. -/
def split_runs (separators : List Char) : List Char → List Char × List (Char × List Char)
  | [] => ([], [])
  | c :: rest =>
    let r := split_runs separators rest
    if c ∈ separators then ([], (c, r.1) :: r.2) else (c :: r.1, r.2)

/-- The example of the comment of `str_split`: `/a/b|c//foobar/`, cut at `/`
and `|`. -/
def demo_split : List Char × List (Char × List Char) :=
  ([], [('/', ['a']), ('/', ['b']), ('|', ['c']), ('/', []),
        ('/', ['f', 'o', 'o', 'b', 'a', 'r']), ('/', [])])

/-! ## Specification vocabulary for the winner of an attribute -/

/-- The pair ordering of specificities: the higher id-count wins, ties are
broken by the tag-count. -/
def UiSpecificity.le (a b : UiSpecificity) : Prop :=
  a.id < b.id ∨ (a.id = b.id ∧ a.tag ≤ b.tag)

/-- The strict pair ordering of specificities. -/
def UiSpecificity.lt (a b : UiSpecificity) : Prop :=
  a.id < b.id ∨ (a.id = b.id ∧ a.tag < b.tag)

/-- The rule `r` is the last one, in the order of `rules`, among the rules
that set `attr` on the box (the matching single-segment rules whose mask holds
the attribute) and whose specificity is maximal among them. -/
def LastOfMax (box : UiBox) (link : Option ParentLink) (attr : UiStyleAttribute)
    (rules : List UiStyleRule) (r : UiStyleRule) : Prop :=
  ∃ pre post, rules = pre ++ r :: post ∧ rule_selects box link r attr ∧
    (∀ r' ∈ pre, rule_selects box link r' attr →
      r'.pattern.specificity.le r.pattern.specificity) ∧
    (∀ r' ∈ post, rule_selects box link r' attr →
      r'.pattern.specificity.lt r.pattern.specificity)

/-- The rule `.b` with specificity (0,1), setting the background colour. -/
def demo_rule_b : UiStyleRule where
  style_ptr := 3
  style := { default_box_style with bg_color := ⟨1, 0, 0, 1⟩ }
  pattern := ⟨⟨0, 1⟩, [⟨⟨0, 1⟩, [⟨.UI_PATTERN_TAG, "b"⟩]⟩]⟩
  mask := style_attr_to_mask .UI_BG_COLOR

/-- The rule `:first`, also with specificity (0,1), setting another background
colour. -/
def demo_rule_first : UiStyleRule where
  style_ptr := 4
  style := { default_box_style with bg_color := ⟨0, 1, 0, 1⟩ }
  pattern := ⟨⟨0, 1⟩, [⟨⟨0, 1⟩, [⟨.UI_PATTERN_IS_FIRST, ""⟩]⟩]⟩
  mask := style_attr_to_mask .UI_BG_COLOR

/-- A root with two children tagged `b`: the first declares the rule `.b`, the
second declares nothing. -/
def demo_tree_siblings : BoxTree :=
  .node { UiBox.zeroed with label := "r" }
    [.node { UiBox.zeroed with label := "p", tags := ["b"], style_rules := [demo_rule_b] } [],
     .node { UiBox.zeroed with label := "q", tags := ["b"] } []]

def demo_cascade_siblings : BoxTree :=
  tree_or demo_tree_siblings (apply_style_rules_box demo_powf 0 none demo_tree_siblings [])

/-- A box tagged `a`, first child of its parent, that declares `#x.a`, `.a` and
`:first` in this order while the rule `.b` is active. -/
def demo_box_ties : UiBox :=
  { UiBox.zeroed with label := "y", tags := ["a"],
                      style_rules := [demo_rule_id, demo_rule_tag, demo_rule_first] }

def demo_cascade_ties : BoxTree :=
  tree_or (.node demo_box_ties [])
    (apply_style_rules_box demo_powf 0 (some ⟨0, 1⟩) (.node demo_box_ties []) [demo_rule_b])

/-! ## Specification vocabulary for the cycle guard -/

/-- The size mode of a box on an axis. -/
def size_mode (boxes : BoxId → UiBox) (axis : Nat) (b : BoxId) : UiSizeTag :=
  ((boxes b).style.size axis).tag

/-- The listing is one of a tree from the parents to the children: no box is
listed twice, and the children of a listed box are listed after it. -/
def ChildrenAfter (boxes : BoxId → UiBox) : List BoxId → Prop
  | [] => True
  | b :: rest => b ∉ rest ∧ (∀ c ∈ (boxes b).children, c ∈ rest) ∧ ChildrenAfter boxes rest

/-- The box is children-sum and has a child that is percent-of-parent, at the
start of the pass or through the reclassification of that child. -/
inductive Reclassified (boxes : BoxId → UiBox) (axis : Nat) : BoxId → Prop where
  | direct (b c : BoxId) (hb : size_mode boxes axis b = .UI_SIZE_CHILDREN_SUM)
      (hc : c ∈ (boxes b).children) (hpct : size_mode boxes axis c = .UI_SIZE_PCT_PARENT) :
      Reclassified boxes axis b
  | chain (b c : BoxId) (hb : size_mode boxes axis b = .UI_SIZE_CHILDREN_SUM)
      (hc : c ∈ (boxes b).children) (hrec : Reclassified boxes axis c) :
      Reclassified boxes axis b

/-- What the pass over the boxes of `order` leaves in the heap `boxes'`. -/
structure CycleGuard (boxes boxes' : BoxId → UiBox) (axis : Nat) (order : List BoxId) :
    Prop where
  children : ∀ x, (boxes' x).children = (boxes x).children
  other : ∀ x, x ∉ order → (boxes' x).style.size axis = (boxes x).style.size axis
  reclassified : ∀ x, x ∈ order → Reclassified boxes axis x →
    ((boxes' x).style.size axis).tag = .UI_SIZE_PCT_PARENT ∧
      ((boxes' x).style.size axis).value = 1
  kept : ∀ x, x ∈ order → ¬ Reclassified boxes axis x →
    (boxes' x).style.size axis = (boxes x).style.size axis

/-- A children-sum root over a children-sum box over a percent-of-parent
box, with a pixel-sized sibling. -/
def demo_cycle : Ui :=
  { ui_init 800 600 demo_event with
    boxes := fun b =>
      if b = 0 then { UiBox.zeroed with children := [1, 3], style := default_box_style }
      else if b = 1 then
        { UiBox.zeroed with parent := some 0, children := [2], style := default_box_style }
      else if b = 2 then
        { UiBox.zeroed with parent := some 1,
                            style := { default_box_style with
                                       size_width := ⟨.UI_SIZE_PCT_PARENT, 1 / 2, 0⟩ } }
      else demo_child 100
    box_count := 4
    depth_first := [0, 1, 2, 3] }

/-! ## Specification vocabulary for the positions -/

/-- The non-floating children of a child list, in the order of the list. -/
def inflow (boxes : BoxId → UiBox) (axis : Nat) (children : List BoxId) : List BoxId :=
  children.filter (fun c => ((boxes c).style.floating axis).isNone)

/-- The position of a box on an axis. -/
def box_pos (boxes : BoxId → UiBox) (axis : Nat) (b : BoxId) : F32 :=
  (boxes b).rect.top_left axis

/-- A root at (20, 30) with padding 8 and spacing 4, laid out along axis 0,
with the children 1 (100 wide), 2 (floating at offset 5, 30 wide) and 3 (140
wide). -/
def demo_positions : Ui :=
  { ui_init 800 600 demo_event with
    boxes := fun b =>
      if b = 0 then
        { UiBox.zeroed with children := [1, 2, 3]
                            style := { default_box_style with padding := ⟨8, 8⟩, spacing := 4 }
                            rect := ⟨20, 30, 300, 200⟩ }
      else if b = 1 then demo_child 100
      else if b = 2 then
        { demo_floating_child 30 with
          style := { (demo_floating_child 30).style with floating_x := some 5 } }
      else demo_child 140
    box_count := 4
    depth_first := [0, 1, 2, 3] }

/-! ## Specification vocabulary for the hit test -/

/-- The rect that a clipping box pushes: its rect inside its borders. -/
def clip_rect_of (b : UiBox) : UiRect :=
  ⟨b.rect.x + b.style.border_widths.z, b.rect.y + b.style.border_widths.y,
    b.rect.w - (b.style.border_widths.x + b.style.border_widths.z),
    b.rect.h - (b.style.border_widths.w + b.style.border_widths.y)⟩

/-- The clip rect for the children of a box: the clip rect of the box, cut by
the box when it clips. -/
def clip_below (boxes : BoxId → UiBox) (clip : UiRect) (box : BoxId) : UiRect :=
  if (boxes box).flags &&& UI_BOX_CLIPPING ≠ 0 then
    compute_rect_intersect (clip_rect_of (boxes box)) clip
  else clip

/-- The boxes of the tree below `box` in pre-order (a box, then the trees of
its children in the order of the child list), each with the clip rect
accumulated from its clipping ancestors; `depth` bounds the depth of the
tree. -/
def preorder_clips (boxes : BoxId → UiBox) : Nat → UiRect → BoxId → List (BoxId × UiRect)
  | 0, _, _ => []
  | depth + 1, clip, box =>
    (box, clip) ::
      ((boxes box).children.map
        (fun child => preorder_clips boxes depth (clip_below boxes clip box) child)).flatten

/-- The box qualifies: it lacks the click-through flag, and its rect cut by the
clip rect strictly contains the pointer. -/
def qualifies (boxes : BoxId → UiBox) (mouse : Vec2) (e : BoxId × UiRect) : Bool :=
  decide ((boxes e.1).flags &&& UI_BOX_CLICK_THROUGH = 0) &&
    within_box (compute_rect_intersect (boxes e.1).rect e.2) mouse

/-- The last qualifying box of a listing, `old` when none qualifies. -/
def last_hit (boxes : BoxId → UiBox) (mouse : Vec2) (old : Option BoxId)
    (es : List (BoxId × UiRect)) : Option BoxId :=
  match (es.filter (qualifies boxes mouse)).getLast? with
  | some e => some e.1
  | none => old

/-- A root of 100 by 100 with a clipping child 1 (40 by 40) that holds a child
2 of 80 by 80, and a click-through child 3 (100 by 100); the pointer is at
(10, 10) in the first sample and at (60, 60) in the second. -/
def demo_hit (mouse : Vec2) : Ui :=
  { ui_init 800 600 demo_event with
    boxes := fun b =>
      if b = 0 then { UiBox.zeroed with children := [1, 3], rect := ⟨0, 0, 100, 100⟩ }
      else if b = 1 then
        { UiBox.zeroed with parent := some 0, children := [2], flags := UI_BOX_CLIPPING,
                            rect := ⟨0, 0, 40, 40⟩ }
      else if b = 2 then { UiBox.zeroed with parent := some 1, rect := ⟨0, 0, 80, 80⟩ }
      else
        { UiBox.zeroed with parent := some 0, flags := UI_BOX_CLICK_THROUGH,
                            rect := ⟨0, 0, 100, 100⟩ }
    box_count := 4
    root := some 0
    depth_first := [0, 1, 2, 3]
    clip_stack := [⟨0, 0, 800, 600⟩]
    mouse := mouse }

/-- The context with another hovered box and another clip stack. -/
def hit_state (ui : Ui) (hovered : Option BoxId) (clip_stack : List UiRect) : Ui :=
  { ui with hovered := hovered, clip_stack := clip_stack }

/-! ## Layout: positions (`compute_positions`) -/

/-- The C function `floor` on a coordinate. -/
def floor (x : F32) : F32 := ((⌊x⌋ : ℤ) : F32)

/-- The `switch (box->style.align[axis])` of `compute_positions`. -/
def align_offset (align : Nat) (rect_size content_size : F32) : F32 :=
  if align = UI_ALIGN_MIDDLE then floor (rect_size / 2 - content_size / 2)
  else if align = UI_ALIGN_END then rect_size - content_size
  else 0

/-- The loop that places the children of `box` on its layout axis
(lines 1425-1432), from the position `pos` on. -/
def place_children (axis : Nat) (box : BoxId) : List BoxId → F32 → Ui → Ui
  | [], _, ui => ui
  | child :: rest, pos, ui =>
    match (ui.boxes child).style.floating axis with
    | none =>
      let ui := ui.modify_box child (fun c => { c with rect := c.rect.set_top_left axis pos })
      place_children axis box rest
        (pos + ((ui.boxes child).rect.size axis + (ui.boxes box).style.spacing)) ui
    | some offset =>
      let ui := ui.modify_box child (fun c =>
        { c with rect := c.rect.set_top_left axis ((ui.boxes box).rect.top_left axis + offset) })
      place_children axis box rest pos ui

/-- The branch of `compute_positions` for the layout axis of the box, up to the
loop that floors the rects of the children. -/
def compute_positions_flow (ui : Ui) (axis : Nat) (box : BoxId) : Ui :=
  let b := ui.boxes box
  let content_size :=
    sum_children ui.boxes axis b.style.spacing b.children (2 * b.style.padding.v axis)
  let ui := ui.modify_box box (fun b =>
    { b with content := b.content.set_size axis (floor content_size) })
  let b := ui.boxes box
  let offset := align_offset (b.style.align axis) (b.rect.size axis) content_size
  let pos := b.rect.top_left axis + b.style.padding.v axis + offset + b.content.top_left axis
  place_children axis box b.children pos ui

/-- The loop over the children on the other axis (lines 1436-1453). -/
def place_children_cross (axis : Nat) (box : BoxId) : List BoxId → Ui → Ui
  | [], ui => ui
  | child :: rest, ui =>
    match (ui.boxes child).style.floating axis with
    | none =>
      let b := ui.boxes box
      let content_size := (ui.boxes child).rect.size axis + 2 * b.style.padding.v axis
      let ui := ui.modify_box box (fun b =>
        { b with content :=
            b.content.set_size axis (floor (max (b.content.size axis) content_size)) })
      let b := ui.boxes box
      let offset := align_offset (b.style.align axis) (b.rect.size axis) content_size
      let pos := b.rect.top_left axis + b.style.padding.v axis + offset + b.content.top_left axis
      let ui := ui.modify_box child (fun c => { c with rect := c.rect.set_top_left axis pos })
      place_children_cross axis box rest ui
    | some offset =>
      let ui := ui.modify_box child (fun c =>
        { c with rect := c.rect.set_top_left axis ((ui.boxes box).rect.top_left axis + offset) })
      place_children_cross axis box rest ui

/-- The branch of `compute_positions` for the other axis. -/
def compute_positions_cross (ui : Ui) (axis : Nat) (box : BoxId) : Ui :=
  let ui := ui.modify_box box (fun b => { b with content := b.content.set_size axis 0 })
  place_children_cross axis box (ui.boxes box).children ui

/-- The loop that floors the rects of the children (lines 1456-1461). -/
def floor_children : List BoxId → Ui → Ui
  | [], ui => ui
  | child :: rest, ui =>
    floor_children rest
      (ui.modify_box child (fun c =>
        { c with rect := ⟨floor c.rect.x, floor c.rect.y, floor c.rect.w, floor c.rect.h⟩ }))

/-- The body of the loop of `compute_positions` for one box. -/
def compute_positions_box (ui : Ui) (axis : Nat) (box : BoxId) : Ui :=
  let ui :=
    if (ui.boxes box).style.axis = axis then compute_positions_flow ui axis box
    else compute_positions_cross ui axis box
  floor_children (ui.boxes box).children ui

def compute_positions (ui : Ui) (axis : Nat) : Ui :=
  ui.depth_first.foldl (fun ui box => compute_positions_box ui axis box) ui

/-! ## Hit testing (`find_topmost_hovered_box`) -/

/-- The first statement of `find_topmost_hovered_box`: the box takes
`ui->hovered` when it is not click-through and its rect, cut by the clip rect
at the top of the clip stack, holds the pointer. -/
def hit_test (ui : Ui) (box : BoxId) : Except Fault Ui :=
  if (ui.boxes box).flags &&& UI_BOX_CLICK_THROUGH = 0 then
    match ui.clip_stack with
    | [] => .error .panic
    | clip :: _ =>
      let r := compute_rect_intersect (ui.boxes box).rect clip
      .ok (if within_box r ui.mouse then { ui with hovered := some box } else ui)
  else .ok ui

/-- The statement `if (box->flags & UI_BOX_CLIPPING) ui_push_clip_box(box)`. -/
def hit_push_clip (ui : Ui) (box : BoxId) : Except Fault Ui :=
  if (ui.boxes box).flags &&& UI_BOX_CLIPPING ≠ 0 then
    match ui_push_clip_box ui box with
    | .error e => .error e
    | .ok (ui, _) => .ok ui
  else .ok ui

/-- The statement `if (box->flags & UI_BOX_CLIPPING) ui_pop_clip()`. -/
def hit_pop_clip (ui : Ui) (box : BoxId) : Except Fault Ui :=
  if (ui.boxes box).flags &&& UI_BOX_CLIPPING ≠ 0 then
    match ui_pop_clip ui with
    | .error e => .error e
    | .ok (ui, _) => .ok ui
  else .ok ui

/-- The function `find_topmost_hovered_box`; `fuel` bounds the depth of the
recursion. -/
def find_topmost_hovered_box_fuel : Nat → Ui → BoxId → Except Fault Ui
  | 0, _, _ => .error .diverge
  | fuel + 1, ui, box =>
    match hit_test ui box with
    | .error e => .error e
    | .ok ui =>
      match hit_push_clip ui box with
      | .error e => .error e
      | .ok ui =>
        match (ui.boxes box).children.foldlM
            (fun ui child => find_topmost_hovered_box_fuel fuel ui child) ui with
        | .error e => .error e
        | .ok ui => hit_pop_clip ui box

/-- The function `find_topmost_hovered_box`. A chain of children longer than
`box_count` meets some box twice, so the C recursion never ends. -/
def find_topmost_hovered_box (ui : Ui) (box : BoxId) : Except Fault Ui :=
  find_topmost_hovered_box_fuel (ui.box_count + 1) ui box

/-! ## Rounding of binary floating point

Where a claim rests on the rounding of a floating-point operation, the
operation is modelled on scaled integers: a finite value is an integer number
of units (2^-149 for binary32, 2^-52 for the products below), and the result of
an operation is the exact result rounded to the nearest value with the given
number of significant bits, ties to even.  Infinities and NaN are outside this
model. -/

/-- The least shift `k`, from `k` on, that leaves `n / 2 ^ k` with at most
`bits` bits. -/
def sig_shift (bits n : Nat) : Nat → Nat → Nat
  | 0, k => k
  | fuel + 1, k => if n / 2 ^ k < 2 ^ bits then k else sig_shift bits n fuel (k + 1)

/-- Rounding of a natural number to `bits` significant bits, to nearest, ties
to even. -/
def round_sig (bits n : Nat) : Nat :=
  let k := sig_shift bits n n 0
  let q := n / 2 ^ k
  let r := n % 2 ^ k
  let q := if 2 ^ k < 2 * r ∨ (2 ^ k = 2 * r ∧ q % 2 = 1) then q + 1 else q
  q * 2 ^ k

/-! ## The dynamic array (`base/array.c`)

Only the fields `count` and `capacity` of `UArray` are kept: the element bytes
and the allocator play no part in the growth policy, and `mem_grow` is taken to
succeed. -/

structure UArray where
  count : Nat
  capacity : Nat
  deriving DecidableEq, Repr

/-- The macro `safe_add(A, B)` on operands of `width` bits. -/
def safe_add (width a b : Nat) : Except Fault Nat :=
  if a + b < 2 ^ width then .ok (a + b) else .error .panic

def uarray_increase_capacity (array : UArray) (n : Nat) : Except Fault UArray :=
  match safe_add 64 array.capacity n with
  | .error e => .error e
  | .ok new_cap => .ok { array with capacity := new_cap }

/-- The loop `while ((new_cap - array->count) < n) new_cap = safe_mul(new_cap, 2)`
of `uarray_ensure_capacity`.  A value that is not 0 overflows 64 bits within 64
doublings, and 0 stays 0. -/
def uarray_ensure_capacity_loop (count n : Nat) : Nat → Nat → Except Fault Nat
  | 0, _ => .error .diverge
  | fuel + 1, new_cap =>
    if (new_cap + 2 ^ 64 - count) % 2 ^ 64 < n then
      match safe_mul 64 new_cap 2 with
      | .error e => .error e
      | .ok new_cap => uarray_ensure_capacity_loop count n fuel new_cap
    else .ok new_cap

def uarray_ensure_capacity (array : UArray) (n : Nat) : Except Fault UArray :=
  let new_cap := if array.capacity ≠ 0 then array.capacity else n
  match uarray_ensure_capacity_loop array.count n 65 new_cap with
  | .error e => .error e
  | .ok new_cap =>
    let dt := (new_cap + 2 ^ 64 - array.capacity) % 2 ^ 64
    if dt ≠ 0 then uarray_increase_capacity array dt else .ok array

def uarray_increase_count (array : UArray) (n : Nat) : Except Fault UArray :=
  match (if n ≠ 0 then uarray_ensure_capacity array n else .ok array) with
  | .error e => .error e
  | .ok array => .ok { array with count := (array.count + n) % 2 ^ 64 }

/-- The function `uarray_push_many` for a slice of `elems_count` elements. -/
def uarray_push_many (array : UArray) (elems_count : Nat) : Except Fault UArray :=
  if elems_count ≠ 0 then uarray_increase_count array elems_count else .ok array

/-- The `double` nearest to the literal `1.8`, in units of 2^-52: the value
0x1.ccccccccccccdp+0. -/
def F64_1_8 : Nat := 8106479329266893

/-- The expression `cast(U64, 1.8 * array->capacity)`: the capacity is
converted to `double`, the product is rounded to `double` (both with 53
significant bits), and the cast drops the fraction.  A value that does not fit
64 bits makes the cast undefined (`segfault` here). -/
def grow_capacity (capacity : Nat) : Except Fault Nat :=
  let product := round_sig 53 (F64_1_8 * round_sig 53 capacity)
  if product / 2 ^ 52 < 2 ^ 64 then .ok (product / 2 ^ 52) else .error .segfault

def uarray_push (array : UArray) : Except Fault UArray :=
  if array.count = array.capacity then
    match (if array.capacity ≠ 0 then grow_capacity array.capacity else .ok 2) with
    | .error e => .error e
    | .ok new_cap =>
      if new_cap > array.capacity then
        match uarray_increase_capacity array new_cap with
        | .error e => .error e
        | .ok array => .ok { array with count := (array.count + 1) % 2 ^ 64 }
      else .error .panic
  else .ok { array with count := (array.count + 1) % 2 ^ 64 }

/-! ## Rectangles and the clip stack in binary32 arithmetic

`F32` is `float`.  Here a finite `F32` value is an integer number of units of
2^-149 (the least positive value), so that every finite value is represented,
and a sum or difference is the exact one rounded to 24 significant bits, ties
to even.  Results of magnitude 2^128 or more (infinite in the source) and NaN
are outside the model. -/

/-- Rounding to the nearest binary32 value. -/
def f32_round (z : Int) : Int :=
  if z < 0 then -((round_sig 24 z.natAbs : Nat) : Int) else ((round_sig 24 z.natAbs : Nat) : Int)

/-- The operator `+` on two `F32`. -/
def f32_add (a b : Int) : Int := f32_round (a + b)

/-- The operator `-` on two `F32`. -/
def f32_sub (a b : Int) : Int := f32_round (a - b)

/-- The `F32` value of a whole number (exact for magnitudes up to 2^24). -/
def f32_of_int (n : Int) : Int := n * ((2 ^ 149 : Nat) : Int)

/-- A `UiRect` of `F32` values. -/
structure UiRectF32 where
  x : Int
  y : Int
  w : Int
  h : Int
  deriving DecidableEq, Repr

/-- A `Vec2` of `F32` values. -/
structure Vec2F32 where
  x : Int
  y : Int
  deriving DecidableEq, Repr

/-- The function `within_box` with the sums rounded. -/
def within_box_f32 (r : UiRectF32) (p : Vec2F32) : Bool :=
  decide (p.x > r.x) && decide (p.x < f32_add r.x r.w) && decide (p.y > r.y) &&
    decide (p.y < f32_add r.y r.h)

/-- The function `compute_rect_intersect` with the sums and differences
rounded. -/
def compute_rect_intersect_f32 (r0 r1 : UiRectF32) : UiRectF32 :=
  let x0 := max r0.x r1.x
  let y0 := max r0.y r1.y
  let x1 := min (f32_add r0.x r0.w) (f32_add r1.x r1.w)
  let y1 := min (f32_add r0.y r0.h) (f32_add r1.y r1.h)
  ⟨x0, y0, max 0 (f32_sub x1 x0), max 0 (f32_sub y1 y0)⟩

/-- The function `ui_push_clip_rect` on the clip stack alone (top first);
returns the stack and the intersection. -/
def ui_push_clip_rect_f32 (clip_stack : List UiRectF32) (rect : UiRectF32) :
    Except Fault (List UiRectF32 × UiRectF32) :=
  match clip_stack with
  | [] => .error .panic
  | top :: _ =>
    let intersection := compute_rect_intersect_f32 rect top
    .ok (intersection :: clip_stack, intersection)

/-- The function `ui_pop_clip` on the clip stack alone; returns the stack and
its new top. -/
def ui_pop_clip_f32 (clip_stack : List UiRectF32) : Except Fault (List UiRectF32 × UiRectF32) :=
  match clip_stack with
  | [] => .error .panic
  | _ :: rest =>
    match rest with
    | [] => .error .panic
    | top :: _ => .ok (rest, top)

/-- The sums and the difference that `compute_rect_intersect` and `within_box`
compute for the two rects on one axis (`x0`, `w0` and `x1`, `w1` are the
origins and sizes) are exact. -/
structure ExactAxis (x0 w0 x1 w1 : Int) : Prop where
  sum0 : f32_add x0 w0 = x0 + w0
  sum1 : f32_add x1 w1 = x1 + w1
  diff : f32_sub (min (x0 + w0) (x1 + w1)) (max x0 x1) = min (x0 + w0) (x1 + w1) - max x0 x1
  edge : f32_add (max x0 x1) (max 0 (min (x0 + w0) (x1 + w1) - max x0 x1)) =
    max x0 x1 + max 0 (min (x0 + w0) (x1 + w1) - max x0 x1)

/-- No operation on the two rects is rounded. -/
def ExactSums (a b : UiRectF32) : Prop :=
  ExactAxis a.x a.w b.x b.w ∧ ExactAxis a.y a.h b.y b.h

/-- Every point strictly inside `r` is strictly inside `s`. -/
def ContainedF32 (r s : UiRectF32) : Prop :=
  ∀ p, within_box_f32 r p = true → within_box_f32 s p = true

/-- Rects of whole numbers that meet in binary32 to a rect that admits a point
outside the first: the difference 2^24 + 6 - 3 and the sum 3 + (2^24 + 4) are
both ties and both round up. -/
def demo_clip_top : UiRectF32 :=
  ⟨f32_of_int 0, f32_of_int 0, f32_of_int 16777222, f32_of_int 10⟩

def demo_clip_rect : UiRectF32 :=
  ⟨f32_of_int 3, f32_of_int 0, f32_of_int 33554432, f32_of_int 10⟩

/-- Rects of whole numbers whose intersection in binary32 is narrower than
both: 2^24 + 1 is not a binary32 value. -/
def demo_rect_a : UiRectF32 :=
  ⟨f32_of_int (-1), f32_of_int 0, f32_of_int 16777218, f32_of_int 10⟩

def demo_rect_b : UiRectF32 :=
  ⟨f32_of_int (-3), f32_of_int 0, f32_of_int 33554432, f32_of_int 10⟩

/-- Rects of small whole numbers, for which no operation is rounded. -/
def demo_rect_c : UiRectF32 :=
  ⟨f32_of_int 10, f32_of_int 20, f32_of_int 100, f32_of_int 50⟩

def demo_rect_d : UiRectF32 :=
  ⟨f32_of_int 40, f32_of_int 0, f32_of_int 30, f32_of_int 40⟩

/-! ## Specification vocabulary and sample inputs: setters, passes, widgets -/

/-- The value of the attribute in a style after a setter stored `val`: the
value converted to the type of the field.  The axis is a `UiAxis` of one byte,
which keeps the low byte of a `U32`; a floating offset is an optional number in
a style. -/
def StyleValue.stored (attr : UiStyleAttribute) : StyleValue → AttrValue
  | .u32 v => if attr = .UI_AXIS then .u32 (v % 2 ^ 8) else .u32 v
  | .f32 v => if attr = .UI_FLOAT_X ∨ attr = .UI_FLOAT_Y then .float (some v) else .f32 v
  | .vec2 v => .vec2 v
  | .vec4 v => .vec4 v
  | .size v => .size v

/-- The sample context `demo_u1` (the root on the parent stack) after
`ui_style_rule_push(root, ".a")`. -/
def demo_scope : Ui := ok_or demo_init (ui_style_rule_push demo_u1 0 ".a")

/-- The rule of the open scope of `demo_scope`. -/
def demo_scope_rule : UiStyleRule :=
  match (demo_scope.boxes 0).style_rules with
  | rule :: _ => rule
  | [] => ⟨0, default_box_style, ⟨⟨0, 0⟩, []⟩, 0⟩

/-- The rule has a head segment: `array_get(&rule->pattern->patterns, 0)`
passes its bounds check. -/
def UiStyleRule.has_head (rule : UiStyleRule) : Prop :=
  ∃ head tail, rule.pattern.patterns = head :: tail

/-- The pattern of the rule is the outcome of `parse_pattern` on a text with
at least one byte that is not a space. -/
def UiStyleRule.parsed (rule : UiStyleRule) : Prop :=
  ∃ text : String, (∃ c ∈ text.data, c ≠ ' ') ∧ parse_pattern text = .ok rule.pattern

/-- The rule `.a .b`, as `ui_style_rule_push` builds it. -/
def demo_rule_parsed : UiStyleRule :=
  match parse_pattern ".a .b" with
  | .ok p => ⟨3, default_box_style, p, 0⟩
  | .error _ => ⟨3, default_box_style, ⟨⟨0, 0⟩, []⟩, 0⟩

/-- The rule `.a`, as `ui_style_rule_push` builds it. -/
def demo_rule_parsed_tag : UiStyleRule :=
  match parse_pattern ".a" with
  | .ok p => ⟨4, default_box_style, p, 0⟩
  | .error _ => ⟨4, default_box_style, ⟨⟨0, 0⟩, []⟩, 0⟩

/-- A box tagged `a` that declares `.a .b` and `.a`, with one child tagged
`b`. -/
def demo_tree_parsed : BoxTree :=
  .node { UiBox.zeroed with tags := ["a"],
                            style_rules := [demo_rule_parsed, demo_rule_parsed_tag] }
    [.node { UiBox.zeroed with tags := ["b"] } []]

/-- The boxes that the calls of `ui_box_push_str` of the build code return, in
the order of the calls: the boxes declared in the pass, in declaration
order. -/
def run_ops_declared (str_hash_seed : String → UiKey → UiKey) (ui : Ui) :
    List BuildOp → Except Fault (List BoxId)
  | [] => .ok []
  | .push flags label :: rest =>
    match ui_box_push_str str_hash_seed ui flags label with
    | .error e => .error e
    | .ok (ui, box) =>
      match run_ops_declared str_hash_seed ui rest with
      | .error e => .error e
      | .ok boxes => .ok (box :: boxes)
  | .pop :: rest =>
    match ui_pop_parent ui with
    | .error e => .error e
    | .ok ui => run_ops_declared str_hash_seed ui rest

/-- Every box of the list that has a parent comes after its parent. -/
def ParentsBefore (boxes : BoxId → UiBox) (l : List BoxId) : Prop :=
  ∀ (i : Nat) (b p : BoxId), l[i]? = some b → (boxes b).parent = some p →
    ∃ j : Nat, j < i ∧ l[j]? = some p

/-- At most one box of the list reports `signal.pressed`. -/
def OnePressed (boxes : BoxId → UiBox) (l : List BoxId) : Prop :=
  ∀ b ∈ l, ∀ c ∈ l, (boxes b).signal.pressed = true → (boxes c).signal.pressed = true → b = c

/-- The sample pass that declares `root` with the children `a` and `bb`. -/
def demo_pass1 : List BuildOp := demo_pre1 ++ .push 0 "bb" :: demo_post1

/-- The context after the first sample pass, at a press of the primary button
with box 2 (`bb`) under the pointer. -/
def demo_press_pass : Ui :=
  { demo_v0 with event := ⟨.EVENT_KEY_PRESS, 0, 0, GLFW_MOUSE_BUTTON_LEFT, 0, 0⟩, hovered := some 2 }

/-- A pass that declares the same three boxes, all reactive. -/
def demo_press_ops : List BuildOp :=
  [.push UI_BOX_REACTIVE "root", .push UI_BOX_REACTIVE "a", .pop, .push UI_BOX_REACTIVE "bb",
    .pop, .pop]

def demo_pressed : Ui := ok_or demo_init (rebuild_pass demo_hash demo_press_pass demo_press_ops)

/-! ## Sample histories of frames -/

/-- A press of Tab, and a press of Tab with Shift held. -/
def demo_tab : Event := ⟨.EVENT_KEY_PRESS, 0, 0, GLFW_KEY_TAB, 0, 0⟩

def demo_shift_tab : Event := ⟨.EVENT_KEY_PRESS, 0, 0, GLFW_KEY_TAB, GLFW_MOD_SHIFT, 0⟩

/-- Build code that declares three boxes inside the root, each of which can
take the focus. -/
def demo_build_three (ui : Ui) : Except Fault Ui :=
  run_ops demo_hash ui
    [.push UI_BOX_CAN_FOCUS "a", .pop, .push UI_BOX_CAN_FOCUS "bb", .pop,
      .push UI_BOX_CAN_FOCUS "ccc", .pop]

/-- Build code that declares one box inside the root. -/
def demo_build_one (ui : Ui) : Except Fault Ui :=
  run_ops demo_hash ui [.push UI_BOX_CAN_FOCUS "a", .pop]

/-- Build code that declares nothing inside the root. -/
def demo_build_none (ui : Ui) : Except Fault Ui := .ok ui

/-- First frame of the histories: no event of interest, three boxes declared. -/
def demo_h1 : Ui :=
  ok_or demo_init (ui_frame_event demo_hash demo_build_three 800 600 demo_init demo_event)

/-- Second frame: Shift+Tab moves the focus to the last box, and the build code
declares one box only. -/
def demo_h2 : Ui :=
  ok_or demo_init (ui_frame_event demo_hash demo_build_one 800 600 demo_h1 demo_shift_tab)

/-- Second frame of the other history: Tab moves the focus to box `a` (box 1)
and the build code declares the same three boxes. -/
def demo_k1 : Ui :=
  ok_or demo_init (ui_frame_event demo_hash demo_build_three 800 600 demo_h1 demo_tab)

/-- The hit test of that frame finds the pointer inside the same box. -/
def demo_k2 : Ui := { demo_k1 with hovered := some 1 }

/-- Third frame of that history: the build code declares no box inside the
root. -/
def demo_k3 : Ui :=
  ok_or demo_init (ui_frame_event demo_hash demo_build_none 800 600 demo_k2 demo_event)

/-- Build code that declares three boxes with labels not used before. -/
def demo_build_new (ui : Ui) : Except Fault Ui :=
  run_ops demo_hash ui
    [.push UI_BOX_REACTIVE "dddd", .pop, .push UI_BOX_REACTIVE "eeeee", .pop,
      .push UI_BOX_REACTIVE "ffffff", .pop]

/-- Fourth frame of that history: three new boxes are declared. -/
def demo_k4 : Ui :=
  ok_or demo_init (ui_frame_event demo_hash demo_build_new 800 600 demo_k3 demo_event)

/-! ## Sample input for the focus-follow rule -/

/-- A context inside a rebuild pass, at a press of Tab: the root (box 0), a
scroll container (box 1) of view 300 x 200 with content 300 x 500 and offset 0,
and its item (box 2) are declared, and the container is at the top of the
parent stack.  The focus is on box 3, a child of the root that the previous
pass declared after the container (index 3 of its `depth_first`) and laid out
below it, at y = 300. -/
def demo_follow : Ui :=
  { ui_init 800 600 demo_tab with
    boxes := fun b =>
      if b = 0 then
        { UiBox.zeroed with label := "root", key := demo_hash "root" 0, children := [1],
                            rect := ⟨0, 0, 800, 600⟩ }
      else if b = 1 then
        { UiBox.zeroed with label := "list", key := demo_hash "list" (demo_hash "root" 0),
                            parent := some 0, children := [2],
                            flags := UI_BOX_REACTIVE ||| UI_BOX_CLIPPING,
                            scratch := 1, rect := ⟨0, 0, 300, 200⟩,
                            content := ⟨0, 0, 300, 500⟩ }
      else if b = 2 then
        { UiBox.zeroed with label := "item",
                            key := demo_hash "item" (demo_hash "list" (demo_hash "root" 0)),
                            parent := some 1, rect := ⟨0, 0, 300, 500⟩ }
      else if b = 3 then
        { UiBox.zeroed with label := "ok", key := demo_hash "ok" (demo_hash "root" 0),
                            parent := some 0, flags := UI_BOX_CAN_FOCUS,
                            gc_flag := 1, rect := ⟨0, 300, 100, 50⟩ }
      else UiBox.zeroed
    box_count := 4
    root := some 0
    focused := some 3
    focus_idx := 3
    depth_first := [0, 1, 2]
    box_stack := [1, 0]
    box_cache := [(demo_hash "root" 0, 0), (demo_hash "list" (demo_hash "root" 0), 1),
      (demo_hash "item" (demo_hash "list" (demo_hash "root" 0)), 2),
      (demo_hash "ok" (demo_hash "root" 0), 3)]
    clip_stack := [⟨0, 0, 300, 200⟩, ⟨0, 0, 800, 600⟩] }

/-- The same context at an event that is not a press of Tab. -/
def demo_follow_idle : Ui := { demo_follow with event := demo_event }

def demo_follow_mid : Ui := ok_or demo_follow (ui_scroll_box_follow demo_follow 1)

def demo_follow_out : Ui := ok_or demo_follow (ui_scroll_box_pop demo_hash demo_follow)

def demo_follow_idle_out : Ui :=
  ok_or demo_follow (ui_scroll_box_pop demo_hash demo_follow_idle)

/-! ## Sample input: a scroll container with a view of height 0 -/

/-- A context inside a rebuild pass, as `demo_scroll` but with a view of
300 x 0 (the window has the height 0, and the container takes its height from
its parent), content of 300 x 500 and offset 0; the event is no wheel turn. -/
def demo_scroll_flat : Ui :=
  { ui_init 800 0 demo_event with
    boxes := fun b =>
      if b = 0 then
        { UiBox.zeroed with label := "root", key := demo_hash "root" 0, children := [1],
                            rect := ⟨0, 0, 800, 0⟩ }
      else if b = 1 then
        { UiBox.zeroed with label := "list", key := demo_hash "list" (demo_hash "root" 0),
                            parent := some 0, flags := UI_BOX_REACTIVE ||| UI_BOX_CLIPPING,
                            scratch := 1, rect := ⟨0, 0, 300, 0⟩,
                            content := ⟨0, 0, 300, 500⟩ }
      else UiBox.zeroed
    box_count := 2
    root := some 0
    depth_first := [0, 1]
    box_stack := [1, 0]
    box_cache := [(demo_hash "root" 0, 0), (demo_hash "list" (demo_hash "root" 0), 1)]
    clip_stack := [⟨0, 0, 300, 0⟩, ⟨0, 0, 800, 0⟩] }

/-- The value of `scroll_val` that a call of `ui_vscroll_bar` leaves (0 when
the call fails). -/
def scroll_val_of : Except Fault (Ui × BoxId × F32) → F32
  | .ok r => r.2.2
  | .error _ => 0

/-- The fault of a failed call. -/
def fault_of {α : Type} : Except Fault α → Option Fault
  | .ok _ => none
  | .error e => some e

/-! ## The cascade with the capacity of `active_rules`

The array `active_rules` starts from `array_init` (count 0, capacity 0) and
grows through `array_push_many` and `array_push`, which can end the program:
`uarray_push` on a full array of capacity 1 computes the new capacity
`cast(U64, 1.8 * 1) = 1` and fails `assert_always(new_cap > array->capacity)`.
The definitions below repeat the cascade with the capacity carried along; a
run that returns here returns the same tree in `apply_style_rules_box`. -/

/-- The array `active_rules`: its elements and its capacity. -/
structure ActiveRules where
  rules : List UiStyleRule
  capacity : Nat

/-- One iteration of the rule loop of `apply_style_rules_box`; `count` is
the count of `active_rules` before the loop and `st.2` its capacity, so the
derived rule is pushed on an array of `count` elements plus the rules derived
so far. -/
def scan_rule_array (box : UiBox) (link : Option ParentLink) (count : Nat)
    (st : ScanState × Nat) (rule : UiStyleRule) : Except Fault (ScanState × Nat) :=
  match rule.pattern.patterns with
  | [] => .error .panic
  | head_of_rule :: _ =>
    match match_pattern box link head_of_rule with
    | .error e => .error e
    | .ok false => .ok st
    | .ok true =>
      if rule.pattern.patterns.length = 1 then
        let r := apply_style_rule rule (st.1.1, st.1.2.1)
        .ok ((r.1, r.2, st.1.2.2), st.2)
      else
        match uarray_push ⟨count + st.1.2.2.length, st.2⟩ with
        | .error e => .error e
        | .ok array => .ok ((st.1.1, st.1.2.1, st.1.2.2 ++ [derive_new_rule rule]), array.capacity)

/-- The rule loop of `apply_style_rules_box` over the rules up to `stop_at`. -/
def scan_rules_array (box : UiBox) (link : Option ParentLink) (count : Nat) :
    List UiStyleRule → ScanState × Nat → Except Fault (ScanState × Nat)
  | [], st => .ok st
  | rule :: rest, st =>
    match scan_rule_array box link count st rule with
    | .error e => .error e
    | .ok st => scan_rules_array box link count rest st

mutual
/-- The function `apply_style_rules_box` with the array `active_rules`. -/
def apply_style_rules_box_array (powf : F32 → F32 → F32) (dt : F32) (link : Option ParentLink) :
    BoxTree → ActiveRules → Except Fault (BoxTree × ActiveRules)
  | .node box children, active_rules =>
    let restore_point := active_rules.rules.length
    match uarray_push_many ⟨active_rules.rules.length, active_rules.capacity⟩
        box.style_rules.length with
    | .error e => .error e
    | .ok array =>
      let rules := active_rules.rules ++ box.style_rules
      match scan_rules_array box link rules.length rules
          ((box.next_style, Specs.zero, []), array.capacity) with
      | .error e => .error e
      | .ok st =>
        match apply_style_rules_children_array powf dt children.length 0 children
            ⟨rules ++ st.1.2.2, st.2⟩ with
        | .error e => .error e
        | .ok (children', active_rules') =>
          .ok (.node { box with next_style := st.1.1,
                                style := animate_style powf dt box.style st.1.1 }
                children', ⟨active_rules'.rules.take restore_point, active_rules'.capacity⟩)
/-- The loop `array_iter (child, &box->children)` of `apply_style_rules_box`
from the child of index `idx` on. -/
def apply_style_rules_children_array (powf : F32 → F32 → F32) (dt : F32) (count : Nat) :
    Nat → List BoxTree → ActiveRules → Except Fault (List BoxTree × ActiveRules)
  | _, [], active_rules => .ok ([], active_rules)
  | idx, child :: rest, active_rules =>
    match apply_style_rules_box_array powf dt (some ⟨idx, count⟩) child active_rules with
    | .error e => .error e
    | .ok (child', active_rules') =>
      match apply_style_rules_children_array powf dt count (idx + 1) rest active_rules' with
      | .error e => .error e
      | .ok (rest', active_rules'') => .ok (child' :: rest', active_rules'')
end

/-- The function `apply_style_rules` on the tree below `ui->root`, from the
array that `array_init` leaves. -/
def apply_style_rules_array (powf : F32 → F32 → F32) (dt : F32) (root : BoxTree) :
    Except Fault BoxTree :=
  match apply_style_rules_box_array powf dt none root ⟨[], 0⟩ with
  | .error e => .error e
  | .ok (root', _) => .ok root'

/-- What a run of the cascade with the array returns, the cascade on the list
of its elements returns too. -/
def RefinesAt (powf : F32 → F32 → F32) (dt : F32) (t : BoxTree) : Prop :=
  ∀ (link : Option ParentLink) (a a' : ActiveRules) (t' : BoxTree),
    apply_style_rules_box_array powf dt link t a = .ok (t', a') →
    apply_style_rules_box powf dt link t a.rules = .ok (t', a'.rules)

/-- The value of an `.ok` outcome, `d` otherwise. -/
def value_or {α : Type} (d : α) : Except Fault α → α
  | .ok r => r
  | .error _ => d

/-- A box `r` that declares `#x .b` and `.a`, with two children: the box `x`
with a child `y` tagged `b`, and a box `w` tagged `b`. -/
def demo_tree_two : BoxTree :=
  .node { UiBox.zeroed with label := "r", style_rules := [demo_rule_path, demo_rule_tag] }
    [.node { UiBox.zeroed with label := "x" }
       [.node { UiBox.zeroed with label := "y", tags := ["b"] } []],
     .node { UiBox.zeroed with label := "w", tags := ["b"] } []]

/-- The outcome of the cascade on `demo_tree_two`, from the array that
`array_init` leaves. -/
def demo_cascade_two : BoxTree × ActiveRules :=
  value_or (demo_tree_two, ⟨[], 0⟩)
    (apply_style_rules_box_array demo_powf 0 none demo_tree_two ⟨[], 0⟩)

/-! ## Specification vocabulary for `compute_positions` -/

/-- From `u` to `u'` only rects of boxes of `l` and sizes of contents were
written: the child lists, the styles and the content offsets on the axis are
the same, and so are the rects of the boxes outside `l`. -/
def PlacesOnly (axis : Nat) (l : List BoxId) (u u' : Ui) : Prop :=
  ∀ x, (u'.boxes x).children = (u.boxes x).children ∧ (u'.boxes x).style = (u.boxes x).style ∧
    (u'.boxes x).content.top_left axis = (u.boxes x).content.top_left axis ∧
    (x ∉ l → (u'.boxes x).rect = (u.boxes x).rect)

/-! ## Specification vocabulary for the frame -/

/-- The input state and the frame time are the same in both contexts. -/
def SameInput (u v : Ui) : Prop :=
  v.event = u.event ∧ v.mouse = u.mouse ∧ v.mouse_dt = u.mouse_dt ∧
    v.pressed_keys = u.pressed_keys ∧ v.dt = u.dt

/-- One rebuild for the event `e`, from the context `u` to the context `u'`:
the build code runs once, in the context `pre`, which holds the event and the
input state that the event leaves, and in which the tree starts over from the
root box (a box labelled `root` of the size of the window, alone in
`depth_first` and pushed on the parent stack); what the build code returns has
its parent popped, the cache swept and the flag toggled. -/
def EventPass (build : Ui → Except Fault Ui) (win_width win_height : F32) (u : Ui) (e : Event)
    (u' : Ui) : Prop :=
  ∃ pre post popped root,
    pre.event = e ∧ SameInput (update_input_state u e) pre ∧
    pre.root = some root ∧ pre.depth_first = [root] ∧ pre.box_stack = root :: u.box_stack ∧
    (pre.boxes root).label = "root" ∧
    (pre.boxes root).rect.w = win_width ∧ (pre.boxes root).rect.h = win_height ∧
    pre.gc_flag = u.gc_flag ∧
    build pre = .ok post ∧ ui_pop_parent post = .ok popped ∧
    u' = gc_toggle (gc_sweep popped)

/-- One rebuild per event, in the order of the list, from `u` to `u'`. -/
def EventPasses (build : Ui → Except Fault Ui) (win_width win_height : F32) :
    List Event → Ui → Ui → Prop
  | [], u, u' => u' = u
  | e :: rest, u, u' =>
    ∃ u1, EventPass build win_width win_height u e u1 ∧
      EventPasses build win_width win_height rest u1 u'

/-- Sample hooks: the build code declares a reactive box `a` below the root
and a style rule `.a` on the root; the layout stage runs `compute_positions`
on both axes; the hit test runs `find_topmost_hovered_box` from the root; the
cascade and the render stage leave the context as it is. -/
def demo_hooks_build : FrameHooks where
  build := fun u =>
    match run_ops demo_hash u [.push UI_BOX_REACTIVE "a", .pop] with
    | .error e => .error e
    | .ok u => ui_style_rule_vec4 u ".a" .UI_BG_COLOR ⟨1, 0, 0, 1⟩
  apply_style_rules := .ok
  compute_layout := fun u => .ok (compute_positions (compute_positions u 0) 1)
  find_topmost_hovered_box := fun u =>
    match u.root with
    | none => .error .segfault
    | some root => find_topmost_hovered_box u root
  render_box := .ok

/-- The outcome of a frame with two events on the initial context, with the
sample hooks. -/
def demo_frame_build : Ui × List FrameStage :=
  value_or (demo_init, [])
    (ui_frame demo_hash demo_hooks_build 800 600 [demo_move, demo_event] 0 demo_init)

/-! ## `animate_f32` in binary32 arithmetic

The values are integers in units of 2^-149, as for the rects above.  A product
or a quotient is the exact one rounded to the nearest binary32 value, ties to
even; below 2^-125 the binary32 values are the multiples of 2^-149, which is
what the rounding gives there.  A division by zero gives an infinity or a NaN
in the source and ends the embedded call. -/

/-- Rounding of the ratio `n / d` (`d` not 0) to `bits` significant bits, to
nearest, ties to even; a ratio below `2 ^ bits` is rounded to a whole
number. -/
def round_sig_ratio (bits n d : Nat) : Nat :=
  let k := sig_shift bits (n / d) (n / d) 0
  let q := n / (d * 2 ^ k)
  let r := n % (d * 2 ^ k)
  let q := if d * 2 ^ k < 2 * r ∨ (d * 2 ^ k = 2 * r ∧ q % 2 = 1) then q + 1 else q
  q * 2 ^ k

/-- The operator `*` on two `F32`. -/
def f32_mul (a b : Int) : Int :=
  if a * b < 0 then -((round_sig_ratio 24 (a * b).natAbs (2 ^ 149) : Nat) : Int)
  else ((round_sig_ratio 24 (a * b).natAbs (2 ^ 149) : Nat) : Int)

/-- The operator `/` on two `F32`. -/
def f32_div (a b : Int) : Except Fault Int :=
  if b = 0 then .error .not_finite
  else if (a < 0) ≠ (b < 0) then
    .ok (-((round_sig_ratio 24 (a.natAbs * 2 ^ 149) b.natAbs : Nat) : Int))
  else .ok ((round_sig_ratio 24 (a.natAbs * 2 ^ 149) b.natAbs : Nat) : Int)

/-- The `F32` nearest to the literal `0.001`: the value 0x3A83126F, that is
8589935 * 2^-33. -/
def F32_EPSILON : Int := 8589935 * 2 ^ 116

/-- The function `animate_f32` with every operation rounded; `powf` is the C
library's function on `F32` values and `dt` is `ui->dt`. -/
def animate_f32_b32 (powf : Int → Int → Int) (dt : Int) (current final duration : Int) :
    Except Fault Int :=
  let epsilon := F32_EPSILON
  if |f32_sub current final| ≤ epsilon then .ok final
  else
    match f32_div dt duration with
    | .error e => .error e
    | .ok ratio =>
      .ok (f32_add current
        (f32_mul (f32_sub final current) (f32_sub (f32_of_int 1) (powf epsilon ratio))))

/-- The live value after `n` calls of `animate_f32` with the same target,
duration and frame time. -/
def animate_f32_b32_iterate (powf : Int → Int → Int) (dt final duration : Int) :
    Nat → Int → Except Fault Int
  | 0, current => .ok current
  | n + 1, current =>
    match animate_f32_b32 powf dt current final duration with
    | .error e => .error e
    | .ok current => animate_f32_b32_iterate powf dt final duration n current

/-- A sample `powf`: whatever its arguments, the `F32` nearest to
0.001 ^ 0.0016 = 0.9890084, that is 16592808 * 2^-24. -/
def demo_powf_b32 : Int → Int → Int := fun _ _ => 16592808 * 2 ^ 125

/-- A sample `powf` for a long duration: whatever its arguments, the `F32`
nearest to 0.001 ^ 0.0000016 = 0.9999889, that is 16777031 * 2^-24. -/
def demo_powf_slow : Int → Int → Int := fun _ _ => 16777031 * 2 ^ 125

/-- The `F32` nearest to 0.016 (a frame time of 16 ms): 8589935 * 2^-29. -/
def demo_dt_b32 : Int := 8589935 * 2 ^ 120

/-! ## The hit test in binary32 arithmetic -/

/-- A `Vec4` of `F32` values. -/
structure Vec4F32 where
  x : Int
  y : Int
  z : Int
  w : Int
  deriving DecidableEq, Repr

/-- What `find_topmost_hovered_box` reads of a box: the flags, the children,
the rect and `style.border_widths`. -/
structure UiBoxF32 where
  flags : Nat
  children : List BoxId
  rect : UiRectF32
  border_widths : Vec4F32

/-- What `find_topmost_hovered_box` reads and writes of the context. -/
structure UiF32 where
  boxes : BoxId → UiBoxF32
  box_count : Nat
  mouse : Vec2F32
  hovered : Option BoxId
  clip_stack : List UiRectF32

/-- The function `ui_push_clip_box` with the sums and differences rounded. -/
def ui_push_clip_box_f32 (ui : UiF32) (box : BoxId) : Except Fault (UiF32 × UiRectF32) :=
  let b : UiBoxF32 := { (ui.boxes box) with flags := (ui.boxes box).flags ||| UI_BOX_CLIPPING }
  let ui := { ui with boxes := Function.update ui.boxes box b }
  match ui_push_clip_rect_f32 ui.clip_stack
      ⟨f32_add b.rect.x b.border_widths.z, f32_add b.rect.y b.border_widths.y,
        f32_sub b.rect.w (f32_add b.border_widths.x b.border_widths.z),
        f32_sub b.rect.h (f32_add b.border_widths.w b.border_widths.y)⟩ with
  | .error e => .error e
  | .ok (clip_stack, intersection) => .ok ({ ui with clip_stack := clip_stack }, intersection)

/-- The first statement of `find_topmost_hovered_box`. -/
def hit_test_f32 (ui : UiF32) (box : BoxId) : Except Fault UiF32 :=
  if (ui.boxes box).flags &&& UI_BOX_CLICK_THROUGH = 0 then
    match ui.clip_stack with
    | [] => .error .panic
    | clip :: _ =>
      let r := compute_rect_intersect_f32 (ui.boxes box).rect clip
      .ok (if within_box_f32 r ui.mouse then { ui with hovered := some box } else ui)
  else .ok ui

/-- The statement `if (box->flags & UI_BOX_CLIPPING) ui_push_clip_box(box)`. -/
def hit_push_clip_f32 (ui : UiF32) (box : BoxId) : Except Fault UiF32 :=
  if (ui.boxes box).flags &&& UI_BOX_CLIPPING ≠ 0 then
    match ui_push_clip_box_f32 ui box with
    | .error e => .error e
    | .ok (ui, _) => .ok ui
  else .ok ui

/-- The statement `if (box->flags & UI_BOX_CLIPPING) ui_pop_clip()`. -/
def hit_pop_clip_f32 (ui : UiF32) (box : BoxId) : Except Fault UiF32 :=
  if (ui.boxes box).flags &&& UI_BOX_CLIPPING ≠ 0 then
    match ui_pop_clip_f32 ui.clip_stack with
    | .error e => .error e
    | .ok (clip_stack, _) => .ok { ui with clip_stack := clip_stack }
  else .ok ui

/-- The function `find_topmost_hovered_box`; `fuel` bounds the depth of the
recursion. -/
def find_topmost_hovered_box_f32_fuel : Nat → UiF32 → BoxId → Except Fault UiF32
  | 0, _, _ => .error .diverge
  | fuel + 1, ui, box =>
    match hit_test_f32 ui box with
    | .error e => .error e
    | .ok ui =>
      match hit_push_clip_f32 ui box with
      | .error e => .error e
      | .ok ui =>
        match (ui.boxes box).children.foldlM
            (fun ui child => find_topmost_hovered_box_f32_fuel fuel ui child) ui with
        | .error e => .error e
        | .ok ui => hit_pop_clip_f32 ui box

/-- The function `find_topmost_hovered_box`. A chain of children longer than
`box_count` meets some box twice, so the C recursion never ends. -/
def find_topmost_hovered_box_f32 (ui : UiF32) (box : BoxId) : Except Fault UiF32 :=
  find_topmost_hovered_box_f32_fuel (ui.box_count + 1) ui box

/-! ## Specification vocabulary for the hit test, in exact arithmetic

The values are the same integers, and nothing here is rounded. -/

/-- The point is strictly inside the rect. -/
def strictly_inside (r : UiRectF32) (p : Vec2F32) : Bool :=
  decide (r.x < p.x) && decide (p.x < r.x + r.w) && decide (r.y < p.y) &&
    decide (p.y < r.y + r.h)

/-- The rect of a box inside its borders. -/
def inner_rect (b : UiBoxF32) : UiRectF32 :=
  ⟨b.rect.x + b.border_widths.z, b.rect.y + b.border_widths.y,
    b.rect.w - (b.border_widths.x + b.border_widths.z),
    b.rect.h - (b.border_widths.w + b.border_widths.y)⟩

/-- The rects that clip the children of a box: those that clip the box, and
the inner rect of the box when it clips. -/
def regions_below (boxes : BoxId → UiBoxF32) (regions : List UiRectF32) (box : BoxId) :
    List UiRectF32 :=
  if (boxes box).flags &&& UI_BOX_CLIPPING ≠ 0 then inner_rect (boxes box) :: regions
  else regions

/-- The boxes of the tree below `box` in pre-order (a box, then the trees of
its children in the order of the child list), each with the rects that clip
it: the clip rect on entry and the inner rects of its clipping ancestors;
`depth` bounds the depth of the tree. -/
def preorder_regions (boxes : BoxId → UiBoxF32) :
    Nat → List UiRectF32 → BoxId → List (BoxId × List UiRectF32)
  | 0, _, _ => []
  | depth + 1, regions, box =>
    (box, regions) ::
      ((boxes box).children.map
        (fun child => preorder_regions boxes depth (regions_below boxes regions box) child)).flatten

/-- The box qualifies: it lacks the click-through flag, and the pointer is
strictly inside its rect and strictly inside every rect that clips it. -/
def hit_qualifies (boxes : BoxId → UiBoxF32) (mouse : Vec2F32)
    (e : BoxId × List UiRectF32) : Bool :=
  decide ((boxes e.1).flags &&& UI_BOX_CLICK_THROUGH = 0) &&
    strictly_inside (boxes e.1).rect mouse && e.2.all (fun r => strictly_inside r mouse)

/-- The intersection of two rects. -/
def rect_meet (a b : UiRectF32) : UiRectF32 :=
  ⟨max a.x b.x, max a.y b.y,
    max 0 (min (a.x + a.w) (b.x + b.w) - max a.x b.x),
    max 0 (min (a.y + a.h) (b.y + b.h) - max a.y b.y)⟩

/-- The intersection of the rects of a list. -/
def meet_all : List UiRectF32 → UiRectF32
  | [] => ⟨0, 0, 0, 0⟩
  | [r] => r
  | r :: rest => rect_meet r (meet_all rest)

instance (x0 w0 x1 w1 : Int) : Decidable (ExactAxis x0 w0 x1 w1) :=
  decidable_of_iff
    (f32_add x0 w0 = x0 + w0 ∧ f32_add x1 w1 = x1 + w1 ∧
      f32_sub (min (x0 + w0) (x1 + w1)) (max x0 x1) = min (x0 + w0) (x1 + w1) - max x0 x1 ∧
      f32_add (max x0 x1) (max 0 (min (x0 + w0) (x1 + w1) - max x0 x1)) =
        max x0 x1 + max 0 (min (x0 + w0) (x1 + w1) - max x0 x1))
    ⟨fun h => ⟨h.1, h.2.1, h.2.2.1, h.2.2.2⟩, fun h => ⟨h.sum0, h.sum1, h.diff, h.edge⟩⟩

instance (a b : UiRectF32) : Decidable (ExactSums a b) :=
  inferInstanceAs (Decidable (ExactAxis a.x a.w b.x b.w ∧ ExactAxis a.y a.h b.y b.h))

/-- The sums and the differences by which `ui_push_clip_box` takes the border
widths off the rect of the box are exact. -/
def InnerExact (b : UiBoxF32) : Prop :=
  f32_add b.rect.x b.border_widths.z = b.rect.x + b.border_widths.z ∧
    f32_add b.rect.y b.border_widths.y = b.rect.y + b.border_widths.y ∧
    f32_sub b.rect.w (f32_add b.border_widths.x b.border_widths.z) =
      b.rect.w - (b.border_widths.x + b.border_widths.z) ∧
    f32_sub b.rect.h (f32_add b.border_widths.w b.border_widths.y) =
      b.rect.h - (b.border_widths.w + b.border_widths.y)

instance (b : UiBoxF32) : Decidable (InnerExact b) :=
  inferInstanceAs (Decidable
    (f32_add b.rect.x b.border_widths.z = b.rect.x + b.border_widths.z ∧
      f32_add b.rect.y b.border_widths.y = b.rect.y + b.border_widths.y ∧
      f32_sub b.rect.w (f32_add b.border_widths.x b.border_widths.z) =
        b.rect.w - (b.border_widths.x + b.border_widths.z) ∧
      f32_sub b.rect.h (f32_add b.border_widths.w b.border_widths.y) =
        b.rect.h - (b.border_widths.w + b.border_widths.y)))

/-- No operation of the hit test is rounded at the box of the entry: the test
of its rect against the intersection of the rects that clip it, and, when the
box clips, the rect it pushes. -/
def HitExact (boxes : BoxId → UiBoxF32) (e : BoxId × List UiRectF32) : Prop :=
  ExactSums (boxes e.1).rect (meet_all e.2) ∧
    ((boxes e.1).flags &&& UI_BOX_CLIPPING ≠ 0 →
      InnerExact (boxes e.1) ∧ ExactSums (inner_rect (boxes e.1)) (meet_all e.2))

instance (boxes : BoxId → UiBoxF32) (e : BoxId × List UiRectF32) :
    Decidable (HitExact boxes e) :=
  inferInstanceAs (Decidable
    (ExactSums (boxes e.1).rect (meet_all e.2) ∧
      ((boxes e.1).flags &&& UI_BOX_CLIPPING ≠ 0 →
        InnerExact (boxes e.1) ∧ ExactSums (inner_rect (boxes e.1)) (meet_all e.2))))

/-- The last qualifying box of a listing, `old` when none qualifies. -/
def last_qualifying (boxes : BoxId → UiBoxF32) (mouse : Vec2F32) (old : Option BoxId)
    (es : List (BoxId × List UiRectF32)) : Option BoxId :=
  match (es.filter (hit_qualifies boxes mouse)).getLast? with
  | some e => some e.1
  | none => old

/-- The hovered box that a call leaves, when it returns. -/
def hovered_f32_of : Except Fault UiF32 → Option (Option BoxId)
  | .ok ui => some ui.hovered
  | .error _ => none

/-- The context with another hovered box and another clip stack. -/
def hit_state_f32 (ui : UiF32) (hovered : Option BoxId) (clip_stack : List UiRectF32) : UiF32 :=
  { ui with hovered := hovered, clip_stack := clip_stack }

/-- The tree of `demo_hit` with `F32` values: a root of 100 by 100 with a
clipping child 1 (40 by 40, borders of width 2) that holds a child 2 of 80 by
80, and a click-through child 3 (100 by 100); the clip stack holds the window
rect of 800 by 600. -/
def demo_hit_f32 (mouse : Vec2F32) : UiF32 where
  boxes := fun b =>
    if b = 0 then
      ⟨0, [1, 3], ⟨f32_of_int 0, f32_of_int 0, f32_of_int 100, f32_of_int 100⟩, ⟨0, 0, 0, 0⟩⟩
    else if b = 1 then
      ⟨UI_BOX_CLIPPING, [2], ⟨f32_of_int 0, f32_of_int 0, f32_of_int 40, f32_of_int 40⟩,
        ⟨f32_of_int 2, f32_of_int 2, f32_of_int 2, f32_of_int 2⟩⟩
    else if b = 2 then
      ⟨0, [], ⟨f32_of_int 0, f32_of_int 0, f32_of_int 80, f32_of_int 80⟩, ⟨0, 0, 0, 0⟩⟩
    else
      ⟨UI_BOX_CLICK_THROUGH, [], ⟨f32_of_int 0, f32_of_int 0, f32_of_int 100, f32_of_int 100⟩,
        ⟨0, 0, 0, 0⟩⟩
  box_count := 4
  mouse := mouse
  hovered := none
  clip_stack := [⟨f32_of_int 0, f32_of_int 0, f32_of_int 800, f32_of_int 600⟩]

/-- A single box with the rect (-1, 0, 16777218, 10) under the clip rect
(-3, 0, 33554432, 10), and the pointer at (16777215, 5), all of them `F32`
values. -/
def demo_hit_wide : UiF32 where
  boxes := fun _ => ⟨0, [], demo_rect_a, ⟨0, 0, 0, 0⟩⟩
  box_count := 1
  mouse := ⟨f32_of_int 16777215, f32_of_int 5⟩
  hovered := none
  clip_stack := [demo_rect_b]

/-! ## Outcomes -/

theorem ok_of_value_or {α : Type} (d : α) (r : Except Fault α) (h : r.toBool = true) :
    r = .ok (value_or d r) := by
  cases r with
  | error e => cases h
  | ok u => rfl
/-! ## Theorems: the box store -/

theorem modify_box_boxes (ui : Ui) (b c : BoxId) (f : UiBox → UiBox) :
    (ui.modify_box b f).boxes c = if c = b then f (ui.boxes b) else ui.boxes c := by
  simp [Ui.modify_box, Ui.set_box, Function.update_apply]

theorem set_box_boxes (ui : Ui) (b c : BoxId) (v : UiBox) :
    (ui.set_box b v).boxes c = if c = b then v else ui.boxes c := by
  simp [Ui.set_box, Function.update_apply]

@[simp] theorem set_box_gc_flag (ui : Ui) (b : BoxId) (v : UiBox) :
    (ui.set_box b v).gc_flag = ui.gc_flag := rfl

@[simp] theorem modify_box_gc_flag (ui : Ui) (b : BoxId) (f : UiBox → UiBox) :
    (ui.modify_box b f).gc_flag = ui.gc_flag := rfl

@[simp] theorem set_box_event (ui : Ui) (b : BoxId) (v : UiBox) :
    (ui.set_box b v).event = ui.event := rfl

@[simp] theorem modify_box_event (ui : Ui) (b : BoxId) (f : UiBox → UiBox) :
    (ui.modify_box b f).event = ui.event := rfl

@[simp] theorem set_box_mouse (ui : Ui) (b : BoxId) (v : UiBox) :
    (ui.set_box b v).mouse = ui.mouse := rfl

@[simp] theorem modify_box_mouse (ui : Ui) (b : BoxId) (f : UiBox → UiBox) :
    (ui.modify_box b f).mouse = ui.mouse := rfl

@[simp] theorem set_box_dt (ui : Ui) (b : BoxId) (v : UiBox) :
    (ui.set_box b v).dt = ui.dt := rfl

@[simp] theorem modify_box_dt (ui : Ui) (b : BoxId) (f : UiBox → UiBox) :
    (ui.modify_box b f).dt = ui.dt := rfl

@[simp] theorem set_box_box_count (ui : Ui) (b : BoxId) (v : UiBox) :
    (ui.set_box b v).box_count = ui.box_count := rfl

@[simp] theorem modify_box_box_count (ui : Ui) (b : BoxId) (f : UiBox → UiBox) :
    (ui.modify_box b f).box_count = ui.box_count := rfl

@[simp] theorem set_box_root (ui : Ui) (b : BoxId) (v : UiBox) :
    (ui.set_box b v).root = ui.root := rfl

@[simp] theorem modify_box_root (ui : Ui) (b : BoxId) (f : UiBox → UiBox) :
    (ui.modify_box b f).root = ui.root := rfl

@[simp] theorem set_box_active (ui : Ui) (b : BoxId) (v : UiBox) :
    (ui.set_box b v).active = ui.active := rfl

@[simp] theorem modify_box_active (ui : Ui) (b : BoxId) (f : UiBox → UiBox) :
    (ui.modify_box b f).active = ui.active := rfl

@[simp] theorem set_box_hovered (ui : Ui) (b : BoxId) (v : UiBox) :
    (ui.set_box b v).hovered = ui.hovered := rfl

@[simp] theorem modify_box_hovered (ui : Ui) (b : BoxId) (f : UiBox → UiBox) :
    (ui.modify_box b f).hovered = ui.hovered := rfl

@[simp] theorem set_box_focused (ui : Ui) (b : BoxId) (v : UiBox) :
    (ui.set_box b v).focused = ui.focused := rfl

@[simp] theorem modify_box_focused (ui : Ui) (b : BoxId) (f : UiBox → UiBox) :
    (ui.modify_box b f).focused = ui.focused := rfl

@[simp] theorem set_box_focus_idx (ui : Ui) (b : BoxId) (v : UiBox) :
    (ui.set_box b v).focus_idx = ui.focus_idx := rfl

@[simp] theorem modify_box_focus_idx (ui : Ui) (b : BoxId) (f : UiBox → UiBox) :
    (ui.modify_box b f).focus_idx = ui.focus_idx := rfl

@[simp] theorem set_box_depth_first (ui : Ui) (b : BoxId) (v : UiBox) :
    (ui.set_box b v).depth_first = ui.depth_first := rfl

@[simp] theorem modify_box_depth_first (ui : Ui) (b : BoxId) (f : UiBox → UiBox) :
    (ui.modify_box b f).depth_first = ui.depth_first := rfl

@[simp] theorem set_box_free_boxes (ui : Ui) (b : BoxId) (v : UiBox) :
    (ui.set_box b v).free_boxes = ui.free_boxes := rfl

@[simp] theorem modify_box_free_boxes (ui : Ui) (b : BoxId) (f : UiBox → UiBox) :
    (ui.modify_box b f).free_boxes = ui.free_boxes := rfl

@[simp] theorem set_box_box_stack (ui : Ui) (b : BoxId) (v : UiBox) :
    (ui.set_box b v).box_stack = ui.box_stack := rfl

@[simp] theorem modify_box_box_stack (ui : Ui) (b : BoxId) (f : UiBox → UiBox) :
    (ui.modify_box b f).box_stack = ui.box_stack := rfl

@[simp] theorem set_box_box_cache (ui : Ui) (b : BoxId) (v : UiBox) :
    (ui.set_box b v).box_cache = ui.box_cache := rfl

@[simp] theorem modify_box_box_cache (ui : Ui) (b : BoxId) (f : UiBox → UiBox) :
    (ui.modify_box b f).box_cache = ui.box_cache := rfl

@[simp] theorem set_box_clip_stack (ui : Ui) (b : BoxId) (v : UiBox) :
    (ui.set_box b v).clip_stack = ui.clip_stack := rfl

@[simp] theorem modify_box_clip_stack (ui : Ui) (b : BoxId) (f : UiBox → UiBox) :
    (ui.modify_box b f).clip_stack = ui.clip_stack := rfl

@[simp] theorem set_box_mouse_dt (ui : Ui) (b : BoxId) (v : UiBox) :
    (ui.set_box b v).mouse_dt = ui.mouse_dt := rfl

@[simp] theorem modify_box_mouse_dt (ui : Ui) (b : BoxId) (f : UiBox → UiBox) :
    (ui.modify_box b f).mouse_dt = ui.mouse_dt := rfl

@[simp] theorem set_box_pressed_keys (ui : Ui) (b : BoxId) (v : UiBox) :
    (ui.set_box b v).pressed_keys = ui.pressed_keys := rfl

@[simp] theorem modify_box_pressed_keys (ui : Ui) (b : BoxId) (f : UiBox → UiBox) :
    (ui.modify_box b f).pressed_keys = ui.pressed_keys := rfl

@[simp] theorem set_box_current_style_rule (ui : Ui) (b : BoxId) (v : UiBox) :
    (ui.set_box b v).current_style_rule = ui.current_style_rule := rfl

@[simp] theorem modify_box_current_style_rule (ui : Ui) (b : BoxId) (f : UiBox → UiBox) :
    (ui.modify_box b f).current_style_rule = ui.current_style_rule := rfl

@[simp] theorem set_box_frame_mem_count (ui : Ui) (b : BoxId) (v : UiBox) :
    (ui.set_box b v).frame_mem_count = ui.frame_mem_count := rfl

@[simp] theorem modify_box_frame_mem_count (ui : Ui) (b : BoxId) (f : UiBox → UiBox) :
    (ui.modify_box b f).frame_mem_count = ui.frame_mem_count := rfl

theorem compute_signals_frame_aux {ui ui' : Ui} {box : BoxId}
    (h : compute_signals ui box = .ok ui') :
    ui'.gc_flag = ui.gc_flag ∧ ui'.box_count = ui.box_count ∧
    ui'.free_boxes = ui.free_boxes ∧ ui'.box_stack = ui.box_stack ∧
    ui'.box_cache = ui.box_cache ∧ ui'.depth_first = ui.depth_first ∧
    ui'.clip_stack = ui.clip_stack ∧
    ∀ b, ui'.boxes b = if b = box then { ui.boxes b with signal := (ui'.boxes b).signal }
      else ui.boxes b := by
  unfold compute_signals at h
  simp only at h
  split at h
  · cases h
    refine ⟨rfl, rfl, rfl, rfl, rfl, rfl, rfl, ?_⟩
    intro b
    by_cases hb : b = box <;> simp [modify_box_boxes, hb]
  · split at h
    · cases h
    · split at h
      · split at h <;> cases h <;>
        · refine ⟨rfl, rfl, rfl, rfl, rfl, rfl, rfl, ?_⟩
          intro b
          by_cases hb : b = box <;> simp [modify_box_boxes, hb]
      · split at h
        · split at h <;> cases h <;>
          · refine ⟨rfl, rfl, rfl, rfl, rfl, rfl, rfl, ?_⟩
            intro b
            by_cases hb : b = box <;> simp [modify_box_boxes, hb]
        · cases h
          refine ⟨rfl, rfl, rfl, rfl, rfl, rfl, rfl, ?_⟩
          intro b
          by_cases hb : b = box <;> simp [modify_box_boxes, hb]

theorem compute_signals_frame {ui ui' : Ui} {box : BoxId}
    (h : compute_signals ui box = .ok ui') :
    ui'.gc_flag = ui.gc_flag ∧ ui'.box_count = ui.box_count ∧
    ui'.free_boxes = ui.free_boxes ∧ ui'.box_stack = ui.box_stack ∧
    ui'.box_cache = ui.box_cache ∧ ui'.depth_first = ui.depth_first ∧
    ui'.clip_stack = ui.clip_stack ∧
    ∃ sig, ∀ b, ui'.boxes b = if b = box then { ui.boxes b with signal := sig }
      else ui.boxes b := by
  obtain ⟨h1, h2, h3, h4, h5, h6, h7, h8⟩ := compute_signals_frame_aux h
  refine ⟨h1, h2, h3, h4, h5, h6, h7, (ui'.boxes box).signal, ?_⟩
  intro b
  by_cases hb : b = box
  · subst hb; exact h8 b
  · have := h8 b
    simp only [hb, if_false] at this ⊢
    exact this

theorem ui_box_signal_tags_spec (ui : Ui) (box : BoxId) (rest : List BoxId)
    (hs : ui.box_stack = box :: rest) :
    ∃ ui', ui_box_signal_tags ui box = .ok ui' ∧
      ui'.gc_flag = ui.gc_flag ∧ ui'.box_count = ui.box_count ∧
      ui'.free_boxes = ui.free_boxes ∧ ui'.box_stack = ui.box_stack ∧
      ui'.box_cache = ui.box_cache ∧ ui'.depth_first = ui.depth_first ∧
      ui'.clip_stack = ui.clip_stack ∧ ui'.active = ui.active ∧
      ∀ b, ui'.boxes b = if b = box then
          { ui.boxes b with tags := (ui.boxes b).tags ++ signal_tags (ui.boxes b).signal }
        else ui.boxes b := by
  unfold ui_box_signal_tags ui_tag ui_tag_box_str signal_tags
  rcases hf : (ui.boxes box).signal.focused <;> rcases hh : (ui.boxes box).signal.hovered <;>
    rcases hp : (ui.boxes box).signal.pressed <;>
    simp [hs, hf, hh, hp, modify_box_boxes, Ui.modify_box, Ui.set_box] <;>
    intro b <;> by_cases hb : b = box <;> simp [hb, hf, hh, hp, Function.update_apply]

theorem ui_box_link_spec_aux (ua : Ui) (box : BoxId) (key : UiKey) (flags : Nat) (label : String) :
    let ul := ui_box_link ua box key flags label
    ul.gc_flag = ua.gc_flag ∧ ul.box_count = ua.box_count ∧ ul.free_boxes = ua.free_boxes ∧
    ul.box_stack = box :: ua.box_stack ∧ ul.box_cache = ua.box_cache ∧
    ul.depth_first = ua.depth_first ++ [box] ∧ ul.clip_stack = ua.clip_stack ∧
    (∀ b, b ≠ box → ul.boxes b = { ua.boxes b with children := (ul.boxes b).children }) ∧
    ul.boxes box = { ua.boxes box with next_style := default_box_style, label := label
                                       key := key, gc_flag := ua.gc_flag, flags := flags
                                       parent := ua.box_stack.head?
                                       children := (ul.boxes box).children } ∧
    ((ua.boxes box).children = [] → ua.box_stack.head? ≠ some box → (ul.boxes box).children = []) := by
  unfold ui_box_link ui_push_parent
  rcases hst : ua.box_stack with _ | ⟨p, rest⟩
  · simp [modify_box_boxes, hst]
    intro b hb
    simp [hb]
  · simp [modify_box_boxes, hst]
    refine ⟨?_, ?_, ?_⟩
    · intro b hb
      have hb' : ¬ box = b := fun h => hb h.symm
      by_cases hp : b = p
      · subst hp; simp [hb, hb']
      · have hp' : ¬ p = b := fun h => hp h.symm
        simp [hb, hb', hp, hp']
    · by_cases hp : box = p
      · subst hp; simp
      · have hp' : ¬ p = box := fun h => hp h.symm
        simp [hp, hp']
    · intro hc hp
      have h1 : ¬ box = p := fun h => hp (h ▸ rfl)
      have h2 : ¬ p = box := fun h => h1 h.symm
      simp [h1, h2, hc]

theorem ui_box_link_spec (ua : Ui) (box : BoxId) (key : UiKey) (flags : Nat) (label : String) :
    let ul := ui_box_link ua box key flags label
    ul.gc_flag = ua.gc_flag ∧ ul.box_count = ua.box_count ∧ ul.free_boxes = ua.free_boxes ∧
    ul.box_stack = box :: ua.box_stack ∧ ul.box_cache = ua.box_cache ∧
    ul.depth_first = ua.depth_first ++ [box] ∧ ul.clip_stack = ua.clip_stack ∧
    (∀ b, b ≠ box → ∃ ch, ul.boxes b = { ua.boxes b with children := ch }) ∧
    ∃ ch, ul.boxes box = { ua.boxes box with next_style := default_box_style, label := label
                                             key := key, gc_flag := ua.gc_flag, flags := flags
                                             parent := ua.box_stack.head?
                                             children := ch } ∧
      ((ua.boxes box).children = [] → ua.box_stack.head? ≠ some box → ch = []) := by
  obtain ⟨h1, h2, h3, h4, h5, h6, h7, h8, h9, h10⟩ := ui_box_link_spec_aux ua box key flags label
  exact ⟨h1, h2, h3, h4, h5, h6, h7, fun b hb => ⟨_, h8 b hb⟩, _, h9, h10⟩

theorem ui_box_acquire_spec {ui ua : Ui} {key : UiKey} {box : BoxId}
    (h : ui_box_acquire ui key = .ok (ua, box)) :
    ua.gc_flag = ui.gc_flag ∧ ua.box_stack = ui.box_stack ∧ ua.depth_first = ui.depth_first ∧
    ua.clip_stack = ui.clip_stack ∧ (∀ b, b ≠ box → ua.boxes b = ui.boxes b) ∧
    (ua.boxes box).children = [] ∧ (ua.boxes box).style_rules = [] ∧
    (ua.boxes box).tags = [] ∧ Acquired ui key ua box := by
  unfold ui_box_acquire at h
  split at h
  · rename_i b hb
    split at h
    · cases h
    · rename_i hgc
      cases h
      refine ⟨rfl, rfl, rfl, rfl, ?_, ?_, ?_, ?_, ?_⟩
      · intro c hc; simp [modify_box_boxes, hc]
      · simp [modify_box_boxes]
      · simp [modify_box_boxes]
      · simp [modify_box_boxes]
      · exact .reused hb hgc rfl rfl rfl (by simp [modify_box_boxes]) (by simp [modify_box_boxes])
          (by simp [modify_box_boxes]) (by simp [modify_box_boxes]) (by simp [modify_box_boxes])
  · rename_i hb
    split at h
    · rename_i b rest hfree
      cases h
      refine ⟨rfl, rfl, rfl, rfl, ?_, ?_, ?_, ?_, ?_⟩
      · intro c hc; simp [modify_box_boxes, hc]
      · simp [modify_box_boxes]
      · simp [modify_box_boxes]
      · simp [modify_box_boxes]
      · exact .recycled hb hfree rfl rfl
    · rename_i hfree
      cases h
      refine ⟨rfl, rfl, rfl, rfl, ?_, ?_, ?_, ?_, ?_⟩
      · intro c hc; simp [set_box_boxes, hc]
      · simp [set_box_boxes, UiBox.zeroed]
      · simp [set_box_boxes, UiBox.zeroed]
      · simp [set_box_boxes, UiBox.zeroed]
      · exact .fresh hb hfree hfree rfl rfl rfl

theorem ui_box_push_str_spec {str_hash_seed : String → UiKey → UiKey} {ui ui' : Ui}
    {flags : Nat} {label : String} {box : BoxId}
    (h : ui_box_push_str str_hash_seed ui flags label = .ok (ui', box)) :
    PushSpec (ui_build_key str_hash_seed ui label) ui flags label ui' box := by
  unfold ui_box_push_str at h
  simp only at h
  split at h
  · cases h
  · rename_i ua b hacq
    split at h
    · cases h
    · rename_i us hsig
      split at h
      · cases h
      · rename_i ut htag
        cases h
        obtain ⟨a1, a2, a3, a4, a5, a6, a7, a8, a9⟩ := ui_box_acquire_spec hacq
        obtain ⟨l1, l2, l3, l4, l5, l6, l7, l8, ch, l9, l10⟩ :=
          ui_box_link_spec ua box (ui_build_key str_hash_seed ui label) flags label
        obtain ⟨s1, s2, s3, s4, s5, s6, s7, sig, s8⟩ := compute_signals_frame hsig
        obtain ⟨ut', htag', t1, t2, t3, t4, t5, t6, t7, t8, t9⟩ :=
          ui_box_signal_tags_spec us box ua.box_stack (by rw [s4, l4])
        rw [htag] at htag'
        cases htag'
        have hsbox : us.boxes box = { ua.boxes box with
            next_style := default_box_style, label := label
            key := ui_build_key str_hash_seed ui label, gc_flag := ua.gc_flag, flags := flags
            parent := ua.box_stack.head?, children := ch, signal := sig } := by
          rw [s8, l9]; simp
        have hbox : ui'.boxes box = { ua.boxes box with
            next_style := default_box_style, label := label
            key := ui_build_key str_hash_seed ui label, gc_flag := ua.gc_flag, flags := flags
            parent := ua.box_stack.head?, children := ch, signal := sig
            tags := (ua.boxes box).tags ++ signal_tags sig } := by
          rw [t9, hsbox]; simp
        have hother : ∀ b, b ≠ box → ui'.boxes b =
            (ui_box_link ua box (ui_build_key str_hash_seed ui label) flags label).boxes b := by
          intro b hb
          rw [t9, s8]; simp [hb]
        refine
          { hgc_flag := by rw [t1, s1, l1, a1]
            hbox_stack := by rw [t4, s4, l4, a2]
            hdepth_first := by rw [t6, s6, l6, a3]
            hclip_stack := by rw [t7, s7, l7, a4]
            hothers := ?_
            hkey := by rw [hbox]
            hgc := by rw [hbox, ← a1]
            hlabel := by rw [hbox]
            hflags := by rw [hbox]
            hparent := by rw [hbox, ← a2]
            hchildren := ?_
            hstyle_rules := by rw [hbox]; exact a7
            hnext_style := by rw [hbox]
            htags := by rw [hbox]; simp [a8]
            hacquired := ?_ }
        · intro b hb
          obtain ⟨c, hc⟩ := l8 b hb
          exact ⟨c, by rw [hother b hb, hc, a5 b hb]⟩
        · intro hne
          rw [hbox]
          exact l10 a6 (by rw [a2]; exact hne)
        · have e1 : (ui'.boxes box).style = (ua.boxes box).style := by rw [hbox]
          have e2 : (ui'.boxes box).rect = (ua.boxes box).rect := by rw [hbox]
          have e3 : (ui'.boxes box).content = (ua.boxes box).content := by rw [hbox]
          have e4 : (ui'.boxes box).text_rect = (ua.boxes box).text_rect := by rw [hbox]
          have e5 : (ui'.boxes box).scratch = (ua.boxes box).scratch := by rw [hbox]
          cases a9 with
          | reused h1 h2 h3 h4 h5 h6 h7 h8 h9 h10 =>
            exact .reused h1 h2 (by rw [t5, s5, l5, h3]) (by rw [t3, s3, l3, h4])
              (by rw [t2, s2, l2, h5]) (e1.trans h6) (e2.trans h7) (e3.trans h8) (e4.trans h9)
              (e5.trans h10)
          | recycled h1 h2 h3 h4 =>
            exact .recycled h1 (by rw [t3, s3, l3]; exact h2) (by rw [t5, s5, l5, h3])
              (by rw [t2, s2, l2, h4])
          | fresh h1 h2 h3 h4 h5 h6 =>
            exact .fresh h1 h2 (by rw [t3, s3, l3, h3]) h4 (by rw [t5, s5, l5, h5])
              (by rw [t2, s2, l2, h6])

/-! ## Theorems: the cache as a finite map -/

theorem map_get_ptr_some_mem {m : List (UiKey × BoxId)} {k : UiKey} {v : BoxId}
    (h : map_get_ptr m k = some v) : (k, v) ∈ m := by
  induction m with
  | nil => simp [map_get_ptr] at h
  | cons e rest ih =>
    obtain ⟨k', v'⟩ := e
    unfold map_get_ptr at h
    split at h
    · rename_i hk
      cases h
      subst hk
      simp
    · exact List.mem_cons_of_mem _ (ih h)

theorem map_get_ptr_none {m : List (UiKey × BoxId)} {k : UiKey}
    (h : map_get_ptr m k = none) : k ∉ m.map Prod.fst := by
  induction m with
  | nil => simp
  | cons e rest ih =>
    obtain ⟨k', v'⟩ := e
    unfold map_get_ptr at h
    split at h
    · cases h
    · rename_i hk
      simp only [List.map_cons, List.mem_cons, not_or]
      exact ⟨fun h' => hk h'.symm, ih h⟩

theorem map_get_ptr_of_mem {m : List (UiKey × BoxId)} {k : UiKey} {v : BoxId}
    (hn : (m.map Prod.fst).Nodup) (h : (k, v) ∈ m) : map_get_ptr m k = some v := by
  induction m with
  | nil => simp at h
  | cons e rest ih =>
    obtain ⟨k', v'⟩ := e
    simp only [List.map_cons, List.nodup_cons] at hn
    unfold map_get_ptr
    rcases List.mem_cons.1 h with h | h
    · cases h; simp
    · have : k' ≠ k := by
        intro hk
        subst hk
        exact hn.1 (List.mem_map_of_mem Prod.fst h)
      simp [this, ih hn.2 h]

theorem map_add_of_none {m : List (UiKey × BoxId)} {k : UiKey} (v : BoxId)
    (h : map_get_ptr m k = none) : map_add m k v = m ++ [(k, v)] := by
  induction m with
  | nil => simp [map_add]
  | cons e rest ih =>
    obtain ⟨k', v'⟩ := e
    unfold map_get_ptr at h
    split at h
    · cases h
    · rename_i hk
      simp [map_add, hk, ih h]

/-! ## Theorems: a push keeps the pass invariant -/

theorem vals_inj {m : List (UiKey × BoxId)} (hn : (m.map Prod.snd).Nodup)
    {e e' : UiKey × BoxId} (he : e ∈ m) (he' : e' ∈ m) (h : e.2 = e'.2) : e = e' :=
  List.inj_on_of_nodup_map hn he he' h

theorem push_other_eq {key : UiKey} {ui ui' : Ui} {flags : Nat} {label : String}
    {box : BoxId} (P : PushSpec key ui flags label ui' box) {b : BoxId} (hb : b ≠ box) :
    (ui'.boxes b).key = (ui.boxes b).key ∧ (ui'.boxes b).gc_flag = (ui.boxes b).gc_flag ∧
    (ui'.boxes b).label = (ui.boxes b).label ∧ (ui'.boxes b).style = (ui.boxes b).style ∧
    (ui'.boxes b).rect = (ui.boxes b).rect ∧ (ui'.boxes b).content = (ui.boxes b).content ∧
    (ui'.boxes b).text_rect = (ui.boxes b).text_rect ∧
    (ui'.boxes b).scratch = (ui.boxes b).scratch ∧
    (ui'.boxes b).parent = (ui.boxes b).parent := by
  obtain ⟨ch, hch⟩ := P.hothers b hb
  rw [hch]
  exact ⟨rfl, rfl, rfl, rfl, rfl, rfl, rfl, rfl, rfl⟩

theorem ui_build_key_eq {str_hash_seed : String → UiKey → UiKey} {ui : Ui}
    (hc : stack_chain str_hash_seed ui.boxes ui.box_stack) (label : String) :
    ui_build_key str_hash_seed ui label = chain_key str_hash_seed (label :: stack_labels ui) := by
  unfold ui_build_key stack_labels
  rcases hs : ui.box_stack with _ | ⟨p, rest⟩
  · simp [chain_key]
  · rw [hs] at hc
    simp only [chain_key]
    rw [hc.1]
    simp [chain_key]

theorem stack_chain_congr {str_hash_seed : String → UiKey → UiKey} {boxes boxes' : BoxId → UiBox}
    {s : List BoxId}
    (h : ∀ c ∈ s, (boxes' c).key = (boxes c).key ∧ (boxes' c).label = (boxes c).label)
    (hc : stack_chain str_hash_seed boxes s) : stack_chain str_hash_seed boxes' s := by
  induction s with
  | nil => trivial
  | cons b rest ih =>
    have hl : (b :: rest).map (fun c => (boxes' c).label) =
        (b :: rest).map (fun c => (boxes c).label) :=
      List.map_congr_left (fun c hc' => (h c hc').2)
    refine ⟨?_, ih (fun c hc' => h c (List.mem_cons_of_mem _ hc')) hc.2⟩
    rw [hl, (h b (List.mem_cons_self _ _)).1]
    exact hc.1

/-- The box a push returns has not been declared earlier in the pass. -/
theorem push_not_declared {str_hash_seed : String → UiKey → UiKey} {key : UiKey}
    {ui ui' : Ui} {flags : Nat} {label : String}
    {box : BoxId} (P : PushSpec key ui flags label ui' box) (I : PassInv str_hash_seed ui) :
    box ∉ ui.depth_first := by
  intro hd
  have hv := I.declared box hd
  cases P.hacquired with
  | reused hget hgc _ _ _ _ _ _ _ _ =>
    exact hgc ((I.marked _ (map_get_ptr_some_mem hget)).2 hd)
  | recycled hget hfree _ _ =>
    exact I.wf.disjoint box (by rw [hfree]; simp) hv
  | fresh hget hfree _ hbox _ _ =>
    have hlt := I.wf.vals_lt box hv
    rw [hbox] at hlt
    exact lt_irrefl _ hlt

/-- A push that returns keeps the invariant of the pass. -/
theorem push_pass_inv {str_hash_seed : String → UiKey → UiKey} {ui ui' : Ui} {flags : Nat}
    {label : String} {box : BoxId}
    (P : PushSpec (ui_build_key str_hash_seed ui label) ui flags label ui' box)
    (I : PassInv str_hash_seed ui) : PassInv str_hash_seed ui' := by
  have hnd := push_not_declared P I
  have hns : box ∉ ui.box_stack := fun h => hnd (I.stack_declared box h)
  have hmem : box ∈ ui'.box_cache.map Prod.snd := by
    cases P.hacquired with
    | reused hget _ hcache _ _ _ _ _ _ _ =>
      rw [hcache]
      exact List.mem_map_of_mem Prod.snd (map_get_ptr_some_mem hget)
    | recycled hget _ hcache _ => rw [hcache, map_add_of_none _ hget]; simp
    | fresh hget _ _ _ hcache _ => rw [hcache, map_add_of_none _ hget]; simp
  have hsub : ∀ e ∈ ui'.box_cache, e.2 ≠ box → e ∈ ui.box_cache := by
    intro e he hne
    cases P.hacquired with
    | reused _ _ hcache _ _ _ _ _ _ _ => rw [hcache] at he; exact he
    | recycled hget _ hcache _ =>
      rw [hcache, map_add_of_none _ hget] at he
      rcases List.mem_append.1 he with h | h
      · exact h
      · simp at h; subst h; exact absurd rfl hne
    | fresh hget _ _ _ hcache _ =>
      rw [hcache, map_add_of_none _ hget] at he
      rcases List.mem_append.1 he with h | h
      · exact h
      · simp at h; subst h; exact absurd rfl hne
  have hsup : ∀ e ∈ ui.box_cache, e ∈ ui'.box_cache := by
    intro e he
    cases P.hacquired with
    | reused _ _ hcache _ _ _ _ _ _ _ => rw [hcache]; exact he
    | recycled hget _ hcache _ => rw [hcache, map_add_of_none _ hget]; simp [he]
    | fresh hget _ _ _ hcache _ => rw [hcache, map_add_of_none _ hget]; simp [he]
  have hwf : StoreWF ui' := by
    cases P.hacquired with
    | reused hget hgc hcache hfree hcount _ _ _ _ _ =>
      refine ⟨by rw [hcache]; exact I.wf.keys_nodup, by rw [hcache]; exact I.wf.vals_nodup,
        by rw [hfree]; exact I.wf.free_nodup, ?_, ?_, ?_, ?_⟩
      · rw [hfree, hcache]; exact I.wf.disjoint
      · rw [hcache, hcount]; exact I.wf.vals_lt
      · rw [hfree, hcount]; exact I.wf.free_lt
      · intro e he
        rw [hcache] at he
        by_cases hb : e.2 = box
        · have := vals_inj I.wf.vals_nodup he (map_get_ptr_some_mem hget) hb
          rw [hb, P.hkey, this]
        · rw [(push_other_eq P hb).1]; exact I.wf.key_ok e he
    | recycled hget hfree hcache hcount =>
      have hfn := I.wf.free_nodup
      rw [hfree] at hfn
      have hbv : box ∉ ui.box_cache.map Prod.snd := I.wf.disjoint box (by rw [hfree]; simp)
      refine ⟨?_, ?_, (List.nodup_cons.1 hfn).2, ?_, ?_, ?_, ?_⟩
      · rw [hcache, map_add_of_none _ hget, List.map_append]
        refine List.Nodup.append I.wf.keys_nodup (by simp) ?_
        simpa using map_get_ptr_none hget
      · rw [hcache, map_add_of_none _ hget, List.map_append]
        refine List.Nodup.append I.wf.vals_nodup (by simp) ?_
        simpa using hbv
      · intro b hb
        rw [hcache, map_add_of_none _ hget, List.map_append]
        have hb' : b ∈ ui.free_boxes := by rw [hfree]; exact List.mem_cons_of_mem _ hb
        have hne : b ≠ box := fun h => (List.nodup_cons.1 hfn).1 (h ▸ hb)
        simp only [List.mem_append, List.map_cons, List.map_nil, List.mem_singleton, not_or]
        exact ⟨I.wf.disjoint b hb', hne⟩
      · intro b hb
        rw [hcache, map_add_of_none _ hget, List.map_append] at hb
        rw [hcount]
        rcases List.mem_append.1 hb with h | h
        · exact I.wf.vals_lt b h
        · simp at h; subst h; exact I.wf.free_lt _ (by rw [hfree]; simp)
      · intro b hb
        rw [hcount]
        exact I.wf.free_lt b (by rw [hfree]; exact List.mem_cons_of_mem _ hb)
      · intro e he
        by_cases hb : e.2 = box
        · rw [hcache, map_add_of_none _ hget] at he
          rcases List.mem_append.1 he with h | h
          · exact absurd (hb ▸ List.mem_map_of_mem Prod.snd h) hbv
          · simp at h; subst h; exact P.hkey
        · rw [(push_other_eq P hb).1]; exact I.wf.key_ok e (hsub e he hb)
    | fresh hget hfree hfree' hbox hcache hcount =>
      have hbv : box ∉ ui.box_cache.map Prod.snd := by
        intro h
        have hlt := I.wf.vals_lt box h
        rw [hbox] at hlt
        exact lt_irrefl _ hlt
      refine ⟨?_, ?_, by rw [hfree']; exact List.nodup_nil, by rw [hfree']; simp, ?_,
        by rw [hfree']; simp, ?_⟩
      · rw [hcache, map_add_of_none _ hget, List.map_append]
        refine List.Nodup.append I.wf.keys_nodup (by simp) ?_
        simpa using map_get_ptr_none hget
      · rw [hcache, map_add_of_none _ hget, List.map_append]
        refine List.Nodup.append I.wf.vals_nodup (by simp) ?_
        simpa using hbv
      · intro b hb
        rw [hcache, map_add_of_none _ hget, List.map_append] at hb
        rw [hcount]
        rcases List.mem_append.1 hb with h | h
        · exact Nat.lt_succ_of_lt (I.wf.vals_lt b h)
        · simp at h; subst h; rw [hbox]; exact Nat.lt_succ_self _
      · intro e he
        by_cases hb : e.2 = box
        · rw [hcache, map_add_of_none _ hget] at he
          rcases List.mem_append.1 he with h | h
          · exact absurd (hb ▸ List.mem_map_of_mem Prod.snd h) hbv
          · simp at h; subst h; exact P.hkey
        · rw [(push_other_eq P hb).1]; exact I.wf.key_ok e (hsub e he hb)
  refine ⟨hwf, ?_, ?_, ?_, ?_, ?_⟩
  · intro e he
    rw [P.hgc_flag, P.hdepth_first]
    by_cases hb : e.2 = box
    · rw [hb, P.hgc]; simp
    · rw [(push_other_eq P hb).2.1, I.marked e (hsub e he hb)]
      simp [hb]
  · intro b hb
    rw [P.hdepth_first] at hb
    rcases List.mem_append.1 hb with h | h
    · obtain ⟨e, he, rfl⟩ := List.mem_map.1 (I.declared b h)
      exact List.mem_map_of_mem Prod.snd (hsup e he)
    · simp at h; subst h; exact hmem
  · rw [P.hdepth_first]
    exact List.Nodup.append I.depth_nodup (by simp) (by simpa using hnd)
  · intro b hb
    rw [P.hbox_stack] at hb
    rw [P.hdepth_first]
    rcases List.mem_cons.1 hb with h | h
    · subst h; simp
    · exact List.mem_append_left _ (I.stack_declared b h)
  · rw [P.hbox_stack]
    have hrest : ∀ c ∈ ui.box_stack,
        (ui'.boxes c).key = (ui.boxes c).key ∧ (ui'.boxes c).label = (ui.boxes c).label := by
      intro c hc
      have hne : c ≠ box := fun h => hns (h ▸ hc)
      exact ⟨(push_other_eq P hne).1, (push_other_eq P hne).2.2.1⟩
    refine ⟨?_, stack_chain_congr hrest I.chain⟩
    rw [P.hkey, ui_build_key_eq I.chain]
    simp only [List.map_cons, P.hlabel, stack_labels]
    congr 2
    exact (List.map_congr_left (fun c hc => (hrest c hc).2)).symm

/-! ## Theorems: the sweep and the pass -/

theorem evicted_cons_keep {boxes : BoxId → UiBox} {gc : Nat} {k : UiKey} {b : BoxId}
    (rest : List (UiKey × BoxId)) (hg : (boxes b).gc_flag = gc) :
    evicted boxes gc ((k, b) :: rest) = evicted boxes gc rest := by
  unfold evicted
  rw [List.filter_cons]
  simp [hg]

theorem evicted_cons_evict {boxes : BoxId → UiBox} {gc : Nat} {k : UiKey} {b : BoxId}
    (rest : List (UiKey × BoxId)) (hg : (boxes b).gc_flag ≠ gc) :
    evicted boxes gc ((k, b) :: rest) = b :: evicted boxes gc rest := by
  unfold evicted
  rw [List.filter_cons]
  simp [hg]

theorem mem_evicted {boxes : BoxId → UiBox} {gc : Nat} {m : List (UiKey × BoxId)} {b : BoxId} :
    b ∈ evicted boxes gc m ↔ b ∈ m.map Prod.snd ∧ (boxes b).gc_flag ≠ gc := by
  unfold evicted
  simp only [List.mem_map, List.mem_filter, decide_eq_true_eq]
  constructor
  · rintro ⟨e, ⟨he, hg⟩, rfl⟩
    exact ⟨⟨e, he, rfl⟩, hg⟩
  · rintro ⟨⟨e, he, rfl⟩, hg⟩
    exact ⟨e, ⟨he, hg⟩, rfl⟩

/-- The sweep loop in closed form: the slots kept are those whose box carries
the current flag, the boxes of the other slots go on the free list, and
`active` is cleared when it is one of them. -/
theorem sweep_slots_eq (boxes : BoxId → UiBox) (gc : Nat) (m : List (UiKey × BoxId))
    (active : Option BoxId) (free : List BoxId) :
    sweep_slots boxes gc m active free =
      (m.filter (fun e : UiKey × BoxId => decide ((boxes e.2).gc_flag = gc)),
       active.bind (fun a => if a ∈ evicted boxes gc m then none else some a),
       (evicted boxes gc m).reverse ++ free) := by
  induction m generalizing active free with
  | nil => cases active <;> simp [sweep_slots, evicted]
  | cons e rest ih =>
    obtain ⟨k, b⟩ := e
    unfold sweep_slots
    by_cases hg : (boxes b).gc_flag = gc
    · simp only [hg, ne_eq, not_true_eq_false, if_false, ih]
      rw [evicted_cons_keep rest hg, List.filter_cons]
      simp [hg]
    · simp only [hg, ne_eq, not_false_eq_true, if_true, ih]
      rw [evicted_cons_evict rest hg, List.filter_cons]
      cases active with
      | none => simp [hg]
      | some a =>
        by_cases ha : a = b
        · simp [hg, ha]
        · have ha' : ¬ b = a := fun h => ha h.symm
          simp [hg, ha, ha']

theorem ui_pop_parent_pass_inv {str_hash_seed : String → UiKey → UiKey} {ui ui' : Ui}
    (h : ui_pop_parent ui = .ok ui') (I : PassInv str_hash_seed ui) :
    PassInv str_hash_seed ui' := by
  unfold ui_pop_parent at h
  split at h
  · cases h
  · rename_i top rest hs
    cases h
    refine ⟨⟨I.wf.keys_nodup, I.wf.vals_nodup, I.wf.free_nodup, I.wf.disjoint, I.wf.vals_lt,
      I.wf.free_lt, I.wf.key_ok⟩, I.marked, I.declared, I.depth_nodup, ?_, ?_⟩
    · intro b hb
      exact I.stack_declared b (by rw [hs]; exact List.mem_cons_of_mem _ hb)
    · have := I.chain
      rw [hs] at this
      exact this.2

theorem run_op_pass_inv {str_hash_seed : String → UiKey → UiKey} {ui ui' : Ui} {op : BuildOp}
    (h : run_op str_hash_seed ui op = .ok ui') (I : PassInv str_hash_seed ui) :
    PassInv str_hash_seed ui' := by
  cases op with
  | push flags label =>
    simp only [run_op] at h
    split at h
    · cases h
    · rename_i u b hp
      cases h
      exact push_pass_inv (ui_box_push_str_spec hp) I
  | pop => exact ui_pop_parent_pass_inv h I

theorem run_ops_pass_inv {str_hash_seed : String → UiKey → UiKey} {ops : List BuildOp}
    {ui ui' : Ui} (h : run_ops str_hash_seed ui ops = .ok ui') (I : PassInv str_hash_seed ui) :
    PassInv str_hash_seed ui' := by
  induction ops generalizing ui with
  | nil => cases h; exact I
  | cons op rest ih =>
    unfold run_ops at h
    split at h
    · cases h
    · rename_i u hop
      exact ih h (run_op_pass_inv hop I)

theorem pass_start_pass_inv {str_hash_seed : String → UiKey → UiKey} {ui : Ui}
    (S : PassStart ui) : PassInv str_hash_seed (depth_first_reset ui) := by
  refine ⟨⟨S.wf.keys_nodup, S.wf.vals_nodup, S.wf.free_nodup, S.wf.disjoint, S.wf.vals_lt,
    S.wf.free_lt, S.wf.key_ok⟩, ?_, ?_, List.nodup_nil, ?_, ?_⟩
  · intro e he
    simp only [depth_first_reset, List.not_mem_nil, iff_false]
    exact S.unmarked e he
  · intro b hb; simp [depth_first_reset] at hb
  · intro b hb
    have : (depth_first_reset ui).box_stack = [] := S.stack_empty
    rw [this] at hb
    simp at hb
  · have : (depth_first_reset ui).box_stack = [] := S.stack_empty
    rw [this]
    trivial

theorem gc_toggle_ne (n : Nat) : (if n = 0 then 1 else 0) ≠ n := by
  split <;> omega

theorem pass_inv_pass_start {str_hash_seed : String → UiKey → UiKey} {ui : Ui}
    (I : PassInv str_hash_seed ui) (hbal : ui.box_stack = []) :
    PassStart (gc_toggle (gc_sweep ui)) := by
  have hc : (gc_toggle (gc_sweep ui)).box_cache =
      ui.box_cache.filter (fun e : UiKey × BoxId => decide ((ui.boxes e.2).gc_flag = ui.gc_flag)) := by
    simp [gc_toggle, gc_sweep, sweep_slots_eq]
  have hf : (gc_toggle (gc_sweep ui)).free_boxes =
      (evicted ui.boxes ui.gc_flag ui.box_cache).reverse ++ ui.free_boxes := by
    simp [gc_toggle, gc_sweep, sweep_slots_eq]
  have hb : (gc_toggle (gc_sweep ui)).boxes = ui.boxes := rfl
  have hn : (gc_toggle (gc_sweep ui)).box_count = ui.box_count := rfl
  have hsub : ∀ e ∈ (gc_toggle (gc_sweep ui)).box_cache,
      e ∈ ui.box_cache ∧ (ui.boxes e.2).gc_flag = ui.gc_flag := by
    intro e he
    rw [hc] at he
    simpa using he
  refine ⟨⟨?_, ?_, ?_, ?_, ?_, ?_, ?_⟩, hbal, ?_⟩
  · rw [hc]
    exact I.wf.keys_nodup.sublist ((List.filter_sublist _).map _)
  · rw [hc]
    exact I.wf.vals_nodup.sublist ((List.filter_sublist _).map _)
  · rw [hf]
    refine List.Nodup.append ?_ I.wf.free_nodup ?_
    · rw [List.nodup_reverse]
      exact I.wf.vals_nodup.sublist ((List.filter_sublist _).map _)
    · intro b hb1 hb2
      rw [List.mem_reverse, mem_evicted] at hb1
      exact I.wf.disjoint b hb2 hb1.1
  · intro b hbf hbv
    obtain ⟨e, he, rfl⟩ := List.mem_map.1 hbv
    obtain ⟨he1, he2⟩ := hsub e he
    rw [hf] at hbf
    rcases List.mem_append.1 hbf with h | h
    · rw [List.mem_reverse, mem_evicted] at h
      exact h.2 he2
    · exact I.wf.disjoint _ h (List.mem_map_of_mem Prod.snd he1)
  · intro b hbv
    obtain ⟨e, he, rfl⟩ := List.mem_map.1 hbv
    rw [hn]
    exact I.wf.vals_lt _ (List.mem_map_of_mem Prod.snd (hsub e he).1)
  · intro b hbf
    rw [hn]
    rw [hf] at hbf
    rcases List.mem_append.1 hbf with h | h
    · rw [List.mem_reverse, mem_evicted] at h
      exact I.wf.vals_lt _ h.1
    · exact I.wf.free_lt _ h
  · intro e he
    rw [hb]
    exact I.wf.key_ok e (hsub e he).1
  · intro e he
    rw [hb, (hsub e he).2]
    exact (gc_toggle_ne _).symm

theorem ui_init_pass_start (w h : F32) (e : Event) : PassStart (ui_init w h e) := by
  refine ⟨⟨?_, ?_, ?_, ?_, ?_, ?_, ?_⟩, rfl, ?_⟩ <;> simp [ui_init]

theorem same_store_pass_start {u v : Ui} (hs : SameStore u v) (S : PassStart u) : PassStart v := by
  refine ⟨⟨?_, ?_, ?_, ?_, ?_, ?_, ?_⟩, ?_, ?_⟩
  · rw [hs.box_cache]; exact S.wf.keys_nodup
  · rw [hs.box_cache]; exact S.wf.vals_nodup
  · rw [hs.free_boxes]; exact S.wf.free_nodup
  · rw [hs.box_cache, hs.free_boxes]; exact S.wf.disjoint
  · rw [hs.box_cache, hs.box_count]; exact S.wf.vals_lt
  · rw [hs.free_boxes, hs.box_count]; exact S.wf.free_lt
  · rw [hs.box_cache]; intro e he; rw [hs.key]; exact S.wf.key_ok e he
  · rw [hs.box_stack]; exact S.stack_empty
  · rw [hs.box_cache, hs.gc_flag]; intro e he; rw [hs.gc]; exact S.unmarked e he

theorem reachable_pass_start {str_hash_seed : String → UiKey → UiKey} {ui : Ui}
    (h : Reachable str_hash_seed ui) : PassStart ui := by
  induction h with
  | init w h e => exact ui_init_pass_start w h e
  | pass ops _ hrun hbal ih => exact pass_inv_pass_start (run_ops_pass_inv hrun (pass_start_pass_inv ih)) hbal
  | other _ hs ih => exact same_store_pass_start hs ih

/-- What a cache entry keeps across one build call. -/
theorem run_op_entry {str_hash_seed : String → UiKey → UiKey} {ui ui' : Ui} {op : BuildOp}
    (h : run_op str_hash_seed ui op = .ok ui')
    {e : UiKey × BoxId} (he : e ∈ ui.box_cache) :
    e ∈ ui'.box_cache ∧ ui'.gc_flag = ui.gc_flag ∧
    ((ui.boxes e.2).gc_flag = ui.gc_flag → (ui'.boxes e.2).gc_flag = ui.gc_flag) ∧
    ((ui'.boxes e.2).gc_flag ≠ ui.gc_flag →
      (ui'.boxes e.2).style = (ui.boxes e.2).style ∧ (ui'.boxes e.2).rect = (ui.boxes e.2).rect ∧
      (ui'.boxes e.2).content = (ui.boxes e.2).content ∧
      (ui'.boxes e.2).text_rect = (ui.boxes e.2).text_rect ∧
      (ui'.boxes e.2).scratch = (ui.boxes e.2).scratch) := by
  cases op with
  | push flags label =>
    simp only [run_op] at h
    split at h
    · cases h
    · rename_i u b hp
      cases h
      have P := ui_box_push_str_spec hp
      refine ⟨?_, P.hgc_flag, ?_, ?_⟩
      · cases P.hacquired with
        | reused _ _ hcache _ _ _ _ _ _ _ => rw [hcache]; exact he
        | recycled hget _ hcache _ => rw [hcache, map_add_of_none _ hget]; simp [he]
        | fresh hget _ _ _ hcache _ => rw [hcache, map_add_of_none _ hget]; simp [he]
      · intro hg
        by_cases hb : e.2 = b
        · rw [hb]; exact P.hgc
        · rw [(push_other_eq P hb).2.1]; exact hg
      · intro hg
        have hb : e.2 ≠ b := fun hb => hg (hb ▸ P.hgc)
        have := push_other_eq P hb
        exact ⟨this.2.2.2.1, this.2.2.2.2.1, this.2.2.2.2.2.1, this.2.2.2.2.2.2.1,
          this.2.2.2.2.2.2.2.1⟩
  | pop =>
    simp only [run_op, ui_pop_parent] at h
    split at h
    · cases h
    · cases h
      exact ⟨he, rfl, fun h => h, fun _ => ⟨rfl, rfl, rfl, rfl, rfl⟩⟩

/-- What a cache entry keeps across a run of build calls. -/
theorem run_ops_entry {str_hash_seed : String → UiKey → UiKey} {ops : List BuildOp}
    {ui ui' : Ui}
    (h : run_ops str_hash_seed ui ops = .ok ui') (I : PassInv str_hash_seed ui)
    {e : UiKey × BoxId} (he : e ∈ ui.box_cache) :
    e ∈ ui'.box_cache ∧ ui'.gc_flag = ui.gc_flag ∧
    ((ui.boxes e.2).gc_flag = ui.gc_flag → (ui'.boxes e.2).gc_flag = ui.gc_flag) ∧
    ((ui'.boxes e.2).gc_flag ≠ ui.gc_flag →
      (ui'.boxes e.2).style = (ui.boxes e.2).style ∧ (ui'.boxes e.2).rect = (ui.boxes e.2).rect ∧
      (ui'.boxes e.2).content = (ui.boxes e.2).content ∧
      (ui'.boxes e.2).text_rect = (ui.boxes e.2).text_rect ∧
      (ui'.boxes e.2).scratch = (ui.boxes e.2).scratch) := by
  induction ops generalizing ui with
  | nil => cases h; exact ⟨he, rfl, fun h => h, fun _ => ⟨rfl, rfl, rfl, rfl, rfl⟩⟩
  | cons op rest ih =>
    unfold run_ops at h
    split at h
    · cases h
    · rename_i u hop
      obtain ⟨a1, a2, a3, a4⟩ := run_op_entry hop he
      obtain ⟨b1, b2, b3, b4⟩ := ih h (run_op_pass_inv hop I) a1
      refine ⟨b1, b2.trans a2, ?_, ?_⟩
      · intro hg
        rw [← a2]
        exact b3 (by rw [a2]; exact a3 hg)
      · intro hg
        have hg' : (u.boxes e.2).gc_flag ≠ ui.gc_flag := by
          intro hc
          exact hg (by rw [← a2]; exact b3 (by rw [a2]; exact hc))
        obtain ⟨c1, c2, c3, c4, c5⟩ := a4 hg'
        obtain ⟨d1, d2, d3, d4, d5⟩ := b4 (by rw [a2]; exact hg)
        exact ⟨d1.trans c1, d2.trans c2, d3.trans c3, d4.trans c4, d5.trans c5⟩

/-- The box a push returns is in the cache under the key of the push. -/
theorem push_entry {key : UiKey} {ui ui' : Ui} {flags : Nat} {label : String}
    {box : BoxId} (P : PushSpec key ui flags label ui' box) : (key, box) ∈ ui'.box_cache := by
  cases P.hacquired with
  | reused hget _ hcache _ _ _ _ _ _ _ => rw [hcache]; exact map_get_ptr_some_mem hget
  | recycled hget _ hcache _ => rw [hcache, map_add_of_none _ hget]; simp
  | fresh hget _ _ _ hcache _ => rw [hcache, map_add_of_none _ hget]; simp

/-! ## Theorems: signals -/

theorem hovered_walk_congr {boxes boxes' : BoxId → UiBox} (box : BoxId)
    (h : ∀ b, (boxes' b).parent = (boxes b).parent) (fuel : Nat) (start : Option BoxId) :
    hovered_walk boxes' box fuel start = hovered_walk boxes box fuel start := by
  induction fuel generalizing start with
  | zero => cases start <;> rfl
  | succ n ih =>
    cases start with
    | none => rfl
    | some b =>
      simp only [hovered_walk]
      rw [h b, ih]

/-- The local `hovered` does not depend on the signal records. -/
theorem compute_hovered_reset (ui : Ui) (box : BoxId) (sig : UiSignal) :
    compute_hovered (ui.modify_box box (fun b => { b with signal := sig })) box =
      compute_hovered ui box := by
  unfold compute_hovered
  have hp : ∀ b, ((ui.modify_box box (fun b => { b with signal := sig })).boxes b).parent =
      (ui.boxes b).parent := by
    intro b
    rw [modify_box_boxes]
    split
    · rename_i hb; subst hb; rfl
    · rfl
  have hr : ((ui.modify_box box (fun b => { b with signal := sig })).boxes box).rect =
      (ui.boxes box).rect := by
    rw [modify_box_boxes]; simp
  rw [hovered_walk_congr box hp]
  simp only [modify_box_box_count, modify_box_hovered, modify_box_clip_stack, modify_box_mouse, hr]

/-- The walk from `ui->hovered` ends when the parent links it follows are
acyclic: `rank` decreases along every link out of a box other than `box`. -/
theorem hovered_walk_terminates {boxes : BoxId → UiBox} {box : BoxId} (rank : BoxId → Nat)
    (hrank : ∀ b p, b ≠ box → (boxes b).parent = some p → rank p < rank b)
    (fuel : Nat) (start : Option BoxId) (hs : ∀ s, start = some s → rank s < fuel) :
    hovered_walk boxes box fuel start ≠ none := by
  induction fuel generalizing start with
  | zero =>
    cases start with
    | none => simp [hovered_walk]
    | some s => exact absurd (hs s rfl) (Nat.not_lt_zero _)
  | succ n ih =>
    cases start with
    | none => simp [hovered_walk]
    | some s =>
      simp only [hovered_walk]
      split
      · simp
      · rename_i hne
        apply ih
        intro p hp
        have := hrank s p hne hp
        have := hs s rfl
        omega

theorem compute_hovered_not_fatal (ui : Ui) (box : BoxId) :
    compute_hovered ui box ≠ .error .fatal_error := by
  unfold compute_hovered
  split
  · simp
  · simp
  · split <;> simp

theorem compute_signals_not_fatal (ui : Ui) (box : BoxId) :
    compute_signals ui box ≠ .error .fatal_error := by
  unfold compute_signals
  simp only
  split
  · simp
  · split
    · rename_i e he
      intro h
      cases h
      exact compute_hovered_not_fatal _ _ he
    · split
      · split <;> simp
      · split
        · split <;> simp
        · simp

/-- `compute_signals` returns whenever its local `hovered` is computed. -/
theorem compute_signals_returns (ui : Ui) (box : BoxId) (hov : Bool)
    (h : compute_hovered ui box = .ok hov) : ∃ ui', compute_signals ui box = .ok ui' := by
  unfold compute_signals
  simp only [compute_hovered_reset, h]
  split
  · exact ⟨_, rfl⟩
  · split
    · split <;> exact ⟨_, rfl⟩
    · split
      · split <;> exact ⟨_, rfl⟩
      · exact ⟨_, rfl⟩

theorem compute_hovered_returns (ui : Ui) (box : BoxId) (rank : BoxId → Nat)
    (hclip : ui.clip_stack ≠ [])
    (hrank : ∀ b p, b ≠ box → (ui.boxes b).parent = some p → rank p < rank b)
    (hbound : ∀ b, rank b ≤ ui.box_count) : ∃ hov, compute_hovered ui box = .ok hov := by
  unfold compute_hovered
  have := hovered_walk_terminates rank hrank (ui.box_count + 1) ui.hovered
    (fun s _ => Nat.lt_succ_of_le (hbound s))
  split
  · rename_i h; exact absurd h this
  · exact ⟨_, rfl⟩
  · split
    · rename_i h; exact absurd h hclip
    · exact ⟨_, rfl⟩

theorem ui_box_acquire_fatal_iff (ui : Ui) (key : UiKey) :
    ui_box_acquire ui key = .error .fatal_error ↔
      ∃ box, map_get_ptr ui.box_cache key = some box ∧ (ui.boxes box).gc_flag = ui.gc_flag := by
  unfold ui_box_acquire
  split
  · rename_i b hb
    split
    · rename_i hg
      simp [hg, hb]
    · rename_i hg
      simp [hg, hb]
  · rename_i hb
    split <;> simp [hb]

theorem ui_box_acquire_returns (ui : Ui) (key : UiKey)
    (h : ¬ ∃ box, map_get_ptr ui.box_cache key = some box ∧ (ui.boxes box).gc_flag = ui.gc_flag) :
    ∃ ua box, ui_box_acquire ui key = .ok (ua, box) := by
  unfold ui_box_acquire
  split
  · rename_i b hb
    split
    · rename_i hg
      exact absurd ⟨b, hb, hg⟩ h
    · exact ⟨_, _, rfl⟩
  · split <;> exact ⟨_, _, rfl⟩

/-! ## Evaluation of the sample inputs -/

theorem demo_run_pre1 :
    run_ops demo_hash (depth_first_reset demo_init) demo_pre1 = .ok demo_u1 := by rfl

theorem demo_run_push1 : ui_box_push_str demo_hash demo_u1 0 "bb" = .ok (demo_u2.1, 2) := by rfl

theorem demo_run_post1 : run_ops demo_hash demo_u2.1 demo_post1 = .ok demo_u3 := by rfl

theorem demo_run_pre2 :
    run_ops demo_hash (depth_first_reset demo_v0) demo_pre2 = .ok demo_v1 := by rfl

theorem demo_run_push2 : ui_box_push_str demo_hash demo_v1 0 "bb" = .ok (demo_v2.1, 2) := by rfl

theorem demo_run_post2 : run_ops demo_hash demo_v2.1 demo_post1 = .ok demo_v3 := by rfl

theorem demo_run_pass1 :
    run_ops demo_hash (depth_first_reset demo_init) (demo_pre1 ++ .push 0 "bb" :: demo_post1) =
      .ok demo_u3 := by rfl

theorem demo_run_pass2 :
    run_ops demo_hash (depth_first_reset demo_v0) (demo_pre2 ++ .push 0 "bb" :: demo_post1) =
      .ok demo_v3 := by rfl

theorem demo_reach_v0 : Reachable demo_hash demo_v0 :=
  Reachable.pass _ (Reachable.init 800 600 demo_event) demo_run_pass1 (by decide)

theorem same_store_refl (u : Ui) : SameStore u u :=
  ⟨rfl, rfl, rfl, rfl, rfl, fun _ => rfl, fun _ => rfl⟩

theorem demo_release_hovered : compute_hovered demo_release 0 = .ok true := by
  simp [compute_hovered, demo_release, hovered_walk, ui_init, within_box, compute_rect_intersect,
    UiBox.zeroed]
  norm_num

/-! ## Claims about the box store -/

/-- C1. Identity stability: when a box with label `L` is declared under the
same path of parent labels in two consecutive rebuild passes (from any
reachable context, with the other stages of the frame in between), the second
call of `ui_box_push_str` returns the box the first one returned; its key is
the chained hash of the label path; its current style, rect, content (and text
rect and scratch word) are those the box had when the second pass began; and it
comes back with the parent stack's top as parent, an empty child list, an empty
rule list, only the tags of its fresh signals, and the default target style. -/
theorem ui_box_push_str_identity_stable (str_hash_seed : String → UiKey → UiKey)
    (u0 u1 u2 u3 v0 v1 v2 : Ui) (pre1 post1 pre2 : List BuildOp) (flags1 flags2 : Nat)
    (L : String) (b1 b2 : BoxId)
    (hreach : Reachable str_hash_seed u0)
    (hpre1 : run_ops str_hash_seed (depth_first_reset u0) pre1 = .ok u1)
    (hpush1 : ui_box_push_str str_hash_seed u1 flags1 L = .ok (u2, b1))
    (hpost1 : run_ops str_hash_seed u2 post1 = .ok u3)
    (hbal : u3.box_stack = [])
    (hother : SameStore (gc_toggle (gc_sweep u3)) v0)
    (hpre2 : run_ops str_hash_seed (depth_first_reset v0) pre2 = .ok v1)
    (hpath : stack_labels v1 = stack_labels u1)
    (hpush2 : ui_box_push_str str_hash_seed v1 flags2 L = .ok (v2, b2)) :
    b2 = b1 ∧
    (v2.boxes b2).key = chain_key str_hash_seed (L :: stack_labels u1) ∧
    (v2.boxes b2).style = (v0.boxes b1).style ∧
    (v2.boxes b2).rect = (v0.boxes b1).rect ∧
    (v2.boxes b2).content = (v0.boxes b1).content ∧
    (v2.boxes b2).text_rect = (v0.boxes b1).text_rect ∧
    (v2.boxes b2).scratch = (v0.boxes b1).scratch ∧
    (v2.boxes b2).parent = v1.box_stack.head? ∧
    (v2.boxes b2).children = [] ∧
    (v2.boxes b2).style_rules = [] ∧
    (v2.boxes b2).tags = signal_tags (v2.boxes b2).signal ∧
    (v2.boxes b2).next_style = default_box_style := by
  -- the first pass
  have I1 := run_ops_pass_inv hpre1 (pass_start_pass_inv (reachable_pass_start hreach))
  have P1 := ui_box_push_str_spec hpush1
  have I2 := push_pass_inv P1 I1
  have hk1 := ui_build_key_eq I1.chain L
  have e2 := push_entry P1
  obtain ⟨e3, g3, m3, _⟩ := run_ops_entry hpost1 I2 e2
  have I3 := run_ops_pass_inv hpost1 I2
  have hm3 : (u3.boxes b1).gc_flag = u3.gc_flag := by
    rw [g3]; exact m3 (by rw [P1.hgc, P1.hgc_flag])
  -- the sweep and the other stages
  have S := pass_inv_pass_start I3 hbal
  have ew : (ui_build_key str_hash_seed u1 L, b1) ∈ (gc_toggle (gc_sweep u3)).box_cache := by
    have : (gc_toggle (gc_sweep u3)).box_cache = u3.box_cache.filter
        (fun e : UiKey × BoxId => decide ((u3.boxes e.2).gc_flag = u3.gc_flag)) := by
      simp [gc_toggle, gc_sweep, sweep_slots_eq]
    rw [this, List.mem_filter]
    exact ⟨e3, by simpa using hm3⟩
  have S0 := same_store_pass_start hother S
  have ev0 : (ui_build_key str_hash_seed u1 L, b1) ∈ (depth_first_reset v0).box_cache := by
    show _ ∈ v0.box_cache
    rw [hother.box_cache]; exact ew
  -- the second pass
  have J0 : PassInv str_hash_seed (depth_first_reset v0) := pass_start_pass_inv S0
  have J1 := run_ops_pass_inv hpre2 J0
  obtain ⟨ev1, gv1, _, pv1⟩ := run_ops_entry hpre2 J0 ev0
  have P2 := ui_box_push_str_spec hpush2
  have hk2 := ui_build_key_eq J1.chain L
  have hkk : ui_build_key str_hash_seed v1 L = ui_build_key str_hash_seed u1 L := by
    rw [hk1, hk2, hpath]
  have hget : map_get_ptr v1.box_cache (ui_build_key str_hash_seed v1 L) = some b1 := by
    rw [hkk]; exact map_get_ptr_of_mem J1.wf.keys_nodup ev1
  have hhead : v1.box_stack.head? ≠ some b2 := by
    intro hh
    have : b2 ∈ v1.box_stack := List.mem_of_mem_head? hh
    exact push_not_declared P2 J1 (J1.stack_declared b2 this)
  cases P2.hacquired with
  | reused hget2 hgc2 _ _ _ hst hre hco hte hsc =>
    have hb : b2 = b1 := by
      rw [hget] at hget2
      exact (Option.some.inj hget2).symm
    subst hb
    have hgc2' : (v1.boxes b2).gc_flag ≠ (depth_first_reset v0).gc_flag := by
      rw [← gv1]; exact hgc2
    obtain ⟨q1, q2, q3, q4, q5⟩ := pv1 hgc2'
    refine ⟨rfl, ?_, hst.trans q1, hre.trans q2, hco.trans q3, hte.trans q4, hsc.trans q5,
      P2.hparent, P2.hchildren hhead, P2.hstyle_rules, P2.htags, P2.hnext_style⟩
    rw [P2.hkey, hkk, hk1]
  | recycled hget2 _ _ _ => rw [hget] at hget2; cases hget2
  | fresh hget2 _ _ _ _ _ => rw [hget] at hget2; cases hget2

theorem ui_box_push_str_identity_stable_witness :
    (Reachable demo_hash demo_init ∧
      run_ops demo_hash (depth_first_reset demo_init) demo_pre1 = .ok demo_u1 ∧
      ui_box_push_str demo_hash demo_u1 0 "bb" = .ok (demo_u2.1, 2) ∧
      run_ops demo_hash demo_u2.1 demo_post1 = .ok demo_u3 ∧
      demo_u3.box_stack = [] ∧
      SameStore (gc_toggle (gc_sweep demo_u3)) demo_v0 ∧
      run_ops demo_hash (depth_first_reset demo_v0) demo_pre2 = .ok demo_v1 ∧
      stack_labels demo_v1 = stack_labels demo_u1 ∧
      ui_box_push_str demo_hash demo_v1 0 "bb" = .ok (demo_v2.1, 2)) ∧
    ((2 : BoxId) = 2 ∧
      (demo_v2.1.boxes 2).key = chain_key demo_hash ("bb" :: stack_labels demo_u1) ∧
      (demo_v2.1.boxes 2).style = (demo_v0.boxes 2).style ∧
      (demo_v2.1.boxes 2).rect = (demo_v0.boxes 2).rect ∧
      (demo_v2.1.boxes 2).content = (demo_v0.boxes 2).content ∧
      (demo_v2.1.boxes 2).text_rect = (demo_v0.boxes 2).text_rect ∧
      (demo_v2.1.boxes 2).scratch = (demo_v0.boxes 2).scratch ∧
      (demo_v2.1.boxes 2).parent = demo_v1.box_stack.head? ∧
      (demo_v2.1.boxes 2).children = [] ∧
      (demo_v2.1.boxes 2).style_rules = [] ∧
      (demo_v2.1.boxes 2).tags = signal_tags (demo_v2.1.boxes 2).signal ∧
      (demo_v2.1.boxes 2).next_style = default_box_style) :=
  ⟨⟨Reachable.init 800 600 demo_event, demo_run_pre1, demo_run_push1, demo_run_post1,
      by decide, same_store_refl _, demo_run_pre2, by decide, demo_run_push2⟩,
    ui_box_push_str_identity_stable demo_hash demo_init demo_u1 demo_u2.1 demo_u3 demo_v0
      demo_v1 demo_v2.1 demo_pre1 demo_post1 demo_pre2 0 0 "bb" 2 2
      (Reachable.init 800 600 demo_event) demo_run_pre1 demo_run_push1 demo_run_post1
      (by decide) (same_store_refl _) demo_run_pre2 (by decide) demo_run_push2⟩

/-- C2. The sweep that ends a rebuild pass (run from any reachable context):
every box that is in the identity map at the sweep but was not declared in the
pass (is not in `depth_first`) is absent from the map afterwards and present in
the free list, and `ui->active` is empty afterwards if it was that box; every
box declared in the pass keeps its map entry. -/
theorem gc_sweep_evicts_undeclared (str_hash_seed : String → UiKey → UiKey)
    (u0 u1 : Ui) (ops : List BuildOp)
    (hreach : Reachable str_hash_seed u0)
    (hrun : run_ops str_hash_seed (depth_first_reset u0) ops = .ok u1) :
    (∀ b ∈ u1.box_cache.map Prod.snd, b ∉ u1.depth_first →
      b ∉ (gc_sweep u1).box_cache.map Prod.snd ∧ b ∈ (gc_sweep u1).free_boxes ∧
      (u1.active = some b → (gc_sweep u1).active = none)) ∧
    (∀ e ∈ u1.box_cache, e.2 ∈ u1.depth_first → e ∈ (gc_sweep u1).box_cache) ∧
    (∀ b ∈ u1.depth_first, b ∈ (gc_sweep u1).box_cache.map Prod.snd) := by
  have I := run_ops_pass_inv hrun (pass_start_pass_inv (reachable_pass_start hreach))
  have hc : (gc_sweep u1).box_cache = u1.box_cache.filter
      (fun e : UiKey × BoxId => decide ((u1.boxes e.2).gc_flag = u1.gc_flag)) := by
    simp [gc_sweep, sweep_slots_eq]
  have hf : (gc_sweep u1).free_boxes =
      (evicted u1.boxes u1.gc_flag u1.box_cache).reverse ++ u1.free_boxes := by
    simp [gc_sweep, sweep_slots_eq]
  have ha : (gc_sweep u1).active = u1.active.bind
      (fun a => if a ∈ evicted u1.boxes u1.gc_flag u1.box_cache then none else some a) := by
    simp [gc_sweep, sweep_slots_eq]
  have hkeep : ∀ e ∈ u1.box_cache, e.2 ∈ u1.depth_first → e ∈ (gc_sweep u1).box_cache := by
    intro e he hd
    rw [hc, List.mem_filter]
    exact ⟨he, by simpa using (I.marked e he).2 hd⟩
  refine ⟨?_, hkeep, ?_⟩
  · intro b hb hnd
    obtain ⟨e, he, rfl⟩ := List.mem_map.1 hb
    have hg : (u1.boxes e.2).gc_flag ≠ u1.gc_flag := fun h => hnd ((I.marked e he).1 h)
    have hev : e.2 ∈ evicted u1.boxes u1.gc_flag u1.box_cache := mem_evicted.2 ⟨hb, hg⟩
    refine ⟨?_, ?_, ?_⟩
    · intro hin
      obtain ⟨e', he', hee⟩ := List.mem_map.1 hin
      rw [hc, List.mem_filter] at he'
      have : (u1.boxes e'.2).gc_flag = u1.gc_flag := by simpa using he'.2
      rw [hee] at this
      exact hg this
    · rw [hf]
      exact List.mem_append_left _ (List.mem_reverse.2 hev)
    · intro hact
      rw [ha, hact]
      simp [hev]
  · intro b hb
    obtain ⟨e, he, rfl⟩ := List.mem_map.1 (I.declared b hb)
    exact List.mem_map_of_mem Prod.snd (hkeep e he hb)

theorem gc_sweep_evicts_undeclared_witness :
    (Reachable demo_hash demo_v0 ∧
      run_ops demo_hash (depth_first_reset demo_v0) (demo_pre2 ++ .push 0 "bb" :: demo_post1) =
        .ok demo_v3) ∧
    (1 ∉ (gc_sweep demo_v3).box_cache.map Prod.snd ∧ 1 ∈ (gc_sweep demo_v3).free_boxes ∧
      (demo_v3.active = some 1 → (gc_sweep demo_v3).active = none)) ∧
    2 ∈ (gc_sweep demo_v3).box_cache.map Prod.snd :=
  ⟨⟨demo_reach_v0, demo_run_pass2⟩,
    (gc_sweep_evicts_undeclared demo_hash demo_v0 demo_v3 _ demo_reach_v0 demo_run_pass2).1 1
      (by decide) (by decide),
    (gc_sweep_evicts_undeclared demo_hash demo_v0 demo_v3 _ demo_reach_v0 demo_run_pass2).2.2 2
      (by decide)⟩

/-- C3. `ui_box_push_str` aborts with a fatal error exactly when the identity
map holds, under the key computed from the label and the parent's key, a box
whose flag equals the current toggle; in every other case (in a context with a
clip rectangle on the stack and acyclic parent links, as `rank` shows) it
returns a box. -/
theorem ui_box_push_str_fatal_iff (str_hash_seed : String → UiKey → UiKey) (ui : Ui)
    (flags : Nat) (label : String) (rank : BoxId → Nat)
    (hclip : ui.clip_stack ≠ [])
    (hrank : ∀ b p, (ui.boxes b).parent = some p → rank p < rank b)
    (hbound : ∀ b, rank b ≤ ui.box_count) :
    (ui_box_push_str str_hash_seed ui flags label = .error .fatal_error ↔
      ∃ box, map_get_ptr ui.box_cache (ui_build_key str_hash_seed ui label) = some box ∧
        (ui.boxes box).gc_flag = ui.gc_flag) ∧
    ((¬ ∃ box, map_get_ptr ui.box_cache (ui_build_key str_hash_seed ui label) = some box ∧
        (ui.boxes box).gc_flag = ui.gc_flag) →
      ∃ ui' box, ui_box_push_str str_hash_seed ui flags label = .ok (ui', box)) := by
  have hiff := ui_box_acquire_fatal_iff ui (ui_build_key str_hash_seed ui label)
  constructor
  · constructor
    · intro h
      rw [← hiff]
      unfold ui_box_push_str at h
      simp only at h
      rcases hacq : ui_box_acquire ui (ui_build_key str_hash_seed ui label) with e | ⟨ua, b⟩
      · simp only [hacq] at h
        cases h
        rfl
      · simp only [hacq] at h
        rcases hsig : compute_signals
          (ui_box_link ua b (ui_build_key str_hash_seed ui label) flags label) b with e | us
        · simp only [hsig] at h
          cases h
          exact absurd hsig (compute_signals_not_fatal _ _)
        · simp only [hsig] at h
          obtain ⟨l1, l2, l3, l4, _⟩ :=
            ui_box_link_spec ua b (ui_build_key str_hash_seed ui label) flags label
          obtain ⟨s1, s2, s3, s4, _⟩ := compute_signals_frame hsig
          obtain ⟨ut, ht, _⟩ := ui_box_signal_tags_spec us b ua.box_stack (by rw [s4, l4])
          simp only [ht] at h
          cases h
    · intro h
      have := hiff.2 h
      unfold ui_box_push_str
      simp only [this]
  · intro hno
    obtain ⟨ua, b, hacq⟩ := ui_box_acquire_returns ui _ hno
    obtain ⟨a1, a2, a3, a4, a5, a6, a7, a8, a9⟩ := ui_box_acquire_spec hacq
    obtain ⟨l1, l2, l3, l4, l5, l6, l7, l8, ch, l9, l10⟩ :=
      ui_box_link_spec ua b (ui_build_key str_hash_seed ui label) flags label
    have hcount : ui.box_count ≤ ua.box_count := by
      cases a9 with
      | reused _ _ _ _ hc _ _ _ _ _ => rw [hc]
      | recycled _ _ _ hc => rw [hc]
      | fresh _ _ _ _ _ hc => rw [hc]; exact Nat.le_succ _
    obtain ⟨hov, hh⟩ := compute_hovered_returns
      (ui_box_link ua b (ui_build_key str_hash_seed ui label) flags label) b rank
      (by rw [l7, a4]; exact hclip)
      (by
        intro c p hc hp
        obtain ⟨ch', hch⟩ := l8 c hc
        rw [hch, a5 c hc] at hp
        exact hrank c p hp)
      (by intro c; rw [l2]; exact le_trans (hbound c) hcount)
    obtain ⟨us, hsig⟩ := compute_signals_returns _ b hov hh
    obtain ⟨s1, s2, s3, s4, _⟩ := compute_signals_frame hsig
    obtain ⟨ut, ht, _⟩ := ui_box_signal_tags_spec us b ua.box_stack (by rw [s4, l4])
    refine ⟨ut, b, ?_⟩
    unfold ui_box_push_str
    simp only [hacq, hsig, ht]

theorem ui_box_push_str_fatal_iff_witness :
    (demo_init.clip_stack ≠ [] ∧
      (∀ b p, (demo_init.boxes b).parent = some p → (fun _ => 0) p < (fun _ : BoxId => 0) b) ∧
      (∀ b : BoxId, (fun _ : BoxId => 0) b ≤ demo_init.box_count)) ∧
    ((ui_box_push_str demo_hash demo_init 0 "root" = .error .fatal_error ↔
      ∃ box, map_get_ptr demo_init.box_cache (ui_build_key demo_hash demo_init "root") =
          some box ∧ (demo_init.boxes box).gc_flag = demo_init.gc_flag) ∧
    ((¬ ∃ box, map_get_ptr demo_init.box_cache (ui_build_key demo_hash demo_init "root") =
          some box ∧ (demo_init.boxes box).gc_flag = demo_init.gc_flag) →
      ∃ ui' box, ui_box_push_str demo_hash demo_init 0 "root" = .ok (ui', box))) :=
  ⟨⟨by decide, fun b p h => by simp [demo_init, ui_init, UiBox.zeroed] at h,
      fun b => Nat.le_refl 0⟩,
    ui_box_push_str_fatal_iff demo_hash demo_init 0 "root" (fun _ => 0) (by decide)
      (fun b p h => by simp [demo_init, ui_init, UiBox.zeroed] at h) (fun b => Nat.le_refl 0)⟩

/-! ## Claims about the signal router -/

theorem get_attr_copy_attr_same (a : UiStyleAttribute) (s d : UiStyle) :
    get_attr a (copy_attr a s d) = get_attr a s := by
  cases a <;> rfl

theorem get_attr_copy_attr_other {a a' : UiStyleAttribute} (h : a ≠ a') (s d : UiStyle) :
    get_attr a (copy_attr a' s d) = get_attr a d := by
  cases a <;> cases a' <;> first | rfl | exact absurd rfl h

theorem all_attributes_nodup : all_attributes.Nodup := by decide

theorem mem_all_attributes (a : UiStyleAttribute) : a ∈ all_attributes := by
  cases a <;> decide

theorem rule_applies_congr (rule : UiStyleRule) (s : UiSpecificity) {specs specs' : Specs}
    {a : UiStyleAttribute} (h : specs' a = specs a) :
    rule_applies rule s specs' a = rule_applies rule s specs a := by
  unfold rule_applies
  rw [h]

theorem apply_style_rule_attr_other (rule : UiStyleRule) (st : UiStyle × Specs)
    {a a' : UiStyleAttribute} (h : a ≠ a') :
    get_attr a (apply_style_rule_attr rule st a').1 = get_attr a st.1 ∧
      (apply_style_rule_attr rule st a').2 a = st.2 a := by
  unfold apply_style_rule_attr
  simp only
  split
  · exact ⟨get_attr_copy_attr_other h _ _, Function.update_noteq h _ _⟩
  · exact ⟨rfl, rfl⟩

theorem apply_style_rule_attr_same (rule : UiStyleRule) (st : UiStyle × Specs)
    (a : UiStyleAttribute) :
    (rule_applies rule rule.pattern.specificity st.2 a = true →
      get_attr a (apply_style_rule_attr rule st a).1 = get_attr a rule.style ∧
      (apply_style_rule_attr rule st a).2 a = rule.pattern.specificity) ∧
    (rule_applies rule rule.pattern.specificity st.2 a = false →
      apply_style_rule_attr rule st a = st) := by
  unfold apply_style_rule_attr
  simp only
  constructor
  · intro h
    rw [if_pos h]
    exact ⟨get_attr_copy_attr_same _ _ _, Function.update_same _ _ _⟩
  · intro h
    simp [h]

theorem foldl_apply_style_rule_attr (rule : UiStyleRule) (a : UiStyleAttribute)
    (l : List UiStyleAttribute) (hl : l.Nodup) (st : UiStyle × Specs) :
    (a ∉ l → get_attr a (l.foldl (apply_style_rule_attr rule) st).1 = get_attr a st.1 ∧
      (l.foldl (apply_style_rule_attr rule) st).2 a = st.2 a) ∧
    (a ∈ l → rule_applies rule rule.pattern.specificity st.2 a = true →
      get_attr a (l.foldl (apply_style_rule_attr rule) st).1 = get_attr a rule.style ∧
      (l.foldl (apply_style_rule_attr rule) st).2 a = rule.pattern.specificity) ∧
    (a ∈ l → rule_applies rule rule.pattern.specificity st.2 a = false →
      get_attr a (l.foldl (apply_style_rule_attr rule) st).1 = get_attr a st.1 ∧
      (l.foldl (apply_style_rule_attr rule) st).2 a = st.2 a) := by
  induction l generalizing st with
  | nil => simp
  | cons x rest ih =>
    obtain ⟨hx, hrest⟩ := List.nodup_cons.1 hl
    obtain ⟨ih1, ih2, ih3⟩ := ih hrest (apply_style_rule_attr rule st x)
    simp only [List.foldl_cons, List.mem_cons, not_or]
    by_cases hax : a = x
    · subst hax
      have hs := apply_style_rule_attr_same rule st a
      refine ⟨fun h => absurd rfl h.1, ?_, ?_⟩
      · intro _ happ
        obtain ⟨e1, e2⟩ := ih1 hx
        rw [e1, e2]
        exact hs.1 happ
      · intro _ happ
        obtain ⟨e1, e2⟩ := ih1 hx
        rw [e1, e2, hs.2 happ]
        exact ⟨rfl, rfl⟩
    · have ho := apply_style_rule_attr_other rule st hax
      have hc := rule_applies_congr rule rule.pattern.specificity ho.2
      refine ⟨?_, ?_, ?_⟩
      · intro h
        obtain ⟨e1, e2⟩ := ih1 h.2
        rw [e1, e2]; exact ho
      · intro h happ
        have hm : a ∈ rest := h.resolve_left hax
        exact ih2 hm (hc.trans happ)
      · intro h happ
        have hm : a ∈ rest := h.resolve_left hax
        obtain ⟨e1, e2⟩ := ih3 hm (hc.trans happ)
        rw [e1, e2]; exact ho

/-- The effect of `apply_style_rule` on one attribute. -/
theorem apply_style_rule_spec (rule : UiStyleRule) (st : UiStyle × Specs) (a : UiStyleAttribute) :
    (rule_applies rule rule.pattern.specificity st.2 a = true →
      get_attr a (apply_style_rule rule st).1 = get_attr a rule.style ∧
      (apply_style_rule rule st).2 a = rule.pattern.specificity) ∧
    (rule_applies rule rule.pattern.specificity st.2 a = false →
      get_attr a (apply_style_rule rule st).1 = get_attr a st.1 ∧
      (apply_style_rule rule st).2 a = st.2 a) := by
  obtain ⟨_, h2, h3⟩ :=
    foldl_apply_style_rule_attr rule a all_attributes all_attributes_nodup st
  exact ⟨h2 (mem_all_attributes a), h3 (mem_all_attributes a)⟩

/-- What one iteration of the rule loop does to one attribute. -/
theorem scan_rule_attr {box : UiBox} {link : Option ParentLink} {st st' : ScanState}
    {rule : UiStyleRule} (a : UiStyleAttribute) (h : scan_rule box link st rule = .ok st') :
    (rule_selects box link rule a →
      rule_applies rule rule.pattern.specificity st.2.1 a = true →
      get_attr a st'.1 = get_attr a rule.style ∧ st'.2.1 a = rule.pattern.specificity) ∧
    ((¬ rule_selects box link rule a ∨
        rule_applies rule rule.pattern.specificity st.2.1 a = false) →
      get_attr a st'.1 = get_attr a st.1 ∧ st'.2.1 a = st.2.1 a) := by
  unfold scan_rule at h
  split at h
  · cases h
  · rename_i head tail hp
    split at h
    · cases h
    · rename_i hm
      cases h
      refine ⟨?_, fun _ => ⟨rfl, rfl⟩⟩
      rintro ⟨⟨head', hp', hm'⟩, _⟩
      rw [hp] at hp'
      cases hp'
      rw [hm] at hm'
      cases hm'
    · rename_i hm
      split at h
      · rename_i hlen
        cases h
        have hs := apply_style_rule_spec rule (st.1, st.2.1) a
        refine ⟨fun _ happ => hs.1 happ, ?_⟩
        rintro (hsel | happ)
        · have hmask : rule.mask &&& style_attr_to_mask a = 0 := by
            by_contra hne
            apply hsel
            refine ⟨⟨head, ?_, hm⟩, hne⟩
            rw [hp] at hlen ⊢
            cases tail with
            | nil => rfl
            | cons _ _ => simp at hlen
          have hna : rule_applies rule rule.pattern.specificity st.2.1 a = false := by
            unfold rule_applies
            simp [hmask]
          exact hs.2 hna
        · exact hs.2 happ
      · rename_i hlen
        cases h
        refine ⟨?_, fun _ => ⟨rfl, rfl⟩⟩
        rintro ⟨⟨head', hp', _⟩, _⟩
        rw [hp'] at hlen
        simp at hlen

theorem rule_applies_true_iff (rule : UiStyleRule) (s : UiSpecificity) (specs : Specs)
    (a : UiStyleAttribute) :
    rule_applies rule s specs a = true ↔
      rule.mask &&& style_attr_to_mask a ≠ 0 ∧
        ((specs a).id < s.id ∨ (s.id = (specs a).id ∧ (specs a).tag ≤ s.tag)) := by
  unfold rule_applies
  by_cases hm : rule.mask &&& style_attr_to_mask a = 0
  · simp [hm]
  · simp [hm]

/-- The rule loop lets a rule win an attribute when every other rule that
sets the attribute on the box has a smaller id-count: `Won` is kept once
reached, and the winner reaches it from any state whose recorded specificity
for the attribute is zero or has a smaller id-count. -/
theorem scan_rules_dominant {box : UiBox} {link : Option ParentLink} (r : UiStyleRule)
    (a : UiStyleAttribute) (rules : List UiStyleRule)
    (hdom : ∀ r' ∈ rules, rule_selects box link r' a →
      r' = r ∨ r'.pattern.specificity.id < r.pattern.specificity.id)
    (hsel : rule_selects box link r a) {st st' : ScanState}
    (h : scan_rules box link rules st = .ok st') :
    ((get_attr a st.1 = get_attr a r.style ∧ st.2.1 a = r.pattern.specificity) →
      (get_attr a st'.1 = get_attr a r.style ∧ st'.2.1 a = r.pattern.specificity)) ∧
    (((st.2.1 a).id < r.pattern.specificity.id ∨ st.2.1 a = ⟨0, 0⟩) →
      ((r ∈ rules → get_attr a st'.1 = get_attr a r.style ∧ st'.2.1 a = r.pattern.specificity) ∧
       (r ∉ rules → (st'.2.1 a).id < r.pattern.specificity.id ∨ st'.2.1 a = ⟨0, 0⟩))) := by
  induction rules generalizing st with
  | nil =>
    cases h
    exact ⟨fun h => h, fun h => ⟨fun hm => absurd hm (List.not_mem_nil _), fun _ => h⟩⟩
  | cons x rest ih =>
    unfold scan_rules at h
    split at h
    · cases h
    · rename_i st1 hx
      obtain ⟨ih1, ih2⟩ := ih (fun r' hr' => hdom r' (List.mem_cons_of_mem _ hr')) h
      obtain ⟨sx1, sx2⟩ := scan_rule_attr a hx
      have hwon_x : (get_attr a st.1 = get_attr a r.style ∧ st.2.1 a = r.pattern.specificity) →
          (get_attr a st1.1 = get_attr a r.style ∧ st1.2.1 a = r.pattern.specificity) := by
        intro hw
        by_cases hsx : rule_selects box link x a
        · rcases hdom x (List.mem_cons_self _ _) hsx with hxr | hlt
          · subst hxr
            have happ : rule_applies x x.pattern.specificity st.2.1 a = true := by
              rw [rule_applies_true_iff, hw.2]
              exact ⟨hsx.2, Or.inr ⟨rfl, le_refl _⟩⟩
            exact sx1 hsx happ
          · have happ : rule_applies x x.pattern.specificity st.2.1 a = false := by
              rw [Bool.eq_false_iff, Ne, rule_applies_true_iff, hw.2]
              rintro ⟨_, h1 | h1⟩
              · omega
              · omega
            obtain ⟨e1, e2⟩ := sx2 (Or.inr happ)
            rw [e1, e2]; exact hw
        · obtain ⟨e1, e2⟩ := sx2 (Or.inl hsx)
          rw [e1, e2]; exact hw
      refine ⟨fun hw => ih1 (hwon_x hw), ?_⟩
      intro hlow
      by_cases hxr : x = r
      · subst hxr
        have happ : rule_applies x x.pattern.specificity st.2.1 a = true := by
          rw [rule_applies_true_iff]
          refine ⟨hsel.2, ?_⟩
          rcases hlow with h1 | h1
          · exact Or.inl h1
          · rw [h1]
            by_cases h0 : x.pattern.specificity.id = 0
            · exact Or.inr ⟨h0, Nat.zero_le _⟩
            · exact Or.inl (Nat.pos_of_ne_zero h0)
        have hw1 := sx1 hsel happ
        exact ⟨fun _ => ih1 hw1, fun hn => absurd (List.mem_cons_self _ _) hn⟩
      · have hlow1 : (st1.2.1 a).id < r.pattern.specificity.id ∨ st1.2.1 a = ⟨0, 0⟩ := by
          by_cases hsx : rule_selects box link x a
          · rcases hdom x (List.mem_cons_self _ _) hsx with hxr' | hlt
            · exact absurd hxr' hxr
            · by_cases happ : rule_applies x x.pattern.specificity st.2.1 a = true
              · rw [(sx1 hsx happ).2]; exact Or.inl hlt
              · rw [(sx2 (Or.inr (by simpa using happ))).2]; exact hlow
          · rw [(sx2 (Or.inl hsx)).2]; exact hlow
        obtain ⟨j1, j2⟩ := ih2 hlow1
        refine ⟨fun hm => j1 ?_, fun hn => j2 ?_⟩
        · rcases List.mem_cons.1 hm with h1 | h1
          · exact absurd h1.symm hxr
          · exact h1
        · exact fun h1 => hn (List.mem_cons_of_mem _ h1)

theorem apply_style_rules_box_next_style {powf : F32 → F32 → F32} {dt : F32}
    {link : Option ParentLink} {box : UiBox} {children : List BoxTree}
    {active : List UiStyleRule} {t' : BoxTree} {active' : List UiStyleRule}
    (h : apply_style_rules_box powf dt link (.node box children) active = .ok (t', active')) :
    ∃ st, scan_rules box link (active ++ box.style_rules) (box.next_style, Specs.zero, []) =
        .ok st ∧ t'.box.next_style = st.1 := by
  simp only [apply_style_rules_box] at h
  split at h
  · cases h
  · rename_i st hst
    split at h
    · cases h
    · cases h
      exact ⟨st, hst, rfl⟩

theorem scan_rule_derived {box : UiBox} {link : Option ParentLink} {st st' : ScanState}
    {rule : UiStyleRule} (h : scan_rule box link st rule = .ok st') :
    (rule_derives box link rule → st'.2.2 = st.2.2 ++ [derive_new_rule rule]) ∧
    (¬ rule_derives box link rule → st'.2.2 = st.2.2) := by
  unfold scan_rule at h
  split at h
  · cases h
  · rename_i head tail hp
    split at h
    · cases h
    · rename_i hm
      cases h
      refine ⟨?_, fun _ => rfl⟩
      rintro ⟨head', tail', hp', hm', _⟩
      rw [hp] at hp'
      cases hp'
      rw [hm] at hm'
      cases hm'
    · rename_i hm
      split at h
      · rename_i hlen
        cases h
        refine ⟨?_, fun _ => rfl⟩
        rintro ⟨_, _, _, _, hne⟩
        exact absurd hlen hne
      · rename_i hlen
        cases h
        exact ⟨fun _ => rfl, fun hn => absurd ⟨head, tail, hp, hm, hlen⟩ hn⟩

theorem scan_rules_derived {box : UiBox} {link : Option ParentLink} {rules : List UiStyleRule}
    {st st' : ScanState} (h : scan_rules box link rules st = .ok st') (r' : UiStyleRule) :
    r' ∈ st'.2.2 ↔
      r' ∈ st.2.2 ∨ ∃ r ∈ rules, rule_derives box link r ∧ r' = derive_new_rule r := by
  induction rules generalizing st with
  | nil => cases h; simp
  | cons x rest ih =>
    unfold scan_rules at h
    split at h
    · cases h
    · rename_i st1 hx
      rw [ih h]
      obtain ⟨d1, d2⟩ := scan_rule_derived hx
      by_cases hd : rule_derives box link x
      · rw [d1 hd]
        simp only [List.mem_append, List.mem_singleton, List.mem_cons, exists_eq_or_imp,
          List.not_mem_nil, or_false]
        constructor
        · rintro ((h1 | h1) | h1)
          · exact Or.inl h1
          · exact Or.inr (Or.inl ⟨hd, h1⟩)
          · exact Or.inr (Or.inr h1)
        · rintro (h1 | ⟨_, h1⟩ | h1)
          · exact Or.inl (Or.inl h1)
          · exact Or.inl (Or.inr h1)
          · exact Or.inr h1
      · rw [d2 hd]
        simp only [List.mem_cons, exists_eq_or_imp]
        constructor
        · rintro (h1 | h1)
          · exact Or.inl h1
          · exact Or.inr (Or.inr h1)
        · rintro (h1 | ⟨h2, _⟩ | h1)
          · exact Or.inl h1
          · exact absurd h2 hd
          · exact Or.inr h1

theorem matches_at_nil (link : Option ParentLink) (t : BoxTree) (A : UiPatternAnd) :
    matches_at link t [] A ↔ match_pattern t.box link A = .ok true := by
  unfold matches_at
  simp only [node_at]
  constructor
  · rintro ⟨box, lk, h, hm⟩
    cases h
    exact hm
  · intro h
    exact ⟨_, _, rfl, h⟩

theorem node_at_cons {link : Option ParentLink} {t c : BoxTree} {i : Nat}
    (hc : t.children[i]? = some c) (q : List Nat) :
    node_at link t (i :: q) = node_at (some ⟨i, t.children.length⟩) c q := by
  simp only [node_at, hc]

theorem matches_at_cons {link : Option ParentLink} {t c : BoxTree} {i : Nat}
    (hc : t.children[i]? = some c) (q : List Nat) (A : UiPatternAnd) :
    matches_at link t (i :: q) A ↔ matches_at (some ⟨i, t.children.length⟩) c q A := by
  unfold matches_at
  rw [node_at_cons hc]

theorem proper_prefix_cons (i : Nat) (p : List Nat) (P : List Nat → Prop) :
    (∃ q, q <+: i :: p ∧ q ≠ i :: p ∧ P q) ↔
      P [] ∨ ∃ q, q <+: p ∧ q ≠ p ∧ P (i :: q) := by
  constructor
  · rintro ⟨q, hq, hne, hP⟩
    rcases List.prefix_cons_iff.1 hq with h | ⟨q', rfl, hq'⟩
    · subst h; exact Or.inl hP
    · exact Or.inr ⟨q', hq', fun h => hne (by rw [h]), hP⟩
  · rintro (hP | ⟨q, hq, hne, hP⟩)
    · exact ⟨[], List.nil_prefix, by simp, hP⟩
    · exact ⟨i :: q, List.prefix_cons_iff.2 (Or.inr ⟨q, rfl, hq⟩),
        fun h => hne (List.cons.inj h).2, hP⟩

/-- The rules carrying the style pointer of a two-segment rule `R = A B`
among the rules iterated at a box below the box that declares `R`: `R`
itself, and the rule derived from it exactly when a box strictly above on the
path (or `flag`, an earlier such box) matches `A`. -/
theorem rules_at_tracks (R : UiStyleRule) (A B : UiPatternAnd)
    (hR : R.pattern.patterns = [A, B]) (p : List Nat) :
    ∀ (link : Option ParentLink) (t : BoxTree) (cur : List UiStyleRule) (flag : Prop)
      (L : List UiStyleRule),
    (∀ r ∈ cur ++ t.box.style_rules, r.style_ptr = R.style_ptr →
      r = R ∨ (r = derive_new_rule R ∧ flag)) →
    R ∈ cur ++ t.box.style_rules →
    (flag → derive_new_rule R ∈ cur ++ t.box.style_rules) →
    (∀ q box lk, q ≠ [] → node_at link t q = some (box, lk) →
      ∀ r ∈ box.style_rules, r.style_ptr ≠ R.style_ptr) →
    rules_at link t cur p = .ok L →
    (∀ r ∈ L, r.style_ptr = R.style_ptr →
      r = R ∨ (r = derive_new_rule R ∧
        (flag ∨ ∃ q, q <+: p ∧ q ≠ p ∧ matches_at link t q A))) ∧
    R ∈ L ∧
    ((flag ∨ ∃ q, q <+: p ∧ q ≠ p ∧ matches_at link t q A) → derive_new_rule R ∈ L) := by
  induction p with
  | nil =>
    intro link t cur flag L H HR HF _ hL
    simp only [rules_at] at hL
    cases hL
    have hno : ¬ ∃ q : List Nat, q <+: [] ∧ q ≠ [] ∧ matches_at link t q A := by
      rintro ⟨q, hq, hne, _⟩
      exact hne (List.prefix_nil.1 hq)
    refine ⟨?_, HR, ?_⟩
    · intro r hr hp
      rcases H r hr hp with h | ⟨h, hf⟩
      · exact Or.inl h
      · exact Or.inr ⟨h, Or.inl hf⟩
    · rintro (hf | h)
      · exact HF hf
      · exact absurd h hno
  | cons i p ih =>
    intro link t cur flag L H HR HF Hbelow hL
    simp only [rules_at] at hL
    split at hL
    · cases hL
    · rename_i st hst
      split at hL
      · cases hL
      · rename_i c hc
        have hder := scan_rules_derived hst
        have hRlen : R.pattern.patterns.length ≠ 1 := by rw [hR]; simp
        have hRd : (derive_new_rule R).pattern.patterns = [B] := by
          simp [derive_new_rule, hR]
        have hmA : rule_derives t.box link R ↔ match_pattern t.box link A = .ok true := by
          constructor
          · rintro ⟨head, tail, hp, hm, _⟩
            rw [hR] at hp
            cases hp
            exact hm
          · intro hm
            exact ⟨A, [B], hR, hm, hRlen⟩
        have hnd : ¬ rule_derives t.box link (derive_new_rule R) := by
          rintro ⟨_, _, _, _, hne⟩
          rw [hRd] at hne
          simp at hne
        have key := ih (some ⟨i, t.children.length⟩) c (cur ++ t.box.style_rules ++ st.2.2)
          (flag ∨ match_pattern t.box link A = .ok true) L ?_ ?_ ?_ ?_ hL
        · obtain ⟨k1, k2, k3⟩ := key
          have hequiv : ((flag ∨ match_pattern t.box link A = .ok true) ∨
              ∃ q, q <+: p ∧ q ≠ p ∧ matches_at (some ⟨i, t.children.length⟩) c q A) ↔
              (flag ∨ ∃ q, q <+: i :: p ∧ q ≠ i :: p ∧ matches_at link t q A) := by
            rw [proper_prefix_cons i p (fun q => matches_at link t q A), matches_at_nil]
            simp only [matches_at_cons hc]
            tauto
          refine ⟨?_, k2, fun h => k3 (hequiv.2 h)⟩
          intro r hr hp
          rcases k1 r hr hp with h | ⟨h, hf⟩
          · exact Or.inl h
          · exact Or.inr ⟨h, hequiv.1 hf⟩
        · -- the list the child iterates over
          intro r hr hp
          rcases List.mem_append.1 hr with hr | hr
          · rcases List.mem_append.1 hr with hr | hr
            · rcases H r hr hp with h | ⟨h, hf⟩
              · exact Or.inl h
              · exact Or.inr ⟨h, Or.inl hf⟩
            · rcases (hder r).1 hr with h | ⟨r0, hr0, hd0, rfl⟩
              · simp at h
              · have hp0 : r0.style_ptr = R.style_ptr := hp
                rcases H r0 hr0 hp0 with h | ⟨h, _⟩
                · subst h
                  exact Or.inr ⟨rfl, Or.inr (hmA.1 hd0)⟩
                · subst h
                  exact absurd hd0 hnd
          · have hn := @node_at_cons link _ _ _ hc []
            simp only [node_at] at hn
            exact absurd hp (Hbelow [i] c.box (some ⟨i, t.children.length⟩) (by simp)
              (by simp only [node_at, hc]) r hr)
        · exact List.mem_append_left _ (List.mem_append_left _ HR)
        · rintro (hf | hm)
          · exact List.mem_append_left _ (List.mem_append_left _ (HF hf))
          · exact List.mem_append_left _ (List.mem_append_right _
              ((hder _).2 (Or.inr ⟨R, HR, hmA.2 hm, rfl⟩)))
        · intro q box lk hq hn r hr
          exact Hbelow (i :: q) box lk (by simp) (by rw [node_at_cons hc]; exact hn) r hr

theorem declared_rules_list_mem {c : BoxTree} {cs : List BoxTree} (hc : c ∈ cs)
    {r : UiStyleRule} (hr : r ∈ declared_rules c) : r ∈ declared_rules_list cs := by
  induction cs with
  | nil => simp at hc
  | cons x rest ih =>
    simp only [declared_rules_list, List.mem_append]
    rcases List.mem_cons.1 hc with h | h
    · subst h; exact Or.inl hr
    · exact Or.inr (ih h)

theorem node_at_declared (q : List Nat) :
    ∀ (link : Option ParentLink) (t : BoxTree) (box : UiBox) (lk : Option ParentLink),
      node_at link t q = some (box, lk) → ∀ r ∈ box.style_rules, r ∈ declared_rules t := by
  induction q with
  | nil =>
    intro link t box lk h r hr
    simp only [node_at] at h
    cases h
    cases t with
    | node b cs => simp only [declared_rules, List.mem_append]; exact Or.inl hr
  | cons i q ih =>
    intro link t box lk h r hr
    simp only [node_at] at h
    split at h
    · cases h
    · rename_i c hc
      have := ih _ c box lk h r hr
      cases t with
      | node b cs =>
        simp only [declared_rules, List.mem_append]
        exact Or.inr (declared_rules_list_mem (List.getElem?_mem hc) this)

theorem node_at_below {q : List Nat} (hq : q ≠ []) {link : Option ParentLink} {t : BoxTree}
    {box : UiBox} {lk : Option ParentLink} (h : node_at link t q = some (box, lk))
    {r : UiStyleRule} (hr : r ∈ box.style_rules) : r ∈ declared_rules_list t.children := by
  cases q with
  | nil => exact absurd rfl hq
  | cons i q =>
    simp only [node_at] at h
    split at h
    · cases h
    · rename_i c hc
      exact declared_rules_list_mem (List.getElem?_mem hc) (node_at_declared q _ c box lk h r hr)

theorem apply_style_rules_children_spec {powf : F32 → F32 → F32} {dt : F32}
    (ts : List BoxTree) (hts : ∀ c ∈ ts, CascadeAt powf dt c) :
    ∀ (count idx : Nat) (active : List UiStyleRule) (ts' : List BoxTree)
      (active' : List UiStyleRule),
      apply_style_rules_children powf dt count idx ts active = .ok (ts', active') →
      active' = active ∧ ts'.length = ts.length ∧
      ∀ (j : Nat) (c : BoxTree), ts[j]? = some c →
        ∃ c', ts'[j]? = some c' ∧
          apply_style_rules_box powf dt (some ⟨idx + j, count⟩) c active = .ok (c', active) := by
  induction ts with
  | nil =>
    intro count idx active ts' active' h
    simp only [apply_style_rules_children] at h
    cases h
    exact ⟨rfl, rfl, fun j c hc => by simp at hc⟩
  | cons x rest ih =>
    intro count idx active ts' active' h
    simp only [apply_style_rules_children] at h
    split at h
    · cases h
    · rename_i x' a1 hx
      split at h
      · cases h
      · rename_i rest' a2 hrest
        cases h
        have hx1 := (hts x (List.mem_cons_self _ _) _ _ _ _ hx).1
        subst hx1
        obtain ⟨e1, e2, e3⟩ := ih (fun c hc => hts c (List.mem_cons_of_mem _ hc)) _ _ _ _ _ hrest
        subst e1
        refine ⟨rfl, by simp [e2], ?_⟩
        intro j c hc
        cases j with
        | zero =>
          simp only [List.getElem?_cons_zero, Option.some.injEq] at hc
          subst hc
          exact ⟨x', by simp, hx⟩
        | succ j =>
          simp only [List.getElem?_cons_succ] at hc
          obtain ⟨c', hc', hrun⟩ := e3 j c hc
          refine ⟨c', by simpa using hc', ?_⟩
          have : idx + (j + 1) = idx + 1 + j := by omega
          rw [this]
          exact hrun

theorem cascade_at_node {powf : F32 → F32 → F32} {dt : F32} (box : UiBox)
    (children : List BoxTree) (hts : ∀ c ∈ children, CascadeAt powf dt c) :
    CascadeAt powf dt (.node box children) := by
  intro link active t' active' h
  simp only [apply_style_rules_box] at h
  split at h
  · cases h
  · rename_i st hst
    split at h
    · cases h
    · rename_i children' a' hch
      cases h
      obtain ⟨e1, e2, e3⟩ := apply_style_rules_children_spec children hts _ _ _ _ _ hch
      subst e1
      refine ⟨by simp, ?_⟩
      intro p bx lk hn
      cases p with
      | nil =>
        simp only [node_at, BoxTree.box] at hn
        cases hn
        exact ⟨_, st, _, rfl, hst, rfl, rfl⟩
      | cons i q =>
        simp only [node_at, BoxTree.children] at hn
        split at hn
        · cases hn
        · rename_i c hc
          obtain ⟨c', hc', hrun⟩ := e3 i c hc
          rw [Nat.zero_add] at hrun
          obtain ⟨_, hpath⟩ := hts c (List.getElem?_mem hc) _ _ _ _ hrun
          obtain ⟨L, st2, box', r1, r2, r3, r4⟩ := hpath q bx lk hn
          refine ⟨L, st2, box', ?_, r2, ?_, r4⟩
          · simp only [rules_at, BoxTree.box, BoxTree.children, hst, hc]
            exact r1
          · simp only [node_at, BoxTree.children, hc', e2]
            exact r3

/-- The cascade restores the active rule list, and at every box of the tree
the target style it leaves is the result of the rule loop over `rules_at`. -/
theorem cascade_at (powf : F32 → F32 → F32) (dt : F32) (t : BoxTree) : CascadeAt powf dt t :=
  @BoxTree.rec (fun t => CascadeAt powf dt t)
    (fun ts => ∀ c ∈ ts, CascadeAt powf dt c)
    (fun box children ih => cascade_at_node box children ih)
    (fun c hc => absurd hc (List.not_mem_nil c))
    (fun x rest ihx ihrest c hc => by
      rcases List.mem_cons.1 hc with h | h
      · subst h; exact ihx
      · exact ihrest c h)
    t

/-! ## Claims about the cascade -/

/-- C4. A box is matched by two single-segment rules that both set the
attribute `attr`, and `r_hi` has the larger id-count; the two rules are the
active rule list of the box, in either order.  Then the cascade leaves the
box's target-style attribute equal to the value of `r_hi`. -/
theorem apply_style_rules_box_id_count_wins (powf : F32 → F32 → F32) (dt : F32)
    (link : Option ParentLink) (box : UiBox) (children : List BoxTree)
    (active : List UiStyleRule) (r_hi r_lo : UiStyleRule) (seg_hi seg_lo : UiPatternAnd)
    (attr : UiStyleAttribute) (t' : BoxTree) (active' : List UiStyleRule)
    (hrules : active ++ box.style_rules = [r_hi, r_lo] ∨
      active ++ box.style_rules = [r_lo, r_hi])
    (hhi : r_hi.pattern.patterns = [seg_hi]) (_hlo : r_lo.pattern.patterns = [seg_lo])
    (hmhi : match_pattern box link seg_hi = .ok true)
    (_hmlo : match_pattern box link seg_lo = .ok true)
    (hmask_hi : r_hi.mask &&& style_attr_to_mask attr ≠ 0)
    (_hmask_lo : r_lo.mask &&& style_attr_to_mask attr ≠ 0)
    (hid : r_lo.pattern.specificity.id < r_hi.pattern.specificity.id)
    (hrun : apply_style_rules_box powf dt link (.node box children) active =
      .ok (t', active')) :
    get_attr attr t'.box.next_style = get_attr attr r_hi.style := by
  obtain ⟨st, hst, hnext⟩ := apply_style_rules_box_next_style hrun
  have hsel : rule_selects box link r_hi attr := ⟨⟨seg_hi, hhi, hmhi⟩, hmask_hi⟩
  have hmem : ∀ r' ∈ active ++ box.style_rules, r' = r_hi ∨ r' = r_lo := by
    intro r' hr'
    rcases hrules with h | h <;> rw [h] at hr' <;> simp at hr' <;> tauto
  have hin : r_hi ∈ active ++ box.style_rules := by
    rcases hrules with h | h <;> rw [h] <;> simp
  have hdom : ∀ r' ∈ active ++ box.style_rules, rule_selects box link r' attr →
      r' = r_hi ∨ r'.pattern.specificity.id < r_hi.pattern.specificity.id := by
    intro r' hr' _
    rcases hmem r' hr' with h | h
    · exact Or.inl h
    · exact Or.inr (h ▸ hid)
  have := (scan_rules_dominant r_hi attr _ hdom hsel hst).2 (Or.inr rfl)
  rw [hnext]
  exact (this.1 hin).1

theorem demo_cascade_x_run :
    apply_style_rules_box demo_powf 0 none (.node demo_box_x []) [] =
      .ok (demo_cascade_x, []) := by rfl

theorem apply_style_rules_box_id_count_wins_witness :
    (([] ++ demo_box_x.style_rules = [demo_rule_id, demo_rule_tag] ∨
        [] ++ demo_box_x.style_rules = [demo_rule_tag, demo_rule_id]) ∧
      match_pattern demo_box_x none ⟨⟨1, 1⟩, [⟨.UI_PATTERN_ID, "x"⟩, ⟨.UI_PATTERN_TAG, "a"⟩]⟩ =
        .ok true ∧
      match_pattern demo_box_x none ⟨⟨0, 1⟩, [⟨.UI_PATTERN_TAG, "a"⟩]⟩ = .ok true ∧
      demo_rule_tag.pattern.specificity.id < demo_rule_id.pattern.specificity.id) ∧
    get_attr .UI_BG_COLOR demo_cascade_x.box.next_style = .vec4 ⟨0, 0, 1, 1⟩ :=
  ⟨⟨Or.inl rfl, rfl, rfl, by decide⟩,
    apply_style_rules_box_id_count_wins demo_powf 0 none demo_box_x [] [] demo_rule_id
      demo_rule_tag _ _ .UI_BG_COLOR demo_cascade_x [] (Or.inl rfl) rfl rfl rfl rfl
      (by decide) (by decide) (by decide) demo_cascade_x_run⟩

/-! ## Claim C5: a two-segment rule, on the cascade with the array capacity -/

theorem scan_rule_array_refines {box : UiBox} {link : Option ParentLink} {count : Nat}
    {st st' : ScanState × Nat} {rule : UiStyleRule}
    (h : scan_rule_array box link count st rule = .ok st') :
    scan_rule box link st.1 rule = .ok st'.1 := by
  unfold scan_rule_array at h
  unfold scan_rule
  rcases hp : rule.pattern.patterns with _ | ⟨head, tail⟩
  · rw [hp] at h
    cases h
  · rw [hp] at h
    simp only at h ⊢
    rcases hm : match_pattern box link head with e | b
    · rw [hm] at h
      cases h
    · rw [hm] at h
      cases b with
      | false =>
        simp only at h ⊢
        cases h
        rfl
      | true =>
        simp only at h ⊢
        by_cases hlen : (head :: tail).length = 1
        · rw [if_pos hlen] at h ⊢
          cases h
          rfl
        · rw [if_neg hlen] at h ⊢
          rcases hpush : uarray_push ⟨count + st.1.2.2.length, st.2⟩ with e | array
          · rw [hpush] at h
            cases h
          · rw [hpush] at h
            cases h
            rfl

theorem scan_rules_array_refines {box : UiBox} {link : Option ParentLink} {count : Nat}
    (rules : List UiStyleRule) :
    ∀ {st st' : ScanState × Nat}, scan_rules_array box link count rules st = .ok st' →
      scan_rules box link rules st.1 = .ok st'.1 := by
  induction rules with
  | nil => intro st st' h; cases h; rfl
  | cons x rest ih =>
    intro st st' h
    unfold scan_rules_array at h
    unfold scan_rules
    split at h
    · cases h
    · rename_i st1 hx
      rw [scan_rule_array_refines hx]
      exact ih h

theorem apply_style_rules_children_array_refines {powf : F32 → F32 → F32} {dt : F32}
    {count : Nat} (children : List BoxTree) (ih : ∀ c ∈ children, RefinesAt powf dt c) :
    ∀ (idx : Nat) (a a' : ActiveRules) (cs' : List BoxTree),
      apply_style_rules_children_array powf dt count idx children a = .ok (cs', a') →
      apply_style_rules_children powf dt count idx children a.rules = .ok (cs', a'.rules) := by
  induction children with
  | nil =>
    intro idx a a' cs' h
    simp only [apply_style_rules_children_array] at h
    cases h
    simp [apply_style_rules_children]
  | cons c rest ihr =>
    intro idx a a' cs' h
    simp only [apply_style_rules_children_array] at h
    split at h
    · cases h
    · rename_i c' a1 hc
      split at h
      · cases h
      · rename_i rest' a2 hrest
        cases h
        simp only [apply_style_rules_children]
        rw [ih c (List.mem_cons_self _ _) _ _ _ _ hc]
        simp only
        rw [ihr (fun c hc => ih c (List.mem_cons_of_mem _ hc)) _ _ _ _ hrest]

theorem apply_style_rules_box_array_refines_node {powf : F32 → F32 → F32} {dt : F32}
    (box : UiBox) (children : List BoxTree) (ih : ∀ c ∈ children, RefinesAt powf dt c) :
    RefinesAt powf dt (.node box children) := by
  intro link a a' t' h
  simp only [apply_style_rules_box_array] at h
  split at h
  · cases h
  · rename_i arr _
    split at h
    · cases h
    · rename_i st hst
      split at h
      · cases h
      · rename_i cs' a1 hcs
        cases h
        simp only [apply_style_rules_box]
        rw [scan_rules_array_refines _ hst]
        simp only
        rw [apply_style_rules_children_array_refines children ih _ _ _ _ hcs]

theorem apply_style_rules_box_array_refines (powf : F32 → F32 → F32) (dt : F32) (t : BoxTree) :
    RefinesAt powf dt t :=
  @BoxTree.rec (fun t => RefinesAt powf dt t)
    (fun ts => ∀ c ∈ ts, RefinesAt powf dt c)
    (fun box children ih => apply_style_rules_box_array_refines_node box children ih)
    (fun c hc => absurd hc (List.not_mem_nil c))
    (fun x rest ihx ihrest c hc => by
      rcases List.mem_cons.1 hc with h | h
      · subst h; exact ihx
      · exact ihrest c h)
    t

/-- A rule that the loop does not apply leaves the style and the
specificities as they are. -/
theorem scan_rule_skip {box : UiBox} {link : Option ParentLink} {st st' : ScanState}
    {rule : UiStyleRule} (h : scan_rule box link st rule = .ok st')
    (hno : ¬ ∃ head, rule.pattern.patterns = [head] ∧ match_pattern box link head = .ok true) :
    st'.1 = st.1 ∧ st'.2.1 = st.2.1 := by
  unfold scan_rule at h
  split at h
  · cases h
  · rename_i head tail hp
    split at h
    · cases h
    · cases h; exact ⟨rfl, rfl⟩
    · rename_i hm
      split at h
      · rename_i hlen
        exfalso
        apply hno
        refine ⟨head, ?_, hm⟩
        rw [hp] at hlen ⊢
        cases tail with
        | nil => rfl
        | cons x xs => simp at hlen
      · cases h; exact ⟨rfl, rfl⟩

/-- The style and the specificities that one round of the loop leaves do not
depend on the rules derived so far. -/
theorem scan_rule_derived_free {box : UiBox} {link : Option ParentLink} {st st' : ScanState}
    {rule : UiStyleRule} (h : scan_rule box link st rule = .ok st') (d : List UiStyleRule) :
    ∃ d', scan_rule box link (st.1, st.2.1, d) rule = .ok (st'.1, st'.2.1, d') := by
  unfold scan_rule at h ⊢
  split at h
  · cases h
  · rename_i head tail hp
    simp only
    split at h
    · cases h
    · rename_i hm
      cases h
      exact ⟨d, rfl⟩
    · rename_i hm
      split at h
      · rename_i hlen
        cases h
        rw [if_pos hlen]
        exact ⟨d, rfl⟩
      · rename_i hlen
        cases h
        rw [if_neg hlen]
        exact ⟨_, rfl⟩

/-- The loop without the rules that it does not apply computes the same style
and the same specificities. -/
theorem scan_rules_filter {box : UiBox} {link : Option ParentLink} (keep : UiStyleRule → Bool)
    (rules : List UiStyleRule) :
    ∀ (st st' : ScanState) (d : List UiStyleRule), scan_rules box link rules st = .ok st' →
      (∀ r ∈ rules, keep r = false →
        ¬ ∃ head, r.pattern.patterns = [head] ∧ match_pattern box link head = .ok true) →
      ∃ d', scan_rules box link (rules.filter keep) (st.1, st.2.1, d) = .ok (st'.1, st'.2.1, d') := by
  induction rules with
  | nil =>
    intro st st' d h _
    cases h
    exact ⟨d, rfl⟩
  | cons x rest ih =>
    intro st st' d h hno
    unfold scan_rules at h
    split at h
    · cases h
    · rename_i st1 hx
      have hrest := fun d1 => ih st1 st' d1 h (fun r hr => hno r (List.mem_cons_of_mem _ hr))
      cases hk : keep x with
      | false =>
        obtain ⟨e1, e2⟩ := scan_rule_skip hx (hno x (List.mem_cons_self _ _) hk)
        obtain ⟨d', hd'⟩ := hrest d
        refine ⟨d', ?_⟩
        rw [List.filter_cons_of_neg (by simp [hk]), ← e1, ← e2]
        exact hd'
      | true =>
        obtain ⟨d1, hd1⟩ := scan_rule_derived_free hx d
        obtain ⟨d', hd'⟩ := hrest d1
        refine ⟨d', ?_⟩
        rw [List.filter_cons_of_pos (by simp [hk])]
        unfold scan_rules
        rw [hd1]
        exact hd'

/-- C5. A two-segment rule `R = A B` is declared on a box `X` (no other rule
in the active list on entry to `X`, on `X` or below `X` shares its style
pointer), and `apply_style_rules_box` returns on `X`, with the array
`active_rules` as it stands on entry.  Let `Y` be a box at a path `p` below
`X`, `L` the rules the loop iterates at `Y`, and `Y'` the box at `p` in the
tree that the cascade leaves: its target style is what the loop over `L`
leaves.  The condition is: `Y` matches `B`, and a box at a proper prefix of
`p` (a box of the subtree of `X`, `X` included, of which `Y` is a strict
descendant) matches `A`.
(1) The loop applies the rule to `Y` (it calls `apply_style_rule` with a rule
of that style pointer) if and only if the condition holds.
(2) Under the condition, an attribute of the mask of `R` has the value of
`R` in the target style of `Y'`, when every other rule that the loop applies to
`Y` for this attribute has a smaller id-count.
(3) Without the condition the target style of `Y'` is the one that the loop
leaves when the rules with the style pointer of `R` are taken out of `L`: the
rule changes no attribute. -/
theorem two_segment_rule_applied_iff (powf : F32 → F32 → F32) (dt : F32)
    (link : Option ParentLink) (X X' : BoxTree) (active active' : ActiveRules)
    (R : UiStyleRule) (A B : UiPatternAnd)
    (p : List Nat) (boxY : UiBox) (linkY : Option ParentLink)
    (hR : R.pattern.patterns = [A, B])
    (hX : R ∈ X.box.style_rules)
    (hactive : ∀ r ∈ active.rules, r.style_ptr ≠ R.style_ptr)
    (hown : ∀ r ∈ X.box.style_rules, r.style_ptr = R.style_ptr → r = R)
    (hbelow : ∀ r ∈ declared_rules_list X.children, r.style_ptr ≠ R.style_ptr)
    (hY : node_at link X p = some (boxY, linkY))
    (hrun : apply_style_rules_box_array powf dt link X active = .ok (X', active')) :
    ∃ L st boxY', rules_at link X active.rules p = .ok L ∧
      scan_rules boxY linkY L (boxY.next_style, Specs.zero, []) = .ok st ∧
      node_at link X' p = some (boxY', linkY) ∧ boxY'.next_style = st.1 ∧
      (applied_at R.style_ptr boxY linkY L ↔
        (match_pattern boxY linkY B = .ok true ∧
          ∃ q, q <+: p ∧ q ≠ p ∧ matches_at link X q A)) ∧
      ((match_pattern boxY linkY B = .ok true ∧
          ∃ q, q <+: p ∧ q ≠ p ∧ matches_at link X q A) →
        ∀ attr, R.mask &&& style_attr_to_mask attr ≠ 0 →
          (∀ r ∈ L, rule_selects boxY linkY r attr →
            r.style_ptr = R.style_ptr ∨
              r.pattern.specificity.id < R.pattern.specificity.id) →
          get_attr attr boxY'.next_style = get_attr attr R.style) ∧
      (¬ (match_pattern boxY linkY B = .ok true ∧
          ∃ q, q <+: p ∧ q ≠ p ∧ matches_at link X q A) →
        ∃ st0, scan_rules boxY linkY (L.filter (fun r => decide (r.style_ptr ≠ R.style_ptr)))
            (boxY.next_style, Specs.zero, []) = .ok st0 ∧
          boxY'.next_style = st0.1) := by
  have hlist := apply_style_rules_box_array_refines powf dt X link active active' X' hrun
  obtain ⟨_, hat⟩ := cascade_at powf dt X link active.rules X' active'.rules hlist
  obtain ⟨L, st, boxY', hL, hst, hY', hns⟩ := hat p boxY linkY hY
  have hRd : (derive_new_rule R).pattern.patterns = [B] := by simp [derive_new_rule, hR]
  obtain ⟨t1, _, t3⟩ := rules_at_tracks R A B hR p link X active.rules False L
    (by
      intro r hr hp
      rcases List.mem_append.1 hr with h | h
      · exact absurd hp (hactive r h)
      · exact Or.inl (hown r h hp))
    (List.mem_append_right _ hX) (fun h => h.elim)
    (fun q box lk hq hn r hr => hbelow r (node_at_below hq hn hr)) hL
  have hnotR : ∀ head, R.pattern.patterns ≠ [head] := by
    intro head h
    rw [hR] at h
    simp at h
  refine ⟨L, st, boxY', hL, hst, hY', hns, ?_, ?_, ?_⟩
  · constructor
    · rintro ⟨r, hr, hp, head, hpat, hm⟩
      rcases t1 r hr hp with h | ⟨h, hf⟩
      · subst h
        exact absurd hpat (hnotR head)
      · subst h
        rw [hRd] at hpat
        cases hpat
        exact ⟨hm, hf.resolve_left (fun h => h)⟩
    · rintro ⟨hm, hq⟩
      exact ⟨derive_new_rule R, t3 (Or.inr hq), rfl, B, hRd, hm⟩
  · rintro ⟨hm, hq⟩ attr hmask hdom
    have hsel : rule_selects boxY linkY (derive_new_rule R) attr := ⟨⟨B, hRd, hm⟩, hmask⟩
    have hd := (scan_rules_dominant (derive_new_rule R) attr L
      (by
        intro r hr hs
        rcases hdom r hr hs with hp | hlt
        · rcases t1 r hr hp with h | ⟨h, _⟩
          · subst h
            obtain ⟨⟨head, hpat, _⟩, _⟩ := hs
            exact absurd hpat (hnotR head)
          · exact Or.inl h
        · exact Or.inr hlt)
      hsel hst).2 (Or.inr rfl)
    rw [hns]
    exact (hd.1 (t3 (Or.inr hq))).1
  · intro hcond
    obtain ⟨d', hd'⟩ := scan_rules_filter (fun r => decide (r.style_ptr ≠ R.style_ptr)) L
      _ _ [] hst
      (by
        intro r hr hk
        have hp : r.style_ptr = R.style_ptr := by simpa using hk
        rintro ⟨head, hpat, hm⟩
        rcases t1 r hr hp with h | ⟨h, hf⟩
        · subst h
          exact absurd hpat (hnotR head)
        · subst h
          rw [hRd] at hpat
          cases hpat
          exact hcond ⟨hm, hf.resolve_left (fun h => h)⟩)
    exact ⟨_, hd', hns⟩

/-- The sample run of C5: the cascade on `demo_tree_two` returns, with the
array grown to the capacity 5 (2 from `array_push_many` at the root, 3 more
from the `array_push` of the derived rule at `x`) and restored to the count 0.
The box `y` (below `x`, which matches `#x`) gets the background colour of the
rule `#x .b`; the box `w`, which matches `.b` and has no ancestor matching
`#x`, keeps its target style.  On `demo_tree_path`, whose root declares a
single rule, the push of the derived rule on the array of capacity 1 ends the
run. -/
theorem demo_cascade_two_run :
    apply_style_rules_box_array demo_powf 0 none demo_tree_two ⟨[], 0⟩ = .ok demo_cascade_two ∧
      demo_cascade_two.2.rules = [] ∧ demo_cascade_two.2.capacity = 5 ∧
      (node_at none demo_cascade_two.1 [0, 0]).map (fun r => r.1.next_style.bg_color) =
        some ⟨0, 1, 0, 1⟩ ∧
      (node_at none demo_cascade_two.1 [1]).map (fun r => r.1.next_style) =
        some UiBox.zeroed.next_style ∧
      fault_of (apply_style_rules_box_array demo_powf 0 none demo_tree_path ⟨[], 0⟩) =
        some .panic := by
  refine ⟨ok_of_value_or _ _ (by decide!), by decide!, by decide!, by decide!, by decide!,
    by decide!⟩

theorem two_segment_rule_applied_iff_witness :
    (demo_rule_path.pattern.patterns =
        [⟨⟨1, 0⟩, [⟨.UI_PATTERN_ID, "x"⟩]⟩, ⟨⟨0, 1⟩, [⟨.UI_PATTERN_TAG, "b"⟩]⟩] ∧
      demo_rule_path ∈ demo_tree_two.box.style_rules ∧
      node_at none demo_tree_two [0, 0] =
        some ({ UiBox.zeroed with label := "y", tags := ["b"] }, some ⟨0, 1⟩) ∧
      apply_style_rules_box_array demo_powf 0 none demo_tree_two ⟨[], 0⟩ =
        .ok demo_cascade_two) ∧
    ∃ L st boxY', rules_at none demo_tree_two [] [0, 0] = .ok L ∧
      scan_rules { UiBox.zeroed with label := "y", tags := ["b"] } (some ⟨0, 1⟩) L
        (UiBox.zeroed.next_style, Specs.zero, []) = .ok st ∧
      node_at none demo_cascade_two.1 [0, 0] = some (boxY', some ⟨0, 1⟩) ∧
      boxY'.next_style = st.1 ∧
      (applied_at demo_rule_path.style_ptr { UiBox.zeroed with label := "y", tags := ["b"] }
          (some ⟨0, 1⟩) L ↔
        (match_pattern { UiBox.zeroed with label := "y", tags := ["b"] } (some ⟨0, 1⟩)
            ⟨⟨0, 1⟩, [⟨.UI_PATTERN_TAG, "b"⟩]⟩ = .ok true ∧
          ∃ q, q <+: [0, 0] ∧ q ≠ [0, 0] ∧
            matches_at none demo_tree_two q ⟨⟨1, 0⟩, [⟨.UI_PATTERN_ID, "x"⟩]⟩)) ∧
      ((match_pattern { UiBox.zeroed with label := "y", tags := ["b"] } (some ⟨0, 1⟩)
            ⟨⟨0, 1⟩, [⟨.UI_PATTERN_TAG, "b"⟩]⟩ = .ok true ∧
          ∃ q, q <+: [0, 0] ∧ q ≠ [0, 0] ∧
            matches_at none demo_tree_two q ⟨⟨1, 0⟩, [⟨.UI_PATTERN_ID, "x"⟩]⟩) →
        ∀ attr, demo_rule_path.mask &&& style_attr_to_mask attr ≠ 0 →
          (∀ r ∈ L, rule_selects { UiBox.zeroed with label := "y", tags := ["b"] }
              (some ⟨0, 1⟩) r attr →
            r.style_ptr = demo_rule_path.style_ptr ∨
              r.pattern.specificity.id < demo_rule_path.pattern.specificity.id) →
          get_attr attr boxY'.next_style = get_attr attr demo_rule_path.style) ∧
      (¬ (match_pattern { UiBox.zeroed with label := "y", tags := ["b"] } (some ⟨0, 1⟩)
            ⟨⟨0, 1⟩, [⟨.UI_PATTERN_TAG, "b"⟩]⟩ = .ok true ∧
          ∃ q, q <+: [0, 0] ∧ q ≠ [0, 0] ∧
            matches_at none demo_tree_two q ⟨⟨1, 0⟩, [⟨.UI_PATTERN_ID, "x"⟩]⟩) →
        ∃ st0, scan_rules { UiBox.zeroed with label := "y", tags := ["b"] } (some ⟨0, 1⟩)
            (L.filter (fun r => decide (r.style_ptr ≠ demo_rule_path.style_ptr)))
            (UiBox.zeroed.next_style, Specs.zero, []) = .ok st0 ∧
          boxY'.next_style = st0.1) :=
  ⟨⟨rfl, List.mem_cons_self _ _, rfl, ok_of_value_or _ _ (by decide!)⟩,
    two_segment_rule_applied_iff demo_powf 0 none demo_tree_two demo_cascade_two.1 ⟨[], 0⟩
      demo_cascade_two.2 demo_rule_path _ _ [0, 0] _ _ rfl
      (List.mem_cons_self _ _) (fun r hr => by cases hr)
      (by
        intro r hr hp
        rcases List.mem_cons.1 hr with h | h
        · exact h
        · rw [List.mem_singleton.1 h] at hp
          exact absurd hp (by decide))
      (by simp [demo_tree_two, BoxTree.children, declared_rules_list, declared_rules,
        UiBox.zeroed])
      rfl (ok_of_value_or (demo_tree_two, ⟨[], 0⟩) _ (by decide!))⟩
/-! ## Theorems: the layout -/

theorem same_but_rects_refl (boxes : BoxId → UiBox) : SameButRects boxes boxes :=
  fun b => ⟨(boxes b).rect, rfl⟩

theorem same_but_rects_trans {a b c : BoxId → UiBox} (h1 : SameButRects a b)
    (h2 : SameButRects b c) : SameButRects a c := by
  intro x
  obtain ⟨r1, e1⟩ := h1 x
  obtain ⟨r2, e2⟩ := h2 x
  exact ⟨r2, by rw [e2, e1]⟩

theorem same_but_rects_modify (ui : Ui) (child : BoxId) (r : UiBox → UiRect) :
    SameButRects ui.boxes (ui.modify_box child (fun c => { c with rect := r c })).boxes := by
  intro b
  rw [modify_box_boxes]
  split
  · rename_i h; subst h; exact ⟨_, rfl⟩
  · exact ⟨_, rfl⟩

theorem shrink_children_frame (axis : Nat) (f : F32) (children : List BoxId) (ui : Ui) :
    SameButRects ui.boxes (shrink_children axis f children ui).boxes ∧
    (shrink_children axis f children ui).depth_first = ui.depth_first ∧
    ∀ c, c ∉ children → (shrink_children axis f children ui).boxes c = ui.boxes c := by
  induction children generalizing ui with
  | nil => exact ⟨same_but_rects_refl _, rfl, fun _ _ => rfl⟩
  | cons x rest ih =>
    simp only [shrink_children]
    split
    · obtain ⟨h1, h2, h3⟩ := ih ui
      exact ⟨h1, h2, fun c hc => h3 c (fun h => hc (List.mem_cons_of_mem _ h))⟩
    · obtain ⟨h1, h2, h3⟩ := ih (ui.modify_box x (fun c => { c with rect :=
        (c.rect.set_size axis ((ui.boxes x).rect.size axis - (ui.boxes x).rect.size axis *
          (1 - (c.style.size axis).strictness) * f)) }))
      refine ⟨same_but_rects_trans (same_but_rects_modify ui x _) h1, h2, ?_⟩
      intro c hc
      rw [h3 c (fun h => hc (List.mem_cons_of_mem _ h)), modify_box_boxes]
      have : c ≠ x := fun h => hc (h ▸ List.mem_cons_self _ _)
      simp [this]

theorem clamp_children_frame (axis : Nat) (box_size : F32) (allowed : Bool)
    (children : List BoxId) (ui : Ui) :
    SameButRects ui.boxes (clamp_children axis box_size allowed children ui).boxes ∧
    (clamp_children axis box_size allowed children ui).depth_first = ui.depth_first ∧
    (∀ c, c ∉ children → (clamp_children axis box_size allowed children ui).boxes c = ui.boxes c) ∧
    (allowed = true → clamp_children axis box_size allowed children ui = ui) := by
  induction children generalizing ui with
  | nil => exact ⟨same_but_rects_refl _, rfl, fun _ _ => rfl, fun _ => rfl⟩
  | cons x rest ih =>
    have hrest : ∀ u : Ui,
        SameButRects ui.boxes u.boxes → u.depth_first = ui.depth_first →
        (∀ c, c ∉ x :: rest → u.boxes c = ui.boxes c) →
        (allowed = true → u = ui) →
        SameButRects ui.boxes (clamp_children axis box_size allowed rest u).boxes ∧
        (clamp_children axis box_size allowed rest u).depth_first = ui.depth_first ∧
        (∀ c, c ∉ x :: rest → (clamp_children axis box_size allowed rest u).boxes c = ui.boxes c) ∧
        (allowed = true → clamp_children axis box_size allowed rest u = ui) := by
      intro u hu hd hc ha
      obtain ⟨h1, h2, h3, h4⟩ := ih u
      refine ⟨same_but_rects_trans hu h1, h2.trans hd, ?_, ?_⟩
      · intro c hcc
        rw [h3 c (fun h => hcc (List.mem_cons_of_mem _ h))]
        exact hc c hcc
      · intro h
        rw [h4 h]
        exact ha h
    simp only [clamp_children]
    split
    · exact hrest ui (same_but_rects_refl _) rfl (fun _ _ => rfl) (fun _ => rfl)
    · split
      · exact hrest ui (same_but_rects_refl _) rfl (fun _ _ => rfl) (fun _ => rfl)
      · split
        · exact hrest ui (same_but_rects_refl _) rfl (fun _ _ => rfl) (fun _ => rfl)
        · rename_i hal
          split
          · refine hrest _ (same_but_rects_modify ui x _) rfl ?_ (fun h => absurd h hal)
            intro c hc
            rw [modify_box_boxes]
            have : c ≠ x := fun h => hc (h ▸ List.mem_cons_self _ _)
            simp [this]
          · exact hrest ui (same_but_rects_refl _) rfl (fun _ _ => rfl) (fun _ => rfl)

/-- The body of `fix_overflow` for one box changes nothing but the rects of
the children of the box, and nothing at all when the box allows overflow. -/
theorem fix_overflow_box_frame (ui : Ui) (axis : Nat) (box : BoxId) :
    SameButRects ui.boxes (fix_overflow_box ui axis box).boxes ∧
    (fix_overflow_box ui axis box).depth_first = ui.depth_first ∧
    (∀ c, c ∉ (ui.boxes box).children → (fix_overflow_box ui axis box).boxes c = ui.boxes c) ∧
    ((ui.boxes box).style.overflow axis ≠ 0 → fix_overflow_box ui axis box = ui) := by
  unfold fix_overflow_box
  simp only
  split
  · split
    · rename_i hcond
      split
      · obtain ⟨h1, h2, h3⟩ := shrink_children_frame axis
          ((sum_children ui.boxes axis (ui.boxes box).style.spacing (ui.boxes box).children 0 -
            ((ui.boxes box).rect.size axis - 2 * (ui.boxes box).style.padding.v axis)) /
            total_slack ui.boxes axis (ui.boxes box).children 0) (ui.boxes box).children ui
        exact ⟨h1, h2, h3, fun h => absurd hcond.2 h⟩
      · exact ⟨same_but_rects_refl _, rfl, fun _ _ => rfl, fun _ => rfl⟩
    · exact ⟨same_but_rects_refl _, rfl, fun _ _ => rfl, fun _ => rfl⟩
  · obtain ⟨h1, h2, h3, h4⟩ := clamp_children_frame axis
      ((ui.boxes box).rect.size axis - 2 * (ui.boxes box).style.padding.v axis)
      (decide ((ui.boxes box).style.overflow axis ≠ 0)) (ui.boxes box).children ui
    exact ⟨h1, h2, h3, fun h => h4 (by simpa using h)⟩

theorem fix_overflow_fold_keeps (axis : Nat) (c : BoxId) (ui0 : Ui) (l : List BoxId) :
    ∀ ui : Ui, SameButRects ui0.boxes ui.boxes → ui.boxes c = ui0.boxes c →
      (∀ b ∈ l, c ∈ (ui0.boxes b).children → (ui0.boxes b).style.overflow axis ≠ 0) →
      (l.foldl (fun ui box => fix_overflow_box ui axis box) ui).boxes c = ui0.boxes c := by
  induction l with
  | nil => intro ui _ hc _; exact hc
  | cons b rest ih =>
    intro ui hs hc hall
    simp only [List.foldl_cons]
    obtain ⟨f1, _, f3, f4⟩ := fix_overflow_box_frame ui axis b
    obtain ⟨r, hr⟩ := hs b
    have hch : (ui.boxes b).children = (ui0.boxes b).children := by rw [hr]
    have hov : (ui.boxes b).style.overflow axis = (ui0.boxes b).style.overflow axis := by rw [hr]
    apply ih _ (same_but_rects_trans hs f1) _
      (fun b' hb' => hall b' (List.mem_cons_of_mem _ hb'))
    by_cases hmem : c ∈ (ui0.boxes b).children
    · have := hall b (List.mem_cons_self _ _) hmem
      rw [f4 (by rw [hov]; exact this)]
      exact hc
    · rw [f3 c (by rw [hch]; exact hmem)]
      exact hc

/-- The loop `sum_children` in closed form: the start value, the sizes of the
non-floating children, and one `spacing` for every non-floating child that is
not the last element of the child list. -/
theorem sum_children_eq (boxes : BoxId → UiBox) (axis : Nat) (spacing : F32)
    (children : List BoxId) (acc : F32) :
    sum_children boxes axis spacing children acc =
      acc + (inflow_sizes boxes axis children).sum +
        (inflow_not_last boxes axis children : F32) * spacing := by
  induction children generalizing acc with
  | nil => simp [sum_children, inflow_sizes, inflow_not_last]
  | cons x rest ih =>
    simp only [sum_children, inflow_sizes, inflow_not_last]
    split
    · exact ih acc
    · rw [ih]
      by_cases hr : rest = []
      · simp [hr, inflow_sizes, inflow_not_last]
      · simp only [hr, if_false, List.sum_cons]
        push_cast
        ring

/-- When the last element of the child list is a non-floating child, the
number of spacings is one less than the number of non-floating children. -/
theorem inflow_not_last_of_last_inflow (boxes : BoxId → UiBox) (axis : Nat)
    (children : List BoxId) (last : BoxId) (hlast : children.getLast? = some last)
    (hin : (boxes last).style.floating axis = none) :
    inflow_not_last boxes axis children + 1 = (inflow_sizes boxes axis children).length := by
  induction children with
  | nil => simp at hlast
  | cons x rest ih =>
    simp only [inflow_not_last, inflow_sizes]
    by_cases hr : rest = []
    · subst hr
      simp only [List.getLast?_singleton, Option.some.injEq] at hlast
      subst hlast
      simp [hin, inflow_not_last, inflow_sizes]
    · have hl : rest.getLast? = some last := by
        rw [← hlast]
        cases rest with
        | nil => exact absurd rfl hr
        | cons y ys => simp [List.getLast?_cons_cons]
      have := ih hl
      split
      · exact this
      · simp only [hr, if_false, List.length_cons]
        omega

/-- When the last element of the child list is a floating child, there are as
many spacings as non-floating children. -/
theorem inflow_not_last_of_last_floating (boxes : BoxId → UiBox) (axis : Nat)
    (children : List BoxId) (last : BoxId) (hlast : children.getLast? = some last)
    (hfl : ((boxes last).style.floating axis).isSome = true) :
    inflow_not_last boxes axis children = (inflow_sizes boxes axis children).length := by
  induction children with
  | nil => simp at hlast
  | cons x rest ih =>
    simp only [inflow_not_last, inflow_sizes]
    by_cases hr : rest = []
    · subst hr
      simp only [List.getLast?_singleton, Option.some.injEq] at hlast
      subst hlast
      simp [hfl, inflow_not_last, inflow_sizes]
    · have hl : rest.getLast? = some last := by
        rw [← hlast]
        cases rest with
        | nil => exact absurd rfl hr
        | cons y ys => simp [List.getLast?_cons_cons]
      have := ih hl
      split
      · exact this
      · simp only [hr, if_false, List.length_cons]
        omega

/-- The scenario of the specification: children of 100 and 140, padding 8 and
spacing 4 give the size 260. -/
theorem compute_downward_dependent_sizes_scenario :
    ((compute_downward_dependent_sizes demo_layout 0).boxes 0).rect.size 0 = 260 := by
  simp [compute_downward_dependent_sizes, compute_downward_dependent_sizes_box, demo_layout,
    ui_init, modify_box_boxes, UiStyle.size, demo_child, default_box_style,
    UiBox.zeroed, sum_children, UiStyle.floating, UiRect.size, UiRect.set_size, Vec2.v]
  norm_num

theorem rect_size_set_size (r : UiRect) (axis : Nat) (v : F32) :
    (r.set_size axis v).size axis = v := by
  unfold UiRect.set_size UiRect.size
  split <;> rfl

theorem sum_children_congr (boxes boxes' : BoxId → UiBox) (axis : Nat) (spacing : F32)
    (children : List BoxId) (h : ∀ c ∈ children, boxes' c = boxes c) (acc : F32) :
    sum_children boxes' axis spacing children acc = sum_children boxes axis spacing children acc := by
  induction children generalizing acc with
  | nil => rfl
  | cons x rest ih =>
    simp only [sum_children, h x (List.mem_cons_self _ _)]
    have ih' := ih (fun c hc => h c (List.mem_cons_of_mem _ hc))
    split
    · exact ih' _
    · exact ih' _

/-- The size that `compute_downward_dependent_sizes` gives a box that it sizes
by the sum of its children: twice the padding, the sizes of the non-floating
children, and one spacing for every non-floating child that is not the last
element of the child list. -/
theorem compute_downward_dependent_sizes_box_sum (ui : Ui) (axis : Nat) (box : BoxId)
    (htag : ((ui.boxes box).style.size axis).tag = .UI_SIZE_CHILDREN_SUM)
    (hax : (ui.boxes box).style.axis = axis)
    (hself : box ∉ (ui.boxes box).children) :
    ((compute_downward_dependent_sizes_box ui axis box).boxes box).rect.size axis =
      2 * (ui.boxes box).style.padding.v axis +
        (inflow_sizes ui.boxes axis (ui.boxes box).children).sum +
        (inflow_not_last ui.boxes axis (ui.boxes box).children : F32) *
          (ui.boxes box).style.spacing := by
  unfold compute_downward_dependent_sizes_box
  simp only [htag, ne_eq, not_true_eq_false, if_false]
  rw [modify_box_boxes, if_pos rfl, rect_size_set_size]
  split
  · rename_i hcyc
    have hb : ∀ f : UiBox → UiBox, (ui.modify_box box f).boxes box = f (ui.boxes box) := by
      intro f; rw [modify_box_boxes, if_pos rfl]
    have hst : ∀ v, ((ui.boxes box).style.set_size axis v).axis = (ui.boxes box).style.axis ∧
        ((ui.boxes box).style.set_size axis v).padding = (ui.boxes box).style.padding ∧
        ((ui.boxes box).style.set_size axis v).spacing = (ui.boxes box).style.spacing := by
      intro v; unfold UiStyle.set_size; split <;> exact ⟨rfl, rfl, rfl⟩
    rw [hb]
    simp only [(hst _).1, (hst _).2.1, (hst _).2.2, hax, if_true]
    rw [sum_children_congr ui.boxes _ axis _ _ (fun c hc => by
      rw [modify_box_boxes, if_neg (fun h : c = box => hself (h ▸ hc))])]
    exact sum_children_eq _ _ _ _ _
  · exact sum_children_eq _ _ _ _ _

theorem total_slack_acc (boxes : BoxId → UiBox) (axis : Nat) (children : List BoxId) (acc : F32) :
    total_slack boxes axis children acc = acc + total_slack boxes axis children 0 := by
  induction children generalizing acc with
  | nil => simp [total_slack]
  | cons x rest ih =>
    simp only [total_slack]
    split
    · exact ih acc
    · rw [ih, ih (0 + _)]; ring

theorem total_slack_congr (boxes boxes' : BoxId → UiBox) (axis : Nat)
    (children : List BoxId) (h : ∀ c ∈ children, boxes' c = boxes c) (acc : F32) :
    total_slack boxes' axis children acc = total_slack boxes axis children acc := by
  induction children generalizing acc with
  | nil => rfl
  | cons x rest ih =>
    simp only [total_slack, h x (List.mem_cons_self _ _)]
    have ih' := ih (fun c hc => h c (List.mem_cons_of_mem _ hc))
    split
    · exact ih' _
    · exact ih' _

theorem inflow_sizes_congr (boxes boxes' : BoxId → UiBox) (axis : Nat)
    (children : List BoxId) (h : ∀ c ∈ children, boxes' c = boxes c) :
    inflow_sizes boxes' axis children = inflow_sizes boxes axis children := by
  induction children with
  | nil => rfl
  | cons x rest ih =>
    simp only [inflow_sizes, h x (List.mem_cons_self _ _)]
    rw [ih (fun c hc => h c (List.mem_cons_of_mem _ hc))]

theorem inflow_not_last_same (boxes boxes' : BoxId → UiBox) (axis : Nat)
    (children : List BoxId) (h : SameButRects boxes boxes') :
    inflow_not_last boxes' axis children = inflow_not_last boxes axis children := by
  induction children with
  | nil => rfl
  | cons x rest ih =>
    obtain ⟨r, hr⟩ := h x
    simp only [inflow_not_last, hr, ih]

/-- The sizes of the non-floating children after the shrink loop: their sum
went down by the slack fraction times the total slack. -/
theorem shrink_children_sum (axis : Nat) (f : F32) (children : List BoxId)
    (hnodup : children.Nodup) (ui : Ui) :
    (inflow_sizes (shrink_children axis f children ui).boxes axis children).sum =
      (inflow_sizes ui.boxes axis children).sum - f * total_slack ui.boxes axis children 0 := by
  induction children generalizing ui with
  | nil => simp [shrink_children, inflow_sizes, total_slack]
  | cons x rest ih =>
    have hx : x ∉ rest := (List.nodup_cons.1 hnodup).1
    have hrest := (List.nodup_cons.1 hnodup).2
    simp only [shrink_children]
    split
    · rename_i hfl
      have hkeep := (shrink_children_frame axis f rest ui).2.2 x hx
      simp only [inflow_sizes, total_slack, hkeep, hfl, if_true]
      exact ih hrest ui
    · rename_i hfl
      have hkeep := (shrink_children_frame axis f rest
        (ui.modify_box x (fun c => { c with rect := (c.rect.set_size axis
          ((ui.boxes x).rect.size axis - (ui.boxes x).rect.size axis *
            (1 - (c.style.size axis).strictness) * f)) }))).2.2 x hx
      have hother : ∀ c ∈ rest, (ui.modify_box x (fun c => { c with rect := (c.rect.set_size axis
          ((ui.boxes x).rect.size axis - (ui.boxes x).rect.size axis *
            (1 - (c.style.size axis).strictness) * f)) })).boxes c = ui.boxes c := by
        intro c hc
        rw [modify_box_boxes, if_neg (fun h : c = x => hx (h ▸ hc))]
      simp only [inflow_sizes, total_slack, hkeep, hfl]
      rw [modify_box_boxes, if_pos rfl]
      simp only [hfl, Bool.false_eq_true, if_false, List.sum_cons, rect_size_set_size]
      rw [ih hrest, inflow_sizes_congr _ _ axis rest hother, total_slack_congr _ _ axis rest hother,
        total_slack_acc ui.boxes axis rest (0 + _)]
      ring

/-- When `fix_overflow` shrinks the children of a box along its layout axis,
the new sizes of the non-floating children, one spacing for every
non-floating child that is not the last element of the child list, and twice
the padding come to the size of the box. -/
theorem fix_overflow_box_exact (ui : Ui) (axis : Nat) (box : BoxId)
    (hax : (ui.boxes box).style.axis = axis)
    (hov : (ui.boxes box).style.overflow axis = 0)
    (hover : (ui.boxes box).rect.size axis - 2 * (ui.boxes box).style.padding.v axis <
      sum_children ui.boxes axis (ui.boxes box).style.spacing (ui.boxes box).children 0)
    (hslack : total_slack ui.boxes axis (ui.boxes box).children 0 ≥
      sum_children ui.boxes axis (ui.boxes box).style.spacing (ui.boxes box).children 0 -
        ((ui.boxes box).rect.size axis - 2 * (ui.boxes box).style.padding.v axis))
    (hnodup : (ui.boxes box).children.Nodup)
    (hself : box ∉ (ui.boxes box).children) :
    (inflow_sizes (fix_overflow_box ui axis box).boxes axis (ui.boxes box).children).sum +
        (inflow_not_last ui.boxes axis (ui.boxes box).children : F32) *
          (ui.boxes box).style.spacing +
        2 * (ui.boxes box).style.padding.v axis =
      ((fix_overflow_box ui axis box).boxes box).rect.size axis := by
  have hbox := (fix_overflow_box_frame ui axis box).2.2.1 box hself
  rw [hbox]
  unfold fix_overflow_box
  simp only [hax, if_true, hov, and_true, hover, hslack, ge_iff_le]
  rw [shrink_children_sum axis _ _ hnodup ui]
  have hpos : (0 : F32) < total_slack ui.boxes axis (ui.boxes box).children 0 := by
    linarith
  rw [sum_children_eq] at hover hslack ⊢
  field_simp
  ring

/-! ## Claims about the layout -/

/-- C8. If a box `B` declares overflow allowed on an axis, `fix_overflow` on
that axis leaves every child `c` of `B` as it was (its size on the axis in
particular), whatever the layout axis of `B` is; `c` is a child of no other
box of `depth_first`, as in a tree. -/
theorem fix_overflow_keeps_children_when_overflow_allowed (ui : Ui) (axis : Nat) (B c : BoxId)
    (_hc : c ∈ (ui.boxes B).children)
    (hov : (ui.boxes B).style.overflow axis ≠ 0)
    (htree : ∀ b ∈ ui.depth_first, c ∈ (ui.boxes b).children → b = B) :
    (fix_overflow ui axis).boxes c = ui.boxes c ∧
    ((fix_overflow ui axis).boxes c).rect.size axis = (ui.boxes c).rect.size axis := by
  have h : (fix_overflow ui axis).boxes c = ui.boxes c := by
    unfold fix_overflow
    exact fix_overflow_fold_keeps axis c ui ui.depth_first ui (same_but_rects_refl _) rfl
      (fun b hb hcb => by rw [htree b hb hcb]; exact hov)
  exact ⟨h, by rw [h]⟩

theorem fix_overflow_keeps_children_when_overflow_allowed_witness :
    ((1 : BoxId) ∈ (demo_overflow_allowed.boxes 0).children ∧
      (demo_overflow_allowed.boxes 0).style.overflow 0 ≠ 0 ∧
      ∀ b ∈ demo_overflow_allowed.depth_first,
        (1 : BoxId) ∈ (demo_overflow_allowed.boxes b).children → b = 0) ∧
    ((fix_overflow demo_overflow_allowed 0).boxes 1 = demo_overflow_allowed.boxes 1 ∧
      ((fix_overflow demo_overflow_allowed 0).boxes 1).rect.size 0 =
        (demo_overflow_allowed.boxes 1).rect.size 0) :=
  ⟨⟨by decide, by decide, by decide⟩,
    fix_overflow_keeps_children_when_overflow_allowed demo_overflow_allowed 0 0 1
      (by decide) (by decide) (by decide)⟩

/-- C6 at the failing input: with a floating child at the end of the child
list the box is sized 264, one spacing more than the
`2*8 + (100 + 140) + (2 - 1)*4 = 260` of the claim; the box is still sized by
its children and laid out along the axis, and its non-floating children are the
two of sizes 100 and 140. -/
theorem compute_downward_dependent_sizes_floating_last :
    ((compute_downward_dependent_sizes demo_layout_floating 0).boxes 0).rect.size 0 = 264 ∧
    (((compute_downward_dependent_sizes demo_layout_floating 0).boxes 0).style.size 0).tag =
      .UI_SIZE_CHILDREN_SUM ∧
    ((compute_downward_dependent_sizes demo_layout_floating 0).boxes 0).style.axis = 0 ∧
    ((compute_downward_dependent_sizes demo_layout_floating 0).boxes 0).style.padding.v 0 = 8 ∧
    ((compute_downward_dependent_sizes demo_layout_floating 0).boxes 0).style.spacing = 4 ∧
    inflow_sizes (compute_downward_dependent_sizes demo_layout_floating 0).boxes 0
      ((compute_downward_dependent_sizes demo_layout_floating 0).boxes 0).children =
        [100, 140] := by
  simp [compute_downward_dependent_sizes, compute_downward_dependent_sizes_box,
    demo_layout_floating, ui_init, modify_box_boxes, UiStyle.size, demo_child,
    demo_floating_child, default_box_style, UiBox.zeroed, sum_children, UiStyle.floating,
    UiRect.size, UiRect.set_size, Vec2.v, inflow_sizes]
  norm_num

/-- C7 at the failing input: the box of size 100 (padding 0, spacing 10, no
overflow allowed) has one non-floating child of size 120 with slack 120 and a
floating child after it; `fix_overflow` shrinks the child to 90, so the new
sizes plus spacing and padding come to 90, not to the parent's 100. -/
theorem fix_overflow_floating_last :
    ((fix_overflow demo_overflow_floating 0).boxes 1).rect.size 0 = 90 ∧
    ((fix_overflow demo_overflow_floating 0).boxes 0).rect.size 0 = 100 ∧
    inflow_sizes (fix_overflow demo_overflow_floating 0).boxes 0
      ((fix_overflow demo_overflow_floating 0).boxes 0).children = [90] ∧
    inflow_sizes demo_overflow_floating.boxes 0 (demo_overflow_floating.boxes 0).children =
      [120] ∧
    total_slack demo_overflow_floating.boxes 0 (demo_overflow_floating.boxes 0).children 0 =
      120 ∧
    (demo_overflow_floating.boxes 0).style.overflow 0 = 0 ∧
    (demo_overflow_floating.boxes 0).style.axis = 0 ∧
    (demo_overflow_floating.boxes 0).style.padding.v 0 = 0 := by
  norm_num [fix_overflow, fix_overflow_box, demo_overflow_floating, ui_init, modify_box_boxes,
    UiStyle.size, demo_child, demo_floating_child, default_box_style, UiBox.zeroed,
    sum_children, total_slack, shrink_children, UiStyle.floating, UiStyle.overflow,
    UiRect.size, UiRect.set_size, Vec2.v, Vec2.zero, inflow_sizes]

/-! ## Theorems: animation in exact arithmetic -/

/-- One step of `animate_f32` in exact arithmetic: the value snaps to the
target, or its distance to the target is multiplied by
`powf 0.001 (dt / duration)`. -/
theorem animate_f32_step (powf : F32 → F32 → F32) (dt current final duration : F32) :
    animate_f32 powf dt current final duration = final ∨
      animate_f32 powf dt current final duration - final =
        (current - final) * powf (1 / 1000) (dt / duration) := by
  unfold animate_f32
  simp only
  split
  · exact Or.inl rfl
  · right; ring

/-- `n` steps of `animate_f32` towards a fixed target in exact arithmetic: the
value is the target, or its distance to the target is the initial one times
the `n`-th power of `powf 0.001 (dt / duration)`. -/
theorem animate_f32_iterate (powf : F32 → F32 → F32) (dt final duration : F32) (n : Nat)
    (current : F32) :
    (fun c => animate_f32 powf dt c final duration)^[n] current = final ∨
      (fun c => animate_f32 powf dt c final duration)^[n] current - final =
        (current - final) * powf (1 / 1000) (dt / duration) ^ n := by
  induction n generalizing current with
  | zero => right; simp
  | succ n ih =>
    rw [Function.iterate_succ, Function.comp_apply]
    rcases animate_f32_step powf dt current final duration with h | h
    · rcases ih (animate_f32 powf dt current final duration) with h' | h'
      · exact Or.inl h'
      · left
        rw [h] at h' ⊢
        rw [sub_self, zero_mul] at h'
        exact sub_eq_zero.1 h'
    · rcases ih (animate_f32 powf dt current final duration) with h' | h'
      · exact Or.inl h'
      · right
        rw [h', h, pow_succ]
        ring

/-! ## Theorems: keyboard focus -/

theorem mod_of_wrap {n x : Nat} (h1 : n ≤ x) (h2 : x < 2 * n) : x % n = x - n := by
  rw [Nat.mod_eq_sub_mod h1, Nat.mod_eq_of_lt (by omega)]

theorem cyclic_succ {n s i : Nat} (hn : 0 < n) :
    ((s + i) % n + 1) % n = (s + (i + 1)) % n := by
  rw [← Nat.add_assoc, Nat.add_mod (s + i) 1 n]
  by_cases h1 : n = 1
  · subst h1; simp [Nat.mod_one]
  · rw [Nat.mod_eq_of_lt (show 1 < n by omega)]

theorem cyclic_ne_start {n s k : Nat} (hs : s < n) (hk0 : 0 < k) (hk : k < n) :
    (s + k) % n ≠ s := by
  by_cases h : s + k < n
  · rw [Nat.mod_eq_of_lt h]; omega
  · rw [mod_of_wrap (by omega) (by omega)]; omega

theorem find_next_focus_loop_run (ui : Ui) (s k : Nat)
    (hn64 : ui.depth_first.length < 2 ^ 64) (hs : s < ui.depth_first.length)
    (hk : k ≤ ui.depth_first.length)
    (hflag : can_focus_at ui ((s + k) % ui.depth_first.length))
    (hnone : ∀ j, 1 ≤ j → j < k → ¬ can_focus_at ui ((s + j) % ui.depth_first.length)) :
    ∀ (d i fuel : Nat) (f : Option BoxId), i + d = k → 1 ≤ d → d ≤ fuel →
      find_next_focus_loop s fuel
          { ui with focus_idx := (s + i) % ui.depth_first.length, focused := f } =
        .ok { ui with focus_idx := (s + k) % ui.depth_first.length,
                      focused := ui.depth_first[(s + k) % ui.depth_first.length]? } := by
  intro d
  induction d with
  | zero => intro i fuel f _ h; omega
  | succ d ih =>
    intro i fuel f hik _ hfuel
    have hnpos : 0 < ui.depth_first.length := by omega
    obtain ⟨fuel, rfl⟩ : ∃ m, fuel = m + 1 := ⟨fuel - 1, by omega⟩
    have hc : (s + i) % ui.depth_first.length < ui.depth_first.length := Nat.mod_lt _ hnpos
    have hidx : (((s + i) % ui.depth_first.length + 1) % 2 ^ 64) % ui.depth_first.length =
        (s + (i + 1)) % ui.depth_first.length := by
      rw [Nat.mod_eq_of_lt (show (s + i) % ui.depth_first.length + 1 < 2 ^ 64 by omega)]
      exact cyclic_succ hnpos
    have hlt : (s + (i + 1)) % ui.depth_first.length < ui.depth_first.length :=
      Nat.mod_lt _ hnpos
    obtain ⟨box, hbox⟩ : ∃ box, ui.depth_first[(s + (i + 1)) % ui.depth_first.length]? =
        some box := ⟨_, List.getElem?_eq_getElem hlt⟩
    simp only [find_next_focus_loop, hidx, hbox, Nat.ne_of_gt hnpos, if_false]
    by_cases hd : d = 0
    · have hk' : i + 1 = k := by omega
      rw [hk'] at hbox
      obtain ⟨b2, hb2, hfl⟩ := hflag
      rw [hbox] at hb2
      cases hb2
      rw [if_pos hfl, hk', hbox]
    · have hnf : ¬ can_focus_at ui ((s + (i + 1)) % ui.depth_first.length) :=
        hnone (i + 1) (by omega) (by omega)
      have hfl : ¬ ((ui.boxes box).flags &&& UI_BOX_CAN_FOCUS ≠ 0) :=
        fun h => hnf ⟨box, hbox, h⟩
      rw [if_neg hfl, if_neg (cyclic_ne_start hs (by omega) (by omega))]
      exact ih (i + 1) fuel (some box) (by omega) (by omega) (by omega)

theorem cyclic_pred {n s i : Nat} (hs : s < n) (hi : i < n) :
    (if (s + (n - i)) % n = 0 then n - 1 else (s + (n - i)) % n - 1) =
      (s + (n - (i + 1))) % n := by
  by_cases h : i ≤ s
  · rw [mod_of_wrap (show n ≤ s + (n - i) by omega) (by omega)]
    by_cases h2 : i = s
    · subst h2
      rw [if_pos (by omega), Nat.mod_eq_of_lt (by omega)]
      omega
    · rw [if_neg (by omega), mod_of_wrap (show n ≤ s + (n - (i + 1)) by omega) (by omega)]
      omega
  · rw [Nat.mod_eq_of_lt (show s + (n - i) < n by omega), if_neg (by omega),
      Nat.mod_eq_of_lt (show s + (n - (i + 1)) < n by omega)]
    omega

theorem cyclic_back_ne_start {n s k : Nat} (hs : s < n) (hk0 : 0 < k) (hk : k < n) :
    (s + (n - k)) % n ≠ s := by
  by_cases h : s + (n - k) < n
  · rw [Nat.mod_eq_of_lt h]; omega
  · rw [mod_of_wrap (by omega) (by omega)]; omega

theorem find_prev_focus_loop_run (ui : Ui) (s k : Nat)
    (hn64 : ui.depth_first.length < 2 ^ 64) (hs : s < ui.depth_first.length)
    (hk : k ≤ ui.depth_first.length)
    (hflag : can_focus_at ui ((s + (ui.depth_first.length - k)) % ui.depth_first.length))
    (hnone : ∀ j, 1 ≤ j → j < k →
      ¬ can_focus_at ui ((s + (ui.depth_first.length - j)) % ui.depth_first.length)) :
    ∀ (d i fuel : Nat) (f : Option BoxId), i + d = k → 1 ≤ d → d ≤ fuel →
      find_prev_focus_loop s fuel
          { ui with focus_idx := (s + (ui.depth_first.length - i)) % ui.depth_first.length,
                    focused := f } =
        .ok { ui with
              focus_idx := (s + (ui.depth_first.length - k)) % ui.depth_first.length,
              focused := ui.depth_first[(s + (ui.depth_first.length - k)) %
                ui.depth_first.length]? } := by
  intro d
  induction d with
  | zero => intro i fuel f _ h; omega
  | succ d ih =>
    intro i fuel f hik _ hfuel
    have hnpos : 0 < ui.depth_first.length := by omega
    obtain ⟨fuel, rfl⟩ : ∃ m, fuel = m + 1 := ⟨fuel - 1, by omega⟩
    have hc : (s + (ui.depth_first.length - i)) % ui.depth_first.length <
        ui.depth_first.length := Nat.mod_lt _ hnpos
    have hidx : (if ((s + (ui.depth_first.length - i)) % ui.depth_first.length + 2 ^ 64 - 1) %
          2 ^ 64 = 2 ^ 64 - 1 then (ui.depth_first.length + 2 ^ 64 - 1) % 2 ^ 64
        else ((s + (ui.depth_first.length - i)) % ui.depth_first.length + 2 ^ 64 - 1) % 2 ^ 64) =
        (s + (ui.depth_first.length - (i + 1))) % ui.depth_first.length := by
      rw [← cyclic_pred hs (show i < ui.depth_first.length by omega)]
      by_cases h0 : (s + (ui.depth_first.length - i)) % ui.depth_first.length = 0
      · rw [h0, if_pos rfl]
        simp only [Nat.zero_add, Nat.mod_eq_of_lt (show 2 ^ 64 - 1 < 2 ^ 64 by omega), if_true]
        omega
      · rw [if_neg h0, if_neg (by omega)]
        omega
    have hlt : (s + (ui.depth_first.length - (i + 1))) % ui.depth_first.length <
        ui.depth_first.length := Nat.mod_lt _ hnpos
    obtain ⟨box, hbox⟩ : ∃ box,
        ui.depth_first[(s + (ui.depth_first.length - (i + 1))) % ui.depth_first.length]? =
          some box := ⟨_, List.getElem?_eq_getElem hlt⟩
    simp only [find_prev_focus_loop, hidx, hbox]
    by_cases hd : d = 0
    · have hk' : i + 1 = k := by omega
      rw [hk'] at hbox
      obtain ⟨b2, hb2, hfl⟩ := hflag
      rw [hbox] at hb2
      cases hb2
      rw [if_pos hfl, hk', hbox]
    · have hnf : ¬ can_focus_at ui
          ((s + (ui.depth_first.length - (i + 1))) % ui.depth_first.length) :=
        hnone (i + 1) (by omega) (by omega)
      have hfl : ¬ ((ui.boxes box).flags &&& UI_BOX_CAN_FOCUS ≠ 0) :=
        fun h => hnf ⟨box, hbox, h⟩
      rw [if_neg hfl, if_neg (cyclic_back_ne_start hs (by omega) (by omega))]
      exact ih (i + 1) fuel (some box) (by omega) (by omega) (by omega)

theorem exists_least_from_one (P : Nat → Prop) (k0 : Nat) (h1 : 1 ≤ k0) (hP : P k0) :
    ∃ k, 1 ≤ k ∧ k ≤ k0 ∧ P k ∧ ∀ j, 1 ≤ j → j < k → ¬ P j := by
  classical
  have hex : ∃ k, 1 ≤ k ∧ P k := ⟨k0, h1, hP⟩
  refine ⟨Nat.find hex, (Nat.find_spec hex).1, Nat.find_min' hex ⟨h1, hP⟩,
    (Nat.find_spec hex).2, ?_⟩
  intro j hj hlt hPj
  exact Nat.find_min hex hlt ⟨hj, hPj⟩

/-! ## Claims about the signal router (no active box) -/

/-- C11. When no box is active, in a context with a clip rectangle on the
stack and acyclic parent links (as `rank` shows), `compute_signals` on a
reactive box returns, and it makes the box the active box and reports
`pressed = true` exactly when the box is `ui->hovered` and the event is a
press of the primary button; in every other case it leaves `ui->active` empty
and reports `pressed = false`. -/
theorem compute_signals_no_active_box (ui : Ui) (box : BoxId) (rank : BoxId → Nat)
    (hreact : (ui.boxes box).flags &&& UI_BOX_REACTIVE ≠ 0)
    (hact : ui.active = none)
    (hclip : ui.clip_stack ≠ [])
    (hrank : ∀ b p, (ui.boxes b).parent = some p → rank p < rank b)
    (hbound : ∀ b, rank b ≤ ui.box_count) :
    ∃ ui', compute_signals ui box = .ok ui' ∧
      ((ui.hovered = some box ∧ ui.event.tag = .EVENT_KEY_PRESS ∧
          ui.event.key = GLFW_MOUSE_BUTTON_LEFT) →
        ui'.active = some box ∧ (ui'.boxes box).signal.pressed = true) ∧
      (¬ (ui.hovered = some box ∧ ui.event.tag = .EVENT_KEY_PRESS ∧
          ui.event.key = GLFW_MOUSE_BUTTON_LEFT) →
        ui'.active = none ∧ (ui'.boxes box).signal.pressed = false) := by
  obtain ⟨hov, hhov⟩ := compute_hovered_returns ui box rank hclip
    (fun b p _ h => hrank b p h) hbound
  unfold compute_signals
  simp only [compute_hovered_reset, hhov, modify_box_active, hact, modify_box_event,
    modify_box_focused, modify_box_hovered]
  have hfl : ((ui.modify_box box (fun b => { b with signal := ⟨false, false, false, false⟩ })).boxes
      box).flags = (ui.boxes box).flags := by
    rw [modify_box_boxes]; simp
  rw [hfl]
  simp only [hreact, if_false, if_true]
  by_cases hpress : ui.hovered = some box ∧ ui.event.tag = .EVENT_KEY_PRESS ∧
      ui.event.key = GLFW_MOUSE_BUTTON_LEFT
  · rw [if_pos hpress]
    refine ⟨_, rfl, ?_, fun h => absurd hpress h⟩
    intro _
    simp [modify_box_boxes]
  · rw [if_neg hpress]
    refine ⟨_, rfl, fun h => absurd h hpress, ?_⟩
    intro _
    simp [modify_box_boxes, hact]

theorem compute_signals_no_active_box_witness :
    ((demo_press.boxes 0).flags &&& UI_BOX_REACTIVE ≠ 0 ∧ demo_press.active = none ∧
      demo_press.clip_stack ≠ [] ∧
      (∀ b p, (demo_press.boxes b).parent = some p → (0 : Nat) < 0) ∧
      ∀ _b : BoxId, (0 : Nat) ≤ demo_press.box_count) ∧
    ∃ ui', compute_signals demo_press 0 = .ok ui' ∧
      ((demo_press.hovered = some 0 ∧ demo_press.event.tag = .EVENT_KEY_PRESS ∧
          demo_press.event.key = GLFW_MOUSE_BUTTON_LEFT) →
        ui'.active = some 0 ∧ (ui'.boxes 0).signal.pressed = true) ∧
      (¬ (demo_press.hovered = some 0 ∧ demo_press.event.tag = .EVENT_KEY_PRESS ∧
          demo_press.event.key = GLFW_MOUSE_BUTTON_LEFT) →
        ui'.active = none ∧ (ui'.boxes 0).signal.pressed = false) :=
  ⟨⟨by decide, rfl, by simp [demo_press, ui_init],
      fun b p h => by simp [demo_press, UiBox.zeroed] at h, fun _ => Nat.zero_le _⟩,
    compute_signals_no_active_box demo_press 0 (fun _ => 0) (by decide) rfl
      (by simp [demo_press, ui_init])
      (fun b p h => by simp [demo_press, UiBox.zeroed] at h) (fun _ => Nat.zero_le _)⟩

/-! ## Claims about the keyboard focus -/

/-- C12. When `depth_first` holds a box with the can-focus flag and
`focus_idx` is below the count, `find_next_focus` returns with the focus on the
next can-focus box in cyclic order (index `(focus_idx + k) % count` for the
least `k` from 1 to the count at which the box has the flag, the boxes at the
smaller `k` being skipped), and `find_prev_focus` with the focus on the
previous one (index `(focus_idx + count - k) % count` for the least such `k`);
nothing but `focus_idx` and `focused` changes. -/
theorem find_focus_cyclic (ui : Ui) (hn64 : ui.depth_first.length < 2 ^ 64)
    (hs : ui.focus_idx < ui.depth_first.length)
    (hex : ∃ j, can_focus_at ui j) :
    (∃ k, 1 ≤ k ∧ k ≤ ui.depth_first.length ∧
      can_focus_at ui ((ui.focus_idx + k) % ui.depth_first.length) ∧
      (∀ j, 1 ≤ j → j < k → ¬ can_focus_at ui ((ui.focus_idx + j) % ui.depth_first.length)) ∧
      find_next_focus ui =
        .ok { ui with focus_idx := (ui.focus_idx + k) % ui.depth_first.length,
                      focused := ui.depth_first[(ui.focus_idx + k) % ui.depth_first.length]? }) ∧
    (∃ k, 1 ≤ k ∧ k ≤ ui.depth_first.length ∧
      can_focus_at ui ((ui.focus_idx + (ui.depth_first.length - k)) % ui.depth_first.length) ∧
      (∀ j, 1 ≤ j → j < k →
        ¬ can_focus_at ui ((ui.focus_idx + (ui.depth_first.length - j)) %
          ui.depth_first.length)) ∧
      find_prev_focus ui =
        .ok { ui with
              focus_idx := (ui.focus_idx + (ui.depth_first.length - k)) % ui.depth_first.length,
              focused := ui.depth_first[(ui.focus_idx + (ui.depth_first.length - k)) %
                ui.depth_first.length]? }) := by
  obtain ⟨j, hj⟩ := hex
  have hjn : j < ui.depth_first.length := by
    obtain ⟨box, hbox, _⟩ := hj
    exact (List.getElem?_eq_some_iff.1 hbox).1
  have hmod0 : ∀ a, a < ui.depth_first.length →
      (a + (ui.depth_first.length - 0)) % ui.depth_first.length = a := by
    intro a ha
    rw [Nat.sub_zero, Nat.add_mod_right, Nat.mod_eq_of_lt ha]
  constructor
  · obtain ⟨k, hk1, hk2, hk3, hk4⟩ := exists_least_from_one
      (fun k => can_focus_at ui ((ui.focus_idx + k) % ui.depth_first.length))
      (if ui.focus_idx < j then j - ui.focus_idx else j + ui.depth_first.length - ui.focus_idx)
      (by split <;> omega)
      (by
        show can_focus_at ui _
        split
        · rw [show ui.focus_idx + (j - ui.focus_idx) = j by omega, Nat.mod_eq_of_lt hjn]
          exact hj
        · rw [show ui.focus_idx + (j + ui.depth_first.length - ui.focus_idx) =
            j + ui.depth_first.length by omega, Nat.add_mod_right, Nat.mod_eq_of_lt hjn]
          exact hj)
    have hkn : k ≤ ui.depth_first.length := by
      split at hk2 <;> omega
    refine ⟨k, hk1, hkn, hk3, hk4, ?_⟩
    have := find_next_focus_loop_run ui ui.focus_idx k hn64 hs hkn hk3 hk4 k 0
      (ui.depth_first.length + 1) ui.focused (by omega) hk1 (by omega)
    have e : (ui.focus_idx + 0) % ui.depth_first.length = ui.focus_idx := by
      rw [Nat.add_zero, Nat.mod_eq_of_lt hs]
    rw [e] at this
    exact this
  · obtain ⟨k, hk1, hk2, hk3, hk4⟩ := exists_least_from_one
      (fun k => can_focus_at ui
        ((ui.focus_idx + (ui.depth_first.length - k)) % ui.depth_first.length))
      (if j < ui.focus_idx then ui.focus_idx - j else ui.focus_idx + ui.depth_first.length - j)
      (by split <;> omega)
      (by
        show can_focus_at ui _
        split
        · rw [show ui.focus_idx + (ui.depth_first.length - (ui.focus_idx - j)) =
            j + ui.depth_first.length by omega, Nat.add_mod_right, Nat.mod_eq_of_lt hjn]
          exact hj
        · rw [show ui.focus_idx +
            (ui.depth_first.length - (ui.focus_idx + ui.depth_first.length - j)) = j by omega,
            Nat.mod_eq_of_lt hjn]
          exact hj)
    have hkn : k ≤ ui.depth_first.length := by
      split at hk2 <;> omega
    refine ⟨k, hk1, hkn, hk3, hk4, ?_⟩
    have := find_prev_focus_loop_run ui ui.focus_idx k hn64 hs hkn hk3 hk4 k 0
      (ui.depth_first.length + 1) ui.focused (by omega) hk1 (by omega)
    rw [hmod0 _ hs] at this
    exact this

theorem demo_focus_can_focus : can_focus_at demo_focus 0 :=
  ⟨0, rfl, by decide⟩

theorem find_focus_cyclic_witness :
    (demo_focus.depth_first.length < 2 ^ 64 ∧
      demo_focus.focus_idx < demo_focus.depth_first.length ∧ ∃ j, can_focus_at demo_focus j) ∧
    ((∃ k, 1 ≤ k ∧ k ≤ demo_focus.depth_first.length ∧
      can_focus_at demo_focus ((demo_focus.focus_idx + k) % demo_focus.depth_first.length) ∧
      (∀ j, 1 ≤ j → j < k →
        ¬ can_focus_at demo_focus ((demo_focus.focus_idx + j) % demo_focus.depth_first.length)) ∧
      find_next_focus demo_focus =
        .ok { demo_focus with
              focus_idx := (demo_focus.focus_idx + k) % demo_focus.depth_first.length,
              focused := demo_focus.depth_first[(demo_focus.focus_idx + k) %
                demo_focus.depth_first.length]? }) ∧
    (∃ k, 1 ≤ k ∧ k ≤ demo_focus.depth_first.length ∧
      can_focus_at demo_focus
        ((demo_focus.focus_idx + (demo_focus.depth_first.length - k)) %
          demo_focus.depth_first.length) ∧
      (∀ j, 1 ≤ j → j < k →
        ¬ can_focus_at demo_focus
          ((demo_focus.focus_idx + (demo_focus.depth_first.length - j)) %
            demo_focus.depth_first.length)) ∧
      find_prev_focus demo_focus =
        .ok { demo_focus with
              focus_idx := (demo_focus.focus_idx + (demo_focus.depth_first.length - k)) %
                demo_focus.depth_first.length,
              focused := demo_focus.depth_first[(demo_focus.focus_idx +
                (demo_focus.depth_first.length - k)) % demo_focus.depth_first.length]? })) :=
  ⟨⟨by decide, by decide, ⟨0, demo_focus_can_focus⟩⟩,
    find_focus_cyclic demo_focus (by decide) (by decide) ⟨0, demo_focus_can_focus⟩⟩

/-- The sample run: from the last box the next focus wraps to the first one,
and the previous focus skips the box without the flag. -/
theorem demo_focus_run :
    find_next_focus demo_focus = .ok { demo_focus with focus_idx := 0, focused := some 0 } ∧
    find_prev_focus demo_focus = .ok { demo_focus with focus_idx := 0, focused := some 0 } := by
  constructor <;> rfl


/-- C13 at the failing inputs.  With one box that cannot take the focus and
nothing focused, `find_next_focus` returns with that box focused; and when
`focus_idx` is not below the count (it was set in a pass that declared more
boxes), the loop never meets `start` again. -/
theorem find_next_focus_none_focusable :
    demo_no_focus.focused = none ∧
    (∀ b ∈ demo_no_focus.depth_first, (demo_no_focus.boxes b).flags &&& UI_BOX_CAN_FOCUS = 0) ∧
    find_next_focus demo_no_focus = .ok { demo_no_focus with focus_idx := 0, focused := some 0 } ∧
    find_next_focus { demo_no_focus with focus_idx := 1 } = .error .diverge := by
  refine ⟨rfl, by decide, rfl, rfl⟩


/-! ## The byte-string comparison `str_match` -/

/-- On two strings of `n` bytes of which the second holds no zero byte,
`strncmp` compares all the bytes. -/
theorem strncmp_eq_iff (s1 s2 : List Char) (n : Nat) (h1 : s1.length = n) (h2 : s2.length = n)
    (hz : Char.ofNat 0 ∉ s2) : strncmp_eq s1 s2 n = true ↔ s1 = s2 := by
  induction n generalizing s1 s2 with
  | zero =>
    rw [List.length_eq_zero] at h1 h2
    subst h1 h2
    simp [strncmp_eq]
  | succ n ih =>
    cases s1 with
    | nil => simp at h1
    | cons c1 r1 =>
      cases s2 with
      | nil => simp at h2
      | cons c2 r2 =>
        simp only [List.length_cons, Nat.add_right_cancel_iff] at h1 h2
        have hz2 : Char.ofNat 0 ∉ r2 := fun h => hz (List.mem_cons_of_mem _ h)
        have hc2 : c2 ≠ Char.ofNat 0 := fun h => hz (h ▸ List.mem_cons_self _ _)
        unfold strncmp_eq
        by_cases hc : c1 = c2
        · subst hc
          simp only [ne_eq, not_true_eq_false, if_false, hc2, List.cons.injEq, true_and]
          exact ih r1 r2 h1 h2 hz2
        · simp [hc]

/-- For a second string without zero byte, `str_match` is equality. -/
theorem str_match_iff (s1 s2 : String) (hz : Char.ofNat 0 ∉ s2.data) :
    str_match s1 s2 = true ↔ s1 = s2 := by
  unfold str_match
  rw [Bool.and_eq_true, beq_iff_eq]
  constructor
  · rintro ⟨hl, hs⟩
    have := (strncmp_eq_iff s1.data s2.data s1.length rfl hl.symm hz).1 hs
    exact String.ext this
  · rintro rfl
    exact ⟨rfl, (strncmp_eq_iff s1.data s1.data s1.length rfl rfl hz).2 rfl⟩

/-- With a zero byte `str_match` is not equality: the labels `a\0b` and `a\0c`
match, as `strncmp` stops at the zero byte. -/
theorem str_match_zero_byte :
    str_match (String.mk ['a', Char.ofNat 0, 'b']) (String.mk ['a', Char.ofNat 0, 'c']) = true ∧
      String.mk ['a', Char.ofNat 0, 'b'] ≠ String.mk ['a', Char.ofNat 0, 'c'] := by
  constructor
  · rfl
  · decide
/-! ## Claims about `match_pattern` at the root -/

/-- C15, the claim at the root for `:first`: `match_pattern` returns true, not
false, for the AND-node `:first` on a box without parent. -/
theorem match_pattern_root_first_counterexample :
    match_pattern UiBox.zeroed none ⟨⟨0, 1⟩, [⟨.UI_PATTERN_IS_FIRST, ""⟩]⟩ = .ok true ∧
    match_pattern UiBox.zeroed none ⟨⟨0, 1⟩, [⟨.UI_PATTERN_IS_FIRST, ""⟩]⟩ ≠ .ok false := by
  constructor
  · rfl
  · intro h; cases h

theorem match_selector_root (box : UiBox) (s : UiSelector)
    (hlast : s.tag ≠ .UI_PATTERN_IS_LAST)
    (hleaf : s.tag ≠ .UI_PATTERN_PATH ∧ s.tag ≠ .UI_PATTERN_AND)
    (hz : Char.ofNat 0 ∉ s.string.data) :
    ∃ r, match_selector box none s = .ok r ∧
      (r = true ↔ (s.tag = .UI_PATTERN_ID → box.label = s.string) ∧
        (s.tag = .UI_PATTERN_TAG → s.string ∈ box.tags) ∧ s.tag ≠ .UI_PATTERN_IS_ODD) := by
  rcases s with ⟨tag, str⟩
  cases tag
  case UI_PATTERN_ID =>
    refine ⟨_, rfl, ?_⟩
    simp only [true_implies, reduceCtorEq, false_implies, ne_eq, not_false_eq_true, and_true]
    exact str_match_iff _ _ hz
  case UI_PATTERN_TAG =>
    refine ⟨_, rfl, ?_⟩
    simp only [true_implies, reduceCtorEq, false_implies, ne_eq, not_false_eq_true, and_true,
      true_and, List.any_eq_true]
    constructor
    · rintro ⟨t, ht, hm⟩
      have ht' : t = str := (str_match_iff t str hz).1 hm
      rw [← ht']
      exact ht
    · intro h
      exact ⟨_, h, (str_match_iff _ _ hz).2 rfl⟩
  all_goals first
    | exact absurd rfl hlast
    | exact absurd rfl hleaf.1
    | exact absurd rfl hleaf.2
    | exact ⟨_, rfl, by simp⟩

theorem match_selectors_root (box : UiBox) (sels : List UiSelector)
    (hlast : ∀ s ∈ sels, s.tag ≠ .UI_PATTERN_IS_LAST)
    (hleaf : ∀ s ∈ sels, s.tag ≠ .UI_PATTERN_PATH ∧ s.tag ≠ .UI_PATTERN_AND)
    (hz : ∀ s ∈ sels, Char.ofNat 0 ∉ s.string.data) :
    ∃ r, match_selectors box none sels = .ok r ∧
      (r = true ↔ ∀ s ∈ sels, (s.tag = .UI_PATTERN_ID → box.label = s.string) ∧
        (s.tag = .UI_PATTERN_TAG → s.string ∈ box.tags) ∧ s.tag ≠ .UI_PATTERN_IS_ODD) := by
  induction sels with
  | nil => exact ⟨true, rfl, by simp⟩
  | cons s rest ih =>
    obtain ⟨r, hr, hiff⟩ := ih (fun x hx => hlast x (List.mem_cons_of_mem _ hx))
      (fun x hx => hleaf x (List.mem_cons_of_mem _ hx))
      (fun x hx => hz x (List.mem_cons_of_mem _ hx))
    obtain ⟨r0, hr0, hiff0⟩ := match_selector_root box s (hlast s (List.mem_cons_self _ _))
      (hleaf s (List.mem_cons_self _ _)) (hz s (List.mem_cons_self _ _))
    simp only [match_selectors, List.forall_mem_cons, hr0]
    cases r0 with
    | true =>
      exact ⟨r, hr, by rw [hiff]; exact ⟨fun h => ⟨hiff0.1 rfl, h⟩, fun h => h.2⟩⟩
    | false =>
      refine ⟨false, rfl, ?_⟩
      simp only [Bool.false_eq_true, false_iff]
      intro h
      have := hiff0.2 h.1
      cases this

/-- C15 as amended. For a box with no parent (the root) and an AND-node
without a `:last` atom, whose names hold no zero byte, `match_pattern` returns
without failing, with the index of the box taken as 0: it returns true exactly
when every `#name` atom names the label of the box, every `.tag` atom names one
of its tags, and no atom is `:odd`; the atoms `:first`, `:even` and `*` hold. -/
theorem match_pattern_root_index_zero (box : UiBox) (A : UiPatternAnd)
    (hlast : ∀ s ∈ A.patterns, s.tag ≠ .UI_PATTERN_IS_LAST)
    (hleaf : ∀ s ∈ A.patterns, s.tag ≠ .UI_PATTERN_PATH ∧ s.tag ≠ .UI_PATTERN_AND)
    (hz : ∀ s ∈ A.patterns, Char.ofNat 0 ∉ s.string.data) :
    ∃ r, match_pattern box none A = .ok r ∧
      (r = true ↔ ∀ s ∈ A.patterns, (s.tag = .UI_PATTERN_ID → box.label = s.string) ∧
        (s.tag = .UI_PATTERN_TAG → s.string ∈ box.tags) ∧ s.tag ≠ .UI_PATTERN_IS_ODD) :=
  match_selectors_root box A.patterns hlast hleaf hz

theorem match_pattern_root_index_zero_witness :
    ((∀ s ∈ [(⟨.UI_PATTERN_ID, "root"⟩ : UiSelector), ⟨.UI_PATTERN_IS_EVEN, ""⟩,
          ⟨.UI_PATTERN_IS_FIRST, ""⟩],
        s.tag ≠ .UI_PATTERN_IS_LAST) ∧
      (∀ s ∈ [(⟨.UI_PATTERN_ID, "root"⟩ : UiSelector), ⟨.UI_PATTERN_IS_EVEN, ""⟩,
          ⟨.UI_PATTERN_IS_FIRST, ""⟩],
        s.tag ≠ .UI_PATTERN_PATH ∧ s.tag ≠ .UI_PATTERN_AND) ∧
      (∀ s ∈ [(⟨.UI_PATTERN_ID, "root"⟩ : UiSelector), ⟨.UI_PATTERN_IS_EVEN, ""⟩,
          ⟨.UI_PATTERN_IS_FIRST, ""⟩],
        Char.ofNat 0 ∉ s.string.data)) ∧
    ∃ r, match_pattern { UiBox.zeroed with label := "root" } none
        ⟨⟨1, 2⟩, [⟨.UI_PATTERN_ID, "root"⟩, ⟨.UI_PATTERN_IS_EVEN, ""⟩,
          ⟨.UI_PATTERN_IS_FIRST, ""⟩]⟩ = .ok r ∧
      (r = true ↔ ∀ s ∈ [(⟨.UI_PATTERN_ID, "root"⟩ : UiSelector), ⟨.UI_PATTERN_IS_EVEN, ""⟩,
          ⟨.UI_PATTERN_IS_FIRST, ""⟩],
        (s.tag = .UI_PATTERN_ID → ({ UiBox.zeroed with label := "root" } : UiBox).label = s.string) ∧
        (s.tag = .UI_PATTERN_TAG → s.string ∈ ({ UiBox.zeroed with label := "root" } : UiBox).tags) ∧
        s.tag ≠ .UI_PATTERN_IS_ODD) :=
  ⟨⟨by decide, by decide, by decide⟩,
    match_pattern_root_index_zero { UiBox.zeroed with label := "root" }
      ⟨⟨1, 2⟩, [⟨.UI_PATTERN_ID, "root"⟩, ⟨.UI_PATTERN_IS_EVEN, ""⟩, ⟨.UI_PATTERN_IS_FIRST, ""⟩]⟩
      (by decide) (by decide) (by decide)⟩

/-- The sample: the root labelled `root` is matched by `#root:even:first` and
not by `:odd`. -/
theorem demo_root_run :
    match_pattern { UiBox.zeroed with label := "root" } none
        ⟨⟨1, 2⟩, [⟨.UI_PATTERN_ID, "root"⟩, ⟨.UI_PATTERN_IS_EVEN, ""⟩,
          ⟨.UI_PATTERN_IS_FIRST, ""⟩]⟩ = .ok true ∧
      match_pattern { UiBox.zeroed with label := "root" } none
        ⟨⟨0, 1⟩, [⟨.UI_PATTERN_IS_ODD, ""⟩]⟩ = .ok false :=
  ⟨rfl, rfl⟩

/-- On a box without parent the atom `:last` reads the child count of the
null parent. -/
theorem match_pattern_root_last :
    match_pattern UiBox.zeroed none ⟨⟨0, 1⟩, [⟨.UI_PATTERN_IS_LAST, ""⟩]⟩ = .error .segfault := by
  rfl

/-! ## Theorems: strings and the pattern parser -/

theorem str_slice_mid (a b c : List Char) :
    str_slice (a ++ b ++ c) a.length b.length = b := by
  simp [str_slice]

theorem str_slice_at {str done cur rest : List Char} {prev n : Nat}
    (hstr : str = done ++ cur ++ rest) (hprev : prev = done.length) (hn : n = cur.length) :
    str_slice str prev n = cur := by
  subst hstr hprev hn
  exact str_slice_mid _ _ _

theorem str_split_loop_eq (str separators : List Char) (ks ke : Bool) (rest : List Char) :
    ∀ (done cur : List Char) (out : List (List Char)) (idx prev : Nat),
      str = done ++ cur ++ rest → idx = done.length + cur.length → prev = done.length →
      (if ke ∨ str.length > (str_split_loop str separators ks ke rest idx prev out).1 then
          (str_split_loop str separators ks ke rest idx prev out).2 ++
            [str_slice str (str_split_loop str separators ks ke rest idx prev out).1
              (str.length - (str_split_loop str separators ks ke rest idx prev out).1)]
        else (str_split_loop str separators ks ke rest idx prev out).2) =
        out ++ split_tokens separators ks ke cur rest := by
  induction rest with
  | nil =>
    intro done cur out idx prev hstr hidx hprev
    simp only [str_split_loop, split_tokens]
    have hlen : str.length = done.length + cur.length := by rw [hstr]; simp
    have e3 : (ke = true ∨ str.length > prev) ↔ (ke = true ∨ cur ≠ []) := by
      rw [hlen, hprev]
      constructor
      · rintro (h | h)
        · exact Or.inl h
        · right; intro hc'; subst hc'; simp at h
      · rintro (h | h)
        · exact Or.inl h
        · right; have := List.length_pos.2 h; omega
    by_cases h : ke = true ∨ cur ≠ []
    · rw [if_pos (e3.2 h), if_pos h,
        str_slice_at hstr hprev (by rw [hlen, hprev]; omega)]
    · rw [if_neg (fun h' => h (e3.1 h')), if_neg h, List.append_nil]
  | cons c rest ih =>
    intro done cur out idx prev hstr hidx hprev
    simp only [str_split_loop, split_tokens]
    by_cases hc : c ∉ separators
    · rw [if_pos hc, if_pos hc]
      exact ih done (cur ++ [c]) out (idx + 1) prev (by rw [hstr]; simp)
        (by rw [hidx]; simp; omega) hprev
    · rw [if_neg hc, if_neg hc]
      have e3 : (ke = true ∨ idx > prev) ↔ (ke = true ∨ cur ≠ []) := by
        rw [hidx, hprev]
        constructor
        · rintro (h | h)
          · exact Or.inl h
          · right; intro hc'; subst hc'; simp at h
        · rintro (h | h)
          · exact Or.inl h
          · right; have := List.length_pos.2 h; omega
      have e1 : str_slice str prev (idx - prev) = cur :=
        str_slice_at hstr hprev (by rw [hidx, hprev]; omega)
      have e2 : str_slice str idx 1 = [c] :=
        @str_slice_at str (done ++ cur) [c] rest idx 1 (by rw [hstr]; simp)
          (by rw [hidx]; simp) rfl
      rw [ih (done ++ cur ++ [c]) [] _ (idx + 1) (idx + 1) (by rw [hstr]; simp)
        (by rw [hidx]; simp; omega) (by rw [hidx]; simp; omega), e1, e2]
      simp only [e3]
      by_cases h1 : ks = true <;> by_cases h2 : (ke = true ∨ cur ≠ []) <;> simp [h1, h2]

/-- The tokens of `str_split` in terms of `split_tokens`. -/
theorem str_split_eq (str separators : List Char) (ks ke : Bool) :
    str_split str separators ks ke = split_tokens separators ks ke [] str := by
  have := str_split_loop_eq str separators ks ke str [] [] [] 0 0 rfl rfl rfl
  simpa [str_split] using this

theorem split_tokens_run (separators : List Char) (ks ke : Bool) (s : List Char)
    (hs : ∀ c ∈ s, c ∉ separators) (cur tail : List Char) :
    split_tokens separators ks ke cur (s ++ tail) =
      split_tokens separators ks ke (cur ++ s) tail := by
  induction s generalizing cur with
  | nil => simp
  | cons c s ih =>
    have := ih (fun x hx => hs x (List.mem_cons_of_mem _ hx)) (cur ++ [c])
    simp only [List.cons_append, split_tokens, if_pos (hs c (List.mem_cons_self _ _))]
    simp only [List.append_assoc, List.singleton_append] at this
    exact this

theorem atom_text_no_space (a : PatternAtom) (ha : a.wf) : ∀ c ∈ a.text, c ≠ ' ' := by
  cases a with
  | id name =>
    intro c hc
    simp only [PatternAtom.text, List.mem_cons] at hc
    rcases hc with h | h
    · subst h; decide
    · exact (ha.2 c h).2.2.2
  | tag name =>
    intro c hc
    simp only [PatternAtom.text, List.mem_cons] at hc
    rcases hc with h | h
    · subst h; decide
    · exact (ha.2 c h).2.2.2
  | any => simp [PatternAtom.text]
  | first => simp [PatternAtom.text]
  | last => simp [PatternAtom.text]
  | odd => simp [PatternAtom.text]
  | even => simp [PatternAtom.text]

theorem atom_text_ne_nil (a : PatternAtom) : a.text ≠ [] := by
  cases a <;> simp [PatternAtom.text]

theorem segment_text_no_space (atoms : List PatternAtom) (h : ∀ a ∈ atoms, a.wf) :
    ∀ c ∈ segment_text atoms, c ∉ [' '] := by
  induction atoms with
  | nil => simp [segment_text]
  | cons a rest ih =>
    intro c hc
    simp only [segment_text, List.mem_append] at hc
    rcases hc with hc | hc
    · simpa using atom_text_no_space a (h a (List.mem_cons_self _ _)) c hc
    · exact ih (fun x hx => h x (List.mem_cons_of_mem _ hx)) c hc

theorem segment_text_ne_nil (atoms : List PatternAtom) (h : atoms ≠ []) :
    segment_text atoms ≠ [] := by
  cases atoms with
  | nil => exact absurd rfl h
  | cons a rest =>
    simp only [segment_text, ne_eq, List.append_eq_nil, not_and]
    intro h1
    exact absurd h1 (atom_text_ne_nil a)

/-- The chunks of the text of a path of the grammar are the texts of its
segments. -/
theorem str_split_path_text (segs : List (List PatternAtom))
    (h : ∀ seg ∈ segs, GrammarSegment seg) :
    str_split (path_text segs) [' '] false false = segs.map segment_text := by
  rw [str_split_eq]
  induction segs with
  | nil => simp [path_text, split_tokens]
  | cons seg rest ih =>
    have hseg := h seg (List.mem_cons_self _ _)
    have hns := segment_text_no_space seg hseg.2.1
    have hne := segment_text_ne_nil seg hseg.1
    cases rest with
    | nil =>
      have := split_tokens_run [' '] false false (segment_text seg) hns [] []
      simp only [List.append_nil, List.nil_append] at this
      simp only [path_text, List.map_cons, List.map_nil]
      rw [this]
      simp [split_tokens, hne]
    | cons seg2 rest2 =>
      have := split_tokens_run [' '] false false (segment_text seg) hns []
        (' ' :: path_text (seg2 :: rest2))
      simp only [List.nil_append] at this
      simp only [path_text, List.map_cons]
      rw [this]
      simp only [split_tokens, List.mem_singleton, not_true_eq_false, if_false]
      have ih' := ih (fun s hs => h s (List.mem_cons_of_mem _ hs))
      simp only [List.map_cons] at ih'
      rw [ih']
      simp [hne]

theorem parse_pattern_name_spec (name tail : List Char) (hne : name ≠ [])
    (hname : ∀ c ∈ name, c ≠ '#' ∧ c ≠ '.' ∧ c ≠ ':' ∧ c ≠ ' ') (htail : name_stops tail) :
    parse_pattern_name (name ++ tail) = .ok (name, tail) := by
  have h1 : name.findIdx pattern_name_end = name.length :=
    List.findIdx_eq_length.2 (fun c hc => by
      obtain ⟨a, b, c', d⟩ := hname c hc
      simp [pattern_name_end, a, b, c', d])
  have h2 : tail.findIdx pattern_name_end = 0 := by
    cases tail with
    | nil => rfl
    | cons c r =>
      rw [List.findIdx_cons, htail c rfl]
      rfl
  have h3 : (name ++ tail).findIdx pattern_name_end = name.length := by
    rw [List.findIdx_append, h1, if_neg (lt_irrefl _), h2, Nat.zero_add]
  have h4 : name.length ≠ 0 := fun h => hne (List.length_eq_zero.1 h)
  unfold parse_pattern_name
  simp only [h3, if_neg h4]
  have := str_slice_mid [] name tail
  simp only [List.nil_append, List.length_nil] at this
  rw [this, List.drop_left]

theorem parse_loop_atoms (rest : List Char) (atoms : List PatternAtom) :
    ∀ (fuel : Nat) (result : UiPatternAnd), atoms_then rest atoms → atoms.length ≤ fuel →
      parse_pattern_and_loop fuel (segment_text atoms ++ rest) result =
        parse_pattern_and_loop (fuel - atoms.length) rest (absorb_atoms result atoms) := by
  induction atoms with
  | nil => intro fuel result _ _; simp [segment_text, absorb_atoms]
  | cons a as ih =>
    intro fuel result hat hfuel
    obtain ⟨fuel, rfl⟩ : ∃ m, fuel = m + 1 := ⟨fuel - 1, by simp at hfuel; omega⟩
    have hlen : as.length ≤ fuel := by simp at hfuel; omega
    have hsub : fuel + 1 - (a :: as).length = fuel - as.length := by simp
    rw [hsub]
    obtain ⟨hwf, hstop, hrest⟩ := hat
    cases a with
    | any =>
      simp only [segment_text, PatternAtom.text, List.cons_append, List.nil_append,
        parse_pattern_and_loop, if_true, absorb_atoms, absorb_atom]
      exact ih fuel _ hrest hlen
    | id name =>
      have hn := parse_pattern_name_spec name (segment_text as ++ rest) hwf.1 hwf.2 (hstop rfl)
      have ht : segment_text (.id name :: as) ++ rest =
          '#' :: (name ++ (segment_text as ++ rest)) := by
        simp [segment_text, PatternAtom.text]
      rw [ht]
      simp only [parse_pattern_and_loop, hn, absorb_atoms, absorb_atom]
      simp only [show ('#' = '*') = False by decide, if_false, if_true]
      exact ih fuel _ hrest hlen
    | tag name =>
      have hn := parse_pattern_name_spec name (segment_text as ++ rest) hwf.1 hwf.2 (hstop rfl)
      have ht : segment_text (.tag name :: as) ++ rest =
          '.' :: (name ++ (segment_text as ++ rest)) := by
        simp [segment_text, PatternAtom.text]
      rw [ht]
      simp only [parse_pattern_and_loop, hn, absorb_atoms, absorb_atom]
      simp only [show ('.' = '*') = False by decide, show ('.' = '#') = False by decide,
        if_false, if_true]
      exact ih fuel _ hrest hlen
    | first =>
      simp only [segment_text, PatternAtom.text, List.cons_append, List.nil_append,
        parse_pattern_and_loop, absorb_atoms, absorb_atom]
      simp [str_starts_with]
      exact ih fuel _ hrest hlen
    | last =>
      simp only [segment_text, PatternAtom.text, List.cons_append, List.nil_append,
        parse_pattern_and_loop, absorb_atoms, absorb_atom]
      simp [str_starts_with]
      exact ih fuel _ hrest hlen
    | odd =>
      simp only [segment_text, PatternAtom.text, List.cons_append, List.nil_append,
        parse_pattern_and_loop, absorb_atoms, absorb_atom]
      simp [str_starts_with]
      exact ih fuel _ hrest hlen
    | even =>
      simp only [segment_text, PatternAtom.text, List.cons_append, List.nil_append,
        parse_pattern_and_loop, absorb_atoms, absorb_atom]
      simp [str_starts_with]
      exact ih fuel _ hrest hlen

theorem atom_text_head (b : PatternAtom) (hb : b ≠ .any) (tail : List Char) :
    name_stops (b.text ++ tail) := by
  intro c hc
  cases b <;> simp [PatternAtom.text] at hc <;> first | exact absurd rfl hb | (subst hc; rfl)

theorem atoms_then_of_maximal (rest : List Char) (atoms : List PatternAtom)
    (hwf : ∀ a ∈ atoms, a.wf) (hmax : names_maximal atoms)
    (hlast : ∀ a, atoms.getLast? = some a → a.named = true → name_stops rest) :
    atoms_then rest atoms := by
  induction atoms with
  | nil => trivial
  | cons a as ih =>
    cases as with
    | nil =>
      refine ⟨hwf a (List.mem_cons_self _ _), ?_, trivial⟩
      intro hn
      simpa [segment_text] using hlast a rfl hn
    | cons b tl =>
      refine ⟨hwf a (List.mem_cons_self _ _), ?_, ?_⟩
      · intro hn
        have hb := hmax.1 hn
        simp only [segment_text, List.append_assoc]
        exact atom_text_head b hb _
      · exact ih (fun x hx => hwf x (List.mem_cons_of_mem _ hx)) hmax.2
          (fun x hx => hlast x (by rw [List.getLast?_cons_cons]; exact hx))

theorem segment_text_length (atoms : List PatternAtom) :
    atoms.length ≤ (segment_text atoms).length := by
  induction atoms with
  | nil => simp
  | cons a as ih =>
    have := List.length_pos.2 (atom_text_ne_nil a)
    simp only [segment_text, List.length_append, List.length_cons]
    omega

theorem absorb_atom_patterns (result : UiPatternAnd) (a : PatternAtom) :
    (absorb_atom result a).patterns = result.patterns ++ [a.selector] := by
  cases a <;> rfl

theorem absorb_atoms_patterns (atoms : List PatternAtom) (result : UiPatternAnd) :
    (absorb_atoms result atoms).patterns = result.patterns ++ atoms.map PatternAtom.selector := by
  induction atoms generalizing result with
  | nil => simp [absorb_atoms]
  | cons a as ih => simp [absorb_atoms, ih, absorb_atom_patterns]

/-- The AND-node of a segment of the grammar. -/
theorem parse_pattern_and_segment (atoms : List PatternAtom) (h : GrammarSegment atoms) :
    parse_pattern_and (segment_text atoms) = .ok (absorb_atoms ⟨⟨0, 0⟩, []⟩ atoms) := by
  have hat := atoms_then_of_maximal [] atoms h.2.1 h.2.2
    (fun _ _ _ c hc => by simp at hc)
  have := parse_loop_atoms [] atoms (segment_text atoms).length ⟨⟨0, 0⟩, []⟩ hat
    (segment_text_length atoms)
  simp only [List.append_nil] at this
  unfold parse_pattern_and
  rw [this]
  simp [parse_pattern_and_loop]

theorem parse_pattern_chunks_segments (segs : List (List PatternAtom))
    (h : ∀ seg ∈ segs, GrammarSegment seg) (p : UiPattern) :
    ∃ P, parse_pattern_chunks (segs.map segment_text) p = .ok P ∧
      P.patterns.map (fun child => child.patterns) =
        p.patterns.map (fun child => child.patterns) ++
          segs.map (fun seg => seg.map PatternAtom.selector) := by
  induction segs generalizing p with
  | nil => exact ⟨p, rfl, by simp⟩
  | cons seg rest ih =>
    simp only [List.map_cons, parse_pattern_chunks,
      parse_pattern_and_segment seg (h seg (List.mem_cons_self _ _))]
    obtain ⟨P, hP, hpat⟩ := ih (fun s hs => h s (List.mem_cons_of_mem _ hs))
      { specificity := ⟨(p.specificity.id +
            (absorb_atoms ⟨⟨0, 0⟩, []⟩ seg).specificity.id) % 2 ^ 32,
          (p.specificity.tag + (absorb_atoms ⟨⟨0, 0⟩, []⟩ seg).specificity.tag) % 2 ^ 32⟩
        patterns := p.patterns ++ [absorb_atoms ⟨⟨0, 0⟩, []⟩ seg] }
    refine ⟨P, hP, ?_⟩
    rw [hpat]
    simp [absorb_atoms_patterns]

/-- The pattern of a text of the grammar: one AND-node per segment, in order,
each with the selectors of the atoms of its segment, in order. -/
theorem parse_pattern_path (segs : List (List PatternAtom)) (h : GrammarPath segs) :
    ∃ P, parse_pattern (String.mk (path_text segs)) = .ok P ∧
      P.patterns.map (fun child => child.patterns) =
        segs.map (fun seg => seg.map PatternAtom.selector) := by
  unfold parse_pattern
  rw [str_split_path_text segs h.2]
  obtain ⟨P, hP, hpat⟩ := parse_pattern_chunks_segments segs h.2 ⟨⟨0, 0⟩, []⟩
  exact ⟨P, hP, by simpa using hpat⟩

theorem str_starts_with_iff (str pre : List Char) :
    str_starts_with str pre = true ↔ pre <+: str := by
  unfold str_starts_with
  split
  · rename_i h
    simp only [Bool.false_eq_true, false_iff]
    intro hp
    have := hp.length_le
    omega
  · rw [decide_eq_true_iff, List.prefix_iff_eq_take]
    exact eq_comm

theorem parse_pattern_name_length (chunk name chunk' : List Char)
    (h : parse_pattern_name chunk = .ok (name, chunk')) : chunk'.length ≤ chunk.length := by
  unfold parse_pattern_name at h
  simp only at h
  split at h
  · cases h
  · cases h
    simp

theorem parse_pattern_name_error (chunk : List Char) (e : Fault)
    (h : parse_pattern_name chunk = .error e) : e = .fatal_error := by
  unfold parse_pattern_name at h
  simp only at h
  split at h
  · cases h; rfl
  · cases h

/-- The loop of `parse_pattern_and` ends on every chunk: it fails only through
`error_fmt`. -/
theorem parse_pattern_and_loop_error (fuel : Nat) :
    ∀ (chunk : List Char) (result : UiPatternAnd) (e : Fault), chunk.length ≤ fuel →
      parse_pattern_and_loop fuel chunk result = .error e → e = .fatal_error := by
  induction fuel with
  | zero =>
    intro chunk result e hlen h
    have : chunk = [] := List.length_eq_zero.1 (Nat.le_zero.1 hlen)
    subst this
    simp [parse_pattern_and_loop] at h
  | succ fuel ih =>
    intro chunk result e hlen h
    cases chunk with
    | nil => simp [parse_pattern_and_loop] at h
    | cons c chunk =>
      have hl : chunk.length ≤ fuel := by simpa using hlen
      have hd : ∀ k, (chunk.drop k).length ≤ fuel := fun k => by
        rw [List.length_drop]; omega
      simp only [parse_pattern_and_loop] at h
      split at h
      · exact ih _ _ _ hl h
      · split at h
        · split at h
          · rename_i e' he
            cases h
            exact parse_pattern_name_error _ _ he
          · rename_i name chunk' he
            exact ih _ _ _ (le_trans (parse_pattern_name_length _ _ _ he) hl) h
        · split at h
          · split at h
            · rename_i e' he
              cases h
              exact parse_pattern_name_error _ _ he
            · rename_i name chunk' he
              exact ih _ _ _ (le_trans (parse_pattern_name_length _ _ _ he) hl) h
          · split at h
            · split at h
              · exact ih _ _ _ (hd 5) h
              · split at h
                · exact ih _ _ _ (hd 4) h
                · split at h
                  · exact ih _ _ _ (hd 3) h
                  · split at h
                    · exact ih _ _ _ (hd 4) h
                    · cases h; rfl
            · cases h; rfl

theorem parse_pattern_and_error (chunk : List Char) (e : Fault)
    (h : parse_pattern_and chunk = .error e) : e = .fatal_error :=
  parse_pattern_and_loop_error _ chunk _ e (le_refl _) h

/-- A malformed segment makes `parse_pattern_and` fail through `error_fmt`. -/
theorem parse_pattern_and_bad (seg : List Char) (h : BadSegment seg) :
    parse_pattern_and seg = .error .fatal_error := by
  obtain ⟨atoms, rest, hseg, hwf, hmax, hbad⟩ := h
  subst hseg
  have hrest : rest ≠ [] := by
    rcases hbad with ⟨c, r, h, _⟩ | ⟨r, h, _⟩ <;> rw [h] <;> simp
  have hat : atoms_then rest atoms := by
    apply atoms_then_of_maximal rest atoms hwf hmax
    intro a ha hn
    rcases hbad with ⟨c, r, _, _, _, _, _, hl⟩ | ⟨r, h, _⟩
    · rw [hl a ha] at hn; cases hn
    · intro c hc
      rw [h] at hc
      cases hc
      rfl
  have hfuel : atoms.length < (segment_text atoms ++ rest).length := by
    have := segment_text_length atoms
    have := List.length_pos.2 hrest
    rw [List.length_append]
    omega
  unfold parse_pattern_and
  rw [parse_loop_atoms rest atoms _ _ hat (le_of_lt hfuel)]
  obtain ⟨f, hf⟩ : ∃ f, (segment_text atoms ++ rest).length - atoms.length = f + 1 :=
    ⟨(segment_text atoms ++ rest).length - atoms.length - 1, by omega⟩
  rw [hf]
  rcases hbad with ⟨c, r, h, h1, h2, h3, h4, _⟩ | ⟨r, h, h1, h2, h3, h4⟩
  · rw [h]
    simp only [parse_pattern_and_loop, h1, h2, h3, h4, if_false]
  · rw [h]
    have e1 : str_starts_with r ['f', 'i', 'r', 's', 't'] = false := by
      rw [← Bool.not_eq_true, str_starts_with_iff]; exact h1
    have e2 : str_starts_with r ['l', 'a', 's', 't'] = false := by
      rw [← Bool.not_eq_true, str_starts_with_iff]; exact h2
    have e3 : str_starts_with r ['o', 'd', 'd'] = false := by
      rw [← Bool.not_eq_true, str_starts_with_iff]; exact h3
    have e4 : str_starts_with r ['e', 'v', 'e', 'n'] = false := by
      rw [← Bool.not_eq_true, str_starts_with_iff]; exact h4
    simp [parse_pattern_and_loop, e1, e2, e3, e4]

theorem parse_pattern_chunks_bad (chunks : List (List Char)) (seg : List Char)
    (hmem : seg ∈ chunks) (hbad : BadSegment seg) (p : UiPattern) :
    parse_pattern_chunks chunks p = .error .fatal_error := by
  induction chunks generalizing p with
  | nil => simp at hmem
  | cons chunk rest ih =>
    simp only [parse_pattern_chunks]
    rcases hc : parse_pattern_and chunk with e | child
    · simp only
      rw [parse_pattern_and_error chunk e hc]
    · simp only
      rcases List.mem_cons.1 hmem with h | h
      · subst h
        rw [parse_pattern_and_bad seg hbad] at hc
        cases hc
      · exact ih h _

/-- A piece of a text between spaces (or the ends of the text) is one of the
tokens of the split at spaces. -/
theorem split_tokens_piece (seg post : List Char) (hne : seg ≠ [])
    (hseg : ∀ c ∈ seg, c ≠ ' ') (hpost : post = [] ∨ post.head? = some ' ') (pre : List Char) :
    ∀ cur : List Char, (pre = [] → cur = []) → (pre ≠ [] → pre.getLast? = some ' ') →
      seg ∈ split_tokens [' '] false false cur (pre ++ seg ++ post) := by
  induction pre with
  | nil =>
    intro cur hcur _
    rw [hcur rfl, List.nil_append,
      split_tokens_run [' '] false false seg (fun c hc => by simpa using hseg c hc)]
    rcases hpost with h | h
    · subst h
      simp [split_tokens, hne]
    · cases post with
      | nil => simp at h
      | cons c p =>
        simp only [List.head?_cons, Option.some.injEq] at h
        subst h
        simp [split_tokens, hne]
  | cons c pre ih =>
    intro cur _ hlast
    have hl := hlast (by simp)
    simp only [List.cons_append, split_tokens]
    by_cases hc : c = ' '
    · subst hc
      simp only [List.mem_singleton, not_true_eq_false, if_false]
      apply List.mem_append_right
      apply ih [] (fun _ => rfl)
      intro hp
      cases pre with
      | nil => exact absurd rfl hp
      | cons d pre' => rw [List.getLast?_cons_cons] at hl; exact hl
    · have hpre : pre ≠ [] := by
        intro h
        subst h
        simp at hl
        exact hc hl
      simp only [List.mem_singleton, hc, not_false_eq_true, if_true]
      apply ih (cur ++ [c]) (fun h => absurd h hpre)
      intro _
      cases pre with
      | nil => exact absurd rfl hpre
      | cons d pre' => rw [List.getLast?_cons_cons] at hl; exact hl

/-! ## Claims about the pattern parser -/

theorem demo_path_grammar : GrammarPath demo_path := by
  refine ⟨by simp [demo_path], ?_⟩
  intro seg hseg
  simp only [demo_path, List.mem_cons, List.mem_singleton, List.not_mem_nil, or_false] at hseg
  rcases hseg with h | h <;> subst h <;>
    simp [GrammarSegment, PatternAtom.wf, names_maximal, PatternAtom.named]

/-- The sample text `#x.a:first *` and its pattern. -/
theorem demo_path_run :
    String.mk (path_text demo_path) = "#x.a:first *" ∧
    parse_pattern "#x.a:first *" = .ok ⟨⟨1, 2⟩,
      [⟨⟨1, 2⟩, [⟨.UI_PATTERN_ID, "x"⟩, ⟨.UI_PATTERN_TAG, "a"⟩, ⟨.UI_PATTERN_IS_FIRST, ""⟩]⟩,
        ⟨⟨0, 0⟩, [⟨.UI_PATTERN_ANY, ""⟩]⟩]⟩ := by
  constructor <;> rfl

/-- C16. For every text of the grammar (segments separated by one space, each a
run of atoms, the names running up to the next `'#'`, `'.'`, `':'` or the end
of the segment), `parse_pattern` returns a PATH node whose children are
AND-nodes, one per segment in order, each listing the selectors of its
segment's atoms in order: `'*'` as ANY, `'#name'` as ID, `'.name'` as TAG with
that name, and `':first'`, `':last'`, `':odd'`, `':even'` as the four
positional selectors. -/
theorem parse_pattern_grammar (segs : List (List PatternAtom)) (h : GrammarPath segs) :
    ∃ P, parse_pattern (String.mk (path_text segs)) = .ok P ∧
      P.patterns.length = segs.length ∧
      P.patterns.map (fun child => child.patterns) =
        segs.map (fun seg => seg.map PatternAtom.selector) := by
  obtain ⟨P, hP, hpat⟩ := parse_pattern_path segs h
  refine ⟨P, hP, ?_, hpat⟩
  have := congrArg List.length hpat
  simpa using this

theorem parse_pattern_grammar_witness :
    GrammarPath demo_path ∧
    ∃ P, parse_pattern (String.mk (path_text demo_path)) = .ok P ∧
      P.patterns.length = demo_path.length ∧
      P.patterns.map (fun child => child.patterns) =
        demo_path.map (fun seg => seg.map PatternAtom.selector) :=
  ⟨demo_path_grammar, parse_pattern_grammar demo_path demo_path_grammar⟩

/-- C17. `parse_pattern` fails through `error_fmt` on every text one of whose
segments (`seg`, a piece between spaces or the ends of the text) has, after a
run of well-formed atoms, an atom that begins with a character other than
`'*'`, `'#'`, `'.'`, `':'`, or a `':'` that none of `first`, `last`, `odd`,
`even` follows; and it returns on every text of the grammar. -/
theorem parse_pattern_fatal_on_malformed (segs : List (List PatternAtom)) (text : String)
    (pre seg post : List Char) (hpath : GrammarPath segs)
    (htext : text.data = pre ++ seg ++ post)
    (hpre : pre = [] ∨ pre.getLast? = some ' ')
    (hpost : post = [] ∨ post.head? = some ' ')
    (hseg : ∀ c ∈ seg, c ≠ ' ')
    (hbad : BadSegment seg) :
    parse_pattern text = .error .fatal_error ∧
    ∃ P, parse_pattern (String.mk (path_text segs)) = .ok P := by
  constructor
  · have hne : seg ≠ [] := by
      obtain ⟨atoms, rest, hs, _, _, hb⟩ := hbad
      have hrest : rest ≠ [] := by
        rcases hb with ⟨c, r, h, _⟩ | ⟨r, h, _⟩ <;> rw [h] <;> simp
      rw [hs]
      simp [hrest]
    have hmem : seg ∈ str_split text.data [' '] false false := by
      rw [str_split_eq, htext]
      exact split_tokens_piece seg post hne hseg hpost pre [] (fun _ => rfl)
        (fun hp => hpre.resolve_left hp)
    unfold parse_pattern
    exact parse_pattern_chunks_bad _ seg hmem hbad _
  · obtain ⟨P, hP, _⟩ := parse_pattern_path segs hpath
    exact ⟨P, hP⟩

theorem demo_bad_segment : BadSegment [':', 'f', 'i', 'r', 's', 't', 'x'] :=
  ⟨[.first], ['x'], rfl, by simp [PatternAtom.wf], trivial,
    Or.inl ⟨'x', [], rfl, by decide, by decide, by decide, by decide,
      fun a ha => by cases ha; rfl⟩⟩

theorem parse_pattern_fatal_on_malformed_witness :
    (GrammarPath demo_path ∧
      ".a :firstx *".data = ['.', 'a', ' '] ++ [':', 'f', 'i', 'r', 's', 't', 'x'] ++ [' ', '*'] ∧
      BadSegment [':', 'f', 'i', 'r', 's', 't', 'x']) ∧
    (parse_pattern ".a :firstx *" = .error .fatal_error ∧
      ∃ P, parse_pattern (String.mk (path_text demo_path)) = .ok P) :=
  ⟨⟨demo_path_grammar, rfl, demo_bad_segment⟩,
    parse_pattern_fatal_on_malformed demo_path ".a :firstx *" ['.', 'a', ' ']
      [':', 'f', 'i', 'r', 's', 't', 'x'] [' ', '*'] demo_path_grammar rfl
      (Or.inr rfl) (Or.inr rfl) (by decide) demo_bad_segment⟩

/-- The text `#` (a `'#'` without a name) and a text with an unknown pseudo
name fail as well. -/
theorem parse_pattern_fatal_samples :
    parse_pattern "#" = .error .fatal_error ∧
    parse_pattern ".a:hover" = .error .fatal_error := by
  constructor <;> rfl

/-! ## Claims about the typed style setters -/

theorem ui_style_store_not_fatal (ui : Ui) (box : BoxId) (attr : UiStyleAttribute)
    (f : UiStyle → UiStyle) : ui_style_store ui box attr f ≠ .error .fatal_error := by
  unfold ui_style_store
  split
  · simp
  · split <;> simp

/-- C18. The enumeration has 26 attributes, and each is accepted by the setter
of exactly one kind of value (`attr_kind`): a typed setter fails through
`error_fmt` exactly when the kind of its value is not the kind of the
attribute, in the `default` case of its `switch`, before the style or the mask
of a rule is written. -/
theorem ui_style_box_fatal_iff_wrong_kind (ui : Ui) (box : BoxId) (attr : UiStyleAttribute)
    (val : StyleValue) :
    all_attributes.length = 26 ∧ attr ∈ all_attributes ∧
    (ui_style_box ui box attr val = .error .fatal_error ↔ val.kind ≠ attr_kind attr) := by
  refine ⟨rfl, mem_all_attributes attr, ?_⟩
  cases val <;> cases attr <;>
    simp [ui_style_box, ui_style_box_u32, ui_style_box_f32, ui_style_box_vec2,
      ui_style_box_vec4, ui_style_box_size, attr_kind, StyleValue.kind,
      ui_style_store_not_fatal]

/-! ## Claims about the frame -/

theorem ui_frame_events_log (str_hash_seed : String → UiKey → UiKey)
    (build : Ui → Except Fault Ui) (w h : F32) (events : List Event) :
    ∀ (ui ui' : Ui) (log log' : List FrameStage),
      ui_frame_events str_hash_seed build w h events (ui, log) = .ok (ui', log') →
      log' = log ++ events.map FrameStage.rebuild := by
  induction events with
  | nil =>
    intro ui ui' log log' hrun
    simp only [ui_frame_events] at hrun
    cases hrun
    simp
  | cons e rest ih =>
    intro ui ui' log log' hrun
    simp only [ui_frame_events] at hrun
    rcases he : ui_frame_event str_hash_seed build w h ui e with err | u1
    · simp only [he] at hrun
      cases hrun
    · simp only [he] at hrun
      rw [ih _ _ _ _ hrun]
      simp

theorem demo_frame_log :
    frame_log (ui_frame demo_hash demo_hooks 800 600 [demo_move, demo_event] 0 demo_init) =
      some [.rebuild demo_move, .rebuild demo_event, .cascade, .layout, .hit_test, .render] := by
  rfl

/-- C19, the claim for a frame with two events: the frame runs two rebuilds,
but one cascade and one layout, not two of each. -/
theorem ui_frame_two_events_counterexample :
    (frame_log (ui_frame demo_hash demo_hooks 800 600 [demo_move, demo_event] 0 demo_init)).map
        (fun log => (log.count (.rebuild demo_move) + log.count (.rebuild demo_event),
          log.count .cascade, log.count .layout)) = some (2, 1, 1) ∧
    (frame_log (ui_frame demo_hash demo_hooks 800 600 [demo_move, demo_event] 0 demo_init)).map
        (fun log => (log.count .cascade, log.count .layout)) ≠ some (2, 2) := by
  rw [demo_frame_log]
  constructor <;> decide

/-! ## Claim C19, amended: one rebuild per event, the stages once per frame -/

theorem same_input_refl (u : Ui) : SameInput u u := ⟨rfl, rfl, rfl, rfl, rfl⟩

theorem same_input_trans {u v w : Ui} (h1 : SameInput u v) (h2 : SameInput v w) :
    SameInput u w :=
  ⟨h2.1.trans h1.1, h2.2.1.trans h1.2.1, h2.2.2.1.trans h1.2.2.1,
    h2.2.2.2.1.trans h1.2.2.2.1, h2.2.2.2.2.trans h1.2.2.2.2⟩

/-- What a style setter leaves of a context: everything but the heap, and in
the heap the labels and the rects. -/
theorem ui_style_store_only {ui v : Ui} {box : BoxId} {attr : UiStyleAttribute}
    {f : UiStyle → UiStyle} (h : ui_style_store ui box attr f = .ok v) :
    v = { ui with boxes := v.boxes } ∧
      ∀ b, (v.boxes b).label = (ui.boxes b).label ∧ (v.boxes b).rect = (ui.boxes b).rect := by
  unfold ui_style_store at h
  split at h
  · cases h
    refine ⟨rfl, fun b => ?_⟩
    rw [modify_box_boxes]
    split
    · rename_i hb; subst hb; exact ⟨rfl, rfl⟩
    · exact ⟨rfl, rfl⟩
  · split at h
    · cases h
    · cases h
      refine ⟨rfl, fun b => ?_⟩
      rw [modify_box_boxes]
      split
      · rename_i hb; subst hb; exact ⟨rfl, rfl⟩
      · exact ⟨rfl, rfl⟩

theorem ui_style_size_only {ui v : Ui} {attr : UiStyleAttribute} {val : UiSize}
    (h : ui_style_size ui attr val = .ok v) :
    v = { ui with boxes := v.boxes } ∧
      ∀ b, (v.boxes b).label = (ui.boxes b).label ∧ (v.boxes b).rect = (ui.boxes b).rect := by
  unfold ui_style_size at h
  split at h
  · cases h
  · cases attr <;> simp only [ui_style_box_size] at h <;>
      first | exact ui_style_store_only h | cases h

theorem ui_style_vec2_only {ui v : Ui} {attr : UiStyleAttribute} {val : Vec2}
    (h : ui_style_vec2 ui attr val = .ok v) :
    v = { ui with boxes := v.boxes } ∧
      ∀ b, (v.boxes b).label = (ui.boxes b).label ∧ (v.boxes b).rect = (ui.boxes b).rect := by
  unfold ui_style_vec2 at h
  split at h
  · cases h
  · cases attr <;> simp only [ui_style_box_vec2] at h <;>
      first | exact ui_style_store_only h | cases h

theorem ui_style_f32_only {ui v : Ui} {attr : UiStyleAttribute} {val : F32}
    (h : ui_style_f32 ui attr val = .ok v) :
    v = { ui with boxes := v.boxes } ∧
      ∀ b, (v.boxes b).label = (ui.boxes b).label ∧ (v.boxes b).rect = (ui.boxes b).rect := by
  unfold ui_style_f32 at h
  split at h
  · cases h
  · cases attr <;> simp only [ui_style_box_f32] at h <;>
      first | exact ui_style_store_only h | cases h

theorem ui_box_acquire_same_input {ui ua : Ui} {key : UiKey} {box : BoxId}
    (h : ui_box_acquire ui key = .ok (ua, box)) : SameInput ui ua := by
  unfold ui_box_acquire at h
  split at h
  · split at h
    · cases h
    · cases h; exact ⟨rfl, rfl, rfl, rfl, rfl⟩
  · split at h
    · cases h; exact ⟨rfl, rfl, rfl, rfl, rfl⟩
    · cases h; exact ⟨rfl, rfl, rfl, rfl, rfl⟩

theorem ui_box_link_same_input (ua : Ui) (box : BoxId) (key : UiKey) (flags : Nat)
    (label : String) : SameInput ua (ui_box_link ua box key flags label) := by
  unfold ui_box_link ui_push_parent
  simp only
  split <;> exact ⟨rfl, rfl, rfl, rfl, rfl⟩

theorem compute_signals_same_input {ui ui' : Ui} {box : BoxId}
    (h : compute_signals ui box = .ok ui') : SameInput ui ui' := by
  unfold compute_signals at h
  simp only at h
  split at h
  · cases h; exact ⟨rfl, rfl, rfl, rfl, rfl⟩
  · split at h
    · cases h
    · split at h
      · split at h <;> cases h <;> exact ⟨rfl, rfl, rfl, rfl, rfl⟩
      · split at h
        · split at h <;> cases h <;> exact ⟨rfl, rfl, rfl, rfl, rfl⟩
        · cases h; exact ⟨rfl, rfl, rfl, rfl, rfl⟩

theorem ui_tag_same_input {ui v : Ui} {tag : String} (h : ui_tag ui tag = .ok v) :
    SameInput ui v := by
  unfold ui_tag at h
  split at h
  · cases h
  · cases h; exact ⟨rfl, rfl, rfl, rfl, rfl⟩

theorem ui_tag_if_same_input {ui v : Ui} {tag : String} {c : Bool}
    (h : (if c then ui_tag ui tag else .ok ui) = .ok v) : SameInput ui v := by
  split at h
  · exact ui_tag_same_input h
  · cases h; exact same_input_refl _

theorem ui_box_signal_tags_same_input {ui v : Ui} {box : BoxId}
    (h : ui_box_signal_tags ui box = .ok v) : SameInput ui v := by
  unfold ui_box_signal_tags at h
  split at h
  · cases h
  · rename_i u1 h1
    split at h
    · cases h
    · rename_i u2 h2
      exact same_input_trans (ui_tag_if_same_input h1)
        (same_input_trans (ui_tag_if_same_input h2) (ui_tag_if_same_input h))

theorem ui_box_push_str_same_input {str_hash_seed : String → UiKey → UiKey} {ui v : Ui}
    {flags : Nat} {label : String} {box : BoxId}
    (h : ui_box_push_str str_hash_seed ui flags label = .ok (v, box)) : SameInput ui v := by
  unfold ui_box_push_str at h
  simp only at h
  split at h
  · cases h
  · rename_i ua b hacq
    split at h
    · cases h
    · rename_i us hsig
      split at h
      · cases h
      · rename_i ut htag
        cases h
        exact same_input_trans (ui_box_acquire_same_input hacq)
          (same_input_trans (ui_box_link_same_input _ _ _ _ _)
            (same_input_trans (compute_signals_same_input hsig)
              (ui_box_signal_tags_same_input htag)))

theorem find_next_focus_loop_only (start : Nat) (fuel : Nat) :
    ∀ (ui v : Ui), find_next_focus_loop start fuel ui = .ok v →
      SameInput ui v ∧ v.box_stack = ui.box_stack ∧ v.gc_flag = ui.gc_flag := by
  induction fuel with
  | zero => intro ui v h; cases h
  | succ n ih =>
    intro ui v h
    unfold find_next_focus_loop at h
    split at h
    · cases h
    · dsimp only at h
      split at h
      · cases h
      · split at h
        · cases h; exact ⟨⟨rfl, rfl, rfl, rfl, rfl⟩, rfl, rfl⟩
        · split at h
          · cases h; exact ⟨⟨rfl, rfl, rfl, rfl, rfl⟩, rfl, rfl⟩
          · have k := ih _ v h
            exact ⟨⟨k.1.1, k.1.2.1, k.1.2.2.1, k.1.2.2.2.1, k.1.2.2.2.2⟩, k.2.1, k.2.2⟩

theorem find_prev_focus_loop_only (start : Nat) (fuel : Nat) :
    ∀ (ui v : Ui), find_prev_focus_loop start fuel ui = .ok v →
      SameInput ui v ∧ v.box_stack = ui.box_stack ∧ v.gc_flag = ui.gc_flag := by
  induction fuel with
  | zero => intro ui v h; cases h
  | succ n ih =>
    intro ui v h
    unfold find_prev_focus_loop at h
    generalize (ui.focus_idx + 2 ^ 64 - 1) % 2 ^ 64 = a at h
    generalize (ui.depth_first.length + 2 ^ 64 - 1) % 2 ^ 64 = b at h
    generalize 2 ^ 64 - 1 = c at h
    simp only at h
    repeat' split at h
    all_goals first
      | (cases h; done)
      | (cases h; exact ⟨⟨rfl, rfl, rfl, rfl, rfl⟩, rfl, rfl⟩)
      | (have k := ih _ v h
         exact ⟨⟨k.1.1, k.1.2.1, k.1.2.2.1, k.1.2.2.2.1, k.1.2.2.2.2⟩, k.2.1, k.2.2⟩)

theorem ui_frame_focus_only {ui v : Ui} {event : Event} (h : ui_frame_focus ui event = .ok v) :
    SameInput ui v ∧ v.box_stack = ui.box_stack ∧ v.gc_flag = ui.gc_flag := by
  unfold ui_frame_focus at h
  split at h
  · split at h
    · split at h
      · exact find_prev_focus_loop_only _ _ _ _ h
      · exact find_next_focus_loop_only _ _ _ _ h
    · cases h; exact ⟨same_input_refl _, rfl, rfl⟩
  · cases h; exact ⟨same_input_refl _, rfl, rfl⟩

theorem update_input_state_event (ui : Ui) (e : Event) :
    (update_input_state ui e).event = e ∧
      (update_input_state ui e).box_stack = ui.box_stack ∧
      (update_input_state ui e).gc_flag = ui.gc_flag := by
  unfold update_input_state
  simp only
  split <;> exact ⟨rfl, rfl, rfl⟩
theorem ui_frame_root_clip_only {w h : F32} {ui v : Ui} (hc : ui_frame_root_clip w h ui = .ok v) :
    SameInput ui v ∧ v.box_stack = ui.box_stack ∧ v.gc_flag = ui.gc_flag := by
  unfold ui_frame_root_clip at hc
  split at hc
  · cases hc
  · cases hc; exact ⟨⟨rfl, rfl, rfl, rfl, rfl⟩, rfl, rfl⟩

/-- One round of the event loop of `ui_frame` that returns is one rebuild for
its event. -/
theorem ui_frame_event_pass {str_hash_seed : String → UiKey → UiKey}
    {build : Ui → Except Fault Ui} {w h : F32} {u u' : Ui} {e : Event}
    (hrun : ui_frame_event str_hash_seed build w h u e = .ok u') :
    EventPass build w h u e u' := by
  unfold ui_frame_event at hrun
  split at hrun
  · cases hrun
  · rename_i u1 hclip
    split at hrun
    · cases hrun
    · rename_i u2 hfocus
      split at hrun
      · cases hrun
      · rename_i u3 hroot
        cases hrun
        obtain ⟨c1, c2, c3⟩ := ui_frame_root_clip_only hclip
        obtain ⟨f1, f2, f3⟩ := ui_frame_focus_only hfocus
        obtain ⟨i1, i2, i3⟩ := update_input_state_event u e
        unfold ui_frame_root at hroot
        split at hroot
        · cases hroot
        · rename_i up root hpush
          have spec := ui_box_push_str_spec hpush
          have pin := ui_box_push_str_same_input hpush
          simp only at hroot
          split at hroot
          · cases hroot
          · rename_i u4 hs1
            split at hroot
            · cases hroot
            · rename_i u5 hs2
              split at hroot
              · cases hroot
              · rename_i u6 hs3
                split at hroot
                · cases hroot
                · rename_i u7 hs4
                  split at hroot
                  · cases hroot
                  · rename_i post hbuild
                    obtain ⟨a1, a2⟩ := ui_style_size_only hs1
                    obtain ⟨b1, b2⟩ := ui_style_size_only hs2
                    obtain ⟨d1, d2⟩ := ui_style_vec2_only hs3
                    obtain ⟨g1, g2⟩ := ui_style_f32_only hs4
                    have hin0 : SameInput (update_input_state u e) up :=
                      same_input_trans c1 (same_input_trans f1
                        (same_input_trans ⟨rfl, rfl, rfl, rfl, rfl⟩ pin))
                    have hin : SameInput (update_input_state u e) u7 := by
                      rw [g1, d1, b1, a1]
                      exact hin0
                    have hstack : u7.box_stack = root :: u.box_stack := by
                      rw [g1, d1, b1, a1]
                      show up.box_stack = _
                      rw [spec.hbox_stack]
                      show root :: u2.box_stack = _
                      rw [f2, c2, i2]
                    have hdepth : u7.depth_first = [root] := by
                      rw [g1, d1, b1, a1]
                      show up.depth_first = _
                      rw [spec.hdepth_first]
                      rfl
                    have hrootf : u7.root = some root := by
                      rw [g1, d1, b1, a1]
                    have hgc : u7.gc_flag = u.gc_flag := by
                      rw [g1, d1, b1, a1]
                      show up.gc_flag = _
                      rw [spec.hgc_flag]
                      show u2.gc_flag = _
                      rw [f3, c3, i3]
                    have hlabel : (u7.boxes root).label = "root" := by
                      rw [(g2 root).1, (d2 root).1, (b2 root).1, (a2 root).1]
                      exact spec.hlabel
                    refine ⟨u7.modify_box root (fun b =>
                        { b with rect := { b.rect with w := w, h := h } }), post, u3, root,
                      ?_, ?_, hrootf, hdepth, hstack, ?_, ?_, ?_, hgc, hbuild, hroot, rfl⟩
                    · show u7.event = e
                      rw [hin.1, i1]
                    · exact hin
                    · rw [modify_box_boxes, if_pos rfl]
                      exact hlabel
                    · rw [modify_box_boxes, if_pos rfl]
                    · rw [modify_box_boxes, if_pos rfl]

theorem ui_frame_events_passes {str_hash_seed : String → UiKey → UiKey}
    {build : Ui → Except Fault Ui} {w h : F32} (events : List Event) :
    ∀ (u u' : Ui) (log log' : List FrameStage),
      ui_frame_events str_hash_seed build w h events (u, log) = .ok (u', log') →
      EventPasses build w h events u u' := by
  induction events with
  | nil =>
    intro u u' log log' hrun
    simp only [ui_frame_events] at hrun
    cases hrun
    rfl
  | cons e rest ih =>
    intro u u' log log' hrun
    simp only [ui_frame_events] at hrun
    split at hrun
    · cases hrun
    · rename_i u1 he
      exact ⟨u1, ui_frame_event_pass he, ih _ _ _ _ hrun⟩

/-- C19 as amended. A call of `ui_frame` that returns has gone through the
events in the order of the array and has run one rebuild of the declarative
tree for each of them (`EventPasses`: for every event the build code runs
once, in a context that holds this event and in which the tree starts over
from the root box; then the cache is swept and the flag toggled, and the
context that this leaves is the one in which the next event is taken up).
After the last event the frame has run the cascade, the layout, the hit test
and the render once each, in this order, each on the context that the stage
before it left: a frame with `k` events runs `k` rebuilds, one cascade and one
layout. -/
theorem ui_frame_rebuilds (str_hash_seed : String → UiKey → UiKey) (hooks : FrameHooks)
    (w h : F32) (events : List Event) (dt : F32) (ui ui' : Ui) (log : List FrameStage)
    (hrun : ui_frame str_hash_seed hooks w h events dt ui = .ok (ui', log)) :
    ∃ u0 u1 u2 u3,
      EventPasses hooks.build w h events { ui with dt := dt } u0 ∧
      hooks.apply_style_rules u0 = .ok u1 ∧
      hooks.compute_layout u1 = .ok u2 ∧
      hooks.find_topmost_hovered_box u2 = .ok u3 ∧
      hooks.render_box u3 = .ok ui' ∧
      log = events.map FrameStage.rebuild ++ [.cascade, .layout, .hit_test, .render] := by
  unfold ui_frame at hrun
  split at hrun
  · cases hrun
  · rename_i u0 l0 he
    have hl := ui_frame_events_log str_hash_seed hooks.build w h events _ _ _ _ he
    have hp := ui_frame_events_passes events _ _ _ _ he
    split at hrun
    · cases hrun
    · rename_i u1 h1
      split at hrun
      · cases hrun
      · rename_i u2 h2
        split at hrun
        · cases hrun
        · rename_i u3 h3
          split at hrun
          · cases hrun
          · rename_i u4 h4
            cases hrun
            exact ⟨u0, u1, u2, u3, hp, h1, h2, h3, h4, by rw [hl]; rfl⟩

/-- The sample frame with two events and the sample hooks returns; the build
code ran twice (it declared two style rules, one per rebuild, and the tree
holds the root and the box `a` once), and the stages after the loop ran on the
tree of the last rebuild. -/
theorem demo_frame_build_run :
    ui_frame demo_hash demo_hooks_build 800 600 [demo_move, demo_event] 0 demo_init =
      .ok demo_frame_build ∧
    demo_frame_build.1.frame_mem_count = demo_init.frame_mem_count + 2 ∧
    demo_frame_build.1.depth_first = [0, 1] ∧
    demo_frame_build.1.event = demo_event ∧ demo_frame_build.1.mouse = ⟨5, 7⟩ ∧
    demo_frame_build.2 =
      [.rebuild demo_move, .rebuild demo_event, .cascade, .layout, .hit_test, .render] := by
  refine ⟨ok_of_value_or _ _ (by decide!), by decide!, by decide!, by decide!, by decide!,
    by decide!⟩

theorem ui_frame_rebuilds_witness :
    ui_frame demo_hash demo_hooks_build 800 600 [demo_move, demo_event] 0 demo_init =
      .ok (demo_frame_build.1, demo_frame_build.2) ∧
    ∃ u0 u1 u2 u3,
      EventPasses demo_hooks_build.build 800 600 [demo_move, demo_event]
        { demo_init with dt := 0 } u0 ∧
      demo_hooks_build.apply_style_rules u0 = .ok u1 ∧
      demo_hooks_build.compute_layout u1 = .ok u2 ∧
      demo_hooks_build.find_topmost_hovered_box u2 = .ok u3 ∧
      demo_hooks_build.render_box u3 = .ok demo_frame_build.1 ∧
      demo_frame_build.2 = [demo_move, demo_event].map FrameStage.rebuild ++
        [.cascade, .layout, .hit_test, .render] :=
  ⟨ok_of_value_or (demo_init, []) _ (by decide!),
    ui_frame_rebuilds demo_hash demo_hooks_build 800 600 [demo_move, demo_event] 0 demo_init
      demo_frame_build.1 demo_frame_build.2 (ok_of_value_or (demo_init, []) _ (by decide!))⟩
/-! ## Theorems: scroll bars and the scroll box -/

theorem except_bind_ok {α β : Type} {x : Except Fault α} {f : α → Except Fault β} {v : β}
    (h : (x >>= f) = .ok v) : ∃ a, x = .ok a ∧ f a = .ok v := by
  cases x with
  | error e => cases h
  | ok a => exact ⟨a, rfl, h⟩

theorem clamp_range (x a b : F32) (hab : a ≤ b) : a ≤ clamp x a b ∧ clamp x a b ≤ b := by
  unfold clamp
  split
  · exact ⟨le_refl _, hab⟩
  · split
    · exact ⟨hab, le_refl _⟩
    · constructor <;> linarith

theorem size_keeps_refl (c : BoxId) (u : Ui) : SizeKeeps c u u :=
  ⟨rfl, rfl, rfl, rfl, rfl, le_refl _, fun _ h => h, fun _ h => h⟩

theorem size_keeps_trans {c : BoxId} {u v w : Ui} (h1 : SizeKeeps c u v) (h2 : SizeKeeps c v w) :
    SizeKeeps c u w :=
  ⟨h2.rect.trans h1.rect, h2.content_w.trans h1.content_w, h2.content_h.trans h1.content_h,
    h2.gc.trans h1.gc, h2.gc_flag.trans h1.gc_flag, le_trans h1.box_count h2.box_count,
    fun b hb => h1.free_boxes b (h2.free_boxes b hb),
    fun k hk => h1.box_cache k (h2.box_cache k hk)⟩

theorem keeps_refl (c : BoxId) (u : Ui) : Keeps c u u := ⟨size_keeps_refl c u, rfl⟩

theorem keeps_trans {c : BoxId} {u v w : Ui} (h1 : Keeps c u v) (h2 : Keeps c v w) :
    Keeps c u w :=
  ⟨size_keeps_trans h1.1 h2.1, h2.2.trans h1.2⟩

theorem live_of_size_keeps {c : BoxId} {u v : Ui} (hl : Live c u) (h : SizeKeeps c u v) :
    Live c v :=
  ⟨lt_of_lt_of_le hl.1 h.box_count, fun hc => hl.2.1 (h.free_boxes c hc),
    fun k hk => by rw [h.gc, h.gc_flag]; exact hl.2.2 k (h.box_cache k hk)⟩

/-- A write to one box that leaves its rect, content and flag alone. -/
theorem keeps_modify_box (c b : BoxId) (u : Ui) (f : UiBox → UiBox)
    (hf : ∀ x, (f x).rect = x.rect ∧ (f x).content = x.content ∧ (f x).gc_flag = x.gc_flag) :
    Keeps c u (u.modify_box b f) := by
  have hb : ∃ x, (u.modify_box b f).boxes c = x ∧ x.rect = (u.boxes c).rect ∧
      x.content = (u.boxes c).content ∧ x.gc_flag = (u.boxes c).gc_flag := by
    rw [modify_box_boxes]
    by_cases h : c = b
    · subst h
      rw [if_pos rfl]
      exact ⟨_, rfl, (hf _).1, (hf _).2.1, (hf _).2.2⟩
    · rw [if_neg h]
      exact ⟨_, rfl, rfl, rfl, rfl⟩
  obtain ⟨x, hx, h1, h2, h3⟩ := hb
  exact ⟨⟨by rw [hx, h1], by rw [hx, h2], by rw [hx, h2], by rw [hx, h3], rfl, le_refl _,
    fun _ h => h, fun _ h => h⟩, by rw [hx, h2]⟩

theorem keeps_congr {c : BoxId} {u v w : Ui} (h : Keeps c u v) (hb : w.boxes = v.boxes)
    (h1 : w.gc_flag = v.gc_flag) (h2 : w.box_count = v.box_count)
    (h3 : w.free_boxes = v.free_boxes) (h4 : w.box_cache = v.box_cache) : Keeps c u w :=
  ⟨⟨by rw [hb]; exact h.1.rect, by rw [hb]; exact h.1.content_w, by rw [hb]; exact h.1.content_h,
    by rw [hb]; exact h.1.gc, by rw [h1]; exact h.1.gc_flag, by rw [h2]; exact h.1.box_count,
    fun b hbm => h.1.free_boxes b (h3 ▸ hbm), fun k hk => h.1.box_cache k (h4 ▸ hk)⟩,
    by rw [hb]; exact h.2⟩

theorem ui_style_store_keeps {c : BoxId} {ui v : Ui} {box : BoxId} {attr : UiStyleAttribute}
    {f : UiStyle → UiStyle} (h : ui_style_store ui box attr f = .ok v) : Keeps c ui v := by
  unfold ui_style_store at h
  split at h
  · cases h
    exact keeps_modify_box c box ui _ (fun _ => ⟨rfl, rfl, rfl⟩)
  · split at h
    · cases h
    · cases h
      exact keeps_modify_box c _ ui _ (fun _ => ⟨rfl, rfl, rfl⟩)

theorem box_stack_last_ok {ui : Ui} {box : BoxId} (h : box_stack_last ui = .ok box) :
    ui.box_stack.head? = some box := by
  unfold box_stack_last at h
  split at h
  · cases h
  · rename_i b rest hs
    cases h
    rw [hs]; rfl

theorem ui_style_u32_keeps {c : BoxId} {ui v : Ui} {attr : UiStyleAttribute} {val : Nat}
    (h : ui_style_u32 ui attr val = .ok v) : Keeps c ui v := by
  unfold ui_style_u32 at h
  split at h
  · cases h
  · cases attr <;> simp only [ui_style_box_u32] at h <;>
      first | exact ui_style_store_keeps h | cases h

theorem ui_style_f32_keeps {c : BoxId} {ui v : Ui} {attr : UiStyleAttribute} {val : F32}
    (h : ui_style_f32 ui attr val = .ok v) : Keeps c ui v := by
  unfold ui_style_f32 at h
  split at h
  · cases h
  · cases attr <;> simp only [ui_style_box_f32] at h <;>
      first | exact ui_style_store_keeps h | cases h

theorem ui_style_vec2_keeps {c : BoxId} {ui v : Ui} {attr : UiStyleAttribute} {val : Vec2}
    (h : ui_style_vec2 ui attr val = .ok v) : Keeps c ui v := by
  unfold ui_style_vec2 at h
  split at h
  · cases h
  · cases attr <;> simp only [ui_style_box_vec2] at h <;>
      first | exact ui_style_store_keeps h | cases h

theorem ui_style_vec4_keeps {c : BoxId} {ui v : Ui} {attr : UiStyleAttribute} {val : Vec4}
    (h : ui_style_vec4 ui attr val = .ok v) : Keeps c ui v := by
  unfold ui_style_vec4 at h
  split at h
  · cases h
  · cases attr <;> simp only [ui_style_box_vec4] at h <;>
      first | exact ui_style_store_keeps h | cases h

theorem ui_style_size_keeps {c : BoxId} {ui v : Ui} {attr : UiStyleAttribute} {val : UiSize}
    (h : ui_style_size ui attr val = .ok v) : Keeps c ui v := by
  unfold ui_style_size at h
  split at h
  · cases h
  · cases attr <;> simp only [ui_style_box_size] at h <;>
      first | exact ui_style_store_keeps h | cases h

theorem ui_style_rule_push_keeps {c : BoxId} {ui v : Ui} {box : BoxId} {pattern : String}
    (h : ui_style_rule_push ui box pattern = .ok v) : Keeps c ui v := by
  unfold ui_style_rule_push at h
  split at h
  · cases h
  · rcases hp : parse_pattern pattern with e | p
    · simp only [hp] at h
      cases h
    · simp only [hp] at h
      cases h
      exact keeps_congr (keeps_modify_box c box ui
        (fun b => { b with style_rules := b.style_rules ++
          [⟨ui.frame_mem_count, default_box_style, p, 0⟩] }) (fun _ => ⟨rfl, rfl, rfl⟩))
        rfl rfl rfl rfl rfl

theorem ui_style_rule_vec4_keeps {c : BoxId} {ui v : Ui} {pattern : String}
    {attr : UiStyleAttribute} {val : Vec4}
    (h : ui_style_rule_vec4 ui pattern attr val = .ok v) : Keeps c ui v := by
  unfold ui_style_rule_vec4 at h
  obtain ⟨box, _, h⟩ := except_bind_ok h
  obtain ⟨u1, h1, h⟩ := except_bind_ok h
  obtain ⟨u2, h2, h⟩ := except_bind_ok h
  cases h
  exact keeps_congr (keeps_trans (ui_style_rule_push_keeps h1) (ui_style_vec4_keeps h2))
    rfl rfl rfl rfl rfl

theorem ui_pop_parent_keeps {c : BoxId} {ui v : Ui} (h : ui_pop_parent ui = .ok v) :
    Keeps c ui v := by
  unfold ui_pop_parent at h
  split at h
  · cases h
  · cases h
    exact keeps_congr (keeps_refl c ui) rfl rfl rfl rfl rfl

theorem ui_pop_clip_keeps {c : BoxId} {ui v : Ui} {r : UiRect} (h : ui_pop_clip ui = .ok (v, r)) :
    Keeps c ui v := by
  unfold ui_pop_clip at h
  split at h
  · cases h
  · split at h
    · cases h
    · cases h
      exact keeps_congr (keeps_refl c ui) rfl rfl rfl rfl rfl

theorem eat_event_keeps (c : BoxId) (ui : Ui) : Keeps c ui (eat_event ui) :=
  keeps_congr (keeps_refl c ui) rfl rfl rfl rfl rfl

theorem map_get_ptr_append_other {m : List (UiKey × BoxId)} {k k' : UiKey} {b c : BoxId}
    (hcb : c ≠ b) (h : map_get_ptr (m ++ [(k, b)]) k' = some c) : map_get_ptr m k' = some c := by
  induction m with
  | nil =>
    simp only [List.nil_append, map_get_ptr] at h
    split at h
    · cases h; exact absurd rfl hcb
    · cases h
  | cons e rest ih =>
    obtain ⟨k1, v1⟩ := e
    simp only [List.cons_append, map_get_ptr] at h ⊢
    split
    · rename_i hk; rw [if_pos hk] at h; exact h
    · rename_i hk; rw [if_neg hk] at h; exact ih h

/-- A call of `ui_box_push_str` that returns hands out a box other than the
live box `c` and leaves the rect and the content of `c` alone. -/
theorem ui_box_push_str_keeps {str_hash_seed : String → UiKey → UiKey} {c : BoxId} {ui v : Ui}
    {flags : Nat} {label : String} {box : BoxId} (hl : Live c ui)
    (h : ui_box_push_str str_hash_seed ui flags label = .ok (v, box)) :
    Keeps c ui v ∧ box ≠ c := by
  have spec := ui_box_push_str_spec h
  have hne : box ≠ c := by
    intro hbc
    subst hbc
    rcases spec.hacquired with ⟨hget, hgc, _, _, _, _, _, _, _, _⟩ | ⟨_, hfree, _, _⟩ |
      ⟨_, _, _, hbox, _, _⟩
    · exact hgc (hl.2.2 _ hget)
    · exact hl.2.1 (by rw [hfree]; exact List.mem_cons_self _ _)
    · exact absurd hl.1 (by rw [hbox]; exact lt_irrefl _)
  obtain ⟨ch, hc⟩ := spec.hothers c (Ne.symm hne)
  refine ⟨⟨⟨by rw [hc], by rw [hc], by rw [hc], by rw [hc], spec.hgc_flag, ?_, ?_, ?_⟩,
    by rw [hc]⟩, hne⟩
  · rcases spec.hacquired with ⟨_, _, _, _, hcount, _, _, _, _, _⟩ | ⟨_, _, _, hcount⟩ |
      ⟨_, _, _, _, _, hcount⟩ <;> omega
  · intro b hb
    rcases spec.hacquired with ⟨_, _, _, hfree, _, _, _, _, _, _⟩ | ⟨_, hfree, _, _⟩ |
      ⟨_, _, hfree', _, _, _⟩
    · rw [← hfree]; exact hb
    · rw [hfree]; exact List.mem_cons_of_mem _ hb
    · rw [hfree'] at hb; cases hb
  · intro k hk
    rcases spec.hacquired with ⟨_, _, hcache, _, _, _, _, _, _, _⟩ | ⟨hget, _, hcache, _⟩ |
      ⟨hget, _, _, _, hcache, _⟩
    · rw [← hcache]; exact hk
    · rw [hcache, map_add_of_none _ hget] at hk
      exact map_get_ptr_append_other (Ne.symm hne) hk
    · rw [hcache, map_add_of_none _ hget] at hk
      exact map_get_ptr_append_other (Ne.symm hne) hk

theorem keeps_ite_eat (c : BoxId) (w : Bool) (ui : Ui) :
    Keeps c ui (if w = true then eat_event ui else ui) := by
  split
  · exact eat_event_keeps c ui
  · exact keeps_refl c ui

theorem ui_vscroll_bar_keeps {str_hash_seed : String → UiKey → UiKey} {c : BoxId} {ui v : Ui}
    {label : String} {rect : UiRect} {ratio val val' : F32} {box : BoxId} (hl : Live c ui)
    (h : ui_vscroll_bar str_hash_seed ui label rect ratio val = .ok (v, box, val')) :
    Keeps c ui v := by
  unfold ui_vscroll_bar at h
  have k0 : Keeps c ui ui := keeps_refl c ui
  obtain ⟨⟨u1, b1⟩, h1, h⟩ := except_bind_ok h
  have k1 := keeps_trans k0 (ui_box_push_str_keeps (live_of_size_keeps hl k0.1) h1).1
  dsimp only at h
  obtain ⟨u2, h2, h⟩ := except_bind_ok h
  have k2 := keeps_trans k1 (ui_style_f32_keeps h2)
  obtain ⟨u3, h3, h⟩ := except_bind_ok h
  have k3 := keeps_trans k2 (ui_style_f32_keeps h3)
  obtain ⟨u4, h4, h⟩ := except_bind_ok h
  have k4 := keeps_trans k3 (ui_style_size_keeps h4)
  obtain ⟨u5, h5, h⟩ := except_bind_ok h
  have k5 := keeps_trans k4 (ui_style_size_keeps h5)
  obtain ⟨u6, h6, h⟩ := except_bind_ok h
  have k6 := keeps_trans k5 (ui_style_vec4_keeps h6)
  obtain ⟨u7, h7, h⟩ := except_bind_ok h
  have k7 := keeps_trans k6 (ui_style_u32_keeps h7)
  obtain ⟨u8, h8, h⟩ := except_bind_ok h
  have k8 := keeps_trans k7 (ui_style_vec2_keeps h8)
  obtain ⟨u9, h9, h⟩ := except_bind_ok h
  have k9 := keeps_trans k8 (ui_style_f32_keeps h9)
  obtain ⟨u10, h10, h⟩ := except_bind_ok h
  have k10 := keeps_trans (keeps_trans k9 (keeps_ite_eat c _ _)) (ui_style_rule_vec4_keeps h10)
  obtain ⟨u11, h11, h⟩ := except_bind_ok h
  have k11 := keeps_trans k10 (ui_style_rule_vec4_keeps h11)
  obtain ⟨u12, h12, h⟩ := except_bind_ok h
  have k12 := keeps_trans k11 (ui_style_rule_vec4_keeps h12)
  obtain ⟨u13, h13, h⟩ := except_bind_ok h
  have k13 := keeps_trans k12 (ui_style_rule_vec4_keeps h13)
  obtain ⟨⟨u14, b14⟩, h14, h⟩ := except_bind_ok h
  have k14 := keeps_trans k13 (ui_box_push_str_keeps (live_of_size_keeps hl k13.1) h14).1
  dsimp only at h
  obtain ⟨u15, h15, h⟩ := except_bind_ok h
  have k15 := keeps_trans k14 (ui_style_size_keeps h15)
  obtain ⟨u16, h16, h⟩ := except_bind_ok h
  have k16 := keeps_trans k15 (ui_pop_parent_keeps h16)
  obtain ⟨⟨u17, b17⟩, h17, h⟩ := except_bind_ok h
  have k17 := keeps_trans k16 (ui_box_push_str_keeps (live_of_size_keeps hl k16.1) h17).1
  dsimp only at h
  obtain ⟨u18, h18, h⟩ := except_bind_ok h
  have k18 := keeps_trans k17 (ui_style_size_keeps h18)
  obtain ⟨u19, h19, h⟩ := except_bind_ok h
  have k19 := keeps_trans k18 (ui_style_size_keeps h19)
  obtain ⟨u20, h20, h⟩ := except_bind_ok h
  have k20 := keeps_trans k19 (ui_style_vec4_keeps h20)
  obtain ⟨u21, h21, h⟩ := except_bind_ok h
  have k21 := keeps_trans k20 (ui_style_f32_keeps h21)
  obtain ⟨u22, h22, h⟩ := except_bind_ok h
  have k22 := keeps_trans k21 (ui_pop_parent_keeps h22)
  obtain ⟨u23, h23, h⟩ := except_bind_ok h
  have k23 := keeps_trans k22 (ui_pop_parent_keeps h23)
  cases h
  exact k23

theorem ui_hscroll_bar_keeps {str_hash_seed : String → UiKey → UiKey} {c : BoxId} {ui v : Ui}
    {label : String} {rect : UiRect} {ratio val val' : F32} {box : BoxId} (hl : Live c ui)
    (h : ui_hscroll_bar str_hash_seed ui label rect ratio val = .ok (v, box, val')) :
    Keeps c ui v := by
  unfold ui_hscroll_bar at h
  have k0 : Keeps c ui ui := keeps_refl c ui
  obtain ⟨⟨u1, b1⟩, h1, h⟩ := except_bind_ok h
  have k1 := keeps_trans k0 (ui_box_push_str_keeps (live_of_size_keeps hl k0.1) h1).1
  dsimp only at h
  obtain ⟨u2, h2, h⟩ := except_bind_ok h
  have k2 := keeps_trans k1 (ui_style_f32_keeps h2)
  obtain ⟨u3, h3, h⟩ := except_bind_ok h
  have k3 := keeps_trans k2 (ui_style_f32_keeps h3)
  obtain ⟨u4, h4, h⟩ := except_bind_ok h
  have k4 := keeps_trans k3 (ui_style_size_keeps h4)
  obtain ⟨u5, h5, h⟩ := except_bind_ok h
  have k5 := keeps_trans k4 (ui_style_size_keeps h5)
  obtain ⟨u6, h6, h⟩ := except_bind_ok h
  have k6 := keeps_trans k5 (ui_style_vec4_keeps h6)
  obtain ⟨u7, h7, h⟩ := except_bind_ok h
  have k7 := keeps_trans k6 (ui_style_u32_keeps h7)
  obtain ⟨u8, h8, h⟩ := except_bind_ok h
  have k8 := keeps_trans k7 (ui_style_vec2_keeps h8)
  obtain ⟨u9, h9, h⟩ := except_bind_ok h
  have k9 := keeps_trans k8 (ui_style_f32_keeps h9)
  obtain ⟨u10, h10, h⟩ := except_bind_ok h
  have k10 := keeps_trans (keeps_trans k9 (keeps_ite_eat c _ _)) (ui_style_rule_vec4_keeps h10)
  obtain ⟨u11, h11, h⟩ := except_bind_ok h
  have k11 := keeps_trans k10 (ui_style_rule_vec4_keeps h11)
  obtain ⟨u12, h12, h⟩ := except_bind_ok h
  have k12 := keeps_trans k11 (ui_style_rule_vec4_keeps h12)
  obtain ⟨u13, h13, h⟩ := except_bind_ok h
  have k13 := keeps_trans k12 (ui_style_rule_vec4_keeps h13)
  obtain ⟨⟨u14, b14⟩, h14, h⟩ := except_bind_ok h
  have k14 := keeps_trans k13 (ui_box_push_str_keeps (live_of_size_keeps hl k13.1) h14).1
  dsimp only at h
  obtain ⟨u15, h15, h⟩ := except_bind_ok h
  have k15 := keeps_trans k14 (ui_style_size_keeps h15)
  obtain ⟨u16, h16, h⟩ := except_bind_ok h
  have k16 := keeps_trans k15 (ui_pop_parent_keeps h16)
  obtain ⟨⟨u17, b17⟩, h17, h⟩ := except_bind_ok h
  have k17 := keeps_trans k16 (ui_box_push_str_keeps (live_of_size_keeps hl k16.1) h17).1
  dsimp only at h
  obtain ⟨u18, h18, h⟩ := except_bind_ok h
  have k18 := keeps_trans k17 (ui_style_size_keeps h18)
  obtain ⟨u19, h19, h⟩ := except_bind_ok h
  have k19 := keeps_trans k18 (ui_style_size_keeps h19)
  obtain ⟨u20, h20, h⟩ := except_bind_ok h
  have k20 := keeps_trans k19 (ui_style_vec4_keeps h20)
  obtain ⟨u21, h21, h⟩ := except_bind_ok h
  have k21 := keeps_trans k20 (ui_style_f32_keeps h21)
  obtain ⟨u22, h22, h⟩ := except_bind_ok h
  have k22 := keeps_trans k21 (ui_pop_parent_keeps h22)
  obtain ⟨u23, h23, h⟩ := except_bind_ok h
  have k23 := keeps_trans k22 (ui_pop_parent_keeps h23)
  cases h
  exact k23

/-- A write to the box `c` itself that leaves its rect, the extent of its
content and its flag alone. -/
theorem size_keeps_modify_self (c : BoxId) (u : Ui) (f : UiBox → UiBox)
    (hf : ∀ x, (f x).rect = x.rect ∧ (f x).content.w = x.content.w ∧
      (f x).content.h = x.content.h ∧ (f x).gc_flag = x.gc_flag) :
    SizeKeeps c u (u.modify_box c f) ∧ (u.modify_box c f).boxes c = f (u.boxes c) := by
  have hb : (u.modify_box c f).boxes c = f (u.boxes c) := by
    rw [modify_box_boxes, if_pos rfl]
  exact ⟨⟨by rw [hb, (hf _).1], by rw [hb, (hf _).2.1], by rw [hb, (hf _).2.2.1],
    by rw [hb, (hf _).2.2.2], rfl, le_refl _, fun _ h => h, fun _ h => h⟩, hb⟩

theorem size_keeps_eat_event (c : BoxId) (u : Ui) :
    SizeKeeps c u (eat_event u) ∧ (eat_event u).boxes c = u.boxes c :=
  ⟨(eat_event_keeps c u).1, rfl⟩

/-- The horizontal axis of `ui_scroll_box_pop`: the offset ends in
`[-(content.w - rect.w), 0]` when the content is wider than the view and at 0
otherwise; the rect, the extent of the content and the vertical offset stay. -/
theorem ui_scroll_box_axis_x_spec {str_hash_seed : String → UiKey → UiKey} {c : BoxId}
    {ui v : Ui} (hl : Live c ui) (h : ui_scroll_box_axis_x str_hash_seed ui c = .ok v) :
    SizeKeeps c ui v ∧ (v.boxes c).content.y = (ui.boxes c).content.y ∧
    ((ui.boxes c).rect.w < (ui.boxes c).content.w →
      -((ui.boxes c).content.w - (ui.boxes c).rect.w) ≤ (v.boxes c).content.x ∧
        (v.boxes c).content.x ≤ 0) ∧
    (¬ (ui.boxes c).rect.w < (ui.boxes c).content.w → (v.boxes c).content.x = 0) := by
  unfold ui_scroll_box_axis_x at h
  dsimp only at h
  split at h
  · rename_i hlt
    split at h
    · cases h
    split at h
    · cases h
    rename_i u1 b1 sv h1
    have k1 := ui_hscroll_bar_keeps hl h1
    split at h
    · cases h
    cases h
    -- the three writes to the container
    obtain ⟨s2, e2⟩ := size_keeps_modify_self c u1
      (fun c => { c with content := { c.content with x := -(sv / c.rect.w * c.content.w) } })
      (fun _ => ⟨rfl, rfl, rfl, rfl⟩)
    generalize hu2 : u1.modify_box c
      (fun c => { c with content := { c.content with x := -(sv / c.rect.w * c.content.w) } }) = u2
      at s2 e2 ⊢
    have hy2 : (u2.boxes c).content.y = (ui.boxes c).content.y := by
      rw [e2]; show (u1.boxes c).content.y = _; rw [k1.2]
    have h3 : ∀ w : Bool, ∃ u3, (if w = true then
          eat_event (u2.modify_box c (fun c =>
            { c with content := { c.content with x := c.content.x + 25 * u2.event.y } }))
        else u2) = u3 ∧ SizeKeeps c u2 u3 ∧ (u3.boxes c).content.y = (u2.boxes c).content.y := by
      intro w
      cases w
      · exact ⟨u2, rfl, size_keeps_refl c u2, rfl⟩
      · obtain ⟨s, e⟩ := size_keeps_modify_self c u2
          (fun c => { c with content := { c.content with x := c.content.x + 25 * u2.event.y } })
          (fun _ => ⟨rfl, rfl, rfl, rfl⟩)
        refine ⟨_, rfl, size_keeps_trans s (size_keeps_eat_event c _).1, ?_⟩
        rw [if_pos rfl, (size_keeps_eat_event c _).2, e]
    obtain ⟨u3, hu3, s3, hy3⟩ := h3 ((u2.boxes c).signal.hovered &&
      decide (u2.event.tag = .EVENT_SCROLL) && is_key_pressed u2 GLFW_KEY_LEFT_CONTROL)
    rw [hu3]
    obtain ⟨s4, e4⟩ := size_keeps_modify_self c u3
      (fun c => { c with content := { c.content with
        x := clamp c.content.x (-(c.content.w - c.rect.w)) 0 } })
      (fun _ => ⟨rfl, rfl, rfl, rfl⟩)
    have s13 : SizeKeeps c ui u3 := size_keeps_trans (size_keeps_trans k1.1 s2) s3
    refine ⟨size_keeps_trans s13 s4, ?_, ?_, fun hn => absurd hlt hn⟩
    · rw [e4]; show (u3.boxes c).content.y = _; rw [hy3, hy2]
    · intro _
      rw [e4]
      show -((ui.boxes c).content.w - (ui.boxes c).rect.w) ≤
          clamp (u3.boxes c).content.x (-((u3.boxes c).content.w - (u3.boxes c).rect.w)) 0 ∧
        clamp (u3.boxes c).content.x (-((u3.boxes c).content.w - (u3.boxes c).rect.w)) 0 ≤ 0
      rw [s13.content_w, s13.rect]
      exact clamp_range _ _ _ (by linarith)
  · rename_i hlt
    cases h
    obtain ⟨s, e⟩ := size_keeps_modify_self c ui
      (fun c => { c with content := { c.content with x := 0 } }) (fun _ => ⟨rfl, rfl, rfl, rfl⟩)
    refine ⟨s, by rw [e], fun hn => absurd hn hlt, fun _ => by rw [e]⟩

/-- The vertical axis of `ui_scroll_box_pop`: the offset ends in
`[-(content.h - rect.h), 0]` when the content is taller than the view and at 0
otherwise; the rect, the extent of the content and the horizontal offset stay. -/
theorem ui_scroll_box_axis_y_spec {str_hash_seed : String → UiKey → UiKey} {c : BoxId}
    {ui v : Ui} (hl : Live c ui) (h : ui_scroll_box_axis_y str_hash_seed ui c = .ok v) :
    SizeKeeps c ui v ∧ (v.boxes c).content.x = (ui.boxes c).content.x ∧
    ((ui.boxes c).rect.h < (ui.boxes c).content.h →
      -((ui.boxes c).content.h - (ui.boxes c).rect.h) ≤ (v.boxes c).content.y ∧
        (v.boxes c).content.y ≤ 0) ∧
    (¬ (ui.boxes c).rect.h < (ui.boxes c).content.h → (v.boxes c).content.y = 0) := by
  unfold ui_scroll_box_axis_y at h
  dsimp only at h
  split at h
  · rename_i hlt
    split at h
    · cases h
    split at h
    · cases h
    rename_i u1 b1 sv h1
    have k1 := ui_vscroll_bar_keeps hl h1
    split at h
    · cases h
    cases h
    -- the three writes to the container
    obtain ⟨s2, e2⟩ := size_keeps_modify_self c u1
      (fun c => { c with content := { c.content with y := -(sv / c.rect.h * c.content.h) } })
      (fun _ => ⟨rfl, rfl, rfl, rfl⟩)
    generalize hu2 : u1.modify_box c
      (fun c => { c with content := { c.content with y := -(sv / c.rect.h * c.content.h) } }) = u2
      at s2 e2 ⊢
    have hy2 : (u2.boxes c).content.x = (ui.boxes c).content.x := by
      rw [e2]; show (u1.boxes c).content.x = _; rw [k1.2]
    have h3 : ∀ w : Bool, ∃ u3, (if w = true then
          eat_event (u2.modify_box c (fun c =>
            { c with content := { c.content with y := c.content.y + 25 * u2.event.y } }))
        else u2) = u3 ∧ SizeKeeps c u2 u3 ∧ (u3.boxes c).content.x = (u2.boxes c).content.x := by
      intro w
      cases w
      · exact ⟨u2, rfl, size_keeps_refl c u2, rfl⟩
      · obtain ⟨s, e⟩ := size_keeps_modify_self c u2
          (fun c => { c with content := { c.content with y := c.content.y + 25 * u2.event.y } })
          (fun _ => ⟨rfl, rfl, rfl, rfl⟩)
        refine ⟨_, rfl, size_keeps_trans s (size_keeps_eat_event c _).1, ?_⟩
        rw [if_pos rfl, (size_keeps_eat_event c _).2, e]
    obtain ⟨u3, hu3, s3, hy3⟩ := h3 ((u2.boxes c).signal.hovered &&
      decide (u2.event.tag = .EVENT_SCROLL) && !is_key_pressed u2 GLFW_KEY_LEFT_CONTROL)
    rw [hu3]
    obtain ⟨s4, e4⟩ := size_keeps_modify_self c u3
      (fun c => { c with content := { c.content with
        y := clamp c.content.y (-(c.content.h - c.rect.h)) 0 } })
      (fun _ => ⟨rfl, rfl, rfl, rfl⟩)
    have s13 : SizeKeeps c ui u3 := size_keeps_trans (size_keeps_trans k1.1 s2) s3
    refine ⟨size_keeps_trans s13 s4, ?_, ?_, fun hn => absurd hlt hn⟩
    · rw [e4]; show (u3.boxes c).content.x = _; rw [hy3, hy2]
    · intro _
      rw [e4]
      show -((ui.boxes c).content.h - (ui.boxes c).rect.h) ≤
          clamp (u3.boxes c).content.y (-((u3.boxes c).content.h - (u3.boxes c).rect.h)) 0 ∧
        clamp (u3.boxes c).content.y (-((u3.boxes c).content.h - (u3.boxes c).rect.h)) 0 ≤ 0
      rw [s13.content_h, s13.rect]
      exact clamp_range _ _ _ (by linarith)
  · rename_i hlt
    cases h
    obtain ⟨s, e⟩ := size_keeps_modify_self c ui
      (fun c => { c with content := { c.content with y := 0 } }) (fun _ => ⟨rfl, rfl, rfl, rfl⟩)
    refine ⟨s, by rw [e], fun hn => absurd hn hlt, fun _ => by rw [e]⟩


theorem scroll_follow_size (content focused view : UiRect) :
    (scroll_follow content focused view).w = content.w ∧
      (scroll_follow content focused view).h = content.h := by
  unfold scroll_follow
  dsimp only
  constructor <;> split <;> (try split) <;> (try split) <;> (try split) <;> rfl

theorem ui_scroll_box_follow_keeps {c : BoxId} {ui v : Ui}
    (h : ui_scroll_box_follow ui c = .ok v) : SizeKeeps c ui v := by
  unfold ui_scroll_box_follow at h
  dsimp only at h
  split at h
  · rcases hf : ui.focused with _ | focused
    · simp only [hf] at h
      cases h
    · simp only [hf] at h
      cases h
      exact (size_keeps_modify_self c ui
        (fun x => { x with content := scroll_follow x.content (ui.boxes focused).rect x.rect })
        (fun x => ⟨rfl, (scroll_follow_size _ _ _).1, (scroll_follow_size _ _ _).2, rfl⟩)).1
  · cases h
    exact size_keeps_refl c ui

/-- The state `ui_scroll_box_pop` returns, for a live container `c` at the top
of the parent stack: the rect of the container and the extent of its content
are those on entry, and on each axis the content offset lies in
`[-(content extent - view extent), 0]` when the content is larger than the view
and is 0 otherwise. -/
theorem ui_scroll_box_pop_spec {str_hash_seed : String → UiKey → UiKey} {c : BoxId}
    {rest : List BoxId} {ui v : Ui} (hstack : ui.box_stack = c :: rest) (hl : Live c ui)
    (h : ui_scroll_box_pop str_hash_seed ui = .ok v) :
    (v.boxes c).rect = (ui.boxes c).rect ∧
    (v.boxes c).content.w = (ui.boxes c).content.w ∧
    (v.boxes c).content.h = (ui.boxes c).content.h ∧
    ((ui.boxes c).rect.w < (ui.boxes c).content.w →
      -((ui.boxes c).content.w - (ui.boxes c).rect.w) ≤ (v.boxes c).content.x ∧
        (v.boxes c).content.x ≤ 0) ∧
    (¬ (ui.boxes c).rect.w < (ui.boxes c).content.w → (v.boxes c).content.x = 0) ∧
    ((ui.boxes c).rect.h < (ui.boxes c).content.h →
      -((ui.boxes c).content.h - (ui.boxes c).rect.h) ≤ (v.boxes c).content.y ∧
        (v.boxes c).content.y ≤ 0) ∧
    (¬ (ui.boxes c).rect.h < (ui.boxes c).content.h → (v.boxes c).content.y = 0) := by
  unfold ui_scroll_box_pop at h
  obtain ⟨c', hc, h⟩ := except_bind_ok h
  have hcc : c' = c := by
    have := box_stack_last_ok hc
    rw [hstack] at this
    cases this
    rfl
  subst hcc
  obtain ⟨u1, h1, h⟩ := except_bind_ok h
  have s1 := ui_scroll_box_follow_keeps h1
  have l1 := live_of_size_keeps hl s1
  obtain ⟨u2, h2, h⟩ := except_bind_ok h
  obtain ⟨s2, _, hx1, hx2⟩ := ui_scroll_box_axis_x_spec l1 h2
  have l2 := live_of_size_keeps l1 s2
  obtain ⟨u3, h3, h⟩ := except_bind_ok h
  obtain ⟨s3, hxk, hy1, hy2⟩ := ui_scroll_box_axis_y_spec l2 h3
  obtain ⟨⟨u4, r4⟩, h4, h⟩ := except_bind_ok h
  dsimp only at h
  have k4 := @ui_pop_clip_keeps c' _ _ _ h4
  have k5 := @ui_pop_parent_keeps c' _ _ h
  have k45 := keeps_trans k4 k5
  have s02 : SizeKeeps c' ui u2 := size_keeps_trans s1 s2
  have s03 : SizeKeeps c' ui u3 := size_keeps_trans s02 s3
  have sall := size_keeps_trans s03 k45.1
  refine ⟨sall.rect, sall.content_w, sall.content_h, ?_, ?_, ?_, ?_⟩
  · intro hlt
    rw [k45.2, hxk]
    rw [← s1.content_w, ← s1.rect] at hlt ⊢
    exact hx1 hlt
  · intro hlt
    rw [k45.2, hxk]
    rw [← s1.content_w, ← s1.rect] at hlt
    exact hx2 hlt
  · intro hlt
    rw [k45.2]
    rw [← s02.content_h, ← s02.rect] at hlt ⊢
    exact hy1 hlt
  · intro hlt
    rw [k45.2]
    rw [← s02.content_h, ← s02.rect] at hlt
    exact hy2 hlt

/-! ## Claims about the scroll box -/

theorem demo_scroll_run : ui_scroll_box_pop demo_hash demo_scroll = .ok demo_scroll_out := by
  rfl

theorem demo_scroll_live : Live 1 demo_scroll :=
  ⟨by decide, by simp [demo_scroll, ui_init], fun _ _ => rfl⟩

/-- When `ui_scroll_box_pop` returns (no quotient by a zero extent has been
taken), for the container `c` at the top of the parent stack (a live box of
the store): on each axis on its own the content offset lies in
`[-(content extent - view extent), 0]` when the content is larger than the view
and is 0 otherwise, whatever the knob drag, the wheel or the focus-follow did;
the view and the content extent are unchanged. -/
theorem ui_scroll_box_pop_clamps (str_hash_seed : String → UiKey → UiKey) (c : BoxId)
    (rest : List BoxId) (ui v : Ui) (hstack : ui.box_stack = c :: rest) (hl : Live c ui)
    (h : ui_scroll_box_pop str_hash_seed ui = .ok v) :
    ((v.boxes c).rect = (ui.boxes c).rect ∧
      (v.boxes c).content.w = (ui.boxes c).content.w ∧
      (v.boxes c).content.h = (ui.boxes c).content.h) ∧
    ((ui.boxes c).rect.w < (ui.boxes c).content.w →
      -((ui.boxes c).content.w - (ui.boxes c).rect.w) ≤ (v.boxes c).content.x ∧
        (v.boxes c).content.x ≤ 0) ∧
    (¬ (ui.boxes c).rect.w < (ui.boxes c).content.w → (v.boxes c).content.x = 0) ∧
    ((ui.boxes c).rect.h < (ui.boxes c).content.h →
      -((ui.boxes c).content.h - (ui.boxes c).rect.h) ≤ (v.boxes c).content.y ∧
        (v.boxes c).content.y ≤ 0) ∧
    (¬ (ui.boxes c).rect.h < (ui.boxes c).content.h → (v.boxes c).content.y = 0) := by
  obtain ⟨h1, h2, h3, h4, h5, h6, h7⟩ := ui_scroll_box_pop_spec hstack hl h
  exact ⟨⟨h1, h2, h3⟩, h4, h5, h6, h7⟩

/-- The scenario of the specification on the sample `demo_scroll`: the view is
200 high and the content 500, the call returns, and the offset -450 on entry
ends in `[-300, 0]`. -/
theorem demo_scroll_clamps :
    (demo_scroll.box_stack = 1 :: [0] ∧ Live 1 demo_scroll ∧
      ui_scroll_box_pop demo_hash demo_scroll = .ok demo_scroll_out) ∧
    -((demo_scroll.boxes 1).content.h - (demo_scroll.boxes 1).rect.h) ≤
        (demo_scroll_out.boxes 1).content.y ∧
      (demo_scroll_out.boxes 1).content.y ≤ 0 :=
  ⟨⟨rfl, demo_scroll_live, demo_scroll_run⟩,
    (ui_scroll_box_pop_clamps demo_hash 1 [0] demo_scroll demo_scroll_out rfl demo_scroll_live
      demo_scroll_run).2.2.2.1 (by decide!)⟩

/-- The sample is the scenario: the view of the container is 200 high and its
content 500, and the offset was -450 on entry. -/
theorem demo_scroll_scenario :
    (demo_scroll.boxes 1).rect.h = 200 ∧ (demo_scroll.boxes 1).content.h = 500 ∧
    (demo_scroll.boxes 1).content.y = -450 := by
  refine ⟨rfl, rfl, rfl⟩

theorem error_of_fault {α : Type} {r : Except Fault α} {e : Fault}
    (h : fault_of r = some e) : r = .error e := by
  cases r with
  | error e' =>
    simp only [fault_of, Option.some.injEq] at h
    rw [h]
  | ok v => cases h

/-- C14 at the failing input: the container at the top of the parent stack has
a view of height 0 and content of height 500, with offset 0.  The content is
taller than the view, so `ui_scroll_box_pop` declares the vertical scroll bar
with the ratio 0 / 500 = 0, which leaves `scroll_val` at 0, and then takes the
quotient `scroll_val / rect.h`, which is 0 / 0: the offset that the function
stores is not a number, so it is not in `[-500, 0]`. -/
theorem ui_scroll_box_pop_zero_view :
    (demo_scroll_flat.box_stack = [1, 0] ∧ (demo_scroll_flat.boxes 1).rect.h = 0 ∧
      (demo_scroll_flat.boxes 1).content.h = 500 ∧
      decide ((demo_scroll_flat.boxes 1).rect.h < (demo_scroll_flat.boxes 1).content.h) = true) ∧
    (ui_scroll_box_follow demo_scroll_flat 1 = .ok demo_scroll_flat ∧
      (ok_or demo_init (ui_scroll_box_axis_x demo_hash demo_scroll_flat 1)).boxes 1 =
        demo_scroll_flat.boxes 1) ∧
    scroll_val_of (ui_vscroll_bar demo_hash
      (ok_or demo_init (ui_scroll_box_axis_x demo_hash demo_scroll_flat 1)) "scroll_bar_y"
      ⟨300 - 8, 0, 8, 0⟩ (0 / 500) (|0| / 500 * 0)) = 0 ∧
    ui_scroll_box_axis_y demo_hash
      (ok_or demo_init (ui_scroll_box_axis_x demo_hash demo_scroll_flat 1)) 1 =
        .error .not_finite ∧
    ui_scroll_box_pop demo_hash demo_scroll_flat = .error .not_finite := by
  refine ⟨⟨rfl, rfl, rfl, by decide!⟩, ⟨by rfl, by rfl⟩, by decide!,
    error_of_fault (by decide!), error_of_fault (by decide!)⟩

/-! ## The hash map: the probe sequence -/


theorem two_mul_tri (n : Nat) : 2 * tri n = n * (n + 1) := by
  unfold tri
  have h : 2 ∣ n * (n + 1) := (Nat.even_mul_succ_self n).two_dvd
  omega

theorem tri_succ (n : Nat) : tri (n + 1) = tri n + (n + 1) := by
  have h1 := two_mul_tri n
  have h2 := two_mul_tri (n + 1)
  have : (n + 1) * (n + 1 + 1) = n * (n + 1) + 2 * (n + 1) := by ring
  omega

theorem tri_zero : tri 0 = 0 := rfl

theorem tri_mono {i j : Nat} (h : i ≤ j) : tri i ≤ tri j := by
  induction h with
  | refl => exact le_refl _
  | step _ ih => rw [tri_succ]; omega

theorem tri_inj_mod (e i j : Nat) (hi : i < 2 ^ e) (hj : j < 2 ^ e) (hij : i < j)
    (h : tri i % 2 ^ e = tri j % 2 ^ e) : False := by
  have hle : tri i ≤ tri j := tri_mono (le_of_lt hij)
  have hd : 2 ^ e ∣ tri j - tri i := (Nat.modEq_iff_dvd' hle).1 h
  have hprod : (j - i) * (i + j + 1) = 2 * (tri j - tri i) := by
    have h1 := two_mul_tri i
    have h2 := two_mul_tri j
    obtain ⟨d, rfl⟩ : ∃ d, j = i + d := ⟨j - i, by omega⟩
    have : i + d - i = d := by omega
    rw [this, Nat.mul_sub, h1, h2]
    have : (i + d) * (i + d + 1) = i * (i + 1) + d * (i + (i + d) + 1) := by ring
    omega
  have hd2 : 2 ^ (e + 1) ∣ (j - i) * (i + j + 1) := by
    rw [hprod, pow_succ, Nat.mul_comm (2 ^ e) 2]
    exact Nat.mul_dvd_mul_left 2 hd
  have hpow : 2 ^ (e + 1) = 2 * 2 ^ e := by rw [pow_succ, Nat.mul_comm]
  rcases Nat.even_or_odd (j - i) with hev | hodd
  · have hodd2 : Odd (i + j + 1) := by
      rcases hev with ⟨r, hr⟩
      exact ⟨i + r, by omega⟩
    have hc : Nat.Coprime (2 ^ (e + 1)) (i + j + 1) :=
      Nat.Coprime.pow_left _ (Nat.coprime_two_left.2 hodd2)
    have := hc.dvd_of_dvd_mul_right hd2
    have := Nat.le_of_dvd (by omega) this
    omega
  · have hc : Nat.Coprime (2 ^ (e + 1)) (j - i) :=
      Nat.Coprime.pow_left _ (Nat.coprime_two_left.2 hodd)
    have := hc.dvd_of_dvd_mul_left hd2
    have := Nat.le_of_dvd (by omega) this
    omega

theorem probe_idx_inj (e hash i j : Nat) (hi : i < 2 ^ e) (hj : j < 2 ^ e)
    (h : probe_idx (2 ^ e) hash i = probe_idx (2 ^ e) hash j) : i = j := by
  unfold probe_idx at h
  have h' : tri i % 2 ^ e = tri j % 2 ^ e := Nat.ModEq.add_left_cancel' hash h
  rcases Nat.lt_trichotomy i j with hlt | heq | hgt
  · exact (tri_inj_mod e i j hi hj hlt h').elim
  · exact heq
  · exact (tri_inj_mod e j i hj hi hgt h'.symm).elim

theorem probe_idx_lt (cap hash n : Nat) (h : 0 < cap) : probe_idx cap hash n < cap :=
  Nat.mod_lt _ h

theorem probe_idx_surj (e hash s : Nat) (hs : s < 2 ^ e) :
    ∃ n, n < 2 ^ e ∧ probe_idx (2 ^ e) hash n = s := by
  have hpos : 0 < 2 ^ e := Nat.pow_pos (by decide)
  let f : Fin (2 ^ e) → Fin (2 ^ e) := fun n => ⟨probe_idx (2 ^ e) hash n, probe_idx_lt _ _ _ hpos⟩
  have hinj : Function.Injective f := by
    intro a b hab
    have := congrArg Fin.val hab
    exact Fin.ext (probe_idx_inj e hash a b a.2 b.2 this)
  obtain ⟨n, hn⟩ := Finite.surjective_of_injective hinj ⟨s, hs⟩
  exact ⟨n, n.2, congrArg Fin.val hn⟩

theorem probe_idx_step (e hash j : Nat) (hcap : 2 ^ e ≤ 2 ^ 31) (hj : j < 2 ^ e) :
    ((probe_idx (2 ^ e) hash j + (j + 1)) % 2 ^ 64) &&& (2 ^ e - 1) =
      probe_idx (2 ^ e) hash (j + 1) := by
  have hpos : 0 < 2 ^ e := Nat.pow_pos (by decide)
  have hlt := probe_idx_lt (2 ^ e) hash j hpos
  rw [Nat.mod_eq_of_lt (by omega), Nat.and_pow_two_sub_one_eq_mod]
  unfold probe_idx
  rw [tri_succ, Nat.mod_add_mod, Nat.add_assoc]

theorem probe_idx_start (e hash : Nat) :
    hash &&& (2 ^ e - 1) = probe_idx (2 ^ e) hash 0 := by
  rw [Nat.and_pow_two_sub_one_eq_mod]
  rfl

theorem probe_loop_run {K V : Type} (m : UMap K V) (cmp : Option (K → K → Bool))
    (key : Option K) (hash e : Nat) (hcap : m.capacity = 2 ^ e) (hmax : m.capacity ≤ 2 ^ 31)
    (htot : ∀ i, ∃ b, probe_match cmp key hash (m.entries i) = .ok b)
    (n : Nat) (hn : n < m.capacity)
    (hhit : probe_hit m cmp key hash (probe_idx m.capacity hash n)) :
    ∀ fuel j, j ≤ n → n < j + fuel →
      (∀ i, j ≤ i → i < n → ¬ probe_hit m cmp key hash (probe_idx m.capacity hash i)) →
      probe_loop m cmp key hash fuel (probe_idx m.capacity hash j) (j + 1) =
        .ok (probe_idx m.capacity hash n) := by
  intro fuel
  induction fuel with
  | zero => intro j h1 h2; omega
  | succ fuel ih =>
    intro j h1 h2 hno
    rw [probe_loop]
    by_cases hjn : j = n
    · subst hjn
      rcases hhit with h0 | hm
      · simp [MAP_HASH_OF_EMPTY_ENTRY, h0]
      · by_cases h0 : (m.entries (probe_idx m.capacity hash j)).hash = 0
        · simp [MAP_HASH_OF_EMPTY_ENTRY, h0]
        · simp [MAP_HASH_OF_EMPTY_ENTRY, h0, hm]
    · have hlt : j < n := by omega
      have hnh := hno j (le_refl _) hlt
      have h0 : (m.entries (probe_idx m.capacity hash j)).hash ≠ 0 := fun h => hnh (Or.inl h)
      obtain ⟨b, hb⟩ := htot (probe_idx m.capacity hash j)
      have hbf : b = false := by
        cases b
        · rfl
        · exact (hnh (Or.inr hb)).elim
      subst hbf
      have hstep := probe_idx_step e hash j (hcap ▸ hmax) (hcap ▸ (by omega : j < m.capacity))
      have hinc : (j + 1 + 1) % 2 ^ 64 = j + 1 + 1 := Nat.mod_eq_of_lt (by omega)
      simp only [MAP_HASH_OF_EMPTY_ENTRY, h0, if_false, hb, hinc]
      rw [hcap, hstep, ← hcap]
      exact ih (j + 1) (by omega) (by omega) (fun i hi1 hi2 => hno i (by omega) hi2)

theorem probe_spec {K V : Type} (m : UMap K V) (cmp : Option (K → K → Bool))
    (key : Option K) (hash e : Nat) (hcap : m.capacity = 2 ^ e) (hmax : m.capacity ≤ 2 ^ 31)
    (htot : ∀ i, ∃ b, probe_match cmp key hash (m.entries i) = .ok b)
    (hempty : ∃ s, s < m.capacity ∧ (m.entries s).hash = 0) :
    ∃ n, n < m.capacity ∧ probe m cmp key hash = .ok (probe_idx m.capacity hash n) ∧
      probe_hit m cmp key hash (probe_idx m.capacity hash n) ∧
      ∀ j, j < n → ¬ probe_hit m cmp key hash (probe_idx m.capacity hash j) := by
  classical
  obtain ⟨s, hs, hs0⟩ := hempty
  obtain ⟨n0, hn0, hseq⟩ := probe_idx_surj e hash s (hcap ▸ hs)
  have hex : ∃ n, n < m.capacity ∧ probe_hit m cmp key hash (probe_idx m.capacity hash n) :=
    ⟨n0, hcap ▸ hn0, Or.inl (by rw [hcap, hseq]; exact hs0)⟩
  refine ⟨Nat.find hex, (Nat.find_spec hex).1, ?_, (Nat.find_spec hex).2, ?_⟩
  · have hstart : hash &&& (m.capacity - 1) = probe_idx m.capacity hash 0 := by
      rw [hcap]
      exact probe_idx_start e hash
    unfold probe
    rw [hstart]
    exact probe_loop_run m cmp key hash e hcap hmax htot _ (Nat.find_spec hex).1
      (Nat.find_spec hex).2 m.capacity 0 (Nat.zero_le _) (by have := (Nat.find_spec hex).1; omega)
      (fun i _ hi hh => Nat.find_min hex hi ⟨lt_trans hi (Nat.find_spec hex).1, hh⟩)
  · intro j hj hh
    exact Nat.find_min hex hj ⟨lt_trans hj (Nat.find_spec hex).1, hh⟩

theorem probe_match_total_none {K V : Type} (hash : Nat) (entry : UMapEntry K V) :
    probe_match none none hash entry = .ok false := rfl

theorem probe_match_total_some {K V : Type} (f : K → K → Bool) (k : K) (hash : Nat)
    (entry : UMapEntry K V) :
    probe_match (some f) (some k) hash entry = .ok (decide (entry.hash = hash) && f k entry.key) := by
  unfold probe_match
  by_cases h : entry.hash = hash <;> simp [h]

/-! ## The hash map: counting slots -/


theorem mem_slots {K V : Type} (entries : Nat → UMapEntry K V) (n : Nat) (p : Nat → Prop)
    [DecidablePred p] (i : Nat) : i ∈ slots entries n p ↔ i < n ∧ p (entries i).hash := by
  simp [slots]

theorem slots_split {K V : Type} (entries : Nat → UMapEntry K V) (n : Nat) (p : Nat → Prop)
    [DecidablePred p] (d : Nat) (hd : d < n) :
    (slots entries n p).card = (if p (entries d).hash then 1 else 0) +
      (((Finset.range n).erase d).filter (fun i => p (entries i).hash)).card := by
  unfold slots
  conv_lhs => rw [← Finset.insert_erase (Finset.mem_range.2 hd)]
  rw [Finset.filter_insert]
  by_cases h : p (entries d).hash
  · simp only [h, if_true]
    rw [Finset.card_insert_of_not_mem (by simp)]
    omega
  · simp [h]

theorem slots_update_card {K V : Type} (entries : Nat → UMapEntry K V) (n : Nat)
    (p : Nat → Prop) [DecidablePred p] (d : Nat) (hd : d < n) (x : UMapEntry K V) :
    (slots (Function.update entries d x) n p).card + (if p (entries d).hash then 1 else 0) =
      (slots entries n p).card + (if p x.hash then 1 else 0) := by
  rw [slots_split (Function.update entries d x) n p d hd, slots_split entries n p d hd]
  have hc : ((Finset.range n).erase d).filter (fun i => p (Function.update entries d x i).hash) =
      ((Finset.range n).erase d).filter (fun i => p (entries i).hash) := by
    apply Finset.filter_congr
    intro i hi
    rw [Function.update_noteq (Finset.ne_of_mem_erase hi)]
  rw [hc, Function.update_same]
  omega

theorem slots_card_mono {K V : Type} (entries : Nat → UMapEntry K V) (n : Nat)
    (p : Nat → Prop) [DecidablePred p] :
    (slots entries (n + 1) p).card =
      (slots entries n p).card + (if p (entries n).hash then 1 else 0) := by
  unfold slots
  rw [Finset.range_succ, Finset.filter_insert]
  by_cases h : p (entries n).hash
  · simp only [h, if_true]
    rw [Finset.card_insert_of_not_mem (by simp)]
  · simp [h]

theorem slots_card_le {K V : Type} (entries : Nat → UMapEntry K V) (p : Nat → Prop)
    [DecidablePred p] {n k : Nat} (h : n ≤ k) :
    (slots entries n p).card ≤ (slots entries k p).card := by
  induction h with
  | refl => exact le_refl _
  | step _ ih => rw [slots_card_mono]; omega

theorem exists_empty_slot {K V : Type} (entries : Nat → UMapEntry K V) (n : Nat)
    (h : (slots entries n (fun h => 2 ≤ h)).card + (slots entries n (fun h => h = 1)).card < n) :
    ∃ s, s < n ∧ (entries s).hash = 0 := by
  by_contra hne
  push_neg at hne
  have hsub : Finset.range n ⊆ slots entries n (fun h => 2 ≤ h) ∪ slots entries n (fun h => h = 1) := by
    intro i hi
    have hi' := Finset.mem_range.1 hi
    have := hne i hi'
    rw [Finset.mem_union, mem_slots, mem_slots]
    by_cases h2 : 2 ≤ (entries i).hash
    · exact Or.inl ⟨hi', h2⟩
    · exact Or.inr ⟨hi', by omega⟩
  have h1 := Finset.card_le_card hsub
  have h2 := Finset.card_union_le (slots entries n (fun h => 2 ≤ h)) (slots entries n (fun h => h = 1))
  rw [Finset.card_range] at h1
  omega

theorem umap_inv_empty_slot {K V : Type} (m : UMap K V) (hinv : UMapInv m) :
    ∃ s, s < m.capacity ∧ (m.entries s).hash = 0 := by
  apply exists_empty_slot
  rw [← hinv.count_eq, ← hinv.tomb_eq]
  have h1 := hinv.load
  have h2 := hinv.cap_min
  omega

/-! ## The hash map: one slot rewritten -/


theorem reachable_update_other {K V : Type} (m : UMap K V) (d : Nat) (x : UMapEntry K V)
    (hkeep : (m.entries d).hash ≠ 0 → x.hash ≠ 0) (i : Nat) (hid : i ≠ d)
    (h : ProbeReachable m i) :
    ProbeReachable { m with entries := Function.update m.entries d x } i := by
  obtain ⟨n, hn, hidx, hpre⟩ := h
  have e1 : Function.update m.entries d x i = m.entries i := Function.update_noteq hid _ _
  refine ⟨n, hn, ?_, ?_⟩
  · show probe_idx m.capacity (Function.update m.entries d x i).hash n = i
    rw [e1]
    exact hidx
  · intro j hj
    show (Function.update m.entries d x
      (probe_idx m.capacity (Function.update m.entries d x i).hash j)).hash ≠ 0
    rw [e1]
    by_cases hjd : probe_idx m.capacity (m.entries i).hash j = d
    · rw [hjd, Function.update_same]
      apply hkeep
      rw [← hjd]
      exact hpre j hj
    · rw [Function.update_noteq hjd]
      exact hpre j hj

theorem reachable_update_same {K V : Type} (m : UMap K V) (d : Nat) (x : UMapEntry K V)
    (hx : x.hash ≠ 0) (n : Nat) (hn : n < m.capacity)
    (hidx : probe_idx m.capacity x.hash n = d)
    (hpre : ∀ j, j < n → (m.entries (probe_idx m.capacity x.hash j)).hash ≠ 0) :
    ProbeReachable { m with entries := Function.update m.entries d x } d := by
  have e1 : Function.update m.entries d x d = x := Function.update_same _ _ _
  refine ⟨n, hn, ?_, ?_⟩
  · show probe_idx m.capacity (Function.update m.entries d x d).hash n = d
    rw [e1]
    exact hidx
  · intro j hj
    show (Function.update m.entries d x
      (probe_idx m.capacity (Function.update m.entries d x d).hash j)).hash ≠ 0
    rw [e1]
    by_cases hjd : probe_idx m.capacity x.hash j = d
    · rw [hjd, Function.update_same]
      exact hx
    · rw [Function.update_noteq hjd]
      exact hpre j hj

/-- The probe for a key: it returns, at the entry of the key when the table has
one, and else at an empty slot that the probe reaches over non-empty slots. -/
theorem probe_key_spec {K V : Type} (m : UMap K V) (hinv : UMapInv m) (k : K) :
    ∃ n, n < m.capacity ∧
      probe m (some m.schema.cmp) (some k) (max (m.schema.hasher k) 2) =
        .ok (probe_idx m.capacity (max (m.schema.hasher k) 2) n) ∧
      (∀ j, j < n →
        (m.entries (probe_idx m.capacity (max (m.schema.hasher k) 2) j)).hash ≠ 0) ∧
      ((2 ≤ (m.entries (probe_idx m.capacity (max (m.schema.hasher k) 2) n)).hash ∧
          (m.entries (probe_idx m.capacity (max (m.schema.hasher k) 2) n)).key = k) ∨
        ((m.entries (probe_idx m.capacity (max (m.schema.hasher k) 2) n)).hash = 0 ∧
          ∀ i, i < m.capacity → 2 ≤ (m.entries i).hash → (m.entries i).key ≠ k)) := by
  obtain ⟨e, he⟩ := hinv.pow2
  obtain ⟨n, hn, hrun, hhit, hmin⟩ :=
    probe_spec m (some m.schema.cmp) (some k) (max (m.schema.hasher k) 2) e he hinv.cap_max
      (fun i => ⟨_, probe_match_total_some _ _ _ _⟩) (umap_inv_empty_slot m hinv)
  refine ⟨n, hn, hrun, fun j hj h0 => hmin j hj (Or.inl h0), ?_⟩
  rcases hhit with h0 | hm
  · right
    refine ⟨h0, ?_⟩
    intro i hi hfill hkey
    obtain ⟨n', hn', hidx', hpre'⟩ := hinv.reach i hi hfill
    have hh : (m.entries i).hash = max (m.schema.hasher k) 2 := by
      rw [hinv.hash_ok i hi hfill, hkey]
    rw [hh] at hidx' hpre'
    have hhit' : probe_hit m (some m.schema.cmp) (some k) (max (m.schema.hasher k) 2)
        (probe_idx m.capacity (max (m.schema.hasher k) 2) n') := by
      right
      rw [probe_match_total_some, hidx', hh]
      simp [(hinv.lawful k (m.entries i).key).2 hkey.symm]
    rcases Nat.lt_trichotomy n n' with hlt | heq | hgt
    · exact hpre' n hlt h0
    · rw [heq, hidx'] at h0
      omega
    · exact hmin n' hgt hhit'
  · left
    rw [probe_match_total_some] at hm
    simp only [Except.ok.injEq, Bool.and_eq_true, decide_eq_true_eq] at hm
    refine ⟨?_, ((hinv.lawful _ _).1 hm.2).symm⟩
    rw [hm.1]
    exact le_max_right _ _

/-- The rewrite of one slot keeps the invariant, when the new entry keeps the
slot non-empty, is well formed if filled, and the counters follow. -/
theorem umap_inv_update {K V : Type} (m : UMap K V) (hinv : UMapInv m) (d : Nat)
    (hd : d < m.capacity) (x : UMapEntry K V) (count tomb_count : Nat)
    (hkeep : (m.entries d).hash ≠ 0 → x.hash ≠ 0)
    (hhash : 2 ≤ x.hash → x.hash = max (m.schema.hasher x.key) 2)
    (hkey : 2 ≤ x.hash → ∀ j, j < m.capacity → j ≠ d → 2 ≤ (m.entries j).hash →
      (m.entries j).key ≠ x.key)
    (hreach : 2 ≤ x.hash → ∃ n, n < m.capacity ∧ probe_idx m.capacity x.hash n = d ∧
      ∀ j, j < n → (m.entries (probe_idx m.capacity x.hash j)).hash ≠ 0)
    (hcount : count + (if 2 ≤ (m.entries d).hash then 1 else 0) =
      m.count + (if 2 ≤ x.hash then 1 else 0))
    (htomb : tomb_count + (if (m.entries d).hash = 1 then 1 else 0) =
      m.tomb_count + (if x.hash = 1 then 1 else 0))
    (hload : count + tomb_count ≤ m.capacity * 70 / 100 + 1) :
    UMapInv { m with count := count, tomb_count := tomb_count,
                     entries := Function.update m.entries d x } := by
  refine ⟨hinv.lawful, hinv.pow2, hinv.cap_min, hinv.cap_max, ?_, ?_, ?_, ?_, ?_, hload⟩
  · intro i hi hf
    by_cases hid : i = d
    · subst hid
      simp only [Function.update_same] at hf ⊢
      exact hhash hf
    · simp only [Function.update_noteq hid] at hf ⊢
      exact hinv.hash_ok i hi hf
  · intro i j hi hj hfi hfj hk
    by_cases hid : i = d
    · by_cases hjd : j = d
      · rw [hid, hjd]
      · subst hid
        simp only [Function.update_same, Function.update_noteq hjd] at hfi hfj hk
        exact (hkey hfi j hj hjd hfj hk.symm).elim
    · by_cases hjd : j = d
      · subst hjd
        simp only [Function.update_same, Function.update_noteq hid] at hfi hfj hk
        exact (hkey hfj i hi hid hfi hk).elim
      · simp only [Function.update_noteq hid, Function.update_noteq hjd] at hfi hfj hk
        exact hinv.distinct i j hi hj hfi hfj hk
  · intro i hi hf
    by_cases hid : i = d
    · subst hid
      simp only [Function.update_same] at hf
      obtain ⟨n, hn, hidx, hpre⟩ := hreach hf
      have := reachable_update_same m i x (by omega) n hn hidx hpre
      exact this
    · simp only [Function.update_noteq hid] at hf
      have := reachable_update_other m d x hkeep i hid (hinv.reach i hi hf)
      exact this
  · have h := slots_update_card m.entries m.capacity (fun h => 2 ≤ h) d hd x
    have hc := hinv.count_eq
    simp only at h ⊢
    omega
  · have h := slots_update_card m.entries m.capacity (fun h => h = 1) d hd x
    have hc := hinv.tomb_eq
    simp only at h ⊢
    omega

/-! ## The hash map: rehash -/


theorem rehash_loop_fields {K V : Type} (old m0 : UMap K V) :
    ∀ n m, rehash_loop old m0 n = .ok m →
      m.capacity = m0.capacity ∧ m.count = m0.count ∧ m.tomb_count = m0.tomb_count ∧
        m.schema = m0.schema ∧ m.shrink_on_del = m0.shrink_on_del := by
  intro n
  induction n with
  | zero =>
    intro m h
    simp only [rehash_loop, Except.ok.injEq] at h
    subst h
    exact ⟨rfl, rfl, rfl, rfl, rfl⟩
  | succ n ih =>
    intro m h
    rw [rehash_loop] at h
    rcases hr : rehash_loop old m0 n with e | m1
    · rw [hr] at h; cases h
    · rw [hr] at h
      have ih1 := ih m1 hr
      simp only at h
      split at h
      · rcases hp : probe m1 none none (old.entries n).hash with e | dst
        · rw [hp] at h; cases h
        · rw [hp] at h
          simp only [Except.ok.injEq] at h
          subst h
          exact ih1
      · simp only [Except.ok.injEq] at h
        subst h
        exact ih1

theorem slots_card_zero {K V : Type} (entries : Nat → UMapEntry K V) (n : Nat)
    (p : Nat → Prop) [DecidablePred p] (h : ∀ i, i < n → ¬ p (entries i).hash) :
    (slots entries n p).card = 0 := by
  rw [Finset.card_eq_zero, slots, Finset.filter_eq_empty_iff]
  intro i hi
  exact h i (Finset.mem_range.1 hi)

theorem rehash_inv_zero {K V : Type} (old m0 : UMap K V)
    (hzero : ∀ i, (m0.entries i).hash = 0) : RehashInv old m0 0 := by
  refine ⟨?_, ?_, ?_, ?_, ?_, ?_⟩
  · intro s _ h; rw [hzero] at h; omega
  · intro s _ h; rw [hzero] at h; omega
  · intro i hi; omega
  · intro i j _ _ h; rw [hzero] at h; omega
  · intro s _ h; rw [hzero] at h; omega
  · rw [slots_card_zero, slots_card_zero]
    · intro i hi; omega
    · intro i _ h; rw [hzero] at h; omega

theorem rehash_inv_skip {K V : Type} (old m : UMap K V) (n : Nat)
    (h : RehashInv old m n) (hn : ¬ 2 ≤ (old.entries n).hash) : RehashInv old m (n + 1) := by
  refine ⟨h.no_tomb, ?_, ?_, h.distinct, h.reach, ?_⟩
  · intro s hs hf
    obtain ⟨i, hi, hfi, he⟩ := h.origin s hs hf
    exact ⟨i, by omega, hfi, he⟩
  · intro i hi hf
    have : i ≠ n := fun hin => hn (hin ▸ hf)
    exact h.placed i (by omega) hf
  · rw [h.card, slots_card_mono]
    simp [hn]

theorem rehash_inv_copy {K V : Type} (old m : UMap K V) (n : Nat)
    (hdist : ∀ i j, i < old.capacity → j < old.capacity → 2 ≤ (old.entries i).hash →
      2 ≤ (old.entries j).hash → (old.entries i).key = (old.entries j).key → i = j)
    (hnc : n < old.capacity)
    (h : RehashInv old m n) (hn : 2 ≤ (old.entries n).hash) (k : Nat) (hk : k < m.capacity)
    (hempty : (m.entries (probe_idx m.capacity (old.entries n).hash k)).hash = 0)
    (hpre : ∀ j, j < k → (m.entries (probe_idx m.capacity (old.entries n).hash j)).hash ≠ 0) :
    RehashInv old
      { m with entries := Function.update m.entries
                 (probe_idx m.capacity (old.entries n).hash k) (old.entries n) } (n + 1) := by
  have hd : probe_idx m.capacity (old.entries n).hash k < m.capacity :=
    probe_idx_lt _ _ _ (by omega)
  generalize hdst : probe_idx m.capacity (old.entries n).hash k = dst at hempty hd
  refine ⟨?_, ?_, ?_, ?_, ?_, ?_⟩
  · intro s hs
    show (Function.update m.entries dst (old.entries n) s).hash ≠ 1
    by_cases hsd : s = dst
    · rw [hsd, Function.update_same]; omega
    · rw [Function.update_noteq hsd]; exact h.no_tomb s hs
  · intro s hs
    show 2 ≤ (Function.update m.entries dst (old.entries n) s).hash →
      ∃ i, i < n + 1 ∧ 2 ≤ (old.entries i).hash ∧
        Function.update m.entries dst (old.entries n) s = old.entries i
    by_cases hsd : s = dst
    · rw [hsd, Function.update_same]
      intro _
      exact ⟨n, by omega, hn, rfl⟩
    · rw [Function.update_noteq hsd]
      intro hf
      obtain ⟨i, hi, hfi, he⟩ := h.origin s hs hf
      exact ⟨i, by omega, hfi, he⟩
  · intro i hi hf
    show ∃ s, s < m.capacity ∧ Function.update m.entries dst (old.entries n) s = old.entries i
    by_cases hin : i = n
    · exact ⟨dst, hd, by rw [Function.update_same, hin]⟩
    · obtain ⟨s, hs, he⟩ := h.placed i (by omega) hf
      have hsd : s ≠ dst := by
        intro hsd
        rw [hsd] at he
        rw [he] at hempty
        omega
      exact ⟨s, hs, by rw [Function.update_noteq hsd]; exact he⟩
  · have key : ∀ j, j < m.capacity → j ≠ dst → 2 ≤ (m.entries j).hash →
        (m.entries j).key ≠ (old.entries n).key := by
      intro j hj _ hf hkey
      obtain ⟨i, hi, hfi, he⟩ := h.origin j hj hf
      rw [he] at hkey
      have := hdist i n (by omega) hnc hfi hn hkey
      omega
    intro i j hi hj
    show 2 ≤ (Function.update m.entries dst (old.entries n) i).hash →
      2 ≤ (Function.update m.entries dst (old.entries n) j).hash →
      (Function.update m.entries dst (old.entries n) i).key =
        (Function.update m.entries dst (old.entries n) j).key → i = j
    by_cases hid : i = dst
    · by_cases hjd : j = dst
      · intro _ _ _; rw [hid, hjd]
      · rw [hid, Function.update_same, Function.update_noteq hjd]
        intro _ hfj hk
        exact (key j hj hjd hfj hk.symm).elim
    · by_cases hjd : j = dst
      · rw [hjd, Function.update_same, Function.update_noteq hid]
        intro hfi _ hk
        exact (key i hi hid hfi hk).elim
      · rw [Function.update_noteq hid, Function.update_noteq hjd]
        exact h.distinct i j hi hj
  · intro s hs
    show 2 ≤ (Function.update m.entries dst (old.entries n) s).hash → _
    by_cases hsd : s = dst
    · intro _
      rw [hsd]
      exact reachable_update_same m dst (old.entries n) (by omega) k hk hdst hpre
    · rw [Function.update_noteq hsd]
      intro hf
      exact reachable_update_other m dst (old.entries n) (fun _ => by omega) s hsd
        (h.reach s hs hf)
  · have h1 := slots_update_card m.entries m.capacity (fun h => 2 ≤ h) dst hd (old.entries n)
    have h2 := slots_card_mono old.entries n (fun h => 2 ≤ h)
    have h3 := h.card
    simp only [hn, if_true, hempty] at h1 h2
    have h1' : (slots (Function.update m.entries dst (old.entries n)) m.capacity
        (fun h => 2 ≤ h)).card = (slots m.entries m.capacity (fun h => 2 ≤ h)).card + 1 := by
      simpa using h1
    show (slots (Function.update m.entries dst (old.entries n)) m.capacity
      (fun h => 2 ≤ h)).card = _
    rw [h2, ← h3]
    exact h1'

theorem rehash_loop_inv {K V : Type} (old m0 : UMap K V) (e : Nat)
    (hcap : m0.capacity = 2 ^ e) (hmax : m0.capacity ≤ 2 ^ 31)
    (hzero : ∀ i, (m0.entries i).hash = 0)
    (hdist : ∀ i j, i < old.capacity → j < old.capacity → 2 ≤ (old.entries i).hash →
      2 ≤ (old.entries j).hash → (old.entries i).key = (old.entries j).key → i = j)
    (hcount : (slots old.entries old.capacity (fun h => 2 ≤ h)).card ≤ m0.capacity) :
    ∀ n, n ≤ old.capacity → ∃ m, rehash_loop old m0 n = .ok m ∧ RehashInv old m n := by
  intro n
  induction n with
  | zero => intro _; exact ⟨m0, rfl, rehash_inv_zero old m0 hzero⟩
  | succ n ih =>
    intro hn
    obtain ⟨m, hr, hI⟩ := ih (by omega)
    have hf := (rehash_loop_fields old m0 n m hr).1
    rw [rehash_loop, hr]
    by_cases hfill : 2 ≤ (old.entries n).hash
    · have hempty : ∃ s, s < m.capacity ∧ (m.entries s).hash = 0 := by
        apply exists_empty_slot
        rw [slots_card_zero m.entries m.capacity (fun h => h = 1) hI.no_tomb, hI.card, hf]
        have h1 := slots_card_mono old.entries n (fun h => 2 ≤ h)
        simp only [hfill, if_true] at h1
        have h2 := slots_card_le old.entries (fun h => 2 ≤ h) (by omega : n + 1 ≤ old.capacity)
        rw [h1] at h2
        exact lt_of_lt_of_le (Nat.lt_of_succ_le h2) hcount
      obtain ⟨k, hk, hrun, hhit, hmin⟩ :=
        probe_spec m none none (old.entries n).hash e (hf ▸ hcap) (hf ▸ hmax)
          (fun i => ⟨false, rfl⟩) hempty
      have h0 : (m.entries (probe_idx m.capacity (old.entries n).hash k)).hash = 0 := by
        rcases hhit with h0 | hm
        · exact h0
        · simp [probe_match] at hm
      simp only [MAP_HASH_OF_FILLED_ENTRY, hfill, if_true, hrun]
      exact ⟨_, rfl, rehash_inv_copy old m n hdist (by omega) hI hfill k hk h0
        (fun j hj hz => hmin j hj (Or.inl hz))⟩
    · simp only [MAP_HASH_OF_FILLED_ENTRY, hfill, if_false]
      exact ⟨m, rfl, rehash_inv_skip old m n hI hfill⟩

/-- The table after `rehash`: it returns, the new table satisfies the invariant
and holds the same pairs, without tombstones. -/
theorem rehash_spec {K V : Type} [Inhabited K] [Inhabited V] (m : UMap K V)
    (hinv : UMapInv m) (new_cap e : Nat) (he : new_cap = 2 ^ e) (hmin : 16 ≤ new_cap)
    (hmax : new_cap ≤ 2 ^ 31) (hload : m.count ≤ new_cap * 70 / 100) :
    ∃ m', rehash m new_cap = .ok m' ∧ UMapInv m' ∧ (∀ k v, m'.holds k v ↔ m.holds k v) ∧
      m'.count = m.count ∧ m'.tomb_count = 0 ∧ m'.capacity = new_cap ∧
      m'.shrink_on_del = m.shrink_on_del := by
  have hc : (slots m.entries m.capacity (fun h => 2 ≤ h)).card ≤ new_cap := by
    rw [← hinv.count_eq]; omega
  obtain ⟨m', hr, hI⟩ := rehash_loop_inv m
    { m with tomb_count := 0, capacity := new_cap, entries := fun _ => UMapEntry.zeroed } e
    he hmax (fun _ => rfl) hinv.distinct hc m.capacity (le_refl _)
  obtain ⟨f1, f2, f3, f4, f5⟩ := rehash_loop_fields _ _ _ _ hr
  simp only at f1 f2 f3 f4 f5
  refine ⟨m', hr, ⟨?_, ?_, ?_, ?_, ?_, hI.distinct, hI.reach, ?_, ?_, ?_⟩, ?_, f2, f3, f1, f5⟩
  · rw [f4]; exact hinv.lawful
  · exact ⟨e, by rw [f1, he]⟩
  · omega
  · omega
  · intro s hs hf
    obtain ⟨i, hi, hfi, heq⟩ := hI.origin s hs hf
    rw [heq, f4]
    exact hinv.hash_ok i hi hfi
  · rw [f2, hinv.count_eq]
    exact hI.card.symm
  · rw [f3, slots_card_zero m'.entries m'.capacity (fun h => h = 1) hI.no_tomb]
  · rw [f2, f3, f1]; omega
  · intro k v
    constructor
    · rintro ⟨s, hs, hf, hk, hv⟩
      obtain ⟨i, hi, hfi, heq⟩ := hI.origin s hs hf
      exact ⟨i, hi, hfi, by rw [← heq]; exact hk, by rw [← heq]; exact hv⟩
    · rintro ⟨i, hi, hf, hk, hv⟩
      obtain ⟨s, hs, heq⟩ := hI.placed i hi hf
      exact ⟨s, hs, by rw [heq]; exact hf, by rw [heq]; exact hk, by rw [heq]; exact hv⟩

/-! ## The hash map: growth and shrinking -/


theorem holds_update {K V : Type} (m m' : UMap K V) (d : Nat) (x : UMapEntry K V)
    (hd : d < m.capacity) (hcap : m'.capacity = m.capacity)
    (hent : m'.entries = Function.update m.entries d x) (k : K) (v : V) :
    m'.holds k v ↔ (2 ≤ x.hash ∧ x.key = k ∧ x.val = v) ∨
      ∃ i, i < m.capacity ∧ i ≠ d ∧ 2 ≤ (m.entries i).hash ∧ (m.entries i).key = k ∧
        (m.entries i).val = v := by
  unfold UMap.holds
  rw [hcap, hent]
  constructor
  · rintro ⟨i, hi, hf, hk, hv⟩
    by_cases hid : i = d
    · subst hid
      rw [Function.update_same] at hf hk hv
      exact Or.inl ⟨hf, hk, hv⟩
    · rw [Function.update_noteq hid] at hf hk hv
      exact Or.inr ⟨i, hi, hid, hf, hk, hv⟩
  · rintro (⟨hf, hk, hv⟩ | ⟨i, hi, hid, hf, hk, hv⟩)
    · exact ⟨d, hd, by rw [Function.update_same]; exact ⟨hf, hk, hv⟩⟩
    · exact ⟨i, hi, by rw [Function.update_noteq hid]; exact ⟨hf, hk, hv⟩⟩

theorem holds_iff_of_slot {K V : Type} (m : UMap K V) (hinv : UMapInv m) (i : Nat)
    (hi : i < m.capacity) (hf : 2 ≤ (m.entries i).hash) (v : V) :
    m.holds (m.entries i).key v ↔ (m.entries i).val = v := by
  constructor
  · rintro ⟨j, hj, hfj, hk, hv⟩
    have := hinv.distinct j i hj hi hfj hf hk
    rw [← this]
    exact hv
  · intro hv
    exact ⟨i, hi, hf, rfl, hv⟩

theorem pow2_half {cap e : Nat} (he : cap = 2 ^ e) (h : 16 < cap) :
    ∃ e', cap / 2 = 2 ^ e' ∧ 16 ≤ cap / 2 := by
  have h5 : 5 ≤ e := by
    by_contra hlt
    have : 2 ^ e ≤ 2 ^ 4 := Nat.pow_le_pow_right (by decide) (by omega)
    omega
  obtain ⟨e', rfl⟩ : ∃ e', e = e' + 1 := ⟨e - 1, by omega⟩
  have h4 : 2 ^ 4 ≤ 2 ^ e' := Nat.pow_le_pow_right (by decide) (by omega)
  rw [pow_succ] at he
  exact ⟨e', by omega, by omega⟩

/-- The table after `maybe_grow`: it returns, keeps the pairs and leaves room
for one more entry. -/
theorem maybe_grow_spec {K V : Type} [Inhabited K] [Inhabited V] (m : UMap K V)
    (hinv : UMapInv m) (hbound : 3 * m.count ≤ 2 ^ 31) :
    ∃ m', maybe_grow m = .ok m' ∧ UMapInv m' ∧ (∀ k v, m'.holds k v ↔ m.holds k v) ∧
      m'.count = m.count ∧ m'.count + m'.tomb_count ≤ m'.capacity * 70 / 100 ∧
      m'.shrink_on_del = m.shrink_on_del := by
  have hmin := hinv.cap_min
  have hmax := hinv.cap_max
  have hload := hinv.load
  obtain ⟨e, he⟩ := hinv.pow2
  have h64 : m.capacity * 70 < 2 ^ 64 := by omega
  unfold maybe_grow safe_mul
  simp only [MAX_LOAD, h64, if_true]
  by_cases hl : m.count + m.tomb_count > m.capacity * 70 / 100
  · simp only [hl, if_true]
    by_cases hc : m.count > m.capacity * 70 / 100
    · have h32 : 2 * m.capacity < 2 ^ 32 := by omega
      simp only [hc, if_true, h32]
      obtain ⟨m', hr, hinv', hh, h1, h2, h3, h4⟩ :=
        rehash_spec m hinv (2 * m.capacity) (e + 1) (by rw [he, pow_succ, Nat.mul_comm])
          (by omega) (by omega) (by omega)
      exact ⟨m', hr, hinv', hh, h1, by rw [h1, h2, h3]; omega, h4⟩
    · simp only [hc, if_false]
      obtain ⟨m', hr, hinv', hh, h1, h2, h3, h4⟩ :=
        rehash_spec m hinv m.capacity e he hmin hmax (by omega)
      exact ⟨m', hr, hinv', hh, h1, by rw [h1, h2, h3]; omega, h4⟩
  · simp only [hl, if_false]
    exact ⟨m, rfl, hinv, fun _ _ => Iff.rfl, rfl, by omega, rfl⟩

/-- The table after `maybe_shrink`: it returns and keeps the pairs. -/
theorem maybe_shrink_spec {K V : Type} [Inhabited K] [Inhabited V] (m : UMap K V)
    (hinv : UMapInv m) :
    ∃ m', maybe_shrink m = .ok m' ∧ UMapInv m' ∧ (∀ k v, m'.holds k v ↔ m.holds k v) ∧
      m'.count = m.count ∧ m'.shrink_on_del = m.shrink_on_del := by
  have hmax := hinv.cap_max
  obtain ⟨e, he⟩ := hinv.pow2
  unfold maybe_shrink
  by_cases hc : m.capacity ≤ 16
  · simp only [MIN_CAPACITY, hc, if_true]
    exact ⟨m, rfl, hinv, fun _ _ => Iff.rfl, rfl, rfl⟩
  · have h64 : m.capacity * 20 < 2 ^ 64 := by omega
    simp only [MIN_CAPACITY, hc, if_false, safe_mul, MIN_LOAD, h64, if_true]
    by_cases hl : m.count < m.capacity * 20 / 100
    · simp only [hl, if_true]
      obtain ⟨e', he', h16⟩ := pow2_half he (by omega)
      obtain ⟨m', hr, hinv', hh, h1, _, _, h4⟩ :=
        rehash_spec m hinv (m.capacity / 2) e' he' h16 (by omega) (by omega)
      exact ⟨m', hr, hinv', hh, h1, h4⟩
    · simp only [hl, if_false]
      exact ⟨m, rfl, hinv, fun _ _ => Iff.rfl, rfl, rfl⟩

/-! ## The hash map: the three entry points -/


theorem holds_update_fields {K V : Type} (m : UMap K V) (count tomb_count d : Nat)
    (x : UMapEntry K V) (hd : d < m.capacity) (k : K) (v : V) :
    UMap.holds { m with count := count, tomb_count := tomb_count,
                        entries := Function.update m.entries d x } k v ↔
      (2 ≤ x.hash ∧ x.key = k ∧ x.val = v) ∨
        ∃ i, i < m.capacity ∧ i ≠ d ∧ 2 ≤ (m.entries i).hash ∧ (m.entries i).key = k ∧
          (m.entries i).val = v :=
  holds_update m { m with count := count, tomb_count := tomb_count,
                          entries := Function.update m.entries d x } d x hd rfl rfl k v

theorem holds_iff_of_key {K V : Type} (m : UMap K V) (hinv : UMapInv m) (i : Nat)
    (hi : i < m.capacity) (hf : 2 ≤ (m.entries i).hash) (k : K)
    (hk : (m.entries i).key = k) (v : V) : m.holds k v ↔ (m.entries i).val = v := by
  subst hk
  exact holds_iff_of_slot m hinv i hi hf v

/-- The outcome of `umap_get`: it returns, with the slot of the filled entry of
the key when the table has one, and with the null pointer else. -/
theorem umap_get_spec {K V : Type} (m : UMap K V) (hinv : UMapInv m) (k : K) :
    (∃ idx, umap_get m k = .ok (some idx) ∧ idx < m.capacity ∧ 2 ≤ (m.entries idx).hash ∧
        (m.entries idx).key = k) ∨
      (umap_get m k = .ok none ∧ ∀ v, ¬ m.holds k v) := by
  obtain ⟨n, hn, hrun, _, hcase⟩ := probe_key_spec m hinv k
  have hd : probe_idx m.capacity (max (m.schema.hasher k) 2) n < m.capacity :=
    probe_idx_lt _ _ _ (by omega)
  unfold umap_get
  simp only [MAP_HASH_OF_FILLED_ENTRY, hrun]
  rcases hcase with ⟨hf, hk⟩ | ⟨h0, hno⟩
  · left
    refine ⟨_, ?_, hd, hf, hk⟩
    rw [if_neg (by omega)]
  · right
    refine ⟨by rw [if_pos (by omega)], ?_⟩
    rintro v ⟨i, hi, hfi, hki, _⟩
    exact hno i hi hfi hki

theorem slots_card_pos {K V : Type} (entries : Nat → UMapEntry K V) (n : Nat)
    (p : Nat → Prop) [DecidablePred p] (d : Nat) (hd : d < n) (h : p (entries d).hash) :
    0 < (slots entries n p).card :=
  Finset.card_pos.2 ⟨d, (mem_slots entries n p d).2 ⟨hd, h⟩⟩

/-- The outcome of `umap_add`: it returns the slot of a filled entry of the key,
keeps the invariant and the entries of the other keys, and reports whether the
key was there. -/
theorem umap_add_spec {K V : Type} [Inhabited K] [Inhabited V] (m : UMap K V)
    (hinv : UMapInv m) (k : K) (hbound : 3 * m.count ≤ 2 ^ 31) :
    ∃ m' idx found, umap_add m k = .ok (m', idx, found) ∧ UMapInv m' ∧
      idx < m'.capacity ∧ 2 ≤ (m'.entries idx).hash ∧ (m'.entries idx).key = k ∧
      (∀ k' v, k' ≠ k → (m'.holds k' v ↔ m.holds k' v)) ∧
      (found = true → ∀ v, m'.holds k v ↔ m.holds k v) ∧
      (found = true ↔ ∃ v, m.holds k v) ∧
      m'.count ≤ m.count + 1 ∧ m'.shrink_on_del = m.shrink_on_del ∧
      (found = true → m'.count = m.count) ∧ (found = false → m'.count = m.count + 1) := by
  obtain ⟨m1, hg, hinv1, hh1, hc1, hl1, hs1⟩ := maybe_grow_spec m hinv hbound
  obtain ⟨n, hn, hrun, hpre, hcase⟩ := probe_key_spec m1 hinv1 k
  have hd : probe_idx m1.capacity (max (m1.schema.hasher k) 2) n < m1.capacity :=
    probe_idx_lt _ _ _ (by omega)
  have hmax := hinv1.cap_max
  unfold umap_add
  simp only [hg, MAP_HASH_OF_FILLED_ENTRY, hrun]
  generalize hidx : probe_idx m1.capacity (max (m1.schema.hasher k) 2) n = idx at *
  rcases hcase with ⟨hf, hk⟩ | ⟨h0, hno⟩
  · simp only [hf, decide_True, Bool.not_true]
    refine ⟨m1, idx, true, rfl, hinv1, hd, hf, hk, fun k' v _ => hh1 k' v,
      fun _ v => hh1 k v, ?_, by omega, hs1, fun _ => hc1, fun h => (by cases h)⟩
    simp only [true_iff]
    exact ⟨_, (hh1 k _).1 ⟨idx, hd, hf, hk, rfl⟩⟩
  · have hnf : ¬ 2 ≤ (m1.entries idx).hash := by omega
    have hcnt : (m1.count + 1) % 2 ^ 64 = m1.count + 1 := Nat.mod_eq_of_lt (by omega)
    simp only [hnf, decide_False, Bool.not_false, if_true, hcnt]
    have hinv' := umap_inv_update m1 hinv1 idx hd
      { m1.entries idx with hash := max (m1.schema.hasher k) 2, key := k }
      (m1.count + 1) m1.tomb_count
      (fun h => (h h0).elim) (fun _ => rfl)
      (fun _ j hj _ hfj => hno j hj hfj)
      (fun _ => ⟨n, hn, hidx, hpre⟩)
      (by simp only [hnf, if_false, le_max_right, if_true, Nat.add_zero])
      (by
        have : ¬ (max (m1.schema.hasher k) 2 = 1) := by
          have := le_max_right (m1.schema.hasher k) 2
          omega
        simp only [h0, this, if_false]
        rfl)
      (by omega)
    refine ⟨_, idx, false, rfl, hinv', hd, ?_, ?_, ?_, ?_, ?_, by simp only; omega, hs1,
      fun h => (by cases h), fun _ => (by simp only; omega)⟩
    · simp only [Function.update_same]
      exact le_max_right _ _
    · simp only [Function.update_same]
    · intro k' v hk'
      rw [holds_update_fields m1 _ _ idx _ hd k' v, ← hh1 k' v]
      constructor
      · rintro (⟨_, hk, _⟩ | ⟨i, hi, _, hf, hki, hv⟩)
        · exact (hk' hk.symm).elim
        · exact ⟨i, hi, hf, hki, hv⟩
      · rintro ⟨i, hi, hf, hki, hv⟩
        refine Or.inr ⟨i, hi, ?_, hf, hki, hv⟩
        intro hid
        rw [hid] at hf
        omega
    · intro h; cases h
    · simp only [false_iff, Bool.false_eq_true]
      rintro ⟨v, hv⟩
      obtain ⟨i, hi, hf, hki, _⟩ := (hh1 k v).2 hv
      exact hno i hi hf hki

/-- The write of a value into a filled entry keeps the invariant. -/
theorem umap_inv_set_val {K V : Type} (m : UMap K V) (hinv : UMapInv m) (idx : Nat)
    (hd : idx < m.capacity) (v : V) :
    UMapInv { m with entries := Function.update m.entries idx { m.entries idx with val := v } } :=
  umap_inv_update m hinv idx hd { m.entries idx with val := v } m.count m.tomb_count
    (fun h => h) (fun hf => hinv.hash_ok idx hd hf)
    (fun hf j hj hjd hfj hk => hjd (hinv.distinct j idx hj hd hfj hf hk))
    (fun hf => hinv.reach idx hd hf) rfl rfl hinv.load

/-- The outcome of `map_add`: it returns, the key then has the value, and the
other keys keep theirs. -/
theorem map_add_spec {K V : Type} [Inhabited K] [Inhabited V] (m : UMap K V)
    (hinv : UMapInv m) (k : K) (val : V) (hbound : 3 * m.count ≤ 2 ^ 31) :
    ∃ m', m.map_add k val = .ok m' ∧ UMapInv m' ∧
      (∀ v, m'.holds k v ↔ val = v) ∧
      (∀ k' v, k' ≠ k → (m'.holds k' v ↔ m.holds k' v)) ∧
      m'.count ≤ m.count + 1 := by
  obtain ⟨m1, idx, found, hrun, hinv1, hd, hf, hk, hother, _, _, hcnt, _⟩ :=
    umap_add_spec m hinv k hbound
  unfold UMap.map_add
  simp only [hrun]
  have hinv' := umap_inv_set_val m1 hinv1 idx hd val
  refine ⟨_, rfl, hinv', ?_, ?_, hcnt⟩
  · intro v
    have h := holds_iff_of_key _ hinv' idx hd
      (by simp only [Function.update_same]; exact hf) k
      (by simp only [Function.update_same]; exact hk) v
    simp only [Function.update_same] at h
    exact h
  · intro k' v hk'
    rw [holds_update_fields m1 _ _ idx _ hd k' v, ← hother k' v hk']
    constructor
    · rintro (⟨_, hk2, _⟩ | ⟨i, hi, _, hfi, hki, hv⟩)
      · exact (hk' (hk2.symm.trans hk)).elim
      · exact ⟨i, hi, hfi, hki, hv⟩
    · rintro ⟨i, hi, hfi, hki, hv⟩
      refine Or.inr ⟨i, hi, ?_, hfi, hki, hv⟩
      intro hid
      rw [hid, hk] at hki
      exact hk' hki.symm

/-- The outcome of `umap_remove`: it returns, the key then has no entry, and
the other keys keep theirs. -/
theorem umap_remove_spec {K V : Type} [Inhabited K] [Inhabited V] (m : UMap K V)
    (hinv : UMapInv m) (k : K) :
    ∃ m' found, umap_remove m k = .ok (m', found) ∧ UMapInv m' ∧
      (∀ v, ¬ m'.holds k v) ∧
      (∀ k' v, k' ≠ k → (m'.holds k' v ↔ m.holds k' v)) ∧
      (found = true ↔ ∃ v, m.holds k v) ∧ m'.count ≤ m.count := by
  obtain ⟨n, hn, hrun, hpre, hcase⟩ := probe_key_spec m hinv k
  have hd : probe_idx m.capacity (max (m.schema.hasher k) 2) n < m.capacity :=
    probe_idx_lt _ _ _ (by omega)
  have hmax := hinv.cap_max
  have hmin := hinv.cap_min
  have hload := hinv.load
  unfold umap_remove
  simp only [MAP_HASH_OF_FILLED_ENTRY, MAP_HASH_OF_TOMB_ENTRY, hrun]
  generalize hidx : probe_idx m.capacity (max (m.schema.hasher k) 2) n = idx at *
  rcases hcase with ⟨hf, hk⟩ | ⟨h0, hno⟩
  · have hpos : 0 < m.count := by
      rw [hinv.count_eq]
      exact slots_card_pos m.entries m.capacity (fun h => 2 ≤ h) idx hd hf
    have hc : (m.count + 2 ^ 64 - 1) % 2 ^ 64 = m.count - 1 := by
      have h1 : m.count + 2 ^ 64 - 1 = (m.count - 1) + 2 ^ 64 := by omega
      rw [h1, Nat.add_mod_right, Nat.mod_eq_of_lt (by omega)]
    have ht : (m.tomb_count + 1) % 2 ^ 64 = m.tomb_count + 1 := Nat.mod_eq_of_lt (by omega)
    simp only [hf, decide_True, if_true, hc, ht]
    have hinv2 := umap_inv_update m hinv idx hd { m.entries idx with hash := 1 }
      (m.count - 1) (m.tomb_count + 1)
      (fun _ => by simp) (fun h => by simp at h) (fun h => by simp at h)
      (fun h => by simp at h)
      (by
        show m.count - 1 + (if 2 ≤ (m.entries idx).hash then 1 else 0) =
          m.count + (if 2 ≤ 1 then 1 else 0)
        rw [if_pos hf, if_neg (by omega)]
        omega)
      (by
        show m.tomb_count + 1 + (if (m.entries idx).hash = 1 then 1 else 0) =
          m.tomb_count + (if 1 = 1 then 1 else 0)
        rw [if_neg (by omega), if_pos rfl])
      (by omega)
    have hno2 : ∀ v, ¬ UMap.holds
        { m with count := m.count - 1, tomb_count := m.tomb_count + 1,
                 entries := Function.update m.entries idx { m.entries idx with hash := 1 } }
        k v := by
      intro v
      rw [holds_update_fields m _ _ idx _ hd k v]
      rintro (⟨h, _⟩ | ⟨i, hi, hid, hfi, hki, _⟩)
      · simp at h
      · exact hid (hinv.distinct i idx hi hd hfi hf (hki.trans hk.symm))
    have hoth2 : ∀ k' v, k' ≠ k → (UMap.holds
        { m with count := m.count - 1, tomb_count := m.tomb_count + 1,
                 entries := Function.update m.entries idx { m.entries idx with hash := 1 } }
        k' v ↔ m.holds k' v) := by
      intro k' v hk'
      rw [holds_update_fields m _ _ idx _ hd k' v]
      constructor
      · rintro (⟨h, _⟩ | ⟨i, hi, _, hfi, hki, hv⟩)
        · simp at h
        · exact ⟨i, hi, hfi, hki, hv⟩
      · rintro ⟨i, hi, hfi, hki, hv⟩
        refine Or.inr ⟨i, hi, ?_, hfi, hki, hv⟩
        intro hid
        rw [hid, hk] at hki
        exact hk' hki.symm
    have hfound : (true = true ↔ ∃ v, m.holds k v) := by
      simp only [true_iff]
      exact ⟨_, idx, hd, hf, hk, rfl⟩
    by_cases hs : m.shrink_on_del = true
    · rw [if_pos hs]
      obtain ⟨m3, hr3, hinv3, hh3, hc3, _⟩ := maybe_shrink_spec _ hinv2
      simp only [hr3]
      refine ⟨m3, true, rfl, hinv3, fun v hv => hno2 v ((hh3 k v).1 hv),
        fun k' v hk' => (hh3 k' v).trans (hoth2 k' v hk'), hfound, ?_⟩
      rw [hc3]
      simp only
      omega
    · rw [if_neg hs]
      exact ⟨_, true, rfl, hinv2, hno2, hoth2, hfound, by simp only; omega⟩
  · have hnf : ¬ 2 ≤ (m.entries idx).hash := by omega
    simp only [hnf, decide_False, if_false]
    refine ⟨m, false, rfl, hinv, ?_, fun _ _ _ => Iff.rfl, ?_, le_refl _⟩
    · rintro v ⟨i, hi, hfi, hki, _⟩
      exact hno i hi hfi hki
    · simp only [false_iff, Bool.false_eq_true]
      rintro ⟨v, i, hi, hfi, hki, _⟩
      exact hno i hi hfi hki

/-! ## The hash map: sequences of calls -/


theorem umap_call_spec {K V : Type} [Inhabited K] [Inhabited V] [DecidableEq K]
    (m : UMap K V) (hinv : UMapInv m) (f : K → Option V) (hrep : Represents m f)
    (c : UMapCall K V) (hbound : 3 * m.count ≤ 2 ^ 31) :
    ∃ m', umap_call m c = .ok m' ∧ UMapInv m' ∧ Represents m' (finite_map_call f c) ∧
      m'.count ≤ m.count + 1 := by
  cases c with
  | add key val =>
    obtain ⟨m', hrun, hinv', hkey, hother, hcnt⟩ := map_add_spec m hinv key val hbound
    refine ⟨m', hrun, hinv', ?_, hcnt⟩
    intro k v
    show Function.update f key (some val) k = some v ↔ _
    by_cases hk : k = key
    · subst hk
      rw [Function.update_same, hkey v]
      exact ⟨fun h => Option.some.inj h, fun h => by rw [h]⟩
    · rw [Function.update_noteq hk, hother k v hk]
      exact hrep k v
  | remove key =>
    obtain ⟨m', found, hrun, hinv', hkey, hother, _, hcnt⟩ := umap_remove_spec m hinv key
    refine ⟨m', ?_, hinv', ?_, by omega⟩
    · simp only [umap_call, hrun]
    · intro k v
      show Function.update f key none k = some v ↔ _
      by_cases hk : k = key
      · subst hk
        rw [Function.update_same]
        exact ⟨fun h => (by cases h), fun h => (hkey v h).elim⟩
      · rw [Function.update_noteq hk, hother k v hk]
        exact hrep k v
  | get key =>
    refine ⟨m, ?_, hinv, hrep, by omega⟩
    rcases umap_get_spec m hinv key with ⟨idx, h, _⟩ | ⟨h, _⟩ <;> simp only [umap_call, h]

theorem umap_calls_spec {K V : Type} [Inhabited K] [Inhabited V] [DecidableEq K]
    (calls : List (UMapCall K V)) :
    ∀ (m : UMap K V) (f : K → Option V), UMapInv m → Represents m f →
      3 * (m.count + calls.length) ≤ 2 ^ 31 →
      ∃ m', umap_calls m calls = .ok m' ∧ UMapInv m' ∧
        Represents m' (finite_map_calls f calls) ∧ m'.count ≤ m.count + calls.length := by
  induction calls with
  | nil => intro m f hinv hrep _; exact ⟨m, rfl, hinv, hrep, le_refl _⟩
  | cons c rest ih =>
    intro m f hinv hrep hb
    simp only [List.length_cons] at hb
    obtain ⟨m1, hrun, hinv1, hrep1, hcnt⟩ := umap_call_spec m hinv f hrep c (by omega)
    obtain ⟨m', hrun', hinv', hrep', hcnt'⟩ := ih m1 _ hinv1 hrep1 (by omega)
    refine ⟨m', ?_, hinv', hrep', by simp only [List.length_cons]; omega⟩
    rw [umap_calls, hrun]
    exact hrun'

theorem finite_map_calls_append {K V : Type} [DecidableEq K] (l : List (UMapCall K V))
    (c : UMapCall K V) :
    ∀ f : K → Option V,
      finite_map_calls f (l ++ [c]) = finite_map_call (finite_map_calls f l) c := by
  induction l with
  | nil => intro f; rfl
  | cons a l ih => intro f; exact ih _

theorem finite_map_calls_last_add {K V : Type} [DecidableEq K] (calls : List (UMapCall K V))
    (k : K) : finite_map_calls (fun _ => none) calls k = last_add calls k := by
  induction calls using List.reverseRecOn with
  | nil => rfl
  | append_singleton l c ih =>
    rw [finite_map_calls_append]
    unfold last_add at ih ⊢
    rw [List.reverse_append, List.reverse_singleton, List.singleton_append]
    cases c with
    | add key val =>
      simp only [finite_map_call, last_add_rev]
      by_cases h : key = k
      · rw [if_pos h, ← h, Function.update_same]
      · rw [if_neg h, Function.update_noteq (fun h' => h h'.symm)]
        exact ih
    | remove key =>
      simp only [finite_map_call, last_add_rev]
      by_cases h : key = k
      · rw [if_pos h, ← h, Function.update_same]
      · rw [if_neg h, Function.update_noteq (fun h' => h h'.symm)]
        exact ih
    | get key => exact ih

theorem bit_ceil_loop_pow2 (x : Nat) (hx : x ≤ 2 ^ 31) :
    ∀ fuel a, a ≤ 31 → ∃ b, b ≤ 31 ∧ bit_ceil_loop x fuel (2 ^ a) = 2 ^ b := by
  intro fuel
  induction fuel with
  | zero => intro a ha; exact ⟨a, ha, rfl⟩
  | succ fuel ih =>
    intro a ha
    rw [bit_ceil_loop]
    by_cases h : x ≤ 2 ^ a
    · rw [if_pos h]; exact ⟨a, ha, rfl⟩
    · rw [if_neg h]
      have ha' : a + 1 ≤ 31 := by
        by_contra hlt
        have : a = 31 := by omega
        subst this
        omega
      have e : 2 * 2 ^ a = 2 ^ (a + 1) := by rw [pow_succ, Nat.mul_comm]
      rw [e]
      exact ih (a + 1) ha'

theorem represents_of_no_entry {K V : Type} (m : UMap K V)
    (h : ∀ i, (m.entries i).hash = 0) : Represents m (fun _ => none) := by
  intro k v
  constructor
  · intro h'; cases h'
  · rintro ⟨i, _, hf, _⟩
    rw [h] at hf
    omega

/-- The table of `umap_init`: it is built, empty and well formed, when the
requested size is at most 2^30. -/
theorem umap_init_spec {K V : Type} [Inhabited K] [Inhabited V] (map : UMap K V) (cap : Nat)
    (schema : UMapSchema K) (hlaw : schema.lawful) (hcap : cap ≤ 2 ^ 30) :
    ∃ m, umap_init map cap schema = .ok m ∧ UMapInv m ∧ Represents m (fun _ => none) ∧
      m.count = 0 ∧ m.shrink_on_del = map.shrink_on_del := by
  have h64 : cap / 70 * 100 < 2 ^ 64 := by omega
  have h31 : cap / 70 * 100 ≤ 2 ^ 31 := by omega
  obtain ⟨b, hb, hceil⟩ := bit_ceil_loop_pow2 (cap / 70 * 100) h31 64 0 (by omega)
  have hnext : next_pow2 (cap / 70 * 100) = 2 ^ b := by
    unfold next_pow2
    rw [if_neg (by omega)]
    exact hceil
  have hb31 : 2 ^ b ≤ 2 ^ 31 := Nat.pow_le_pow_right (by decide) hb
  have hpow : ∃ e, max 16 (2 ^ b) = 2 ^ e := by
    rcases le_total (2 ^ b) 16 with h | h
    · exact ⟨4, by rw [max_eq_left h]; rfl⟩
    · exact ⟨b, max_eq_right h⟩
  unfold umap_init safe_mul
  simp only [MAX_LOAD, h64, if_true, MIN_CAPACITY, hnext]
  refine ⟨_, rfl, ⟨hlaw, hpow, le_max_left _ _, max_le (by omega) hb31, ?_, ?_, ?_, ?_, ?_, ?_⟩,
    represents_of_no_entry _ (fun _ => rfl), rfl, rfl⟩
  · intro i _ h
    exact absurd h (by show ¬ (2 ≤ 0); omega)
  · intro i j _ _ h
    exact absurd h (by show ¬ (2 ≤ 0); omega)
  · intro i _ h
    exact absurd h (by show ¬ (2 ≤ 0); omega)
  · exact (slots_card_zero _ _ _ (fun i _ h => by
      have : ¬ (2 ≤ 0) := by omega
      exact this h)).symm
  · exact (slots_card_zero _ _ _ (fun i _ h => by
      have : ¬ (0 = 1) := by omega
      exact this h)).symm
  · show 0 + 0 ≤ _
    omega

/-! ## The hash map: claim C20 -/


theorem demo_umap_lawful : demo_umap_schema.lawful := by
  intro a b
  simp [demo_umap_schema]

/-- The sample run: the table has grown to 32 slots, holds 12 entries and one
tombstone, and answers with the last values. -/
theorem demo_umap_run :
    (demo_umap.count, demo_umap.capacity, demo_umap.tomb_count) = (12, 32, 1) ∧
      demo_umap.map_get 3 = .ok (some 33) ∧ demo_umap.map_get 5 = .ok none ∧
      demo_umap.map_get 12 = .ok (some 120) ∧ demo_umap.map_get 13 = .ok none ∧
      umap_get demo_umap 3 = .ok (some 5) :=
  ⟨rfl, rfl, rfl, rfl, rfl, rfl⟩

/-- C20: the hash map is a finite map. For a table built by `umap_init` (for a
requested size of at most 2^30, with a schema whose `cmp` is equality of keys)
and every sequence of `add`, `remove` and `get` calls of at most 2^31 / 3 calls,
all the calls return, and `umap_get` of a key then returns the entry that holds
the key and the value of the last `add` of that key which no `remove` of it
followed, and the null pointer when there is no such `add`. -/
theorem umap_finite_map {K V : Type} [Inhabited K] [Inhabited V] [DecidableEq K]
    (blank : UMap K V) (cap : Nat) (schema : UMapSchema K) (calls : List (UMapCall K V))
    (key : K) (hlaw : schema.lawful) (hcap : cap ≤ 2 ^ 30)
    (hlen : 3 * calls.length ≤ 2 ^ 31) :
    ∃ map₁ map, umap_init blank cap schema = .ok map₁ ∧ umap_calls map₁ calls = .ok map ∧
      (match last_add calls key with
        | some val => ∃ entry, umap_get map key = .ok (some entry) ∧
            (map.entries entry).key = key ∧ (map.entries entry).val = val
        | none => umap_get map key = .ok none) ∧
      map.map_get key = .ok (last_add calls key) := by
  obtain ⟨m1, hinit, hinv1, hrep1, hc1, _⟩ := umap_init_spec blank cap schema hlaw hcap
  obtain ⟨m, hrun, hinv, hrep, _⟩ :=
    umap_calls_spec calls m1 (fun _ => none) hinv1 hrep1 (by rw [hc1]; omega)
  refine ⟨m1, m, hinit, hrun, ?_⟩
  have hf : ∀ v, last_add calls key = some v ↔ m.holds key v := by
    intro v
    rw [← finite_map_calls_last_add]
    exact hrep key v
  rcases umap_get_spec m hinv key with ⟨idx, hget, hd, hfill, hk⟩ | ⟨hget, hno⟩
  · have hl : last_add calls key = some (m.entries idx).val :=
      (hf _).2 ⟨idx, hd, hfill, hk, rfl⟩
    rw [hl]
    refine ⟨⟨idx, hget, hk, rfl⟩, ?_⟩
    simp only [UMap.map_get, hget]
  · have hl : last_add calls key = none := by
      rcases h : last_add calls key with _ | v
      · rfl
      · exact (hno v ((hf v).1 h)).elim
    rw [hl]
    refine ⟨hget, ?_⟩
    simp only [UMap.map_get, hget]

theorem umap_finite_map_witness :
    demo_umap_schema.lawful ∧ 0 ≤ 2 ^ 30 ∧ 3 * demo_umap_calls.length ≤ 2 ^ 31 ∧
      ∃ map₁ map, umap_init demo_umap_blank 0 demo_umap_schema = .ok map₁ ∧
        umap_calls map₁ demo_umap_calls = .ok map ∧
        (∃ entry, umap_get map 3 = .ok (some entry) ∧
            (map.entries entry).key = 3 ∧ (map.entries entry).val = 33) ∧
        map.map_get 3 = .ok (some 33) :=
  ⟨demo_umap_lawful, by decide, by decide,
    umap_finite_map demo_umap_blank 0 demo_umap_schema demo_umap_calls 3 demo_umap_lawful
      (by decide) (by decide)⟩

/-- The growth of the table stops at 2^31 slots: the product
`safe_mul(2u, map->capacity)` is a `U32`, and `assert_always` ends the program
when a full table of that capacity has to grow. -/
theorem maybe_grow_at_limit {K V : Type} [Inhabited K] [Inhabited V] (m : UMap K V)
    (hcap : m.capacity = 2 ^ 31) (hcount : 2 ^ 31 * 70 / 100 < m.count) :
    maybe_grow m = .error .panic := by
  have h1 : m.count + m.tomb_count > 2 ^ 31 * 70 / 100 := by omega
  unfold maybe_grow safe_mul
  simp only [MAX_LOAD, hcap]
  rw [if_pos (by decide)]
  simp only [h1, if_true, gt_iff_lt, hcount]
  rw [if_neg (by decide)]

/-! ## The hash map: claim C21 -/

/-- C21 at the failing input, the fresh table: the comment above `umap_add`
says that `*out_found` is set to true if a new entry was created, and the code
stores the opposite. The first `umap_add` of key 7 creates the entry (slot 8,
one entry more) and reports `false`; the second one finds that entry, creates
nothing and reports `true`. -/
theorem umap_add_found_counterexample :
    umap_get demo_umap_fresh 7 = .ok none ∧
      (demo_umap_first.2.1, demo_umap_first.2.2) = (8, false) ∧
      demo_umap_first.1.count = demo_umap_fresh.count + 1 ∧
      umap_get demo_umap_first.1 7 = .ok (some 8) ∧
      (demo_umap_second.2.1, demo_umap_second.2.2) = (8, true) ∧
      demo_umap_second.1.count = demo_umap_first.1.count :=
  ⟨rfl, rfl, rfl, rfl, rfl, rfl⟩

/-- What `umap_add` stores in `*out_found` is whether the key was found. For a table
built by `umap_init` and any sequence of calls (sizes as for C20), `umap_add`
returns, and its flag is true exactly when the key was already present
(`umap_get` gave its entry before the call); then no entry is created. The flag
is false exactly when the key was absent, and then the call creates the entry:
the count grows by one. In both cases `umap_get` gives the returned entry
afterwards. -/
theorem umap_add_found {K V : Type} [Inhabited K] [Inhabited V] [DecidableEq K]
    (blank : UMap K V) (cap : Nat) (schema : UMapSchema K) (calls : List (UMapCall K V))
    (key : K) (hlaw : schema.lawful) (hcap : cap ≤ 2 ^ 30)
    (hlen : 3 * calls.length ≤ 2 ^ 31) :
    ∃ map₁ map map' entry found, umap_init blank cap schema = .ok map₁ ∧
      umap_calls map₁ calls = .ok map ∧ umap_add map key = .ok (map', entry, found) ∧
      (found = true ↔ ∃ e, umap_get map key = .ok (some e)) ∧
      (found = false ↔ umap_get map key = .ok none) ∧
      (found = true → map'.count = map.count) ∧
      (found = false → map'.count = map.count + 1) ∧
      umap_get map' key = .ok (some entry) := by
  obtain ⟨m1, hinit, hinv1, hrep1, hc1, _⟩ := umap_init_spec blank cap schema hlaw hcap
  obtain ⟨m, hrun, hinv, _, hcnt⟩ :=
    umap_calls_spec calls m1 (fun _ => none) hinv1 hrep1 (by rw [hc1]; omega)
  obtain ⟨m', idx, found, hadd, hinv', hd, hf, hk, _, _, hfound, _, _, hsame, hnew⟩ :=
    umap_add_spec m hinv key (by omega)
  have hget : (∃ e, umap_get m key = .ok (some e)) ↔ ∃ v, m.holds key v := by
    rcases umap_get_spec m hinv key with ⟨e, he, hde, hfe, hke⟩ | ⟨he, hno⟩
    · exact ⟨fun _ => ⟨_, e, hde, hfe, hke, rfl⟩, fun _ => ⟨e, he⟩⟩
    · constructor
      · rintro ⟨e, h⟩
        rw [he] at h
        cases h
      · rintro ⟨v, hv⟩
        exact (hno v hv).elim
  have hnone : umap_get m key = .ok none ↔ ¬ ∃ v, m.holds key v := by
    rcases umap_get_spec m hinv key with ⟨e, he, hde, hfe, hke⟩ | ⟨he, hno⟩
    · constructor
      · intro h
        rw [he] at h
        cases h
      · intro h
        exact (h ⟨_, e, hde, hfe, hke, rfl⟩).elim
    · exact ⟨fun _ ⟨v, hv⟩ => hno v hv, fun _ => he⟩
  have hafter : umap_get m' key = .ok (some idx) := by
    rcases umap_get_spec m' hinv' key with ⟨e, he, hde, hfe, hke⟩ | ⟨_, hno⟩
    · rw [he, hinv'.distinct e idx hde hd hfe hf (hke.trans hk.symm)]
    · exact (hno _ ⟨idx, hd, hf, hk, rfl⟩).elim
  refine ⟨m1, m, m', idx, found, hinit, hrun, hadd, hfound.trans hget.symm, ?_, hsame, hnew,
    hafter⟩
  rw [hnone, ← hfound]
  cases found <;> simp

theorem umap_add_found_witness :
    demo_umap_schema.lawful ∧ 0 ≤ 2 ^ 30 ∧ 3 * demo_umap_calls.length ≤ 2 ^ 31 ∧
      ∃ map₁ map map' entry found, umap_init demo_umap_blank 0 demo_umap_schema = .ok map₁ ∧
        umap_calls map₁ demo_umap_calls = .ok map ∧
        umap_add map 5 = .ok (map', entry, found) ∧
        (found = true ↔ ∃ e, umap_get map 5 = .ok (some e)) ∧
        (found = false ↔ umap_get map 5 = .ok none) ∧
        (found = true → map'.count = map.count) ∧
        (found = false → map'.count = map.count + 1) ∧
        umap_get map' 5 = .ok (some entry) :=
  ⟨demo_umap_lawful, by decide, by decide,
    umap_add_found demo_umap_blank 0 demo_umap_schema demo_umap_calls 5 demo_umap_lawful
      (by decide) (by decide)⟩

/-! ## Claim C29: attributes that are not animated -/

/-- The claim fails for the animation mask itself: with an empty target mask
the bit of `UI_ANIMATION` is not set, and the current style keeps its own mask
(5) instead of taking the target's (0). The same holds for the animation
time. -/
theorem animate_style_animation_counterexample :
    mask_has demo_style_target.animation_mask .UI_ANIMATION = false ∧
      mask_has demo_style_target.animation_mask .UI_ANIMATION_TIME = false ∧
      get_attr .UI_ANIMATION (animate_style demo_powf 0 demo_style_current demo_style_target) =
        .u32 5 ∧
      get_attr .UI_ANIMATION demo_style_target = .u32 0 ∧
      get_attr .UI_ANIMATION_TIME
          (animate_style demo_powf 0 demo_style_current demo_style_target) = .f32 2 ∧
      get_attr .UI_ANIMATION_TIME demo_style_target = .f32 1 :=
  ⟨rfl, rfl, rfl, rfl, rfl, rfl⟩

/-- C29, amended. After `animate_style`, every attribute other than
`UI_ANIMATION` and `UI_ANIMATION_TIME` whose bit is not set in the animation
mask of the target style has, in the current style, exactly the value of the
target style; the animation mask and the animation time of the current style
are left as they were. -/
theorem animate_style_copies_unmasked (powf : F32 → F32 → F32) (dt : F32) (a b : UiStyle)
    (attr : UiStyleAttribute) (hmask : mask_has b.animation_mask attr = false)
    (h1 : attr ≠ .UI_ANIMATION) (h2 : attr ≠ .UI_ANIMATION_TIME) :
    get_attr attr (animate_style powf dt a b) = get_attr attr b ∧
      get_attr .UI_ANIMATION (animate_style powf dt a b) = get_attr .UI_ANIMATION a ∧
      get_attr .UI_ANIMATION_TIME (animate_style powf dt a b) =
        get_attr .UI_ANIMATION_TIME a := by
  refine ⟨?_, rfl, rfl⟩
  cases attr <;>
    first
    | exact absurd rfl h1
    | exact absurd rfl h2
    | rfl
    | simp only [animate_style, get_attr, hmask, Bool.false_eq_true, if_false]

theorem animate_style_copies_unmasked_witness :
    (mask_has demo_style_target.animation_mask .UI_BG_COLOR = false ∧
      UiStyleAttribute.UI_BG_COLOR ≠ .UI_ANIMATION ∧
      UiStyleAttribute.UI_BG_COLOR ≠ .UI_ANIMATION_TIME) ∧
    get_attr .UI_BG_COLOR (animate_style demo_powf 0 demo_style_current demo_style_target) =
        get_attr .UI_BG_COLOR demo_style_target ∧
      get_attr .UI_ANIMATION (animate_style demo_powf 0 demo_style_current demo_style_target) =
        get_attr .UI_ANIMATION demo_style_current ∧
      get_attr .UI_ANIMATION_TIME
          (animate_style demo_powf 0 demo_style_current demo_style_target) =
        get_attr .UI_ANIMATION_TIME demo_style_current :=
  ⟨⟨rfl, by decide, by decide⟩,
    animate_style_copies_unmasked demo_powf 0 demo_style_current demo_style_target .UI_BG_COLOR
      rfl (by decide) (by decide)⟩

/-! ## Claim C25: the meaning of the selectors -/


theorem match_selector_atom (box : UiBox) (l : ParentLink) (hl : l.idx < l.count)
    (hc : l.count < 2 ^ 64) (a : PatternAtom) (hz : a.no_zero) :
    ∃ b, match_selector box (some l) a.selector = .ok b ∧ (b = true ↔ a.holds box l) := by
  cases a with
  | any => exact ⟨true, rfl, by simp [PatternAtom.holds]⟩
  | id name =>
    refine ⟨_, rfl, ?_⟩
    simp only [PatternAtom.holds, PatternAtom.selector]
    exact str_match_iff _ _ hz
  | tag name =>
    refine ⟨_, rfl, ?_⟩
    simp only [PatternAtom.holds, PatternAtom.selector, List.any_eq_true]
    constructor
    · rintro ⟨t, ht, hm⟩
      rw [← (str_match_iff t _ hz).1 hm]
      exact ht
    · intro h
      exact ⟨_, h, (str_match_iff _ _ hz).2 rfl⟩
  | first => exact ⟨_, rfl, by simp [PatternAtom.holds]⟩
  | last =>
    refine ⟨_, rfl, ?_⟩
    have e : (l.count + 2 ^ 64 - 1) % 2 ^ 64 = l.count - 1 := by
      have h1 : l.count + 2 ^ 64 - 1 = (l.count - 1) + 2 ^ 64 := by omega
      rw [h1, Nat.add_mod_right, Nat.mod_eq_of_lt (by omega)]
    simp only [decide_eq_true_eq, e, PatternAtom.holds]
    omega
  | odd =>
    refine ⟨_, rfl, ?_⟩
    simp only [decide_eq_true_eq, PatternAtom.holds]
    omega
  | even => exact ⟨_, rfl, by simp [PatternAtom.holds]⟩

theorem match_selectors_atoms (box : UiBox) (l : ParentLink) (hl : l.idx < l.count)
    (hc : l.count < 2 ^ 64) (atoms : List PatternAtom) (hz : ∀ a ∈ atoms, a.no_zero) :
    ∃ b, match_selectors box (some l) (atoms.map PatternAtom.selector) = .ok b ∧
      (b = true ↔ ∀ a ∈ atoms, a.holds box l) := by
  induction atoms with
  | nil => exact ⟨true, rfl, by simp⟩
  | cons a rest ih =>
    obtain ⟨b, hb, hiff⟩ := match_selector_atom box l hl hc a (hz a (List.mem_cons_self _ _))
    obtain ⟨b', hb', hiff'⟩ := ih (fun x hx => hz x (List.mem_cons_of_mem _ hx))
    simp only [List.map_cons, match_selectors, hb]
    cases b with
    | false =>
      refine ⟨false, rfl, ?_⟩
      simp only [Bool.false_eq_true, false_iff]
      intro h
      have := hiff.2 (h a (List.mem_cons_self _ _))
      cases this
    | true =>
      refine ⟨b', hb', ?_⟩
      rw [hiff']
      constructor
      · intro h x hx
        rcases List.mem_cons.1 hx with rfl | hx
        · exact hiff.1 rfl
        · exact h x hx
      · intro h x hx
        exact h x (List.mem_cons_of_mem _ hx)

/-- C25. For a box with a parent, at index `idx` among the `count` children,
and an AND-node whose names hold no zero byte, `match_pattern` returns, and it
returns true if and only if every atom of the node holds: `'#name'` iff the
label is `name`, `'.tag'` iff the tag is in the tag list, `':first'` iff the
index is 0, `':last'` iff the index is the last one, `':even'` and `':odd'` iff
the index is even and odd, `'*'` always.  (Labels and tags may hold any
bytes.) -/
theorem match_pattern_iff_atoms (box : UiBox) (l : ParentLink) (atoms : List PatternAtom)
    (specificity : UiSpecificity) (hl : l.idx < l.count) (hc : l.count < 2 ^ 64)
    (hz : ∀ a ∈ atoms, a.no_zero) :
    ∃ b, match_pattern box (some l) ⟨specificity, atoms.map PatternAtom.selector⟩ = .ok b ∧
      (b = true ↔ ∀ a ∈ atoms, a.holds box l) :=
  match_selectors_atoms box l hl hc atoms hz

theorem match_pattern_iff_atoms_witness :
    ((1 : Nat) < 2 ∧ (2 : Nat) < 2 ^ 64 ∧
      ∀ a ∈ [PatternAtom.id ['x'], .tag ['b'], .last, .odd, .any], a.no_zero) ∧
    ∃ b, match_pattern demo_box_tagged (some ⟨1, 2⟩)
        ⟨⟨1, 3⟩, [PatternAtom.id ['x'], .tag ['b'], .last, .odd, .any].map
          PatternAtom.selector⟩ = .ok b ∧
      (b = true ↔ ∀ a ∈ [PatternAtom.id ['x'], .tag ['b'], .last, .odd, .any],
        a.holds demo_box_tagged ⟨1, 2⟩) :=
  ⟨⟨by decide, by decide, by simp [PatternAtom.no_zero]⟩,
    match_pattern_iff_atoms demo_box_tagged ⟨1, 2⟩ _ ⟨1, 3⟩ (by decide) (by decide)
      (by simp [PatternAtom.no_zero])⟩

/-- The sample box, second of two children: `#x.b:last:odd*` matches it,
`#x:first` and `.c` do not. -/
theorem demo_box_tagged_run :
    match_pattern demo_box_tagged (some ⟨1, 2⟩)
        ⟨⟨1, 3⟩, [PatternAtom.id ['x'], .tag ['b'], .last, .odd, .any].map
          PatternAtom.selector⟩ = .ok true ∧
      match_pattern demo_box_tagged (some ⟨1, 2⟩)
        ⟨⟨1, 1⟩, [PatternAtom.id ['x'], .first].map PatternAtom.selector⟩ = .ok false ∧
      match_pattern demo_box_tagged (some ⟨1, 2⟩)
        ⟨⟨0, 1⟩, [PatternAtom.tag ['c']].map PatternAtom.selector⟩ = .ok false :=
  ⟨rfl, rfl, rfl⟩

/-- A name with a zero byte: the box labelled `a\0b` is matched by the atom
`#a\0c`, whose name is another string. -/
theorem match_pattern_zero_byte :
    match_pattern { UiBox.zeroed with label := String.mk ['a', Char.ofNat 0, 'b'] } (some ⟨0, 1⟩)
        ⟨⟨1, 0⟩, [(PatternAtom.id ['a', Char.ofNat 0, 'c']).selector]⟩ = .ok true := by
  rfl

/-! ## Claim C26: the specificity of a pattern -/

theorem absorb_atom_specificity (result : UiPatternAnd) (a : PatternAtom)
    (hid : result.specificity.id < 2 ^ 32) (htag : result.specificity.tag < 2 ^ 32) :
    (absorb_atom result a).specificity.id =
        (result.specificity.id + (if a.is_id then 1 else 0)) % 2 ^ 32 ∧
      (absorb_atom result a).specificity.tag =
        (result.specificity.tag + (if a.is_tag_or_pseudo then 1 else 0)) % 2 ^ 32 := by
  cases a <;>
    simp [absorb_atom, UiPatternAnd.push, UiPatternAnd.inc_id, UiPatternAnd.inc_tag,
      PatternAtom.is_id, PatternAtom.is_tag_or_pseudo] <;> omega

theorem absorb_atoms_specificity (atoms : List PatternAtom) :
    ∀ result : UiPatternAnd, result.specificity.id < 2 ^ 32 → result.specificity.tag < 2 ^ 32 →
      (absorb_atoms result atoms).specificity.id =
          (result.specificity.id + atoms.countP PatternAtom.is_id) % 2 ^ 32 ∧
        (absorb_atoms result atoms).specificity.tag =
          (result.specificity.tag + atoms.countP PatternAtom.is_tag_or_pseudo) % 2 ^ 32 := by
  induction atoms with
  | nil =>
    intro result hid htag
    simp only [absorb_atoms, List.countP_nil, Nat.add_zero]
    exact ⟨(Nat.mod_eq_of_lt hid).symm, (Nat.mod_eq_of_lt htag).symm⟩
  | cons a rest ih =>
    intro result hid htag
    obtain ⟨e1, e2⟩ := absorb_atom_specificity result a hid htag
    obtain ⟨i1, i2⟩ := ih (absorb_atom result a)
      (by rw [e1]; exact Nat.mod_lt _ (by decide))
      (by rw [e2]; exact Nat.mod_lt _ (by decide))
    simp only [absorb_atoms, i1, i2, e1, e2, List.countP_cons, Nat.mod_add_mod]
    constructor
    · congr 1; omega
    · congr 1; omega

theorem parse_pattern_chunks_specificity (segs : List (List PatternAtom))
    (h : ∀ seg ∈ segs, GrammarSegment seg) :
    ∀ p : UiPattern, p.specificity.id < 2 ^ 32 → p.specificity.tag < 2 ^ 32 →
      ∃ P, parse_pattern_chunks (segs.map segment_text) p = .ok P ∧
        P.specificity.id = (p.specificity.id + segs.flatten.countP PatternAtom.is_id) % 2 ^ 32 ∧
        P.specificity.tag =
          (p.specificity.tag + segs.flatten.countP PatternAtom.is_tag_or_pseudo) % 2 ^ 32 := by
  induction segs with
  | nil =>
    intro p hid htag
    exact ⟨p, rfl, by simpa using (Nat.mod_eq_of_lt hid).symm,
      by simpa using (Nat.mod_eq_of_lt htag).symm⟩
  | cons seg rest ih =>
    intro p hid htag
    have hseg := parse_pattern_and_segment seg (h seg (List.mem_cons_self _ _))
    obtain ⟨a1, a2⟩ := absorb_atoms_specificity seg ⟨⟨0, 0⟩, []⟩ (by decide) (by decide)
    simp only [Nat.zero_add] at a1 a2
    obtain ⟨P, hP, e1, e2⟩ := ih (fun s hs => h s (List.mem_cons_of_mem _ hs))
      { specificity :=
          ⟨(p.specificity.id + (absorb_atoms ⟨⟨0, 0⟩, []⟩ seg).specificity.id) % 2 ^ 32,
            (p.specificity.tag + (absorb_atoms ⟨⟨0, 0⟩, []⟩ seg).specificity.tag) % 2 ^ 32⟩
        patterns := p.patterns ++ [absorb_atoms ⟨⟨0, 0⟩, []⟩ seg] }
      (Nat.mod_lt _ (by decide)) (Nat.mod_lt _ (by decide))
    refine ⟨P, ?_, ?_, ?_⟩
    · simp only [List.map_cons, parse_pattern_chunks, hseg]
      exact hP
    · rw [e1]
      simp only [a1, List.flatten_cons, List.countP_append, Nat.add_mod_mod, Nat.mod_add_mod]
      congr 1
      omega
    · rw [e2]
      simp only [a2, List.flatten_cons, List.countP_append, Nat.add_mod_mod, Nat.mod_add_mod]
      congr 1
      omega

/-- C26. For a text of the grammar with fewer than 2^32 atoms, `parse_pattern`
returns a PATH node whose specificity is the pair (number of `'#'` atoms,
number of `'.'` atoms plus number of `':'` pseudo atoms), counted over all the
segments; `'*'` counts in neither. -/
theorem parse_pattern_specificity (segs : List (List PatternAtom)) (h : GrammarPath segs)
    (hsmall : segs.flatten.length < 2 ^ 32) :
    ∃ P, parse_pattern (String.mk (path_text segs)) = .ok P ∧
      P.specificity = atoms_specificity segs.flatten := by
  obtain ⟨P, hP, e1, e2⟩ :=
    parse_pattern_chunks_specificity segs h.2 ⟨⟨0, 0⟩, []⟩ (by decide) (by decide)
  refine ⟨P, ?_, ?_⟩
  · unfold parse_pattern
    rw [str_split_path_text segs h.2]
    exact hP
  · have h1 := List.countP_le_length PatternAtom.is_id (l := segs.flatten)
    have h2 := List.countP_le_length PatternAtom.is_tag_or_pseudo (l := segs.flatten)
    simp only [Nat.zero_add] at e1 e2
    rw [Nat.mod_eq_of_lt (by omega)] at e1 e2
    cases hs : P.specificity with
    | mk id tag =>
      rw [hs] at e1 e2
      simp only at e1 e2
      simp [atoms_specificity, e1, e2]

theorem parse_pattern_specificity_witness :
    (GrammarPath demo_path ∧ demo_path.flatten.length < 2 ^ 32) ∧
    ∃ P, parse_pattern (String.mk (path_text demo_path)) = .ok P ∧
      P.specificity = atoms_specificity demo_path.flatten :=
  ⟨⟨demo_path_grammar, by decide⟩,
    parse_pattern_specificity demo_path demo_path_grammar (by decide)⟩

/-- The two patterns of the claim, and the sample `#x.a:first *`. -/
theorem parse_pattern_specificity_samples :
    parse_pattern ".a" = .ok ⟨⟨0, 1⟩, [⟨⟨0, 1⟩, [⟨.UI_PATTERN_TAG, "a"⟩]⟩]⟩ ∧
      parse_pattern "#x.a" =
        .ok ⟨⟨1, 1⟩, [⟨⟨1, 1⟩, [⟨.UI_PATTERN_ID, "x"⟩, ⟨.UI_PATTERN_TAG, "a"⟩]⟩]⟩ ∧
      atoms_specificity [.tag ['a']] = ⟨0, 1⟩ ∧
      atoms_specificity [.id ['x'], .tag ['a']] = ⟨1, 1⟩ ∧
      atoms_specificity demo_path.flatten = ⟨1, 2⟩ :=
  ⟨rfl, rfl, rfl, rfl, rfl⟩

/-! ## Claim C22: the tokens of `str_split` -/

theorem split_tokens_emit (separators : List Char) (ks ke : Bool)
    (tail : List (Char × List Char)) :
    ∀ head : List Char, SplitRuns separators head tail →
      split_tokens separators ks ke [] (split_text head tail) = split_emit ks ke head tail := by
  induction tail with
  | nil =>
    intro head h
    have := split_tokens_run separators ks ke head h.1 [] []
    simp only [List.append_nil, List.nil_append] at this
    rw [split_text, this]
    simp [split_tokens, split_emit, emit_run]
  | cons p rest ih =>
    intro head h
    obtain ⟨sep, run⟩ := p
    have hp := h.2 (sep, run) (List.mem_cons_self _ _)
    have := split_tokens_run separators ks ke head h.1 [] (sep :: split_text run rest)
    simp only [List.nil_append] at this
    rw [split_text, this]
    have ih' := ih run ⟨hp.2, fun q hq => h.2 q (List.mem_cons_of_mem _ hq)⟩
    simp only [split_tokens, hp.1, not_true_eq_false, if_false, ih', split_emit, emit_run,
      emit_sep]

theorem split_text_cons (c : Char) (head : List Char) (tail : List (Char × List Char)) :
    split_text (c :: head) tail = c :: split_text head tail := by
  cases tail with
  | nil => rfl
  | cons p q => obtain ⟨s, r⟩ := p; rfl

theorem split_runs_spec (separators : List Char) (str : List Char) :
    SplitRuns separators (split_runs separators str).1 (split_runs separators str).2 ∧
      split_text (split_runs separators str).1 (split_runs separators str).2 = str := by
  induction str with
  | nil => exact ⟨⟨fun c hc => (by cases hc), fun p hp => (by cases hp)⟩, rfl⟩
  | cons c rest ih =>
    obtain ⟨⟨h1, h2⟩, h3⟩ := ih
    simp only [split_runs]
    by_cases hc : c ∈ separators
    · simp only [hc, if_true]
      refine ⟨⟨fun x hx => (by cases hx), ?_⟩, ?_⟩
      · intro p hp
        rcases List.mem_cons.1 hp with rfl | hp
        · exact ⟨hc, h1⟩
        · exact h2 p hp
      · simp only [split_text, List.nil_append, h3]
    · simp only [hc, if_false]
      refine ⟨⟨?_, h2⟩, ?_⟩
      · intro x hx
        rcases List.mem_cons.1 hx with rfl | hx
        · exact hc
        · exact h1 x hx
      · rw [split_text_cons, h3]

theorem split_emit_runs (head : List Char) (tail : List (Char × List Char)) :
    split_emit false false head tail =
        (head :: tail.map Prod.snd).filter (fun r => decide (r ≠ [])) ∧
      split_emit false true head tail = head :: tail.map Prod.snd := by
  induction tail generalizing head with
  | nil =>
    constructor
    · by_cases h : head = [] <;> simp [split_emit, emit_run, h]
    · simp [split_emit, emit_run]
  | cons p rest ih =>
    obtain ⟨sep, run⟩ := p
    obtain ⟨i1, i2⟩ := ih run
    constructor
    · by_cases h : head = [] <;>
        simp [split_emit, emit_run, emit_sep, h, i1, List.filter_cons]
    · simp [split_emit, emit_run, emit_sep, i2]

/-- C22. For every separator set and every string, cut at its separator bytes
into the runs between them (`head`, and a run after each separator):
`str_split` emits the tokens of the specification. Without the two flags these
are exactly the non-empty runs, in order; `keep_empties` adds the empty runs
(between adjacent separators and at both ends), so that all runs are emitted;
`keep_separators` adds each separator byte as a one-byte token between the
runs around it. Every string has such a cut. -/
theorem str_split_runs (separators head : List Char) (tail : List (Char × List Char))
    (ks ke : Bool) (h : SplitRuns separators head tail) :
    str_split (split_text head tail) separators ks ke = split_emit ks ke head tail ∧
      str_split (split_text head tail) separators false false =
        (head :: tail.map Prod.snd).filter (fun r => decide (r ≠ [])) ∧
      str_split (split_text head tail) separators false true = head :: tail.map Prod.snd ∧
      ∀ str : List Char, ∃ head' tail', SplitRuns separators head' tail' ∧
        split_text head' tail' = str := by
  refine ⟨?_, ?_, ?_, fun str => ⟨_, _, split_runs_spec separators str⟩⟩
  · rw [str_split_eq]
    exact split_tokens_emit separators ks ke tail head h
  · rw [str_split_eq, split_tokens_emit separators false false tail head h]
    exact (split_emit_runs head tail).1
  · rw [str_split_eq, split_tokens_emit separators false true tail head h]
    exact (split_emit_runs head tail).2

theorem demo_split_runs : SplitRuns ['/', '|'] demo_split.1 demo_split.2 := by
  refine ⟨fun c hc => (by cases hc), ?_⟩
  intro p hp
  simp only [demo_split, List.mem_cons, List.mem_singleton, List.not_mem_nil, or_false] at hp
  rcases hp with h | h | h | h | h | h <;> subst h <;> simp

/-- The four documented outputs for `/a/b|c//foobar/` with the separators `/`
and `|`. -/
theorem str_split_documented :
    str_split "/a/b|c//foobar/".data "/|".data false false =
        ["a".data, "b".data, "c".data, "foobar".data] ∧
      str_split "/a/b|c//foobar/".data "/|".data false true =
        ["".data, "a".data, "b".data, "c".data, "".data, "foobar".data, "".data] ∧
      str_split "/a/b|c//foobar/".data "/|".data true false =
        ["/".data, "a".data, "/".data, "b".data, "|".data, "c".data, "/".data, "/".data,
          "foobar".data, "/".data] ∧
      str_split "/a/b|c//foobar/".data "/|".data true true =
        ["".data, "/".data, "a".data, "/".data, "b".data, "|".data, "c".data, "/".data,
          "".data, "/".data, "foobar".data, "/".data, "".data] :=
  ⟨by decide, by decide, by decide, by decide⟩

theorem str_split_runs_witness :
    SplitRuns ['/', '|'] demo_split.1 demo_split.2 ∧
    (str_split "/a/b|c//foobar/".data "/|".data true true =
        split_emit true true demo_split.1 demo_split.2 ∧
      str_split "/a/b|c//foobar/".data "/|".data false false =
        ["a".data, "b".data, "c".data, "foobar".data] ∧
      str_split "/a/b|c//foobar/".data "/|".data false true =
        ["".data, "a".data, "b".data, "c".data, "".data, "foobar".data, "".data] ∧
      ∀ str : List Char, ∃ head' tail', SplitRuns ['/', '|'] head' tail' ∧
        split_text head' tail' = str) :=
  ⟨demo_split_runs, str_split_runs ['/', '|'] demo_split.1 demo_split.2 true true demo_split_runs⟩

/-! ## Claims C23 and C24: the winner of an attribute, the active list -/

theorem scan_rules_append {box : UiBox} {link : Option ParentLink} (l1 l2 : List UiStyleRule) :
    ∀ (st st' : ScanState), scan_rules box link (l1 ++ l2) st = .ok st' →
      ∃ st1, scan_rules box link l1 st = .ok st1 ∧ scan_rules box link l2 st1 = .ok st' := by
  induction l1 with
  | nil => intro st st' h; exact ⟨st, rfl, h⟩
  | cons x rest ih =>
    intro st st' h
    simp only [List.cons_append, scan_rules] at h ⊢
    rcases hx : scan_rule box link st x with e | st1
    · rw [hx] at h; cases h
    · rw [hx] at h
      exact ih st1 st' h

theorem specificity_zero_le (s : UiSpecificity) : UiSpecificity.le ⟨0, 0⟩ s := by
  unfold UiSpecificity.le
  simp only
  omega

/-- What one round of the rule loop does to an attribute and its recorded
specificity: nothing, or the rule is taken. -/
theorem scan_rule_cases {box : UiBox} {link : Option ParentLink} {st st' : ScanState}
    {rule : UiStyleRule} (a : UiStyleAttribute) (h : scan_rule box link st rule = .ok st') :
    (get_attr a st'.1 = get_attr a st.1 ∧ st'.2.1 a = st.2.1 a ∧
        (rule_selects box link rule a → ¬ (st.2.1 a).le rule.pattern.specificity)) ∨
      (rule_selects box link rule a ∧ (st.2.1 a).le rule.pattern.specificity ∧
        get_attr a st'.1 = get_attr a rule.style ∧ st'.2.1 a = rule.pattern.specificity) := by
  obtain ⟨s1, s2⟩ := scan_rule_attr a h
  by_cases hsel : rule_selects box link rule a
  · by_cases happ : rule_applies rule rule.pattern.specificity st.2.1 a = true
    · right
      have hle := ((rule_applies_true_iff _ _ _ _).1 happ).2
      refine ⟨hsel, ?_, s1 hsel happ⟩
      unfold UiSpecificity.le
      omega
    · left
      have hf : rule_applies rule rule.pattern.specificity st.2.1 a = false := by
        simpa using happ
      obtain ⟨e1, e2⟩ := s2 (Or.inr hf)
      refine ⟨e1, e2, fun _ hle => happ ?_⟩
      rw [rule_applies_true_iff]
      refine ⟨hsel.2, ?_⟩
      unfold UiSpecificity.le at hle
      omega
  · left
    obtain ⟨e1, e2⟩ := s2 (Or.inl hsel)
    exact ⟨e1, e2, fun h => absurd h hsel⟩

theorem scan_rules_none {box : UiBox} {link : Option ParentLink} (a : UiStyleAttribute)
    (rules : List UiStyleRule) (hno : ∀ r ∈ rules, ¬ rule_selects box link r a) :
    ∀ (st st' : ScanState), scan_rules box link rules st = .ok st' →
      get_attr a st'.1 = get_attr a st.1 ∧ st'.2.1 a = st.2.1 a := by
  induction rules with
  | nil => intro st st' h; cases h; exact ⟨rfl, rfl⟩
  | cons x rest ih =>
    intro st st' h
    simp only [scan_rules] at h
    rcases hx : scan_rule box link st x with e | st1
    · rw [hx] at h; cases h
    · rw [hx] at h
      obtain ⟨i1, i2⟩ := ih (fun r hr => hno r (List.mem_cons_of_mem _ hr)) st1 st' h
      rcases scan_rule_cases a hx with ⟨e1, e2, _⟩ | ⟨hsel, _⟩
      · exact ⟨i1.trans e1, i2.trans e2⟩
      · exact absurd hsel (hno x (List.mem_cons_self _ _))

theorem scan_rules_bounded {box : UiBox} {link : Option ParentLink} (a : UiStyleAttribute)
    (s : UiSpecificity) (rules : List UiStyleRule)
    (hle : ∀ r ∈ rules, rule_selects box link r a → r.pattern.specificity.le s) :
    ∀ (st st' : ScanState), scan_rules box link rules st = .ok st' →
      (st.2.1 a).le s → (st'.2.1 a).le s := by
  induction rules with
  | nil => intro st st' h hs; cases h; exact hs
  | cons x rest ih =>
    intro st st' h hs
    simp only [scan_rules] at h
    rcases hx : scan_rule box link st x with e | st1
    · rw [hx] at h; cases h
    · rw [hx] at h
      apply ih (fun r hr => hle r (List.mem_cons_of_mem _ hr)) st1 st' h
      rcases scan_rule_cases a hx with ⟨_, e2, _⟩ | ⟨hsel, _, _, e2⟩
      · rw [e2]; exact hs
      · rw [e2]; exact hle x (List.mem_cons_self _ _) hsel

theorem scan_rules_kept {box : UiBox} {link : Option ParentLink} (a : UiStyleAttribute)
    (s : UiSpecificity) (rules : List UiStyleRule)
    (hlt : ∀ r ∈ rules, rule_selects box link r a → r.pattern.specificity.lt s) :
    ∀ (st st' : ScanState), scan_rules box link rules st = .ok st' → st.2.1 a = s →
      get_attr a st'.1 = get_attr a st.1 ∧ st'.2.1 a = s := by
  induction rules with
  | nil => intro st st' h hs; cases h; exact ⟨rfl, hs⟩
  | cons x rest ih =>
    intro st st' h hs
    simp only [scan_rules] at h
    rcases hx : scan_rule box link st x with e | st1
    · rw [hx] at h; cases h
    · rw [hx] at h
      rcases scan_rule_cases a hx with ⟨e1, e2, _⟩ | ⟨hsel, hle, _, _⟩
      · obtain ⟨i1, i2⟩ := ih (fun r hr => hlt r (List.mem_cons_of_mem _ hr)) st1 st' h
          (e2.trans hs)
        exact ⟨i1.trans e1, i2⟩
      · have := hlt x (List.mem_cons_self _ _) hsel
        rw [hs] at hle
        unfold UiSpecificity.lt at this
        unfold UiSpecificity.le at hle
        omega

/-- The rule loop leaves an attribute with the value of the last rule of
maximal specificity among the rules that set it. -/
theorem scan_rules_last_of_max {box : UiBox} {link : Option ParentLink} (a : UiStyleAttribute)
    (rules : List UiStyleRule) (r : UiStyleRule) (hr : LastOfMax box link a rules r)
    (st st' : ScanState) (h : scan_rules box link rules st = .ok st')
    (hst : st.2.1 a = ⟨0, 0⟩) : get_attr a st'.1 = get_attr a r.style := by
  obtain ⟨pre, post, hrules, hsel, hpre, hpost⟩ := hr
  rw [hrules] at h
  obtain ⟨st1, h1, h2⟩ := scan_rules_append pre (r :: post) st st' h
  have hb := scan_rules_bounded a r.pattern.specificity pre hpre st st1 h1
    (hst ▸ specificity_zero_le _)
  simp only [scan_rules] at h2
  rcases hx : scan_rule box link st1 r with e | st2
  · rw [hx] at h2; cases h2
  · rw [hx] at h2
    rcases scan_rule_cases a hx with ⟨_, _, hn⟩ | ⟨_, _, e1, e2⟩
    · exact absurd hb (hn hsel)
    · obtain ⟨k1, _⟩ := scan_rules_kept a r.pattern.specificity post hpost st2 st' h2 e2
      exact k1.trans e1

theorem last_of_max_exists (box : UiBox) (link : Option ParentLink) (a : UiStyleAttribute)
    (rules : List UiStyleRule) (h : ∃ r ∈ rules, rule_selects box link r a) :
    ∃ r, LastOfMax box link a rules r := by
  induction rules with
  | nil => obtain ⟨r, hr, _⟩ := h; cases hr
  | cons x rest ih =>
    by_cases hrest : ∃ r ∈ rest, rule_selects box link r a
    · obtain ⟨r, pre, post, hdec, hsel, hpre, hpost⟩ := ih hrest
      by_cases hx : rule_selects box link x a ∧
          ¬ x.pattern.specificity.le r.pattern.specificity
      · refine ⟨x, [], rest, rfl, hx.1, fun r' hr' => (by cases hr'), ?_⟩
        intro r' hr' hs'
        have hlt : r.pattern.specificity.lt x.pattern.specificity := by
          have := hx.2
          unfold UiSpecificity.le at this
          unfold UiSpecificity.lt
          omega
        rw [hdec] at hr'
        have hle : r'.pattern.specificity.le r.pattern.specificity := by
          rcases List.mem_append.1 hr' with h1 | h1
          · exact hpre r' h1 hs'
          · rcases List.mem_cons.1 h1 with h2 | h2
            · rw [h2]
              unfold UiSpecificity.le
              omega
            · have := hpost r' h2 hs'
              unfold UiSpecificity.lt at this
              unfold UiSpecificity.le
              omega
        unfold UiSpecificity.le at hle
        unfold UiSpecificity.lt at hlt ⊢
        omega
      · refine ⟨r, x :: pre, post, by rw [hdec]; rfl, hsel, ?_, hpost⟩
        intro r' hr' hs'
        rcases List.mem_cons.1 hr' with h1 | h1
        · subst h1
          by_contra hn
          exact hx ⟨hs', hn⟩
        · exact hpre r' h1 hs'
    · obtain ⟨r, hr, hsel⟩ := h
      have hrx : r = x := by
        rcases List.mem_cons.1 hr with h1 | h1
        · exact h1
        · exact absurd ⟨r, h1, hsel⟩ hrest
      subst hrx
      exact ⟨r, [], rest, rfl, hsel, fun r' hr' => (by cases hr'),
        fun r' hr' hs' => absurd ⟨r', hr', hs'⟩ hrest⟩

/-- C23. After the cascade has visited a box, the target-style value of an
attribute is that of the last rule, in the order of the list the box iterates
(the active list on entry, which holds the rules of the ancestors, then the
box's own rules), among the matching single-segment rules whose mask holds the
attribute and whose specificity is maximal in the pair ordering; such a rule
exists as soon as one rule sets the attribute; and when no rule sets it the
value set on the box stays. -/
theorem cascade_attr_last_of_max (powf : F32 → F32 → F32) (dt : F32)
    (link : Option ParentLink) (box : UiBox) (children : List BoxTree)
    (active : List UiStyleRule) (attr : UiStyleAttribute) (t' : BoxTree)
    (active' : List UiStyleRule)
    (hrun : apply_style_rules_box powf dt link (.node box children) active =
      .ok (t', active')) :
    (∀ r, LastOfMax box link attr (active ++ box.style_rules) r →
        get_attr attr t'.box.next_style = get_attr attr r.style) ∧
      ((∃ r ∈ active ++ box.style_rules, rule_selects box link r attr) →
        ∃ r, LastOfMax box link attr (active ++ box.style_rules) r) ∧
      ((∀ r ∈ active ++ box.style_rules, ¬ rule_selects box link r attr) →
        get_attr attr t'.box.next_style = get_attr attr box.next_style) := by
  obtain ⟨st, hst, hnext⟩ := apply_style_rules_box_next_style hrun
  rw [hnext]
  refine ⟨fun r hr => scan_rules_last_of_max attr _ r hr _ st hst rfl,
    last_of_max_exists box link attr _, ?_⟩
  intro hno
  exact (scan_rules_none attr _ hno _ st hst).1

theorem demo_cascade_ties_run :
    apply_style_rules_box demo_powf 0 (some ⟨0, 1⟩) (.node demo_box_ties []) [demo_rule_b] =
      .ok (demo_cascade_ties, [demo_rule_b]) := by rfl

/-- The sample box: `.b` does not match; `#x.a` needs the label `x`; `.a` and
`:first` match with the same specificity, and `:first`, the later one, sets
the colour. -/
theorem demo_cascade_ties_last :
    LastOfMax demo_box_ties (some ⟨0, 1⟩) .UI_BG_COLOR
        ([demo_rule_b] ++ demo_box_ties.style_rules) demo_rule_first ∧
      get_attr .UI_BG_COLOR demo_rule_first.style = .vec4 ⟨0, 1, 0, 1⟩ := by
  refine ⟨⟨[demo_rule_b, demo_rule_id, demo_rule_tag], [], rfl, ?_, ?_, ?_⟩, rfl⟩
  · exact ⟨⟨_, rfl, rfl⟩, by decide⟩
  · intro r' hr' _
    simp only [List.mem_cons, List.mem_singleton, List.not_mem_nil, or_false] at hr'
    rcases hr' with h | h | h <;> subst h
    · exact Or.inr ⟨rfl, le_refl _⟩
    · rename_i hs
      obtain ⟨⟨head, hp, hm⟩, _⟩ := hs
      cases hp
      cases hm
    · exact Or.inr ⟨rfl, le_refl _⟩
  · intro r' hr'
    cases hr'

theorem cascade_attr_last_of_max_witness :
    apply_style_rules_box demo_powf 0 (some ⟨0, 1⟩) (.node demo_box_ties []) [demo_rule_b] =
        .ok (demo_cascade_ties, [demo_rule_b]) ∧
      get_attr .UI_BG_COLOR demo_cascade_ties.box.next_style = .vec4 ⟨0, 1, 0, 1⟩ :=
  ⟨demo_cascade_ties_run,
    ((cascade_attr_last_of_max demo_powf 0 (some ⟨0, 1⟩) demo_box_ties [] [demo_rule_b]
      .UI_BG_COLOR demo_cascade_ties [demo_rule_b] demo_cascade_ties_run).1 demo_rule_first
      demo_cascade_ties_last.1).trans demo_cascade_ties_last.2⟩

/-- C24. When `apply_style_rules_box` returns, the active rule list is the
list it had on entry. Below the box, every child is visited with one and the
same list (the list on entry, the box's own rules, the rules derived at the
box) and leaves it as it was: the outcome for a child is the outcome of
visiting that child alone with this list, so no rule declared or derived in the
subtree of a sibling reaches it. -/
theorem apply_style_rules_box_restores (powf : F32 → F32 → F32) (dt : F32)
    (link : Option ParentLink) (box : UiBox) (children : List BoxTree)
    (active : List UiStyleRule) (t' : BoxTree) (active' : List UiStyleRule)
    (hrun : apply_style_rules_box powf dt link (.node box children) active =
      .ok (t', active')) :
    active' = active ∧
      ∃ st, scan_rules box link (active ++ box.style_rules) (box.next_style, Specs.zero, []) =
          .ok st ∧
        t'.children.length = children.length ∧
        ∀ (j : Nat) (c : BoxTree), children[j]? = some c →
          ∃ c', t'.children[j]? = some c' ∧
            apply_style_rules_box powf dt (some ⟨j, children.length⟩) c
                (active ++ box.style_rules ++ st.2.2) =
              .ok (c', active ++ box.style_rules ++ st.2.2) := by
  have hact := (cascade_at powf dt (.node box children) link active t' active' hrun).1
  refine ⟨hact, ?_⟩
  simp only [apply_style_rules_box] at hrun
  split at hrun
  · cases hrun
  · rename_i st hst
    split at hrun
    · cases hrun
    · rename_i children' a' hch
      cases hrun
      obtain ⟨_, e2, e3⟩ := apply_style_rules_children_spec children
        (fun c _ => cascade_at powf dt c) _ _ _ _ _ hch
      refine ⟨st, hst, e2, ?_⟩
      intro j c hc
      obtain ⟨c', hc', hrun'⟩ := e3 j c hc
      rw [Nat.zero_add] at hrun'
      exact ⟨c', hc', hrun'⟩

theorem demo_cascade_siblings_run :
    apply_style_rules_box demo_powf 0 none demo_tree_siblings [] =
      .ok (demo_cascade_siblings, []) := by rfl

/-- The sample tree: the rule `.b` declared on the first child colours that
child, and not its sibling, which carries the same tag. -/
theorem demo_cascade_siblings_colours :
    demo_cascade_siblings.children.map (fun c => c.box.next_style.bg_color) =
      [⟨1, 0, 0, 1⟩, ⟨0, 0, 0, 0⟩] := by rfl

theorem apply_style_rules_box_restores_witness :
    apply_style_rules_box demo_powf 0 none demo_tree_siblings [] =
        .ok (demo_cascade_siblings, []) ∧
      (([] : List UiStyleRule) = [] ∧
        ∃ st, scan_rules demo_tree_siblings.box none ([] ++ demo_tree_siblings.box.style_rules)
            (demo_tree_siblings.box.next_style, Specs.zero, []) = .ok st ∧
          demo_cascade_siblings.children.length = demo_tree_siblings.children.length ∧
          ∀ (j : Nat) (c : BoxTree), demo_tree_siblings.children[j]? = some c →
            ∃ c', demo_cascade_siblings.children[j]? = some c' ∧
              apply_style_rules_box demo_powf 0
                  (some ⟨j, demo_tree_siblings.children.length⟩) c
                  ([] ++ demo_tree_siblings.box.style_rules ++ st.2.2) =
                .ok (c', [] ++ demo_tree_siblings.box.style_rules ++ st.2.2)) :=
  ⟨demo_cascade_siblings_run,
    apply_style_rules_box_restores demo_powf 0 none demo_tree_siblings.box
      demo_tree_siblings.children [] demo_cascade_siblings [] demo_cascade_siblings_run⟩

/-! ## Claim C27: the cycle guard of the downward pass -/

theorem style_size_set_size (s : UiStyle) (axis : Nat) (v : UiSize) :
    (s.set_size axis v).size axis = v := by
  unfold UiStyle.set_size UiStyle.size
  split <;> rfl

/-- The body of the loop for one box: the other boxes stay, the child list
stays, and the size of the box becomes percent-of-parent with value 1 exactly
when the box is children-sum and one child is percent-of-parent. -/
theorem compute_downward_dependent_sizes_box_mode (ui : Ui) (axis : Nat) (box : BoxId) :
    (∀ x, x ≠ box → (compute_downward_dependent_sizes_box ui axis box).boxes x = ui.boxes x) ∧
      ((compute_downward_dependent_sizes_box ui axis box).boxes box).children =
        (ui.boxes box).children ∧
      ((size_mode ui.boxes axis box = .UI_SIZE_CHILDREN_SUM ∧
          ∃ c ∈ (ui.boxes box).children, size_mode ui.boxes axis c = .UI_SIZE_PCT_PARENT) →
        (((compute_downward_dependent_sizes_box ui axis box).boxes box).style.size axis).tag =
            .UI_SIZE_PCT_PARENT ∧
          (((compute_downward_dependent_sizes_box ui axis box).boxes box).style.size axis).value
            = 1) ∧
      (¬ (size_mode ui.boxes axis box = .UI_SIZE_CHILDREN_SUM ∧
          ∃ c ∈ (ui.boxes box).children, size_mode ui.boxes axis c = .UI_SIZE_PCT_PARENT) →
        ((compute_downward_dependent_sizes_box ui axis box).boxes box).style.size axis =
          (ui.boxes box).style.size axis) := by
  by_cases hm : ((ui.boxes box).style.size axis).tag = .UI_SIZE_CHILDREN_SUM
  · unfold compute_downward_dependent_sizes_box
    simp only [hm, ne_eq, not_true_eq_false, if_false]
    by_cases hc : ((ui.boxes box).children.any
        (fun child => decide (((ui.boxes child).style.size axis).tag = .UI_SIZE_PCT_PARENT))) = true
    · have hex : ∃ c ∈ (ui.boxes box).children,
          size_mode ui.boxes axis c = .UI_SIZE_PCT_PARENT := by
        obtain ⟨c, hc1, hc2⟩ := List.any_eq_true.1 hc
        exact ⟨c, hc1, by simpa [size_mode] using hc2⟩
      simp only [hc, if_true]
      refine ⟨?_, ?_, ?_, ?_⟩
      · intro x hx
        simp [modify_box_boxes, hx]
      · simp [modify_box_boxes]
      · intro _
        simp [modify_box_boxes, style_size_set_size]
      · intro hn
        exact absurd ⟨hm, hex⟩ hn
    · have hnex : ¬ ∃ c ∈ (ui.boxes box).children,
          size_mode ui.boxes axis c = .UI_SIZE_PCT_PARENT := by
        rintro ⟨c, hc1, hc2⟩
        apply hc
        exact List.any_eq_true.2 ⟨c, hc1, by simpa [size_mode] using hc2⟩
      simp only [hc, Bool.false_eq_true, if_false]
      refine ⟨?_, ?_, ?_, ?_⟩
      · intro x hx
        simp [modify_box_boxes, hx]
      · simp [modify_box_boxes]
      · rintro ⟨_, hex⟩
        exact absurd hex hnex
      · intro _
        simp [modify_box_boxes]
  · have e : compute_downward_dependent_sizes_box ui axis box = ui := by
      unfold compute_downward_dependent_sizes_box
      simp only [ne_eq]
      rw [if_pos hm]
    rw [e]
    refine ⟨fun _ _ => rfl, rfl, ?_, fun _ => rfl⟩
    rintro ⟨h, _⟩
    exact absurd h hm

theorem reclassified_iff (boxes : BoxId → UiBox) (axis : Nat) (b : BoxId) :
    Reclassified boxes axis b ↔
      size_mode boxes axis b = .UI_SIZE_CHILDREN_SUM ∧
        ∃ c ∈ (boxes b).children,
          size_mode boxes axis c = .UI_SIZE_PCT_PARENT ∨ Reclassified boxes axis c := by
  constructor
  · intro h
    cases h with
    | direct _ c hb hc hpct => exact ⟨hb, c, hc, Or.inl hpct⟩
    | chain _ c hb hc hrec => exact ⟨hb, c, hc, Or.inr hrec⟩
  · rintro ⟨hb, c, hc, hpct | hrec⟩
    · exact Reclassified.direct b c hb hc hpct
    · exact Reclassified.chain b c hb hc hrec

theorem reclassified_mode {boxes : BoxId → UiBox} {axis : Nat} {b : BoxId}
    (h : Reclassified boxes axis b) : size_mode boxes axis b = .UI_SIZE_CHILDREN_SUM :=
  ((reclassified_iff boxes axis b).1 h).1

/-- The pass over a listing of a tree, from its last box to its first. -/
theorem cycle_guard_fold (ui : Ui) (axis : Nat) (order : List BoxId)
    (h : ChildrenAfter ui.boxes order) :
    CycleGuard ui.boxes
      (order.reverse.foldl (fun ui box => compute_downward_dependent_sizes_box ui axis box)
        ui).boxes axis order := by
  induction order with
  | nil =>
    exact ⟨fun _ => rfl, fun _ _ => rfl, fun x hx => (by cases hx), fun x hx => (by cases hx)⟩
  | cons b rest ih =>
    obtain ⟨hb, hch, hrest⟩ := h
    have ih := ih hrest
    rw [List.reverse_cons, List.foldl_append]
    simp only [List.foldl_cons, List.foldl_nil]
    generalize hu : rest.reverse.foldl
      (fun ui box => compute_downward_dependent_sizes_box ui axis box) ui = u at ih ⊢
    obtain ⟨s1, s2, s3, s4⟩ := compute_downward_dependent_sizes_box_mode u axis b
    have hmode_b : size_mode u.boxes axis b = size_mode ui.boxes axis b := by
      unfold size_mode
      rw [ih.other b hb]
    have hcycle : (size_mode u.boxes axis b = .UI_SIZE_CHILDREN_SUM ∧
        ∃ c ∈ (u.boxes b).children, size_mode u.boxes axis c = .UI_SIZE_PCT_PARENT) ↔
        Reclassified ui.boxes axis b := by
      rw [reclassified_iff, hmode_b, ih.children b]
      constructor
      · rintro ⟨h1, c, hc, hpct⟩
        refine ⟨h1, c, hc, ?_⟩
        by_cases hr : Reclassified ui.boxes axis c
        · exact Or.inr hr
        · left
          unfold size_mode at hpct ⊢
          rw [← ih.kept c (hch c hc) hr]
          exact hpct
      · rintro ⟨h1, c, hc, hpct | hr⟩
        · refine ⟨h1, c, hc, ?_⟩
          have hr : ¬ Reclassified ui.boxes axis c := by
            intro hr
            have := reclassified_mode hr
            rw [hpct] at this
            cases this
          unfold size_mode at hpct ⊢
          rw [ih.kept c (hch c hc) hr]
          exact hpct
        · exact ⟨h1, c, hc, (ih.reclassified c (hch c hc) hr).1⟩
    refine ⟨?_, ?_, ?_, ?_⟩
    · intro x
      by_cases hx : x = b
      · subst hx
        rw [s2, ih.children]
      · rw [s1 x hx, ih.children]
    · intro x hx
      have hxb : x ≠ b := fun e => hx (e ▸ List.mem_cons_self _ _)
      rw [s1 x hxb]
      exact ih.other x (fun hm => hx (List.mem_cons_of_mem _ hm))
    · intro x hx hr
      by_cases hxb : x = b
      · subst hxb
        exact s3 (hcycle.2 hr)
      · rw [s1 x hxb]
        exact ih.reclassified x ((List.mem_cons.1 hx).resolve_left hxb) hr
    · intro x hx hr
      by_cases hxb : x = b
      · subst hxb
        rw [s4 (fun hc => hr (hcycle.1 hc))]
        exact ih.other x hb
      · rw [s1 x hxb]
        exact ih.kept x ((List.mem_cons.1 hx).resolve_left hxb) hr

/-- C27. For a heap whose `depth_first` lists a tree from the parents to the
children, after `compute_downward_dependent_sizes` on an axis no listed box
whose mode on the axis is children-sum has a child whose mode is
percent-of-parent; a children-sum box that had such a child, at the start or
through a chain of reclassified children-sum descendants, ends with the mode
percent-of-parent and the value 1, and every other listed box keeps its
size. -/
theorem compute_downward_dependent_sizes_breaks_cycles (ui : Ui) (axis : Nat)
    (htree : ChildrenAfter ui.boxes ui.depth_first) :
    (∀ b ∈ ui.depth_first,
        size_mode (compute_downward_dependent_sizes ui axis).boxes axis b =
          .UI_SIZE_CHILDREN_SUM →
        ∀ c ∈ ((compute_downward_dependent_sizes ui axis).boxes b).children,
          size_mode (compute_downward_dependent_sizes ui axis).boxes axis c ≠
            .UI_SIZE_PCT_PARENT) ∧
      (∀ b ∈ ui.depth_first, Reclassified ui.boxes axis b →
        size_mode (compute_downward_dependent_sizes ui axis).boxes axis b =
            .UI_SIZE_PCT_PARENT ∧
          (((compute_downward_dependent_sizes ui axis).boxes b).style.size axis).value = 1) ∧
      (∀ b ∈ ui.depth_first, ¬ Reclassified ui.boxes axis b →
        ((compute_downward_dependent_sizes ui axis).boxes b).style.size axis =
          (ui.boxes b).style.size axis) := by
  have g := cycle_guard_fold ui axis ui.depth_first htree
  have hin : ∀ (l : List BoxId), ChildrenAfter ui.boxes l → ∀ b ∈ l,
      ∀ c ∈ (ui.boxes b).children, c ∈ l := by
    intro l
    induction l with
    | nil => intro _ b hb; cases hb
    | cons x rest ih =>
      intro h b hb c hc
      rcases List.mem_cons.1 hb with e | hb'
      · subst e
        exact List.mem_cons_of_mem _ (h.2.1 c hc)
      · exact List.mem_cons_of_mem _ (ih h.2.2 b hb' c hc)
  refine ⟨?_, fun b hb hr => g.reclassified b hb hr, fun b hb hr => g.kept b hb hr⟩
  intro b hb hmode c hc hpct
  unfold compute_downward_dependent_sizes at hmode hc hpct
  rw [g.children b] at hc
  have hcl := hin _ htree b hb c hc
  have hnb : ¬ Reclassified ui.boxes axis b := by
    intro hr
    have := (g.reclassified b hb hr).1
    unfold size_mode at hmode
    rw [this] at hmode
    cases hmode
  have hmb : size_mode ui.boxes axis b = .UI_SIZE_CHILDREN_SUM := by
    unfold size_mode at hmode ⊢
    rw [← g.kept b hb hnb]
    exact hmode
  by_cases hrc : Reclassified ui.boxes axis c
  · exact hnb (Reclassified.chain b c hmb hc hrc)
  · apply hnb
    refine Reclassified.direct b c hmb hc ?_
    unfold size_mode at hpct ⊢
    rw [← g.kept c hcl hrc]
    exact hpct

theorem demo_cycle_tree : ChildrenAfter demo_cycle.boxes demo_cycle.depth_first := by
  simp [ChildrenAfter, demo_cycle, ui_init, UiBox.zeroed, demo_child]

/-- The sample heap on axis 0: box 1 is reclassified because of box 2, then
box 0 because of box 1; box 3 keeps its pixel size. -/
theorem demo_cycle_run :
    [0, 1, 2, 3].map (size_mode (compute_downward_dependent_sizes demo_cycle 0).boxes 0) =
        [.UI_SIZE_PCT_PARENT, .UI_SIZE_PCT_PARENT, .UI_SIZE_PCT_PARENT, .UI_SIZE_PIXELS] ∧
      [0, 1, 2, 3].map (size_mode demo_cycle.boxes 0) =
        [.UI_SIZE_CHILDREN_SUM, .UI_SIZE_CHILDREN_SUM, .UI_SIZE_PCT_PARENT, .UI_SIZE_PIXELS] :=
  ⟨rfl, rfl⟩

theorem compute_downward_dependent_sizes_breaks_cycles_witness :
    ChildrenAfter demo_cycle.boxes demo_cycle.depth_first ∧
    ((∀ b ∈ demo_cycle.depth_first,
        size_mode (compute_downward_dependent_sizes demo_cycle 0).boxes 0 b =
          .UI_SIZE_CHILDREN_SUM →
        ∀ c ∈ ((compute_downward_dependent_sizes demo_cycle 0).boxes b).children,
          size_mode (compute_downward_dependent_sizes demo_cycle 0).boxes 0 c ≠
            .UI_SIZE_PCT_PARENT) ∧
      (∀ b ∈ demo_cycle.depth_first, Reclassified demo_cycle.boxes 0 b →
        size_mode (compute_downward_dependent_sizes demo_cycle 0).boxes 0 b =
            .UI_SIZE_PCT_PARENT ∧
          (((compute_downward_dependent_sizes demo_cycle 0).boxes b).style.size 0).value = 1) ∧
      (∀ b ∈ demo_cycle.depth_first, ¬ Reclassified demo_cycle.boxes 0 b →
        ((compute_downward_dependent_sizes demo_cycle 0).boxes b).style.size 0 =
          (demo_cycle.boxes b).style.size 0)) :=
  ⟨demo_cycle_tree, compute_downward_dependent_sizes_breaks_cycles demo_cycle 0 demo_cycle_tree⟩

/-! ## The positions on the layout axis -/

theorem rect_top_left_set_top_left (r : UiRect) (axis : Nat) (v : F32) :
    (r.set_top_left axis v).top_left axis = v := by
  unfold UiRect.set_top_left UiRect.top_left
  split <;> rfl

theorem rect_size_set_top_left (r : UiRect) (axis : Nat) (v : F32) :
    (r.set_top_left axis v).size axis = r.size axis := by
  unfold UiRect.set_top_left UiRect.size
  split <;> rfl

theorem inflow_congr (boxes boxes' : BoxId → UiBox) (axis : Nat) (l : List BoxId)
    (h : ∀ c ∈ l, (boxes' c).style = (boxes c).style) :
    inflow boxes' axis l = inflow boxes axis l := by
  unfold inflow
  apply List.filter_congr
  intro c hc
  rw [h c hc]

/-- One child placed: only its position on the axis changes. -/
theorem place_one (u : Ui) (axis : Nat) (child : BoxId) (v : F32) :
    (∀ x, x ≠ child →
        (u.modify_box child (fun c => { c with rect := c.rect.set_top_left axis v })).boxes x =
          u.boxes x) ∧
      (∀ x, ((u.modify_box child
          (fun c => { c with rect := c.rect.set_top_left axis v })).boxes x).style =
        (u.boxes x).style) ∧
      (∀ x, ((u.modify_box child
          (fun c => { c with rect := c.rect.set_top_left axis v })).boxes x).rect.size axis =
        (u.boxes x).rect.size axis) ∧
      box_pos (u.modify_box child
        (fun c => { c with rect := c.rect.set_top_left axis v })).boxes axis child = v := by
  refine ⟨?_, ?_, ?_, ?_⟩
  · intro x hx
    simp [modify_box_boxes, hx]
  · intro x
    by_cases hx : x = child
    · subst hx; simp [modify_box_boxes]
    · simp [modify_box_boxes, hx]
  · intro x
    by_cases hx : x = child
    · subst hx; simp [modify_box_boxes, rect_size_set_top_left]
    · simp [modify_box_boxes, hx]
  · simp [box_pos, modify_box_boxes, rect_top_left_set_top_left]

/-- The loop that places the children, for a child list without repetition
that does not hold the box itself. -/
theorem place_children_spec (axis : Nat) (box : BoxId) (l : List BoxId) :
    ∀ (pos : F32) (u : Ui), l.Nodup → box ∉ l →
      (∀ x, x ∉ l → (place_children axis box l pos u).boxes x = u.boxes x) ∧
      (∀ x, ((place_children axis box l pos u).boxes x).style = (u.boxes x).style) ∧
      (∀ x, ((place_children axis box l pos u).boxes x).rect.size axis =
        (u.boxes x).rect.size axis) ∧
      (∀ c, (inflow u.boxes axis l).head? = some c →
        box_pos (place_children axis box l pos u).boxes axis c = pos) ∧
      (∀ k p c, (inflow u.boxes axis l)[k]? = some p → (inflow u.boxes axis l)[k + 1]? = some c →
        box_pos (place_children axis box l pos u).boxes axis c =
          box_pos (place_children axis box l pos u).boxes axis p +
            ((u.boxes p).rect.size axis + (u.boxes box).style.spacing)) ∧
      (∀ c ∈ l, ∀ off, (u.boxes c).style.floating axis = some off →
        box_pos (place_children axis box l pos u).boxes axis c =
          (u.boxes box).rect.top_left axis + off) := by
  induction l with
  | nil =>
    intro pos u _ _
    refine ⟨fun _ _ => rfl, fun _ => rfl, fun _ => rfl, ?_, ?_, ?_⟩
    · intro c hc; simp [inflow] at hc
    · intro k p c hp; simp [inflow] at hp
    · intro c hc; cases hc
  | cons child rest ih =>
    intro pos u hnd hself
    have hcr : child ∉ rest := (List.nodup_cons.1 hnd).1
    have hrest : rest.Nodup := (List.nodup_cons.1 hnd).2
    have hbc : box ≠ child := fun e => hself (e ▸ List.mem_cons_self _ _)
    have hbr : box ∉ rest := fun h => hself (List.mem_cons_of_mem _ h)
    rcases hfl : (u.boxes child).style.floating axis with _ | off0
    · -- a child in the flow
      obtain ⟨o1, o2, o3, o4⟩ := place_one u axis child pos
      generalize hu1 : u.modify_box child
        (fun c => { c with rect := c.rect.set_top_left axis pos }) = u1 at o1 o2 o3 o4
      have hstep : place_children axis box (child :: rest) pos u =
          place_children axis box rest
            (pos + ((u.boxes child).rect.size axis + (u.boxes box).style.spacing)) u1 := by
        rw [place_children]
        simp only [hfl]
        rw [hu1, o3 child, o1 box hbc]
      rw [hstep]
      obtain ⟨i1, i2, i3, i4, i5, i6⟩ :=
        ih (pos + ((u.boxes child).rect.size axis + (u.boxes box).style.spacing)) u1 hrest hbr
      have hflow : inflow u1.boxes axis rest = inflow u.boxes axis rest :=
        inflow_congr _ _ _ _ (fun c _ => o2 c)
      have hflow' : inflow u.boxes axis (child :: rest) = child :: inflow u.boxes axis rest := by
        unfold inflow
        rw [List.filter_cons]
        simp [hfl]
      rw [hflow] at i4 i5
      have hchild : box_pos (place_children axis box rest
          (pos + ((u.boxes child).rect.size axis + (u.boxes box).style.spacing)) u1).boxes axis
          child = pos := by
        unfold box_pos at o4 ⊢
        rw [i1 child hcr]
        exact o4
      refine ⟨?_, ?_, ?_, ?_, ?_, ?_⟩
      · intro x hx
        have hxc : x ≠ child := fun e => hx (e ▸ List.mem_cons_self _ _)
        rw [i1 x (fun h => hx (List.mem_cons_of_mem _ h)), o1 x hxc]
      · intro x; rw [i2, o2]
      · intro x; rw [i3, o3]
      · intro c hc
        rw [hflow'] at hc
        simp only [List.head?_cons, Option.some.injEq] at hc
        subst hc
        exact hchild
      · intro k p c hp hc
        rw [hflow'] at hp hc
        cases k with
        | zero =>
          simp only [List.getElem?_cons_zero, Option.some.injEq] at hp
          simp only [Nat.zero_add, List.getElem?_cons_succ] at hc
          subst hp
          have hhead : (inflow u.boxes axis rest).head? = some c := by
            rw [List.head?_eq_getElem?]; exact hc
          rw [i4 c hhead, hchild]
        | succ k =>
          simp only [List.getElem?_cons_succ] at hp hc
          rw [i5 k p c hp hc, o3 p, o1 box hbc]
      · intro c hc off hoff
        have hcc : c ≠ child := by
          intro e
          rw [e, hfl] at hoff
          cases hoff
        have hcr' : c ∈ rest := (List.mem_cons.1 hc).resolve_left hcc
        rw [i6 c hcr' off (by rw [o2]; exact hoff), o1 box hbc]
    · -- a floating child
      obtain ⟨o1, o2, o3, o4⟩ :=
        place_one u axis child ((u.boxes box).rect.top_left axis + off0)
      generalize hv : (u.boxes box).rect.top_left axis + off0 = v at o1 o2 o3 o4
      generalize hu1 : u.modify_box child
        (fun c => { c with rect := c.rect.set_top_left axis v }) = u1 at o1 o2 o3 o4
      have hstep : place_children axis box (child :: rest) pos u =
          place_children axis box rest pos u1 := by
        rw [place_children]
        simp only [hfl]
        rw [hv, hu1]
      rw [hstep]
      obtain ⟨i1, i2, i3, i4, i5, i6⟩ := ih pos u1 hrest hbr
      have hflow : inflow u1.boxes axis rest = inflow u.boxes axis rest :=
        inflow_congr _ _ _ _ (fun c _ => o2 c)
      have hflow' : inflow u.boxes axis (child :: rest) = inflow u.boxes axis rest := by
        unfold inflow
        rw [List.filter_cons]
        simp [hfl]
      rw [hflow] at i4 i5
      refine ⟨?_, ?_, ?_, ?_, ?_, ?_⟩
      · intro x hx
        have hxc : x ≠ child := fun e => hx (e ▸ List.mem_cons_self _ _)
        rw [i1 x (fun h => hx (List.mem_cons_of_mem _ h)), o1 x hxc]
      · intro x; rw [i2, o2]
      · intro x; rw [i3, o3]
      · intro c hc
        rw [hflow'] at hc
        exact i4 c hc
      · intro k p c hp hc
        rw [hflow'] at hp hc
        rw [i5 k p c hp hc, o3 p, o1 box hbc]
      · intro c hc off hoff
        by_cases hcc : c = child
        · subst hcc
          rw [hfl] at hoff
          cases hoff
          unfold box_pos at o4 ⊢
          rw [i1 c hcr, hv]
          exact o4
        · have hcr' : c ∈ rest := (List.mem_cons.1 hc).resolve_left hcc
          rw [i6 c hcr' off (by rw [o2]; exact hoff), o1 box hbc]

theorem rect_top_left_set_size (r : UiRect) (axis : Nat) (v : F32) :
    (r.set_size axis v).top_left axis = r.top_left axis := by
  unfold UiRect.set_size UiRect.top_left
  split <;> rfl

/-- The write of `content.size`: style, rect, child list and content origin of
every box stay. -/
theorem set_content_size_frame (ui : Ui) (axis : Nat) (box : BoxId) (v : F32) (x : BoxId) :
    ((ui.modify_box box (fun b => { b with content := b.content.set_size axis v })).boxes
        x).style = (ui.boxes x).style ∧
      ((ui.modify_box box (fun b => { b with content := b.content.set_size axis v })).boxes
        x).rect = (ui.boxes x).rect ∧
      ((ui.modify_box box (fun b => { b with content := b.content.set_size axis v })).boxes
        x).children = (ui.boxes x).children ∧
      ((ui.modify_box box (fun b => { b with content := b.content.set_size axis v })).boxes
        x).content.top_left axis = (ui.boxes x).content.top_left axis := by
  by_cases hx : x = box
  · subst hx
    simp [modify_box_boxes, rect_top_left_set_size]
  · simp [modify_box_boxes, hx]

/-- The placement on the layout axis of a box (whose child list has no
repetition and does not hold the box), before the flooring: the first
non-floating child is at parent origin + padding + alignment offset + content
offset; every next non-floating child, in the order of the child list, is at
the position of the previous non-floating child + the size of that child + the
spacing; every floating child is at parent origin + its floating offset; and
no size has changed. -/
theorem compute_positions_flow_places (ui : Ui) (axis : Nat) (box : BoxId)
    (hnd : (ui.boxes box).children.Nodup) (hself : box ∉ (ui.boxes box).children) :
    (∀ c, (inflow ui.boxes axis (ui.boxes box).children).head? = some c →
        box_pos (compute_positions_flow ui axis box).boxes axis c =
          (ui.boxes box).rect.top_left axis + (ui.boxes box).style.padding.v axis +
            align_offset ((ui.boxes box).style.align axis) ((ui.boxes box).rect.size axis)
              (sum_children ui.boxes axis (ui.boxes box).style.spacing (ui.boxes box).children
                (2 * (ui.boxes box).style.padding.v axis)) +
            (ui.boxes box).content.top_left axis) ∧
      (∀ k p c, (inflow ui.boxes axis (ui.boxes box).children)[k]? = some p →
        (inflow ui.boxes axis (ui.boxes box).children)[k + 1]? = some c →
        box_pos (compute_positions_flow ui axis box).boxes axis c =
          box_pos (compute_positions_flow ui axis box).boxes axis p +
            (((compute_positions_flow ui axis box).boxes p).rect.size axis +
              (ui.boxes box).style.spacing)) ∧
      (∀ c ∈ (ui.boxes box).children, ∀ off, (ui.boxes c).style.floating axis = some off →
        box_pos (compute_positions_flow ui axis box).boxes axis c =
          (ui.boxes box).rect.top_left axis + off) ∧
      (∀ x, ((compute_positions_flow ui axis box).boxes x).rect.size axis =
        (ui.boxes x).rect.size axis) ∧
      ((ui.boxes box).style.axis = axis →
        compute_positions_box ui axis box =
          floor_children ((compute_positions_flow ui axis box).boxes box).children
            (compute_positions_flow ui axis box)) := by
  generalize hcs : sum_children ui.boxes axis (ui.boxes box).style.spacing
    (ui.boxes box).children (2 * (ui.boxes box).style.padding.v axis) = content_size
  have hf := set_content_size_frame ui axis box (floor content_size)
  have hflow : compute_positions_flow ui axis box =
      place_children axis box (ui.boxes box).children
        ((ui.boxes box).rect.top_left axis + (ui.boxes box).style.padding.v axis +
          align_offset ((ui.boxes box).style.align axis) ((ui.boxes box).rect.size axis)
            content_size + (ui.boxes box).content.top_left axis)
        (ui.modify_box box (fun b =>
          { b with content := b.content.set_size axis (floor content_size) })) := by
    unfold compute_positions_flow
    simp only [hcs]
    rw [(hf box).1, (hf box).2.1, (hf box).2.2.1, (hf box).2.2.2]
  rw [hflow]
  generalize hu0 : ui.modify_box box (fun b =>
    { b with content := b.content.set_size axis (floor content_size) }) = u0 at hf
  obtain ⟨p1, p2, p3, p4, p5, p6⟩ := place_children_spec axis box (ui.boxes box).children
    ((ui.boxes box).rect.top_left axis + (ui.boxes box).style.padding.v axis +
      align_offset ((ui.boxes box).style.align axis) ((ui.boxes box).rect.size axis)
        content_size + (ui.boxes box).content.top_left axis) u0 hnd hself
  have hin : inflow u0.boxes axis (ui.boxes box).children =
      inflow ui.boxes axis (ui.boxes box).children :=
    inflow_congr _ _ _ _ (fun c _ => (hf c).1)
  rw [hin] at p4 p5
  refine ⟨p4, ?_, ?_, ?_, ?_⟩
  · intro k p c hp hc
    rw [p5 k p c hp hc, p3 p, (hf box).1]
  · intro c hc off hoff
    rw [p6 c hc off (by rw [(hf c).1]; exact hoff), (hf box).2.1]
  · intro x
    rw [p3 x, (hf x).2.1]
  · intro hax
    subst hu0
    rw [← hflow]
    unfold compute_positions_box
    simp only [hax, if_true]

theorem demo_positions_flow :
    inflow demo_positions.boxes 0 (demo_positions.boxes 0).children = [1, 3] ∧
      (demo_positions.boxes 2).style.floating 0 = some 5 := by
  constructor <;> rfl

/-- The sample box on axis 0: the children in the flow at 28 and 132, the
floating one at 25. -/
theorem demo_positions_run :
    [1, 2, 3].map (box_pos (compute_positions_flow demo_positions 0 0).boxes 0) =
      [28, 25, 132] := by
  simp [compute_positions_flow, place_children, box_pos, demo_positions, ui_init,
    modify_box_boxes, sum_children, align_offset, demo_child, demo_floating_child,
    default_box_style, UiBox.zeroed, UiStyle.floating, UiStyle.align, UiRect.size,
    UiRect.set_size, UiRect.top_left, UiRect.set_top_left, Vec2.v, UI_ALIGN_MIDDLE,
    UI_ALIGN_END, UiRect.zero]
  norm_num

theorem compute_positions_flow_places_witness :
    ((demo_positions.boxes 0).children.Nodup ∧ 0 ∉ (demo_positions.boxes 0).children) ∧
    (∀ k p c, (inflow demo_positions.boxes 0 (demo_positions.boxes 0).children)[k]? = some p →
        (inflow demo_positions.boxes 0 (demo_positions.boxes 0).children)[k + 1]? = some c →
        box_pos (compute_positions_flow demo_positions 0 0).boxes 0 c =
          box_pos (compute_positions_flow demo_positions 0 0).boxes 0 p +
            (((compute_positions_flow demo_positions 0 0).boxes p).rect.size 0 +
              (demo_positions.boxes 0).style.spacing)) ∧
      (∀ c ∈ (demo_positions.boxes 0).children, ∀ off,
        (demo_positions.boxes c).style.floating 0 = some off →
        box_pos (compute_positions_flow demo_positions 0 0).boxes 0 c =
          (demo_positions.boxes 0).rect.top_left 0 + off) :=
  ⟨⟨by decide, by decide⟩,
    (compute_positions_flow_places demo_positions 0 0 (by decide) (by decide)).2.1,
    (compute_positions_flow_places demo_positions 0 0 (by decide) (by decide)).2.2.1⟩

/-! ## Claim C28: the loop of `compute_positions` -/

theorem places_only_refl (axis : Nat) (l : List BoxId) (u : Ui) : PlacesOnly axis l u u :=
  fun _ => ⟨rfl, rfl, rfl, fun _ => rfl⟩

theorem places_only_trans {axis : Nat} {l : List BoxId} {u v w : Ui}
    (h1 : PlacesOnly axis l u v) (h2 : PlacesOnly axis l v w) : PlacesOnly axis l u w := by
  intro x
  obtain ⟨a1, a2, a3, a4⟩ := h1 x
  obtain ⟨b1, b2, b3, b4⟩ := h2 x
  exact ⟨b1.trans a1, b2.trans a2, b3.trans a3, fun hx => (b4 hx).trans (a4 hx)⟩

theorem places_only_rect (axis : Nat) (l : List BoxId) (u : Ui) (child : BoxId)
    (hc : child ∈ l) (f : UiBox → UiRect) :
    PlacesOnly axis l u (u.modify_box child (fun c => { c with rect := f c })) := by
  intro x
  by_cases hx : x = child
  · subst hx
    simp [modify_box_boxes, hc]
  · simp [modify_box_boxes, hx]

theorem places_only_content (axis : Nat) (l : List BoxId) (u : Ui) (box : BoxId) (v : F32) :
    PlacesOnly axis l u
      (u.modify_box box (fun b => { b with content := b.content.set_size axis v })) := by
  intro x
  have hf := set_content_size_frame u axis box v x
  exact ⟨hf.2.2.1, hf.1, hf.2.2.2, fun _ => hf.2.1⟩

theorem place_children_places (axis : Nat) (box : BoxId) (l : List BoxId) (l' : List BoxId) :
    ∀ (pos : F32) (u : Ui), (∀ c ∈ l', c ∈ l) →
      PlacesOnly axis l u (place_children axis box l' pos u) := by
  induction l' with
  | nil => intro pos u _; exact places_only_refl axis l u
  | cons c rest ih =>
    intro pos u hsub
    have hc := hsub c (List.mem_cons_self _ _)
    have hrest : ∀ c ∈ rest, c ∈ l := fun c hc => hsub c (List.mem_cons_of_mem _ hc)
    simp only [place_children]
    split
    · exact places_only_trans (places_only_rect axis l u c hc _) (ih _ _ hrest)
    · exact places_only_trans (places_only_rect axis l u c hc _) (ih _ _ hrest)

theorem place_children_cross_places (axis : Nat) (box : BoxId) (l : List BoxId)
    (l' : List BoxId) :
    ∀ (u : Ui), (∀ c ∈ l', c ∈ l) →
      PlacesOnly axis l u (place_children_cross axis box l' u) := by
  induction l' with
  | nil => intro u _; exact places_only_refl axis l u
  | cons c rest ih =>
    intro u hsub
    have hc := hsub c (List.mem_cons_self _ _)
    have hrest : ∀ c ∈ rest, c ∈ l := fun c hc => hsub c (List.mem_cons_of_mem _ hc)
    simp only [place_children_cross]
    split
    · exact places_only_trans (places_only_content axis l u box _)
        (places_only_trans (places_only_rect axis l _ c hc _) (ih _ hrest))
    · exact places_only_trans (places_only_rect axis l u c hc _) (ih _ hrest)

theorem floor_children_places (axis : Nat) (l : List BoxId) (l' : List BoxId) :
    ∀ (u : Ui), (∀ c ∈ l', c ∈ l) → PlacesOnly axis l u (floor_children l' u) := by
  induction l' with
  | nil => intro u _; exact places_only_refl axis l u
  | cons c rest ih =>
    intro u hsub
    have hc := hsub c (List.mem_cons_self _ _)
    have hrest : ∀ c ∈ rest, c ∈ l := fun c hc => hsub c (List.mem_cons_of_mem _ hc)
    simp only [floor_children]
    exact places_only_trans (places_only_rect axis l u c hc _) (ih _ hrest)

theorem compute_positions_flow_only (u : Ui) (axis : Nat) (b : BoxId) :
    PlacesOnly axis (u.boxes b).children u (compute_positions_flow u axis b) := by
  unfold compute_positions_flow
  simp only
  refine places_only_trans (places_only_content axis _ u b _) (place_children_places _ _ _ _ _ _ ?_)
  intro c hc
  rw [(set_content_size_frame u axis b _ b).2.2.1] at hc
  exact hc

theorem compute_positions_cross_only (u : Ui) (axis : Nat) (b : BoxId) :
    PlacesOnly axis (u.boxes b).children u (compute_positions_cross u axis b) := by
  unfold compute_positions_cross
  simp only
  have h0 := set_content_size_frame u axis b 0 b
  refine places_only_trans (places_only_content axis _ u b 0)
    (place_children_cross_places _ _ _ _ _ ?_)
  intro c hc
  rw [h0.2.2.1] at hc
  exact hc

/-- One round of the loop of `compute_positions` writes the rects of the
children of its box and the size of its content. -/
theorem compute_positions_box_only (u : Ui) (axis : Nat) (b : BoxId) :
    PlacesOnly axis (u.boxes b).children u (compute_positions_box u axis b) := by
  unfold compute_positions_box
  simp only
  split
  · have h1 := compute_positions_flow_only u axis b
    refine places_only_trans h1 (floor_children_places _ _ _ _ ?_)
    intro c hc
    rw [(h1 b).1] at hc
    exact hc
  · have h1 := compute_positions_cross_only u axis b
    refine places_only_trans h1 (floor_children_places _ _ _ _ ?_)
    intro c hc
    rw [(h1 b).1] at hc
    exact hc

/-- The rounds of the loop over a list of boxes keep the rect of a box that is
a child of none of them. -/
theorem compute_positions_fold_only (axis : Nat) (l : List BoxId) :
    ∀ (u : Ui) (x : BoxId),
      ((l.foldl (fun u b => compute_positions_box u axis b) u).boxes x).children =
          (u.boxes x).children ∧
        ((l.foldl (fun u b => compute_positions_box u axis b) u).boxes x).style =
          (u.boxes x).style ∧
        ((l.foldl (fun u b => compute_positions_box u axis b) u).boxes x).content.top_left axis =
          (u.boxes x).content.top_left axis ∧
        ((∀ b ∈ l, x ∉ (u.boxes b).children) →
          ((l.foldl (fun u b => compute_positions_box u axis b) u).boxes x).rect =
            (u.boxes x).rect) := by
  induction l with
  | nil => intro u x; exact ⟨rfl, rfl, rfl, fun _ => rfl⟩
  | cons b rest ih =>
    intro u x
    simp only [List.foldl_cons]
    have h1 := compute_positions_box_only u axis b
    obtain ⟨i1, i2, i3, i4⟩ := ih (compute_positions_box u axis b) x
    obtain ⟨a1, a2, a3, a4⟩ := h1 x
    refine ⟨i1.trans a1, i2.trans a2, i3.trans a3, ?_⟩
    intro hno
    rw [i4 (fun b' hb' => by rw [(h1 b').1]; exact hno b' (List.mem_cons_of_mem _ hb')),
      a4 (hno b (List.mem_cons_self _ _))]

/-- The flooring loop over a child list without repetition floors the rect of
every child once. -/
theorem floor_children_rect (l : List BoxId) :
    ∀ (u : Ui), l.Nodup → ∀ c ∈ l,
      ((floor_children l u).boxes c).rect =
        ⟨floor (u.boxes c).rect.x, floor (u.boxes c).rect.y, floor (u.boxes c).rect.w,
          floor (u.boxes c).rect.h⟩ := by
  induction l with
  | nil => intro u _ c hc; cases hc
  | cons x rest ih =>
    intro u hnd c hc
    have hx : x ∉ rest := (List.nodup_cons.1 hnd).1
    have hrest := (List.nodup_cons.1 hnd).2
    simp only [floor_children]
    rcases List.mem_cons.1 hc with h | h
    · subst h
      rw [(floor_children_places 0 rest rest _ (fun _ h => h) c).2.2.2 hx]
      simp [modify_box_boxes]
    · have hne : c ≠ x := fun e => hx (e ▸ h)
      rw [ih _ hrest c h]
      simp [modify_box_boxes, hne]

theorem inflow_sizes_congr_rect (boxes boxes' : BoxId → UiBox) (axis : Nat)
    (children : List BoxId)
    (h : ∀ c ∈ children, (boxes' c).style = (boxes c).style ∧ (boxes' c).rect = (boxes c).rect) :
    inflow_sizes boxes' axis children = inflow_sizes boxes axis children := by
  induction children with
  | nil => rfl
  | cons x rest ih =>
    obtain ⟨h1, h2⟩ := h x (List.mem_cons_self _ _)
    simp only [inflow_sizes, h1, h2]
    rw [ih (fun c hc => h c (List.mem_cons_of_mem _ hc))]

theorem inflow_not_last_congr (boxes boxes' : BoxId → UiBox) (axis : Nat)
    (children : List BoxId) (h : ∀ c ∈ children, (boxes' c).style = (boxes c).style) :
    inflow_not_last boxes' axis children = inflow_not_last boxes axis children := by
  induction children with
  | nil => rfl
  | cons x rest ih =>
    simp only [inflow_not_last, h x (List.mem_cons_self _ _)]
    rw [ih (fun c hc => h c (List.mem_cons_of_mem _ hc))]

theorem align_offset_cases (align : Nat) (rect_size content_size : F32) :
    (align = UI_ALIGN_MIDDLE →
        align_offset align rect_size content_size =
          ((⌊rect_size / 2 - content_size / 2⌋ : ℤ) : F32)) ∧
      (align = UI_ALIGN_END → align_offset align rect_size content_size =
          rect_size - content_size) ∧
      (align ≠ UI_ALIGN_MIDDLE → align ≠ UI_ALIGN_END →
        align_offset align rect_size content_size = 0) := by
  unfold align_offset
  refine ⟨?_, ?_, ?_⟩
  · intro h; rw [if_pos h]; rfl
  · intro h
    rw [if_neg (by rw [h]; decide), if_pos h]
  · intro h1 h2
    rw [if_neg h1, if_neg h2]
theorem mem_take_ne_of_nodup {l : List BoxId} (hnd : l.Nodup) {k : Nat} {box : BoxId}
    (hk : l[k]? = some box) : (∀ b ∈ l.take k, b ≠ box) ∧ (∀ b ∈ l.drop (k + 1), b ≠ box) ∧
      l = l.take k ++ box :: l.drop (k + 1) := by
  have hlt : k < l.length := (List.getElem?_eq_some_iff.1 hk).1
  have hget : l[k] = box := (List.getElem?_eq_some_iff.1 hk).2
  have hsplit : l = l.take k ++ box :: l.drop (k + 1) := by
    rw [← hget, ← List.drop_eq_getElem_cons hlt, List.take_append_drop]
  rw [hsplit] at hnd
  have h1 := List.nodup_append.1 hnd
  refine ⟨?_, ?_, hsplit⟩
  · intro b hb e
    exact h1.2.2 hb (by rw [e]; exact List.mem_cons_self _ _)
  · intro b hb e
    exact (List.nodup_cons.1 h1.2.1).1 (e ▸ hb)

/-- C28. The loop of `compute_positions` reaches the box at index `k` of
`ui->depth_first` in the context `pre`; the box lays out along `axis`, and
`mid` is the context after the placement of its children, before the flooring
loop. The boxes form a tree: `depth_first` and the child list have no
repetition, the box is not its own child, and no other box of `depth_first`
has a child of the box as a child.
In `mid` the first non-floating child is at parent origin + padding +
alignment offset + content offset, where the alignment offset is 0 at the
start, the floored half of the free space in the middle and the free space at
the end, the free space being the size of the box minus the content size
(twice the padding, the sizes of the non-floating children, and one spacing
for each of them that is not the last of the child list); every next
non-floating child, in the order of the child list, is at the position of the
previous non-floating child + the size of that child + the spacing; every
floating child is at parent origin + its floating offset.
The rest of `compute_positions` floors the rects of the children and runs the
later boxes, and in the context that `compute_positions` returns the rect of
every child is the floored rect of `mid`. -/
theorem compute_positions_places (ui pre mid : Ui) (axis k : Nat) (box : BoxId)
    (hk : ui.depth_first[k]? = some box)
    (hax : (ui.boxes box).style.axis = axis)
    (hdf : ui.depth_first.Nodup)
    (hnd : (ui.boxes box).children.Nodup) (hself : box ∉ (ui.boxes box).children)
    (hone : ∀ b ∈ ui.depth_first, b ≠ box →
      ∀ c ∈ (ui.boxes box).children, c ∉ (ui.boxes b).children)
    (hpre : pre = (ui.depth_first.take k).foldl (fun u b => compute_positions_box u axis b) ui)
    (hmid : mid = compute_positions_flow pre axis box) :
    (∀ c, (inflow ui.boxes axis (ui.boxes box).children).head? = some c →
      ∃ offset,
        box_pos mid.boxes axis c =
          (pre.boxes box).rect.top_left axis + (ui.boxes box).style.padding.v axis + offset +
            (ui.boxes box).content.top_left axis ∧
        ((ui.boxes box).style.align axis = UI_ALIGN_MIDDLE →
          offset = ((⌊(pre.boxes box).rect.size axis / 2 -
            (2 * (ui.boxes box).style.padding.v axis +
              (inflow_sizes ui.boxes axis (ui.boxes box).children).sum +
              (inflow_not_last ui.boxes axis (ui.boxes box).children : F32) *
                (ui.boxes box).style.spacing) / 2⌋ : ℤ) : F32)) ∧
        ((ui.boxes box).style.align axis = UI_ALIGN_END →
          offset = (pre.boxes box).rect.size axis -
            (2 * (ui.boxes box).style.padding.v axis +
              (inflow_sizes ui.boxes axis (ui.boxes box).children).sum +
              (inflow_not_last ui.boxes axis (ui.boxes box).children : F32) *
                (ui.boxes box).style.spacing)) ∧
        ((ui.boxes box).style.align axis ≠ UI_ALIGN_MIDDLE →
          (ui.boxes box).style.align axis ≠ UI_ALIGN_END → offset = 0)) ∧
    (∀ (i : Nat) (p c : BoxId), (inflow ui.boxes axis (ui.boxes box).children)[i]? = some p →
      (inflow ui.boxes axis (ui.boxes box).children)[i + 1]? = some c →
      box_pos mid.boxes axis c =
        box_pos mid.boxes axis p + ((ui.boxes p).rect.size axis + (ui.boxes box).style.spacing)) ∧
    (∀ c ∈ (ui.boxes box).children, ∀ off, (ui.boxes c).style.floating axis = some off →
      box_pos mid.boxes axis c = (pre.boxes box).rect.top_left axis + off) ∧
    compute_positions ui axis =
      (ui.depth_first.drop (k + 1)).foldl (fun u b => compute_positions_box u axis b)
        (floor_children (ui.boxes box).children mid) ∧
    (∀ c ∈ (ui.boxes box).children,
      ((compute_positions ui axis).boxes c).rect =
        ⟨((⌊(mid.boxes c).rect.x⌋ : ℤ) : F32), ((⌊(mid.boxes c).rect.y⌋ : ℤ) : F32),
          ((⌊(mid.boxes c).rect.w⌋ : ℤ) : F32), ((⌊(mid.boxes c).rect.h⌋ : ℤ) : F32)⟩) := by
  obtain ⟨hbefore, hafter, hsplit⟩ := mem_take_ne_of_nodup hdf hk
  have hfold := compute_positions_fold_only axis (ui.depth_first.take k) ui
  rw [← hpre] at hfold
  have hch : (pre.boxes box).children = (ui.boxes box).children := (hfold box).1
  have hsty : ∀ x, (pre.boxes x).style = (ui.boxes x).style := fun x => (hfold x).2.1
  have hrect : ∀ c ∈ (ui.boxes box).children, (pre.boxes c).rect = (ui.boxes c).rect := by
    intro c hc
    exact (hfold c).2.2.2 (fun b hb => hone b (List.mem_of_mem_take hb) (hbefore b hb) c hc)
  have hflow := compute_positions_flow_places pre axis box (by rw [hch]; exact hnd)
    (by rw [hch]; exact hself)
  rw [← hmid, hch, hsty box, (hfold box).2.2.1] at hflow
  have hin : inflow pre.boxes axis (ui.boxes box).children =
      inflow ui.boxes axis (ui.boxes box).children :=
    inflow_congr _ _ _ _ (fun c _ => hsty c)
  rw [hin] at hflow
  obtain ⟨f1, f2, f3, f4, f5⟩ := hflow
  have hsum : sum_children pre.boxes axis (ui.boxes box).style.spacing (ui.boxes box).children
      (2 * (ui.boxes box).style.padding.v axis) =
      2 * (ui.boxes box).style.padding.v axis +
        (inflow_sizes ui.boxes axis (ui.boxes box).children).sum +
        (inflow_not_last ui.boxes axis (ui.boxes box).children : F32) *
          (ui.boxes box).style.spacing := by
    rw [sum_children_eq,
      inflow_sizes_congr_rect ui.boxes pre.boxes axis _ (fun c hc => ⟨hsty c, hrect c hc⟩),
      inflow_not_last_congr ui.boxes pre.boxes axis _ (fun c _ => hsty c)]
  have hmem : ∀ (i : Nat) (p : BoxId), (inflow ui.boxes axis (ui.boxes box).children)[i]? = some p →
      p ∈ (ui.boxes box).children := by
    intro i p hp
    have := List.mem_iff_getElem?.2 ⟨i, hp⟩
    unfold inflow at this
    exact (List.mem_filter.1 this).1
  have hpost : compute_positions_box pre axis box =
      floor_children (ui.boxes box).children mid := by
    rw [f5 hax]
    have := (compute_positions_flow_only pre axis box box).1
    rw [← hmid] at this
    rw [this, hch]
  have hcomp : compute_positions ui axis =
      (ui.depth_first.drop (k + 1)).foldl (fun u b => compute_positions_box u axis b)
        (floor_children (ui.boxes box).children mid) := by
    unfold compute_positions
    nth_rewrite 1 [hsplit]
    rw [List.foldl_append, List.foldl_cons, ← hpre, hpost]
  refine ⟨?_, ?_, ?_, hcomp, ?_⟩
  · intro c hc
    refine ⟨_, f1 c hc, ?_⟩
    rw [hsum]
    exact align_offset_cases _ _ _
  · intro i p c hp hc
    rw [f2 i p c hp hc, f4 p, UiRect.size, UiRect.size, hrect p (hmem i p hp)]
  · intro c hc off hoff
    exact f3 c hc off (by rw [hsty c]; exact hoff)
  · intro c hc
    rw [hcomp]
    have hpo := compute_positions_box_only pre axis box
    rw [hpost] at hpo
    have hlater := compute_positions_fold_only axis (ui.depth_first.drop (k + 1))
      (floor_children (ui.boxes box).children mid) c
    rw [hlater.2.2.2 (by
      intro b hb
      rw [(hpo b).1, (hfold b).1]
      exact hone b (List.mem_of_mem_drop hb) (hafter b hb) c hc)]
    rw [floor_children_rect _ mid hnd c hc]
    rfl

/-- The sample box after `compute_positions` on axis 0: the children in the
flow at 28 and 132, the floating one at 25, as before the flooring. -/
theorem demo_positions_final :
    [1, 2, 3].map (fun c => ((compute_positions demo_positions 0).boxes c).rect.x) =
      [28, 25, 132] := by
  decide!

theorem compute_positions_places_witness :
    (demo_positions.depth_first[0]? = some 0 ∧ (demo_positions.boxes 0).style.axis = 0 ∧
      demo_positions.depth_first.Nodup ∧ (demo_positions.boxes 0).children.Nodup ∧
      0 ∉ (demo_positions.boxes 0).children ∧
      (∀ b ∈ demo_positions.depth_first, b ≠ 0 →
        ∀ c ∈ (demo_positions.boxes 0).children, c ∉ (demo_positions.boxes b).children)) ∧
    (∀ (i : Nat) (p c : BoxId),
      (inflow demo_positions.boxes 0 (demo_positions.boxes 0).children)[i]? = some p →
      (inflow demo_positions.boxes 0 (demo_positions.boxes 0).children)[i + 1]? = some c →
      box_pos (compute_positions_flow demo_positions 0 0).boxes 0 c =
        box_pos (compute_positions_flow demo_positions 0 0).boxes 0 p +
          ((demo_positions.boxes p).rect.size 0 + (demo_positions.boxes 0).style.spacing)) ∧
    (∀ c ∈ (demo_positions.boxes 0).children,
      ((compute_positions demo_positions 0).boxes c).rect =
        ⟨((⌊((compute_positions_flow demo_positions 0 0).boxes c).rect.x⌋ : ℤ) : F32),
          ((⌊((compute_positions_flow demo_positions 0 0).boxes c).rect.y⌋ : ℤ) : F32),
          ((⌊((compute_positions_flow demo_positions 0 0).boxes c).rect.w⌋ : ℤ) : F32),
          ((⌊((compute_positions_flow demo_positions 0 0).boxes c).rect.h⌋ : ℤ) : F32)⟩) :=
  ⟨⟨rfl, rfl, by decide, by decide, by decide, by decide⟩,
    (compute_positions_places demo_positions demo_positions
      (compute_positions_flow demo_positions 0 0) 0 0 0 rfl rfl (by decide) (by decide)
      (by decide) (by decide) rfl rfl).2.1,
    (compute_positions_places demo_positions demo_positions
      (compute_positions_flow demo_positions 0 0) 0 0 0 rfl rfl (by decide) (by decide)
      (by decide) (by decide) rfl rfl).2.2.2.2⟩


/-! ## The topmost hovered box, in the exact arithmetic of the embedding -/

theorem or_eq_of_and_ne_zero (x : Nat) (h : x &&& 8 ≠ 0) : x ||| 8 = x := by
  have h3 : x.testBit 3 = true := by
    by_contra hn
    apply h
    apply Nat.eq_of_testBit_eq
    intro i
    rw [Nat.testBit_and, Nat.zero_testBit]
    by_cases hi : i = 3
    · subst hi
      simp [hn]
    · have : (8 : Nat).testBit i = false := by
        have e : (8 : Nat) = 2 ^ 3 := by norm_num
        rw [e, Nat.testBit_two_pow]
        simp [Ne.symm hi]
      simp [this]
  apply Nat.eq_of_testBit_eq
  intro i
  rw [Nat.testBit_or]
  by_cases hi : i = 3
  · subst hi
    simp [h3]
  · have : (8 : Nat).testBit i = false := by
      have e : (8 : Nat) = 2 ^ 3 := by norm_num
      rw [e, Nat.testBit_two_pow]
      simp [Ne.symm hi]
    simp [this]

theorem last_hit_nil (boxes : BoxId → UiBox) (mouse : Vec2) (old : Option BoxId) :
    last_hit boxes mouse old [] = old := rfl

theorem last_hit_append (boxes : BoxId → UiBox) (mouse : Vec2) (old : Option BoxId)
    (l1 l2 : List (BoxId × UiRect)) :
    last_hit boxes mouse old (l1 ++ l2) =
      last_hit boxes mouse (last_hit boxes mouse old l1) l2 := by
  unfold last_hit
  rw [List.filter_append, List.getLast?_append]
  cases (List.filter (qualifies boxes mouse) l2).getLast? with
  | none => simp
  | some e => simp

theorem last_hit_single (boxes : BoxId → UiBox) (mouse : Vec2) (old : Option BoxId)
    (e : BoxId × UiRect) :
    last_hit boxes mouse old [e] = if qualifies boxes mouse e then some e.1 else old := by
  unfold last_hit
  by_cases h : qualifies boxes mouse e = true
  · simp [List.filter_cons, h]
  · simp [List.filter_cons, h]

theorem last_hit_cons (boxes : BoxId → UiBox) (mouse : Vec2) (old : Option BoxId)
    (e : BoxId × UiRect) (l : List (BoxId × UiRect)) :
    last_hit boxes mouse old (e :: l) =
      last_hit boxes mouse (if qualifies boxes mouse e then some e.1 else old) l := by
  have := last_hit_append boxes mouse old [e] l
  rw [last_hit_single] at this
  exact this

theorem hit_test_state (ui : Ui) (h : Option BoxId) (top : UiRect) (rest : List UiRect)
    (box : BoxId) :
    hit_test (hit_state ui h (top :: rest)) box =
      .ok (hit_state ui (if qualifies ui.boxes ui.mouse (box, top) then some box else h)
        (top :: rest)) := by
  unfold hit_test qualifies
  by_cases hc : (ui.boxes box).flags &&& UI_BOX_CLICK_THROUGH = 0
  · by_cases hw : within_box (compute_rect_intersect (ui.boxes box).rect top) ui.mouse = true
    · simp [hit_state, hc, hw]
    · simp [hit_state, hc, hw]
  · simp [hit_state, hc]

theorem hit_push_clip_state (ui : Ui) (h : Option BoxId) (top : UiRect) (rest : List UiRect)
    (box : BoxId) :
    ∃ cs, hit_push_clip (hit_state ui h (top :: rest)) box =
        .ok (hit_state ui h (clip_below ui.boxes top box :: cs)) ∧
      ((ui.boxes box).flags &&& UI_BOX_CLIPPING ≠ 0 → cs = top :: rest) ∧
      (¬ (ui.boxes box).flags &&& UI_BOX_CLIPPING ≠ 0 → cs = rest) := by
  unfold hit_push_clip clip_below
  by_cases hc : (ui.boxes box).flags &&& UI_BOX_CLIPPING ≠ 0
  · refine ⟨top :: rest, ?_, fun _ => rfl, fun hn => absurd hc hn⟩
    have hflags : (ui.boxes box).flags ||| UI_BOX_CLIPPING = (ui.boxes box).flags :=
      or_eq_of_and_ne_zero _ hc
    have hsame : (hit_state ui h (top :: rest)).modify_box box
        (fun b => { b with flags := b.flags ||| UI_BOX_CLIPPING }) =
        hit_state ui h (top :: rest) := by
      unfold Ui.modify_box Ui.set_box hit_state
      simp only
      rw [hflags, Function.update_eq_self]
    have hpush : ui_push_clip_box (hit_state ui h (top :: rest)) box =
        .ok (hit_state ui h
          (compute_rect_intersect (clip_rect_of (ui.boxes box)) top :: top :: rest),
          compute_rect_intersect (clip_rect_of (ui.boxes box)) top) := by
      unfold ui_push_clip_box
      simp only [hsame]
      rfl
    simp only [hit_state] at hpush ⊢
    simp only [hc, ne_eq, not_false_eq_true, if_true, hpush]
  · refine ⟨rest, ?_, fun h' => absurd h' hc, fun _ => rfl⟩
    simp only [hit_state, hc, if_false]

theorem hit_pop_clip_state (ui : Ui) (h : Option BoxId) (top top' : UiRect)
    (rest cs : List UiRect) (box : BoxId)
    (h1 : (ui.boxes box).flags &&& UI_BOX_CLIPPING ≠ 0 → cs = top :: rest)
    (h2 : ¬ (ui.boxes box).flags &&& UI_BOX_CLIPPING ≠ 0 → cs = rest ∧ top' = top) :
    hit_pop_clip (hit_state ui h (top' :: cs)) box = .ok (hit_state ui h (top :: rest)) := by
  unfold hit_pop_clip
  by_cases hc : (ui.boxes box).flags &&& UI_BOX_CLIPPING ≠ 0
  · rw [h1 hc]
    simp only [hit_state, hc, ne_eq, not_false_eq_true, if_true, ui_pop_clip]
  · obtain ⟨e1, e2⟩ := h2 hc
    rw [e1, e2]
    simp only [hit_state, hc, if_false]

theorem find_children_state (ui : Ui) (rank : BoxId → Nat) (fuel : Nat)
    (ih : ∀ box h top rest, rank box < fuel →
      find_topmost_hovered_box_fuel fuel (hit_state ui h (top :: rest)) box =
        .ok (hit_state ui
          (last_hit ui.boxes ui.mouse h (preorder_clips ui.boxes fuel top box)) (top :: rest)))
    (l : List BoxId) :
    ∀ h top rest, (∀ c ∈ l, rank c < fuel) →
      l.foldlM (fun u child => find_topmost_hovered_box_fuel fuel u child)
          (hit_state ui h (top :: rest)) =
        .ok (hit_state ui
          (last_hit ui.boxes ui.mouse h
            ((l.map (fun child => preorder_clips ui.boxes fuel top child)).flatten))
          (top :: rest)) := by
  induction l with
  | nil => intro h top rest _; rfl
  | cons c l ihl =>
    intro h top rest hr
    rw [List.foldlM_cons, ih c h top rest (hr c (List.mem_cons_self _ _))]
    simp only [bind, Except.bind]
    rw [ihl _ top rest (fun x hx => hr x (List.mem_cons_of_mem _ hx))]
    simp only [List.map_cons, List.flatten_cons, last_hit_append]

/-- The walk from a state of the hit test: it returns, the clip stack is the
one on entry, and the hovered box is the last qualifying box of the pre-order
listing. -/
theorem find_topmost_hovered_box_state (ui : Ui) (rank : BoxId → Nat)
    (hrank : ∀ b c, c ∈ (ui.boxes b).children → rank c < rank b) :
    ∀ fuel box h top rest, rank box < fuel →
      find_topmost_hovered_box_fuel fuel (hit_state ui h (top :: rest)) box =
        .ok (hit_state ui
          (last_hit ui.boxes ui.mouse h (preorder_clips ui.boxes fuel top box)) (top :: rest)) := by
  intro fuel
  induction fuel with
  | zero => intro box h top rest hr; omega
  | succ fuel ih =>
    intro box h top rest hr
    obtain ⟨cs, hpush, hc1, hc2⟩ := hit_push_clip_state ui
      (if qualifies ui.boxes ui.mouse (box, top) then some box else h) top rest box
    have hch := find_children_state ui rank fuel ih (ui.boxes box).children
      (if qualifies ui.boxes ui.mouse (box, top) then some box else h)
      (clip_below ui.boxes top box) cs
      (fun c hc => by have := hrank box c hc; omega)
    have hpop := hit_pop_clip_state ui
      (last_hit ui.boxes ui.mouse
        (if qualifies ui.boxes ui.mouse (box, top) then some box else h)
        ((List.map (fun child => preorder_clips ui.boxes fuel (clip_below ui.boxes top box) child)
          (ui.boxes box).children).flatten))
      top (clip_below ui.boxes top box) rest cs box hc1
      (fun hn => ⟨hc2 hn, by unfold clip_below; rw [if_neg hn]⟩)
    have hb : (hit_state ui (if qualifies ui.boxes ui.mouse (box, top) then some box else h)
        (clip_below ui.boxes top box :: cs)).boxes = ui.boxes := rfl
    rw [find_topmost_hovered_box_fuel, hit_test_state]
    simp only [hpush, hb, hch, hpop, preorder_clips, last_hit_cons]

theorem hit_state_self (ui : Ui) : hit_state ui ui.hovered ui.clip_stack = ui := rfl

/-- In exact arithmetic: for a tree of boxes (the children of a box rank below
it) of depth at most `box_count`, and a clip stack that is not empty,
`find_topmost_hovered_box` returns and changes nothing but `ui->hovered`. If at least one box of the
pre-order listing of the tree qualifies (it lacks the click-through flag, and
its rect, cut by the clip rect accumulated from its clipping ancestors, strictly
contains the pointer), `ui->hovered` is the last such box of the listing; else
it is left as it was. -/
theorem find_topmost_hovered_box_last (ui : Ui) (root : BoxId) (rank : BoxId → Nat)
    (top : UiRect) (rest : List UiRect) (hclip : ui.clip_stack = top :: rest)
    (hrank : ∀ b c, c ∈ (ui.boxes b).children → rank c < rank b)
    (hroot : rank root ≤ ui.box_count) :
    ∃ hovered, find_topmost_hovered_box ui root = .ok { ui with hovered := hovered } ∧
      (∀ e, ((preorder_clips ui.boxes (ui.box_count + 1) top root).filter
          (qualifies ui.boxes ui.mouse)).getLast? = some e → hovered = some e.1) ∧
      ((preorder_clips ui.boxes (ui.box_count + 1) top root).filter
          (qualifies ui.boxes ui.mouse) = [] → hovered = ui.hovered) := by
  have h := find_topmost_hovered_box_state ui rank hrank (ui.box_count + 1) root ui.hovered
    top rest (by omega)
  rw [← hclip, hit_state_self] at h
  refine ⟨last_hit ui.boxes ui.mouse ui.hovered
    (preorder_clips ui.boxes (ui.box_count + 1) top root), ?_, ?_, ?_⟩
  · unfold find_topmost_hovered_box
    rw [h]
    rfl
  · intro e he
    simp only [last_hit, he]
  · intro he
    simp only [last_hit, he, List.getLast?_nil]

/-- A rank for the tree of `demo_hit`. -/
theorem demo_hit_rank (mouse : Vec2) (b c : BoxId)
    (hc : c ∈ ((demo_hit mouse).boxes b).children) :
    (if c = 0 then 2 else if c = 1 then 1 else 0) <
      (if b = 0 then 2 else if b = 1 then 1 else 0) := by
  by_cases h0 : b = 0
  · subst h0
    simp [demo_hit] at hc
    rcases hc with rfl | rfl <;> simp
  · by_cases h1 : b = 1
    · subst h1
      simp [demo_hit] at hc
      subst hc
      simp
    · by_cases h2 : b = 2
      · subst h2
        simp [demo_hit, UiBox.zeroed] at hc
      · simp [demo_hit, UiBox.zeroed, h0, h1, h2] at hc

theorem demo_hit_listing (mouse : Vec2) :
    preorder_clips (demo_hit mouse).boxes 5 ⟨0, 0, 800, 600⟩ 0 =
      [(0, ⟨0, 0, 800, 600⟩), (1, ⟨0, 0, 800, 600⟩), (2, ⟨0, 0, 40, 40⟩),
        (3, ⟨0, 0, 800, 600⟩)] := by
  have h : compute_rect_intersect (clip_rect_of ((demo_hit mouse).boxes 1)) ⟨0, 0, 800, 600⟩ =
      ⟨0, 0, 40, 40⟩ := by
    simp [clip_rect_of, compute_rect_intersect, demo_hit, UiBox.zeroed, UiStyle.zeroed, Vec4.zero]
    norm_num
  have h0 : clip_below (demo_hit mouse).boxes ⟨0, 0, 800, 600⟩ 0 = ⟨0, 0, 800, 600⟩ := by
    simp [clip_below, demo_hit, UiBox.zeroed]
  have h1 : clip_below (demo_hit mouse).boxes ⟨0, 0, 800, 600⟩ 1 = ⟨0, 0, 40, 40⟩ := by
    rw [← h]
    simp [clip_below, demo_hit, UI_BOX_CLIPPING]
  have c0 : ((demo_hit mouse).boxes 0).children = [1, 3] := rfl
  have c1 : ((demo_hit mouse).boxes 1).children = [2] := rfl
  have c2 : ((demo_hit mouse).boxes 2).children = [] := rfl
  have c3 : ((demo_hit mouse).boxes 3).children = [] := rfl
  simp only [preorder_clips, c0, c1, c2, c3, h0, h1, List.map_cons, List.map_nil,
    List.flatten_cons, List.flatten_nil, List.cons_append, List.nil_append, List.append_nil]

theorem demo_hit_last (old : Option BoxId) :
    last_hit (demo_hit ⟨10, 10⟩).boxes ⟨10, 10⟩ old
      (preorder_clips (demo_hit ⟨10, 10⟩).boxes 5 ⟨0, 0, 800, 600⟩ 0) = some 2 ∧
    last_hit (demo_hit ⟨60, 60⟩).boxes ⟨60, 60⟩ old
      (preorder_clips (demo_hit ⟨60, 60⟩).boxes 5 ⟨0, 0, 800, 600⟩ 0) = some 0 := by
  have q3 : ∀ m r, qualifies (demo_hit m).boxes m (3, r) = false := by
    intro m r
    simp [qualifies, demo_hit, UI_BOX_CLICK_THROUGH]
  have e8 : (8 : Nat) &&& 16 = 0 := by decide
  have q0 : ∀ m : Vec2, qualifies (demo_hit m).boxes m (0, ⟨0, 0, 800, 600⟩) =
      within_box ⟨0, 0, 100, 100⟩ m := by
    intro m
    simp [qualifies, demo_hit, UiBox.zeroed, compute_rect_intersect]
    norm_num
  have q1 : ∀ m : Vec2, qualifies (demo_hit m).boxes m (1, ⟨0, 0, 800, 600⟩) =
      within_box ⟨0, 0, 40, 40⟩ m := by
    intro m
    simp [qualifies, demo_hit, UiBox.zeroed, compute_rect_intersect, UI_BOX_CLIPPING,
      UI_BOX_CLICK_THROUGH, e8]
    norm_num
  have q2 : ∀ m : Vec2, qualifies (demo_hit m).boxes m (2, ⟨0, 0, 40, 40⟩) =
      within_box ⟨0, 0, 40, 40⟩ m := by
    intro m
    simp [qualifies, demo_hit, UiBox.zeroed, compute_rect_intersect]
    norm_num
  have w1 : within_box ⟨0, 0, 100, 100⟩ ⟨10, 10⟩ = true := by simp [within_box]; norm_num
  have w2 : within_box ⟨0, 0, 40, 40⟩ ⟨10, 10⟩ = true := by simp [within_box]; norm_num
  have w3 : within_box ⟨0, 0, 100, 100⟩ ⟨60, 60⟩ = true := by simp [within_box]; norm_num
  have w4 : within_box ⟨0, 0, 40, 40⟩ ⟨60, 60⟩ = false := by simp [within_box]; norm_num
  constructor
  · rw [demo_hit_listing]
    simp only [last_hit, List.filter, q0, q1, q2, q3, w1, w2]
    rfl
  · rw [demo_hit_listing]
    simp only [last_hit, List.filter, q0, q1, q2, q3, w3, w4]
    rfl

theorem demo_hit_run :
    find_topmost_hovered_box (demo_hit ⟨10, 10⟩) 0 =
      .ok { demo_hit ⟨10, 10⟩ with hovered := some 2 } ∧
    find_topmost_hovered_box (demo_hit ⟨60, 60⟩) 0 =
      .ok { demo_hit ⟨60, 60⟩ with hovered := some 0 } := by
  constructor
  · have h := find_topmost_hovered_box_state (demo_hit ⟨10, 10⟩)
      (fun b => if b = 0 then 2 else if b = 1 then 1 else 0) (demo_hit_rank _) 5 0 none
      ⟨0, 0, 800, 600⟩ [] (by decide)
    rw [show (demo_hit ⟨10, 10⟩).mouse = ⟨10, 10⟩ from rfl, (demo_hit_last none).1] at h
    exact h
  · have h := find_topmost_hovered_box_state (demo_hit ⟨60, 60⟩)
      (fun b => if b = 0 then 2 else if b = 1 then 1 else 0) (demo_hit_rank _) 5 0 none
      ⟨0, 0, 800, 600⟩ [] (by decide)
    rw [show (demo_hit ⟨60, 60⟩).mouse = ⟨60, 60⟩ from rfl, (demo_hit_last none).2] at h
    exact h

theorem find_topmost_hovered_box_last_witness :
    (demo_hit ⟨10, 10⟩).clip_stack = [⟨0, 0, 800, 600⟩] ∧
    (∀ b c, c ∈ ((demo_hit ⟨10, 10⟩).boxes b).children →
      (if c = 0 then 2 else if c = 1 then 1 else 0) <
        (if b = 0 then 2 else if b = 1 then 1 else 0)) ∧
    ∃ hovered, find_topmost_hovered_box (demo_hit ⟨10, 10⟩) 0 =
        .ok { demo_hit ⟨10, 10⟩ with hovered := hovered } ∧
      (∀ e, ((preorder_clips (demo_hit ⟨10, 10⟩).boxes ((demo_hit ⟨10, 10⟩).box_count + 1)
          ⟨0, 0, 800, 600⟩ 0).filter
          (qualifies (demo_hit ⟨10, 10⟩).boxes (demo_hit ⟨10, 10⟩).mouse)).getLast? = some e →
        hovered = some e.1) ∧
      ((preorder_clips (demo_hit ⟨10, 10⟩).boxes ((demo_hit ⟨10, 10⟩).box_count + 1)
          ⟨0, 0, 800, 600⟩ 0).filter
          (qualifies (demo_hit ⟨10, 10⟩).boxes (demo_hit ⟨10, 10⟩).mouse) = [] →
        hovered = (demo_hit ⟨10, 10⟩).hovered) :=
  ⟨rfl, demo_hit_rank _,
    find_topmost_hovered_box_last (demo_hit ⟨10, 10⟩) 0
      (fun b => if b = 0 then 2 else if b = 1 then 1 else 0) ⟨0, 0, 800, 600⟩ [] rfl
      (demo_hit_rank _) (by decide)⟩

/-! ## Claim C40: the growth of `uarray_push` -/

theorem sig_shift_ge (bits n : Nat) : ∀ fuel k, k ≤ sig_shift bits n fuel k := by
  intro fuel
  induction fuel with
  | zero => intro k; exact le_refl _
  | succ fuel ih =>
    intro k
    unfold sig_shift
    split
    · exact le_refl _
    · exact le_trans (Nat.le_succ k) (ih (k + 1))

/-- With enough fuel the shift leaves at most `bits` bits. -/
theorem sig_shift_lt (bits n : Nat) :
    ∀ fuel k, n / 2 ^ (k + fuel) < 2 ^ bits → n / 2 ^ sig_shift bits n fuel k < 2 ^ bits := by
  intro fuel
  induction fuel with
  | zero => intro k h; simpa [sig_shift] using h
  | succ fuel ih =>
    intro k h
    unfold sig_shift
    split
    · assumption
    · apply ih
      rw [show k + 1 + fuel = k + (fuel + 1) by omega]
      exact h

/-- A shift that is not the first one tried is the least one. -/
theorem sig_shift_least (bits n : Nat) :
    ∀ fuel k, k < sig_shift bits n fuel k →
      2 ^ bits ≤ n / 2 ^ (sig_shift bits n fuel k - 1) := by
  intro fuel
  induction fuel with
  | zero => intro k h; simp [sig_shift] at h
  | succ fuel ih =>
    intro k h
    unfold sig_shift at h ⊢
    split
    · rename_i hlt
      rw [if_pos hlt] at h
      omega
    · rename_i hlt
      rw [if_neg hlt] at h
      by_cases hk : k + 1 < sig_shift bits n fuel (k + 1)
      · exact ih (k + 1) hk
      · have hge := sig_shift_ge bits n fuel (k + 1)
        have he : sig_shift bits n fuel (k + 1) = k + 1 := by omega
        rw [he]
        simpa using Nat.le_of_not_lt hlt

/-- The rounding keeps a number within one part in `2 ^ (bits - 1)`. -/
theorem round_sig_bounds (bits n : Nat) (hb : 1 ≤ bits) :
    n - n / 2 ^ (bits - 1) ≤ round_sig bits n ∧ round_sig bits n ≤ n + n / 2 ^ (bits - 1) := by
  unfold round_sig
  generalize hK : sig_shift bits n n 0 = K
  by_cases h0 : K = 0
  · subst h0
    simp [Nat.mod_one]
  · have hdiv := Nat.div_add_mod n (2 ^ K)
    have hr : n % 2 ^ K < 2 ^ K := Nat.mod_lt _ (Nat.pow_pos (by decide))
    have hpe : 2 ^ K ≤ n / 2 ^ (bits - 1) := by
      have := sig_shift_least bits n n 0 (by rw [hK]; omega)
      rw [hK] at this
      have h1 : 2 ^ bits * 2 ^ (K - 1) ≤ n := by
        have := Nat.mul_le_mul_right (2 ^ (K - 1)) this
        exact le_trans this (Nat.div_mul_le_self _ _)
      have h2 : 2 ^ bits * 2 ^ (K - 1) = 2 ^ K * 2 ^ (bits - 1) := by
        rw [← pow_add, ← pow_add]
        congr 1
        omega
      rw [h2] at h1
      exact (Nat.le_div_iff_mul_le (Nat.pow_pos (by decide))).2 h1
    rw [Nat.mul_comm] at hdiv
    simp only
    generalize n / 2 ^ (bits - 1) = e at *
    generalize hm : n / 2 ^ K * 2 ^ K = m at *
    split
    · rw [Nat.add_mul, hm]
      omega
    · rw [hm]
      omega

/-- From a capacity of 2 on (and up to 2^62) the product with 1.8 exceeds
the capacity, and the new capacity fits 64 bits. -/
theorem grow_capacity_grows (capacity : Nat) (h2 : 2 ≤ capacity) (hmax : capacity ≤ 2 ^ 62) :
    ∃ new_cap, grow_capacity capacity = .ok new_cap ∧ capacity < new_cap ∧
      capacity + new_cap < 2 ^ 64 := by
  obtain ⟨c1, c2⟩ := round_sig_bounds 53 capacity (by decide)
  obtain ⟨p1, p2⟩ := round_sig_bounds 53 (F64_1_8 * round_sig 53 capacity) (by decide)
  unfold grow_capacity
  simp only [F64_1_8] at p1 p2 ⊢
  generalize round_sig 53 capacity = c at *
  generalize round_sig 53 (8106479329266893 * c) = R at *
  norm_num at c1 c2 p1 p2 hmax ⊢
  have h3 : R / 4503599627370496 < 18446744073709551616 := by omega
  rw [if_pos h3]
  refine ⟨_, rfl, ?_, ?_⟩ <;> omega

/-- Apart from the full array of capacity 1, `uarray_push` returns on every
array with `count <= capacity <= 2^62`: the count grows by one and stays within
the capacity. -/
theorem uarray_push_returns (array : UArray) (hc : array.count ≤ array.capacity)
    (hmax : array.capacity ≤ 2 ^ 62) (h1 : ¬ (array.count = 1 ∧ array.capacity = 1)) :
    ∃ array', uarray_push array = .ok array' ∧ array'.count = array.count + 1 ∧
      array'.count ≤ array'.capacity ∧ array.capacity ≤ array'.capacity := by
  have h64 : (array.count + 1) % 2 ^ 64 = array.count + 1 := by
    apply Nat.mod_eq_of_lt
    have : (2 : Nat) ^ 62 < 2 ^ 64 := by decide
    omega
  unfold uarray_push
  by_cases he : array.count = array.capacity
  · rw [if_pos he]
    by_cases h0 : array.capacity = 0
    · obtain ⟨count, capacity⟩ := array
      simp only at he h0
      subst h0
      subst he
      exact ⟨⟨1, 2⟩, rfl, rfl, by decide, by decide⟩
    · have h2 : 2 ≤ array.capacity := by omega
      obtain ⟨new_cap, hg, hlt, hfit⟩ := grow_capacity_grows array.capacity h2 hmax
      have hadd : uarray_increase_capacity array new_cap =
          .ok { array with capacity := array.capacity + new_cap } := by
        unfold uarray_increase_capacity safe_add
        rw [if_pos hfit]
      simp only [ne_eq, h0, not_false_eq_true, if_true, hg, gt_iff_lt, hlt, hadd]
      refine ⟨_, rfl, ?_, ?_, ?_⟩
      · exact h64
      · show (array.count + 1) % 2 ^ 64 ≤ array.capacity + new_cap
        rw [h64]
        omega
      · show array.capacity ≤ array.capacity + new_cap
        omega
  · rw [if_neg he]
    refine ⟨_, rfl, h64, ?_, le_refl _⟩
    show (array.count + 1) % 2 ^ 64 ≤ array.capacity
    rw [h64]
    omega

/-- C40 at the failing input.  `uarray_push_many` of one element, or
`uarray_ensure_capacity` for one element followed by a push, leaves an empty
array with `count = capacity = 1`; on that array the product
`cast(U64, 1.8 * 1)` is 1, and `uarray_push` fails `assert_always(new_cap >
array->capacity)`.  From an empty array and from a full array of capacity 2 the
push returns. -/
theorem uarray_push_capacity_one :
    uarray_push_many ⟨0, 0⟩ 1 = .ok ⟨1, 1⟩ ∧
      uarray_ensure_capacity ⟨0, 0⟩ 1 = .ok ⟨0, 1⟩ ∧ uarray_push ⟨0, 1⟩ = .ok ⟨1, 1⟩ ∧
      grow_capacity 1 = .ok 1 ∧ uarray_push ⟨1, 1⟩ = .error .panic ∧
      uarray_push ⟨0, 0⟩ = .ok ⟨1, 2⟩ ∧ uarray_push ⟨2, 2⟩ = .ok ⟨3, 5⟩ := by
  refine ⟨by rfl, by rfl, by rfl, by rfl, by rfl, by rfl, by rfl⟩

/-- Samples of the product: the values of `cast(U64, 1.8 * capacity)`. -/
theorem grow_capacity_samples :
    grow_capacity 2 = .ok 3 ∧ grow_capacity 7 = .ok 12 ∧
      grow_capacity (2 ^ 53 + 1) = .ok 16212958658533786 ∧
      grow_capacity (2 ^ 62) = .ok 8301034833169298432 := by
  refine ⟨by rfl, by rfl, by rfl, by rfl⟩

/-- The only array with `count <= capacity <= 2^62` on which `uarray_push`
does not return is the full array of capacity 1. -/
theorem uarray_push_fails_iff (array : UArray) (hc : array.count ≤ array.capacity)
    (hmax : array.capacity ≤ 2 ^ 62) :
    uarray_push array = .error .panic ↔ array.count = 1 ∧ array.capacity = 1 := by
  constructor
  · intro h
    by_contra hn
    obtain ⟨a, ha, _⟩ := uarray_push_returns array hc hmax hn
    rw [ha] at h
    cases h
  · rintro ⟨h1, h2⟩
    obtain ⟨count, capacity⟩ := array
    simp only at h1 h2
    subst h1 h2
    rfl

/-! ## Claim C34: hit test against an intersection -/

/-- On one axis, in exact arithmetic: a point lies strictly between the
origin and the far edge of the intersection exactly when it does so for both
intervals. -/
theorem axis_intersect {α : Type} [LinearOrderedAddCommGroup α] (x0 w0 x1 w1 p : α) :
    (max x0 x1 < p ∧ p < max x0 x1 + max 0 (min (x0 + w0) (x1 + w1) - max x0 x1)) ↔
      ((x0 < p ∧ p < x0 + w0) ∧ (x1 < p ∧ p < x1 + w1)) := by
  constructor
  · rintro ⟨h1, h2⟩
    rcases le_total (min (x0 + w0) (x1 + w1) - max x0 x1) 0 with h | h
    · rw [max_eq_left h, add_zero] at h2
      exact absurd h1 (not_lt.2 (le_of_lt h2))
    · rw [max_eq_right h, add_sub_cancel] at h2
      exact ⟨⟨(max_lt_iff.1 h1).1, (lt_min_iff.1 h2).1⟩, (max_lt_iff.1 h1).2, (lt_min_iff.1 h2).2⟩
  · rintro ⟨⟨h1, h2⟩, h3, h4⟩
    have hM : max x0 x1 < p := max_lt_iff.2 ⟨h1, h3⟩
    have hm : p < min (x0 + w0) (x1 + w1) := lt_min_iff.2 ⟨h2, h4⟩
    have h : 0 ≤ min (x0 + w0) (x1 + w1) - max x0 x1 :=
      sub_nonneg.2 (le_of_lt (lt_trans hM hm))
    rw [max_eq_right h, add_sub_cancel]
    exact ⟨hM, hm⟩

/-- In exact arithmetic a point is strictly inside the intersection of two
rects exactly when it is strictly inside both, for sizes of any sign. -/
theorem within_box_compute_rect_intersect (a b : UiRect) (p : Vec2) :
    within_box (compute_rect_intersect a b) p = (within_box a p && within_box b p) := by
  have hx := axis_intersect a.x a.w b.x b.w p.x
  have hy := axis_intersect a.y a.h b.y b.h p.y
  unfold within_box compute_rect_intersect
  rw [Bool.eq_iff_iff]
  simp only [Bool.and_eq_true, decide_eq_true_eq, gt_iff_lt]
  constructor
  · rintro ⟨⟨⟨h1, h2⟩, h3⟩, h4⟩
    obtain ⟨⟨a1, a2⟩, b1, b2⟩ := hx.1 ⟨h1, h2⟩
    obtain ⟨⟨c1, c2⟩, d1, d2⟩ := hy.1 ⟨h3, h4⟩
    exact ⟨⟨⟨⟨a1, a2⟩, c1⟩, c2⟩, ⟨⟨b1, b2⟩, d1⟩, d2⟩
  · rintro ⟨⟨⟨⟨a1, a2⟩, c1⟩, c2⟩, ⟨⟨b1, b2⟩, d1⟩, d2⟩
    obtain ⟨h1, h2⟩ := hx.2 ⟨⟨a1, a2⟩, b1, b2⟩
    obtain ⟨h3, h4⟩ := hy.2 ⟨⟨c1, c2⟩, d1, d2⟩
    exact ⟨⟨⟨h1, h2⟩, h3⟩, h4⟩

/-- A number with at most `bits` bits before its trailing zeros is not
rounded. -/
theorem round_sig_exact (bits m e : Nat) (hm : m < 2 ^ bits) :
    round_sig bits (m * 2 ^ e) = m * 2 ^ e := by
  unfold round_sig
  generalize hK : sig_shift bits (m * 2 ^ e) (m * 2 ^ e) 0 = K
  have hKe : K ≤ e := by
    by_contra hlt
    have h1 := sig_shift_least bits (m * 2 ^ e) (m * 2 ^ e) 0 (by rw [hK]; omega)
    rw [hK] at h1
    have h2 : m * 2 ^ e / 2 ^ (K - 1) ≤ m * 2 ^ e / 2 ^ e :=
      Nat.div_le_div_left (Nat.pow_le_pow_right (by decide) (by omega)) (Nat.pow_pos (by decide))
    rw [Nat.mul_div_cancel _ (Nat.pow_pos (by decide))] at h2
    omega
  have hdvd : 2 ^ K ∣ m * 2 ^ e := Dvd.dvd.mul_left (pow_dvd_pow 2 hKe) m
  have hr : m * 2 ^ e % 2 ^ K = 0 := Nat.mod_eq_zero_of_dvd hdvd
  have hpos : 0 < 2 ^ K := Nat.pow_pos (by decide)
  simp only [hr, Nat.mul_zero]
  rw [if_neg (by omega)]
  exact Nat.div_mul_cancel hdvd

/-- A whole number of magnitude below 2^24 is a binary32 value. -/
theorem f32_round_of_int (n : Int) (h : n.natAbs < 2 ^ 24) :
    f32_round (f32_of_int n) = f32_of_int n := by
  have habs : (f32_of_int n).natAbs = n.natAbs * 2 ^ 149 := by
    unfold f32_of_int
    rw [Int.natAbs_mul]
    rfl
  unfold f32_round
  rw [habs, round_sig_exact 24 n.natAbs 149 h, ← habs]
  split
  · rename_i hneg
    rw [Int.ofNat_natAbs_of_nonpos (le_of_lt hneg), neg_neg]
  · rename_i hneg
    exact Int.natAbs_of_nonneg (not_lt.1 hneg)

theorem f32_of_int_add (m n : Int) : f32_of_int m + f32_of_int n = f32_of_int (m + n) := by
  unfold f32_of_int; ring

theorem f32_of_int_sub (m n : Int) : f32_of_int m - f32_of_int n = f32_of_int (m - n) := by
  unfold f32_of_int; ring

theorem f32_of_int_le (m n : Int) : f32_of_int m ≤ f32_of_int n ↔ m ≤ n := by
  unfold f32_of_int
  exact mul_le_mul_right (by positivity)

theorem f32_of_int_max (m n : Int) : max (f32_of_int m) (f32_of_int n) = f32_of_int (max m n) := by
  rcases le_total m n with h | h
  · rw [max_eq_right h, max_eq_right ((f32_of_int_le m n).2 h)]
  · rw [max_eq_left h, max_eq_left ((f32_of_int_le n m).2 h)]

theorem f32_of_int_min (m n : Int) : min (f32_of_int m) (f32_of_int n) = f32_of_int (min m n) := by
  rcases le_total m n with h | h
  · rw [min_eq_left h, min_eq_left ((f32_of_int_le m n).2 h)]
  · rw [min_eq_right h, min_eq_right ((f32_of_int_le n m).2 h)]

theorem f32_of_int_zero : (0 : Int) = f32_of_int 0 := by
  unfold f32_of_int; simp

/-- On an axis with whole-number origins and sizes of magnitude at most 2^22
no operation is rounded. -/
theorem exact_axis_of_int (x0 w0 x1 w1 : Int) (h1 : x0.natAbs ≤ 2 ^ 22)
    (h2 : w0.natAbs ≤ 2 ^ 22) (h3 : x1.natAbs ≤ 2 ^ 22) (h4 : w1.natAbs ≤ 2 ^ 22) :
    ExactAxis (f32_of_int x0) (f32_of_int w0) (f32_of_int x1) (f32_of_int w1) := by
  have e22 : (2 : Nat) ^ 22 = 4194304 := by norm_num
  have e24 : (2 : Nat) ^ 24 = 16777216 := by norm_num
  rw [e22] at h1 h2 h3 h4
  refine ⟨?_, ?_, ?_, ?_⟩
  · unfold f32_add
    rw [f32_of_int_add]
    exact f32_round_of_int _ (by rw [e24]; omega)
  · unfold f32_add
    rw [f32_of_int_add]
    exact f32_round_of_int _ (by rw [e24]; omega)
  · unfold f32_sub
    rw [f32_of_int_add, f32_of_int_add, f32_of_int_min, f32_of_int_max, f32_of_int_sub]
    exact f32_round_of_int _ (by rw [e24]; omega)
  · unfold f32_add
    rw [f32_of_int_add, f32_of_int_add, f32_of_int_min, f32_of_int_max, f32_of_int_sub,
      f32_of_int_zero, f32_of_int_max, f32_of_int_add]
    exact f32_round_of_int _ (by rw [e24]; omega)

/-- Without rounding, the hit test against the intersection is the hit test
against both rects. -/
theorem within_box_f32_intersect_exact (a b : UiRectF32) (h : ExactSums a b) (p : Vec2F32) :
    within_box_f32 (compute_rect_intersect_f32 a b) p =
      (within_box_f32 a p && within_box_f32 b p) := by
  obtain ⟨⟨sx0, sx1, dx, ex⟩, ⟨sy0, sy1, dy, ey⟩⟩ := h
  have hx := axis_intersect a.x a.w b.x b.w p.x
  have hy := axis_intersect a.y a.h b.y b.h p.y
  unfold within_box_f32 compute_rect_intersect_f32
  simp only [sx0, sx1, sy0, sy1, dx, dy, ex, ey]
  rw [Bool.eq_iff_iff]
  simp only [Bool.and_eq_true, decide_eq_true_eq, gt_iff_lt]
  constructor
  · rintro ⟨⟨⟨h1, h2⟩, h3⟩, h4⟩
    obtain ⟨⟨a1, a2⟩, b1, b2⟩ := hx.1 ⟨h1, h2⟩
    obtain ⟨⟨c1, c2⟩, d1, d2⟩ := hy.1 ⟨h3, h4⟩
    exact ⟨⟨⟨⟨a1, a2⟩, c1⟩, c2⟩, ⟨⟨b1, b2⟩, d1⟩, d2⟩
  · rintro ⟨⟨⟨⟨a1, a2⟩, c1⟩, c2⟩, ⟨⟨b1, b2⟩, d1⟩, d2⟩
    obtain ⟨h1, h2⟩ := hx.2 ⟨⟨a1, a2⟩, b1, b2⟩
    obtain ⟨h3, h4⟩ := hy.2 ⟨⟨c1, c2⟩, d1, d2⟩
    exact ⟨⟨⟨h1, h2⟩, h3⟩, h4⟩

/-- No operation is rounded on rects whose origins and sizes are whole numbers
of magnitude at most 2^22. -/
theorem exact_sums_of_int (ax ay aw ah bx j bw bh : Int)
    (h1 : ax.natAbs ≤ 2 ^ 22) (h2 : ay.natAbs ≤ 2 ^ 22) (h3 : aw.natAbs ≤ 2 ^ 22)
    (h4 : ah.natAbs ≤ 2 ^ 22) (h5 : bx.natAbs ≤ 2 ^ 22) (h6 : j.natAbs ≤ 2 ^ 22)
    (h7 : bw.natAbs ≤ 2 ^ 22) (h8 : bh.natAbs ≤ 2 ^ 22) :
    ExactSums ⟨f32_of_int ax, f32_of_int ay, f32_of_int aw, f32_of_int ah⟩
      ⟨f32_of_int bx, f32_of_int j, f32_of_int bw, f32_of_int bh⟩ :=
  ⟨exact_axis_of_int ax aw bx bw h1 h3 h5 h7, exact_axis_of_int ay ah j bh h2 h4 h6 h8⟩

theorem demo_rect_exact : ExactSums demo_rect_c demo_rect_d :=
  exact_sums_of_int 10 20 100 50 40 0 30 40 (by decide) (by decide) (by decide) (by decide)
    (by decide) (by decide) (by decide) (by decide)

/-- C34, amended.  In binary32 arithmetic, for two rects (sizes of any sign)
on which no sum or difference of `compute_rect_intersect` and `within_box` is
rounded, and every point: the point is strictly inside the intersection if and
only if it is strictly inside both rects. -/
theorem within_box_f32_intersect (a b : UiRectF32) (h : ExactSums a b) (p : Vec2F32) :
    within_box_f32 (compute_rect_intersect_f32 a b) p =
      (within_box_f32 a p && within_box_f32 b p) :=
  within_box_f32_intersect_exact a b h p

theorem within_box_f32_intersect_witness :
    ExactSums demo_rect_c demo_rect_d ∧
      within_box_f32 (compute_rect_intersect_f32 demo_rect_c demo_rect_d)
          ⟨f32_of_int 50, f32_of_int 30⟩ =
        (within_box_f32 demo_rect_c ⟨f32_of_int 50, f32_of_int 30⟩ &&
          within_box_f32 demo_rect_d ⟨f32_of_int 50, f32_of_int 30⟩) :=
  ⟨demo_rect_exact, within_box_f32_intersect demo_rect_c demo_rect_d demo_rect_exact _⟩

set_option maxRecDepth 100000 in
/-- The claim fails in binary32, for rects and a point of whole numbers.  With
`a = (-1, 0, 16777218, 10)`, `b = (-3, 0, 33554432, 10)` and the point
`(16777215, 5)`: the far edge of `a` is -1 + 16777218 = 16777217, which rounds
to 16777216 (ties to even), so the point is inside `a`, and it is inside `b`;
the intersection has the size 16777216 - (-1), rounded to 16777216, and its far
edge is -1 + 16777216 = 16777215, so the point is not inside it.  All the
coordinates are binary32 values. -/
theorem within_box_f32_intersect_counterexample :
    (∀ v ∈ [demo_rect_a.x, demo_rect_a.w, demo_rect_b.x, demo_rect_b.w, f32_of_int 16777215,
        f32_of_int 10, f32_of_int 5], f32_round v = v) ∧
      f32_add demo_rect_a.x demo_rect_a.w = f32_of_int 16777216 ∧
      compute_rect_intersect_f32 demo_rect_a demo_rect_b =
        ⟨f32_of_int (-1), f32_of_int 0, f32_of_int 16777216, f32_of_int 10⟩ ∧
      within_box_f32 demo_rect_a ⟨f32_of_int 16777215, f32_of_int 5⟩ = true ∧
      within_box_f32 demo_rect_b ⟨f32_of_int 16777215, f32_of_int 5⟩ = true ∧
      within_box_f32 (compute_rect_intersect_f32 demo_rect_a demo_rect_b)
        ⟨f32_of_int 16777215, f32_of_int 5⟩ = false := by
  refine ⟨by decide, by decide, by decide, by decide, by decide, by decide⟩

/-! ## Claim C31: push and pop of a clip rect -/

/-- In the exact arithmetic of the embedding: `ui_push_clip_rect` pushes the
intersection of the rect with the top of the stack, every point strictly inside
the new top is strictly inside the old top, and a `ui_pop_clip` that follows
returns the old top and leaves the context as it was before the push. -/
theorem ui_push_clip_rect_pop_exact (ui : Ui) (top : UiRect) (rest : List UiRect)
    (h : ui.clip_stack = top :: rest) (rect : UiRect) :
    ∃ ui', ui_push_clip_rect ui rect = .ok (ui', compute_rect_intersect rect top) ∧
      ui'.clip_stack = compute_rect_intersect rect top :: top :: rest ∧
      (∀ p, within_box (compute_rect_intersect rect top) p = true → within_box top p = true) ∧
      ui_pop_clip ui' = .ok (ui, top) := by
  refine ⟨{ ui with clip_stack := compute_rect_intersect rect top :: ui.clip_stack }, ?_, ?_, ?_, ?_⟩
  · unfold ui_push_clip_rect
    rw [h]
  · show compute_rect_intersect rect top :: ui.clip_stack = _
    rw [h]
  · intro p hp
    rw [within_box_compute_rect_intersect, Bool.and_eq_true] at hp
    exact hp.2
  · unfold ui_pop_clip
    simp only [h]
    rw [← h]

/-- The intersection starts at or after the origin of each rect, and its size
is not negative, whatever the rounding. -/
theorem compute_rect_intersect_f32_origin (r0 r1 : UiRectF32) :
    r1.x ≤ (compute_rect_intersect_f32 r0 r1).x ∧ r1.y ≤ (compute_rect_intersect_f32 r0 r1).y ∧
      0 ≤ (compute_rect_intersect_f32 r0 r1).w ∧ 0 ≤ (compute_rect_intersect_f32 r0 r1).h :=
  ⟨le_max_right _ _, le_max_right _ _, le_max_left _ _, le_max_left _ _⟩

/-- C31, amended.  On a clip stack with a top, `ui_push_clip_rect` pushes the
intersection of the given rect with that top, as `compute_rect_intersect`
computes it in binary32, and returns it: the new top starts at or after the
origin of the old top and its size is not negative; when no sum or difference
of the intersection is rounded it is contained in the old top (and in the
rect).  A `ui_pop_clip` that follows removes it and returns the old top, and
the stack is the one before the push. -/
theorem ui_push_clip_rect_f32_pop (top : UiRectF32) (rest : List UiRectF32) (rect : UiRectF32) :
    ∃ new_top, ui_push_clip_rect_f32 (top :: rest) rect = .ok (new_top :: top :: rest, new_top) ∧
      new_top = compute_rect_intersect_f32 rect top ∧
      top.x ≤ new_top.x ∧ top.y ≤ new_top.y ∧ 0 ≤ new_top.w ∧ 0 ≤ new_top.h ∧
      (ExactSums rect top → ContainedF32 new_top top ∧ ContainedF32 new_top rect) ∧
      ui_pop_clip_f32 (new_top :: top :: rest) = .ok (top :: rest, top) := by
  obtain ⟨h1, h2, h3, h4⟩ := compute_rect_intersect_f32_origin rect top
  refine ⟨compute_rect_intersect_f32 rect top, rfl, rfl, h1, h2, h3, h4, ?_, rfl⟩
  intro hex
  constructor
  · intro p hp
    rw [within_box_f32_intersect_exact rect top hex, Bool.and_eq_true] at hp
    exact hp.2
  · intro p hp
    rw [within_box_f32_intersect_exact rect top hex, Bool.and_eq_true] at hp
    exact hp.1

set_option maxRecDepth 100000 in
/-- The sample push: the rect (10, 20, 100, 50) on the top (40, 0, 30, 40)
gives (40, 20, 30, 20). -/
theorem demo_clip_push :
    compute_rect_intersect_f32 demo_rect_c demo_rect_d =
      ⟨f32_of_int 40, f32_of_int 20, f32_of_int 30, f32_of_int 20⟩ := by decide

theorem ui_push_clip_rect_f32_pop_witness :
    ExactSums demo_rect_c demo_rect_d ∧
    ∃ new_top, ui_push_clip_rect_f32 [demo_rect_d] demo_rect_c =
        .ok ([new_top, demo_rect_d], new_top) ∧
      new_top = compute_rect_intersect_f32 demo_rect_c demo_rect_d ∧
      demo_rect_d.x ≤ new_top.x ∧ demo_rect_d.y ≤ new_top.y ∧ 0 ≤ new_top.w ∧ 0 ≤ new_top.h ∧
      (ExactSums demo_rect_c demo_rect_d →
        ContainedF32 new_top demo_rect_d ∧ ContainedF32 new_top demo_rect_c) ∧
      ui_pop_clip_f32 [new_top, demo_rect_d] = .ok ([demo_rect_d], demo_rect_d) :=
  ⟨demo_rect_exact, ui_push_clip_rect_f32_pop demo_rect_d [] demo_rect_c⟩

set_option maxRecDepth 100000 in
/-- The new top is not always contained in the old top.  With the old top
`(0, 0, 16777222, 10)` and the rect `(3, 0, 33554432, 10)`, all binary32
values: the size of the intersection is 16777222 - 3 = 16777219, a tie that
rounds to 16777220, so the new top is `(3, 0, 16777220, 10)`; its far edge is
3 + 16777220 = 16777223, a tie that rounds to 16777224.  The point
`(16777222, 5)` is strictly inside the new top and not inside the old top,
whose far edge is 16777222. -/
theorem ui_push_clip_rect_f32_counterexample :
    (∀ v ∈ [demo_clip_top.x, demo_clip_top.w, demo_clip_rect.x, demo_clip_rect.w,
        f32_of_int 10, f32_of_int 5], f32_round v = v) ∧
      ui_push_clip_rect_f32 [demo_clip_top] demo_clip_rect =
        .ok ([⟨f32_of_int 3, f32_of_int 0, f32_of_int 16777220, f32_of_int 10⟩, demo_clip_top],
          ⟨f32_of_int 3, f32_of_int 0, f32_of_int 16777220, f32_of_int 10⟩) ∧
      f32_add (f32_of_int 3) (f32_of_int 16777220) = f32_of_int 16777224 ∧
      within_box_f32 ⟨f32_of_int 3, f32_of_int 0, f32_of_int 16777220, f32_of_int 10⟩
        ⟨f32_of_int 16777222, f32_of_int 5⟩ = true ∧
      within_box_f32 demo_clip_top ⟨f32_of_int 16777222, f32_of_int 5⟩ = false ∧
      ¬ ContainedF32 ⟨f32_of_int 3, f32_of_int 0, f32_of_int 16777220, f32_of_int 10⟩
        demo_clip_top := by
  have h1 : within_box_f32 ⟨f32_of_int 3, f32_of_int 0, f32_of_int 16777220, f32_of_int 10⟩
      ⟨f32_of_int 16777222, f32_of_int 5⟩ = true := by decide
  have h2 : within_box_f32 demo_clip_top ⟨f32_of_int 16777222, f32_of_int 5⟩ = false := by decide
  refine ⟨by decide, ?_, by decide, h1, h2, ?_⟩
  · have h : compute_rect_intersect_f32 demo_clip_rect demo_clip_top =
        ⟨f32_of_int 3, f32_of_int 0, f32_of_int 16777220, f32_of_int 10⟩ := by decide
    show Except.ok ([compute_rect_intersect_f32 demo_clip_rect demo_clip_top, demo_clip_top],
      compute_rect_intersect_f32 demo_clip_rect demo_clip_top) = _
    rw [h]
  · intro hc
    have := hc _ h1
    rw [h2] at this
    cases this

/-! ## Claim C32: a setter inside and outside a style-rule scope -/

theorem attr_toNat_injective (a b : UiStyleAttribute) (h : a.toNat = b.toNat) : a = b := by
  cases a <;> cases b <;> first | rfl | (exact absurd h (by decide))

/-- The bits of a mask after `mask |= style_attr_to_mask(attr)`: the bit of
the attribute is set and no other bit changes. -/
theorem mask_has_or (mask : Nat) (attr other : UiStyleAttribute) :
    mask_has (mask ||| style_attr_to_mask attr) other =
      (mask_has mask other || decide (attr = other)) := by
  have key : ∀ m : Nat, ∀ o : UiStyleAttribute,
      mask_has m o = m.testBit o.toNat := by
    intro m o
    unfold mask_has style_attr_to_mask
    rw [Nat.one_shiftLeft]
    by_cases hb : m.testBit o.toNat = true
    · rw [hb]
      simp only [bne_iff_ne, ne_eq]
      intro h0
      have := congrArg (fun x => Nat.testBit x o.toNat) h0
      simp [Nat.testBit_two_pow_self, hb] at this
    · simp only [Bool.not_eq_true] at hb
      rw [hb]
      simp only [bne_eq_false_iff_eq]
      apply Nat.eq_of_testBit_eq
      intro i
      simp only [Nat.testBit_and, Nat.zero_testBit, Nat.testBit_two_pow]
      by_cases hi : o.toNat = i
      · subst hi; simp [hb]
      · simp [hi]
  rw [key, key, Nat.testBit_or]
  congr 1
  unfold style_attr_to_mask
  rw [Nat.one_shiftLeft, Nat.testBit_two_pow]
  by_cases h : attr = other
  · subst h; simp
  · have : attr.toNat ≠ other.toNat := fun e => h (attr_toNat_injective _ _ e)
    simp [h, this]

/-- A setter called with a value of the kind of the attribute is
`ui_style_store` with an assignment that writes the field of the attribute and
no other. -/
theorem ui_style_box_store (attr : UiStyleAttribute) (val : StyleValue)
    (hk : val.kind = attr_kind attr) :
    ∃ f : UiStyle → UiStyle, (∀ ui box, ui_style_box ui box attr val = ui_style_store ui box attr f) ∧
      (∀ s, get_attr attr (f s) = val.stored attr) ∧
      (∀ s other, other ≠ attr → get_attr other (f s) = get_attr other s) := by
  cases val <;> cases attr <;> first
    | (simp [StyleValue.kind, attr_kind] at hk; done)
    | (apply Exists.intro
       refine ⟨fun ui box => ?h1, ?h2, ?h3⟩
       case h1 =>
         simp only [ui_style_box, ui_style_box_u32, ui_style_box_f32, ui_style_box_vec2,
           ui_style_box_vec4, ui_style_box_size]
         rfl
       case h2 => intro s; rfl
       case h3 =>
         intro s other ho
         cases other <;> first | rfl | (exact absurd rfl ho))

theorem ui_style_store_scope (ui : Ui) (box : BoxId) (attr : UiStyleAttribute)
    (f : UiStyle → UiStyle) (rb : BoxId) (idx : Nat) (rule rule' : UiStyleRule)
    (hcur : ui.current_style_rule = some (rb, idx))
    (hrule : (ui.boxes rb).style_rules[idx]? = some rule)
    (hnew : rule' =
      ⟨rule.style_ptr, f rule.style, rule.pattern, rule.mask ||| style_attr_to_mask attr⟩) :
    ui_style_store ui box attr f =
      .ok (ui.modify_box rb (fun b => { b with style_rules := b.style_rules.set idx rule' })) := by
  unfold ui_style_store
  simp only [hcur, hrule, hnew]

theorem ui_style_store_box (ui : Ui) (box : BoxId) (attr : UiStyleAttribute)
    (f : UiStyle → UiStyle) (hcur : ui.current_style_rule = none) :
    ui_style_store ui box attr f =
      .ok (ui.modify_box box (fun b => { b with next_style := f b.next_style })) := by
  unfold ui_style_store
  simp only [hcur]

/-- C32. A typed setter called with a value of the kind of the attribute
returns.  While a style-rule scope is open (`ui->current_style_rule` points at
a rule) it writes the value into the override style of that rule and leaves the
other attributes of that style; the mask of the rule becomes the old mask with
the bit of the attribute set, every other bit as before; the pattern of the
rule, every other rule and the target style of every box (the box given to the
setter included) are unchanged.  With no scope open it writes the value into
the target style of the box, leaves the other attributes of that style and the
target styles of the other boxes, and changes no rule.  The value written is
the value given, converted to the type of the field: it is the value itself,
except that a `U32` for the one-byte axis is cut to its low byte (so it is the
value itself when that is below 256). -/
theorem ui_style_box_scope (ui : Ui) (box : BoxId) (attr : UiStyleAttribute) (val : StyleValue)
    (hk : val.kind = attr_kind attr) :
    (∀ rb idx rule, ui.current_style_rule = some (rb, idx) →
      (ui.boxes rb).style_rules[idx]? = some rule →
      ∃ ui' rule', ui_style_box ui box attr val = .ok ui' ∧
        (ui'.boxes rb).style_rules[idx]? = some rule' ∧
        get_attr attr rule'.style = val.stored attr ∧
        (∀ other, other ≠ attr → get_attr other rule'.style = get_attr other rule.style) ∧
        rule'.mask = rule.mask ||| style_attr_to_mask attr ∧
        mask_has rule'.mask attr = true ∧
        (∀ other, other ≠ attr → mask_has rule'.mask other = mask_has rule.mask other) ∧
        rule'.pattern = rule.pattern ∧ rule'.style_ptr = rule.style_ptr ∧
        (∀ b, (ui'.boxes b).next_style = (ui.boxes b).next_style) ∧
        (∀ b i, (b, i) ≠ (rb, idx) →
          (ui'.boxes b).style_rules[i]? = (ui.boxes b).style_rules[i]?) ∧
        ui'.current_style_rule = ui.current_style_rule) ∧
    (ui.current_style_rule = none →
      ∃ ui', ui_style_box ui box attr val = .ok ui' ∧
        get_attr attr (ui'.boxes box).next_style = val.stored attr ∧
        (∀ other, other ≠ attr →
          get_attr other (ui'.boxes box).next_style = get_attr other (ui.boxes box).next_style) ∧
        (∀ b, b ≠ box → (ui'.boxes b).next_style = (ui.boxes b).next_style) ∧
        (∀ b, (ui'.boxes b).style_rules = (ui.boxes b).style_rules) ∧
        ui'.current_style_rule = none) ∧
    (∀ v, val = .u32 v →
      val.stored attr = .u32 (if attr = .UI_AXIS then v % 2 ^ 8 else v) ∧
      ((attr = .UI_AXIS → v < 2 ^ 8) → val.stored attr = .u32 v)) ∧
    (∀ v, val = .f32 v →
      val.stored attr =
        if attr = .UI_FLOAT_X ∨ attr = .UI_FLOAT_Y then .float (some v) else .f32 v) ∧
    (∀ v, val = .vec2 v → val.stored attr = .vec2 v) ∧
    (∀ v, val = .vec4 v → val.stored attr = .vec4 v) ∧
    (∀ v, val = .size v → val.stored attr = .size v) := by
  obtain ⟨f, hf, hget, hother⟩ := ui_style_box_store attr val hk
  refine ⟨?_, ?_, ?_, ?_, ?_, ?_, ?_⟩
  rotate_left 2
  · intro v hv
    subst hv
    constructor
    · simp only [StyleValue.stored]
      split <;> rfl
    · intro hlt
      simp only [StyleValue.stored]
      split
      · rename_i hax
        rw [Nat.mod_eq_of_lt (hlt hax)]
      · rfl
  · intro v hv; subst hv; rfl
  · intro v hv; subst hv; rfl
  · intro v hv; subst hv; rfl
  · intro v hv; subst hv; rfl
  · intro rb idx rule hcur hrule
    have hlt : idx < (ui.boxes rb).style_rules.length := by
      by_contra hge
      rw [List.getElem?_eq_none (Nat.le_of_not_lt hge)] at hrule
      cases hrule
    obtain ⟨rule', hnew⟩ : ∃ r : UiStyleRule, r =
        ⟨rule.style_ptr, f rule.style, rule.pattern, rule.mask ||| style_attr_to_mask attr⟩ :=
      ⟨_, rfl⟩
    have hs : rule'.style = f rule.style := by rw [hnew]
    have hm : rule'.mask = rule.mask ||| style_attr_to_mask attr := by rw [hnew]
    have hp : rule'.pattern = rule.pattern := by rw [hnew]
    have hq : rule'.style_ptr = rule.style_ptr := by rw [hnew]
    refine ⟨ui.modify_box rb (fun b => { b with style_rules := b.style_rules.set idx rule' }),
      rule', ?_, ?_, ?_, ?_, hm, ?_, ?_, hp, hq, ?_, ?_, rfl⟩
    · rw [hf, ui_style_store_scope ui box attr f rb idx rule rule' hcur hrule hnew]
    · simp only [modify_box_boxes, if_true]
      exact List.getElem?_set_self hlt
    · rw [hs]; exact hget _
    · intro other ho
      rw [hs]; exact hother _ _ ho
    · rw [hm, mask_has_or]
      simp
    · intro other ho
      rw [hm, mask_has_or]
      simp [Ne.symm ho]
    · intro b
      by_cases hb : b = rb
      · subst hb; simp [modify_box_boxes]
      · simp [modify_box_boxes, hb]
    · intro b i hne
      by_cases hb : b = rb
      · subst hb
        have hi : idx ≠ i := fun e => hne (by rw [e])
        simp only [modify_box_boxes, if_true]
        exact List.getElem?_set_ne hi
      · simp [modify_box_boxes, hb]
  · intro hcur
    refine ⟨ui.modify_box box (fun b => { b with next_style := f b.next_style }),
      ?_, ?_, ?_, ?_, ?_, ?_⟩
    · rw [hf, ui_style_store_box ui box attr f hcur]
    · simp only [modify_box_boxes, if_true]
      exact hget _
    · intro other ho
      simp only [modify_box_boxes, if_true]
      exact hother _ _ ho
    · intro b hb
      simp [modify_box_boxes, hb]
    · intro b
      by_cases hb : b = box
      · subst hb; simp [modify_box_boxes]
      · simp [modify_box_boxes, hb]
    · exact hcur

/-- The sample: in the scope of the rule `.a` declared on the root, the
setter of the spacing called for box 1 writes the rule (mask bit 8) and leaves
the spacing 0 in the target style of box 1; without a scope it writes the
target style of the box.  The axis 1 is stored as 1, and 256 as 0. -/
theorem demo_scope_run :
    demo_scope.current_style_rule = some (0, 0) ∧
      ((demo_scope.boxes 0).style_rules.map (fun r => r.mask)) = [0] ∧
      ((ok_or demo_init (ui_style_box demo_scope 1 .UI_SPACING (.f32 4))).boxes 0).style_rules.map
        (fun r => (r.mask, r.style.spacing)) = [(256, 4)] ∧
      ((ok_or demo_init (ui_style_box demo_scope 1 .UI_SPACING (.f32 4))).boxes 1).next_style.spacing
        = 0 ∧
      ((ok_or demo_init (ui_style_box demo_u1 1 .UI_SPACING (.f32 4))).boxes 1).next_style.spacing
        = 4 ∧
      ((ok_or demo_init (ui_style_box demo_u1 1 .UI_SPACING (.f32 4))).boxes 0).style_rules = [] ∧
      ((ok_or demo_init (ui_style_box demo_u1 1 .UI_AXIS (.u32 1))).boxes 1).next_style.axis = 1 ∧
      ((ok_or demo_init (ui_style_box demo_u1 1 .UI_AXIS (.u32 256))).boxes 1).next_style.axis
        = 0 := by
  refine ⟨rfl, rfl, rfl, rfl, rfl, rfl, rfl, rfl⟩

theorem demo_scope_rule_at :
    demo_scope.current_style_rule = some (0, 0) ∧
      (demo_scope.boxes 0).style_rules[0]? = some demo_scope_rule ∧ demo_scope_rule.mask = 0 :=
  ⟨rfl, rfl, rfl⟩

theorem ui_style_box_scope_witness :
    (StyleValue.f32 4).kind = attr_kind .UI_SPACING ∧
    (∃ ui' rule', ui_style_box demo_scope 1 .UI_SPACING (.f32 4) = .ok ui' ∧
      (ui'.boxes 0).style_rules[0]? = some rule' ∧
      get_attr .UI_SPACING rule'.style = .f32 4 ∧
      mask_has rule'.mask .UI_SPACING = true ∧
      (∀ other, other ≠ .UI_SPACING → mask_has rule'.mask other = false) ∧
      (∀ b, (ui'.boxes b).next_style = (demo_scope.boxes b).next_style)) ∧
    (∃ ui', ui_style_box demo_u1 1 .UI_SPACING (.f32 4) = .ok ui' ∧
      get_attr .UI_SPACING (ui'.boxes 1).next_style = .f32 4 ∧
      (∀ b, (ui'.boxes b).style_rules = (demo_u1.boxes b).style_rules)) := by
  have h := ui_style_box_scope demo_scope 1 .UI_SPACING (.f32 4) rfl
  have h' := ui_style_box_scope demo_u1 1 .UI_SPACING (.f32 4) rfl
  obtain ⟨ui', rule', h1, h2, h3, _, _, h6, h7, _, _, h10, _, _⟩ :=
    h.1 0 0 demo_scope_rule demo_scope_rule_at.1 demo_scope_rule_at.2.1
  obtain ⟨vi, g1, g2, _, _, g5, _⟩ := h'.2.1 rfl
  refine ⟨rfl, ⟨ui', rule', h1, h2, h3, h6, ?_, h10⟩, ⟨vi, g1, g2, g5⟩⟩
  intro other ho
  rw [h7 other ho, demo_scope_rule_at.2.2]
  cases other <;> rfl

/-! ## Claim C39: every active rule has a head segment -/

/-- A string with a byte that is not a separator gives at least one token. -/
theorem split_tokens_ne_nil (separators : List Char) (ks ke : Bool) :
    ∀ (rest cur : List Char), (cur ≠ [] ∨ ∃ c ∈ rest, c ∉ separators) →
      split_tokens separators ks ke cur rest ≠ [] := by
  intro rest
  induction rest with
  | nil =>
    intro cur h
    rcases h with h | ⟨c, hc, _⟩
    · simp [split_tokens, h]
    · cases hc
  | cons c rest ih =>
    intro cur h
    unfold split_tokens
    by_cases hsep : c ∉ separators
    · rw [if_pos hsep]
      exact ih (cur ++ [c]) (Or.inl (by simp))
    · rw [if_neg hsep]
      rcases h with h | ⟨d, hd, hds⟩
      · simp [h]
      · rcases List.mem_cons.1 hd with e | e
        · subst e; exact absurd hds hsep
        · have := ih [] (Or.inr ⟨d, e, hds⟩)
          simp [this]

theorem parse_pattern_chunks_length :
    ∀ (chunks : List (List Char)) (p P : UiPattern), parse_pattern_chunks chunks p = .ok P →
      P.patterns.length = p.patterns.length + chunks.length := by
  intro chunks
  induction chunks with
  | nil => intro p P h; cases h; rfl
  | cons chunk rest ih =>
    intro p P h
    unfold parse_pattern_chunks at h
    split at h
    · cases h
    · have := ih _ _ h
      simp only [List.length_append, List.length_singleton, List.length_cons, List.length_nil] at this ⊢
      omega

/-- A pattern parsed from a text with a byte that is not a space has a
segment. -/
theorem parse_pattern_has_segment (text : String) (P : UiPattern)
    (h : parse_pattern text = .ok P) (hc : ∃ c ∈ text.data, c ≠ ' ') : P.patterns ≠ [] := by
  unfold parse_pattern at h
  have hlen := parse_pattern_chunks_length _ _ _ h
  have hne : str_split text.data [' '] false false ≠ [] := by
    rw [str_split_eq]
    apply split_tokens_ne_nil
    obtain ⟨c, hc1, hc2⟩ := hc
    exact Or.inr ⟨c, hc1, by simpa using hc2⟩
  intro hnil
  rw [hnil] at hlen
  have : (str_split text.data [' '] false false).length = 0 := by
    simp only [List.length_nil] at hlen
    omega
  exact hne (List.length_eq_zero.1 this)

theorem has_head_of_parsed (rule : UiStyleRule) (h : rule.parsed) : rule.has_head := by
  obtain ⟨text, hc, hp⟩ := h
  have := parse_pattern_has_segment text _ hp hc
  cases hq : rule.pattern.patterns with
  | nil => exact absurd hq this
  | cons head tail => exact ⟨head, tail, hq⟩

/-- A rule is derived only from a rule with two or more segments, so it has a
head segment. -/
theorem has_head_derive_new_rule (box : UiBox) (link : Option ParentLink) (rule : UiStyleRule)
    (h : rule_derives box link rule) : (derive_new_rule rule).has_head := by
  obtain ⟨head, tail, hp, _, hlen⟩ := h
  rw [hp] at hlen
  cases tail with
  | nil => simp at hlen
  | cons x rest => exact ⟨x, rest, by simp [derive_new_rule, hp]⟩

theorem scan_rules_has_head {box : UiBox} {link : Option ParentLink} {rules : List UiStyleRule}
    {st st' : ScanState} (h : scan_rules box link rules st = .ok st')
    (hst : ∀ r ∈ st.2.2, r.has_head) : ∀ r ∈ st'.2.2, r.has_head := by
  intro r hr
  rcases (scan_rules_derived h r).1 hr with h1 | ⟨r0, _, hd, he⟩
  · exact hst r h1
  · rw [he]
    exact has_head_derive_new_rule box link r0 hd

theorem rules_at_has_head (q : List Nat) :
    ∀ (link : Option ParentLink) (t : BoxTree) (active L : List UiStyleRule),
      (∀ r ∈ active, r.has_head) → (∀ r ∈ declared_rules t, r.has_head) →
      rules_at link t active q = .ok L → ∀ r ∈ L, r.has_head := by
  induction q with
  | nil =>
    intro link t active L ha hd h r hr
    cases t with
    | node box children =>
      simp only [rules_at, BoxTree.box] at h
      cases h
      rcases List.mem_append.1 hr with h1 | h1
      · exact ha r h1
      · exact hd r (by simp only [declared_rules, List.mem_append]; exact Or.inl h1)
  | cons i q ih =>
    intro link t active L ha hd h r hr
    cases t with
    | node box children =>
      simp only [rules_at, BoxTree.box, BoxTree.children] at h
      split at h
      · cases h
      · rename_i st hst
        split at h
        · cases h
        · rename_i c hc
          have hown : ∀ r ∈ box.style_rules, r.has_head := fun r hr =>
            hd r (by simp only [declared_rules, List.mem_append]; exact Or.inl hr)
          have hder := scan_rules_has_head hst (fun r hr => by cases hr)
          refine ih _ c _ L ?_ ?_ h r hr
          · intro r hr
            rcases List.mem_append.1 hr with h1 | h1
            · rcases List.mem_append.1 h1 with h2 | h2
              · exact ha r h2
              · exact hown r h2
            · exact hder r h1
          · intro r hr
            exact hd r (by
              simp only [declared_rules, List.mem_append]
              exact Or.inr (declared_rules_list_mem (List.getElem?_mem hc) hr))

/-- C39. When every rule declared in the tree has a pattern parsed from a
text with at least one byte that is not a space, every rule of the list that
the rule loop of `apply_style_rules_box` iterates at a box of the tree (the
active list on entry to the box and the box's own rules) has a head segment,
and so has every rule that the loop derives and pushes at that box: the read of
`patterns[0]` finds an element. -/
theorem cascade_rules_have_head (t : BoxTree) (hdecl : ∀ r ∈ declared_rules t, r.parsed) :
    (∀ q L, rules_at none t [] q = .ok L → ∀ r ∈ L, r.has_head) ∧
      ∀ q L box lk st, rules_at none t [] q = .ok L → node_at none t q = some (box, lk) →
        scan_rules box lk L (box.next_style, Specs.zero, []) = .ok st →
        ∀ r ∈ st.2.2, r.has_head := by
  constructor
  · intro q L h
    exact rules_at_has_head q none t [] L (fun r hr => by cases hr)
      (fun r hr => has_head_of_parsed r (hdecl r hr)) h
  · intro q L box lk st _ _ hst
    exact scan_rules_has_head hst (fun r hr => by cases hr)

theorem demo_tree_parsed_rules : ∀ r ∈ declared_rules demo_tree_parsed, r.parsed := by
  intro r hr
  have : r = demo_rule_parsed ∨ r = demo_rule_parsed_tag := by
    simpa [demo_tree_parsed, declared_rules, declared_rules_list, UiBox.zeroed] using hr
  rcases this with h | h
  · subst h
    exact ⟨".a .b", ⟨'.', by decide, by decide⟩, rfl⟩
  · subst h
    exact ⟨".a", ⟨'.', by decide, by decide⟩, rfl⟩

/-- The sample: the root declares `.a .b` and `.a`, and matches `.a`; at its
child the loop iterates the two rules and the rule derived from the first (the
one segment `.b`). The cascade returns on this tree from the array that
`array_init` leaves: `array_push_many` of the two rules leaves the capacity 2,
and the push of the derived rule grows it. A text of spaces alone parses to a
pattern without segment. -/
theorem demo_tree_parsed_run :
    (match rules_at none demo_tree_parsed [] [0] with
      | .ok L => L.map (fun r => r.pattern.patterns.length)
      | .error _ => []) = [2, 1, 1] ∧
    fault_of (apply_style_rules_array demo_powf 0 demo_tree_parsed) = none ∧
    (match parse_pattern "  " with
      | .ok p => p.patterns.length
      | .error _ => 1) = 0 := by
  refine ⟨by rfl, by decide!, by rfl⟩

theorem cascade_rules_have_head_witness :
    ((∀ r ∈ declared_rules demo_tree_parsed, r.parsed) ∧
      fault_of (apply_style_rules_array demo_powf 0 demo_tree_parsed) = none) ∧
    (∀ q L, rules_at none demo_tree_parsed [] q = .ok L → ∀ r ∈ L, r.has_head) ∧
      ∀ q L box lk st, rules_at none demo_tree_parsed [] q = .ok L →
        node_at none demo_tree_parsed q = some (box, lk) →
        scan_rules box lk L (box.next_style, Specs.zero, []) = .ok st →
        ∀ r ∈ st.2.2, r.has_head :=
  ⟨⟨demo_tree_parsed_rules, by decide!⟩,
    cascade_rules_have_head demo_tree_parsed demo_tree_parsed_rules⟩

/-! ## Claims C35 and C37: one pressed box, and the order of `depth_first` -/

theorem ui_box_acquire_active {ui ua : Ui} {key : UiKey} {box : BoxId}
    (h : ui_box_acquire ui key = .ok (ua, box)) :
    ua.active = ui.active ∧ ua.hovered = ui.hovered ∧ ua.focused = ui.focused ∧
      ua.event = ui.event := by
  unfold ui_box_acquire at h
  split at h
  · split at h
    · cases h
    · cases h; exact ⟨rfl, rfl, rfl, rfl⟩
  · split at h <;> cases h <;> exact ⟨rfl, rfl, rfl, rfl⟩

theorem ui_box_link_active (ua : Ui) (box : BoxId) (key : UiKey) (flags : Nat) (label : String) :
    (ui_box_link ua box key flags label).active = ua.active := by
  unfold ui_box_link ui_push_parent
  rcases hst : ua.box_stack with _ | ⟨p, rest⟩ <;> simp [hst]

/-- After `compute_signals` the box reports `pressed` only if it is the active
box, and the active box has changed only from none to the box or from the box
to none. -/
theorem compute_signals_pressed {ui ui' : Ui} {box : BoxId}
    (h : compute_signals ui box = .ok ui') :
    ((ui'.boxes box).signal.pressed = true → ui'.active = some box) ∧
      (ui'.active = ui.active ∨ (ui.active = none ∧ ui'.active = some box) ∨
        (ui.active = some box ∧ ui'.active = none)) := by
  unfold compute_signals at h
  simp only at h
  split at h
  · cases h
    exact ⟨by simp [modify_box_boxes], Or.inl rfl⟩
  · split at h
    · cases h
    · split at h
      · rename_i hact
        simp only [modify_box_active] at hact
        split at h <;> cases h
        · exact ⟨fun _ => rfl, Or.inr (Or.inl ⟨hact, rfl⟩)⟩
        · exact ⟨by simp [modify_box_boxes], Or.inl rfl⟩
      · rename_i a hact
        simp only [modify_box_active] at hact
        split at h
        · rename_i hab
          subst hab
          split at h <;> cases h
          · exact ⟨by simp [modify_box_boxes], Or.inr (Or.inr ⟨hact, rfl⟩)⟩
          · exact ⟨fun _ => hact, Or.inl rfl⟩
        · cases h
          exact ⟨by simp [modify_box_boxes], Or.inl rfl⟩

/-- What one call of `ui_box_push_str` does to `ui->active` and to the
`pressed` signals. -/
theorem ui_box_push_str_pressed {str_hash_seed : String → UiKey → UiKey} {ui ui' : Ui}
    {flags : Nat} {label : String} {box : BoxId}
    (h : ui_box_push_str str_hash_seed ui flags label = .ok (ui', box)) :
    ((ui'.boxes box).signal.pressed = true → ui'.active = some box) ∧
      (ui'.active = ui.active ∨ (ui.active = none ∧ ui'.active = some box) ∨
        (ui.active = some box ∧ ui'.active = none)) ∧
      ∀ b, b ≠ box → (ui'.boxes b).signal = (ui.boxes b).signal := by
  have P := ui_box_push_str_spec h
  refine ⟨?_, ?_, ?_⟩
  rotate_left 2
  · intro b hb
    obtain ⟨ch, hch⟩ := P.hothers b hb
    rw [hch]
  all_goals
    unfold ui_box_push_str at h
    simp only at h
    split at h
    · cases h
    · rename_i ua b hacq
      split at h
      · cases h
      · rename_i us hsig
        split at h
        · cases h
        · rename_i ut htag
          cases h
          obtain ⟨a1, -, -, -⟩ := ui_box_acquire_active hacq
          have l1 := ui_box_link_active ua box (ui_build_key str_hash_seed ui label) flags label
          obtain ⟨c1, c2⟩ := compute_signals_pressed hsig
          obtain ⟨-, -, -, s4, -, -, -, -⟩ := compute_signals_frame hsig
          have l4 : us.box_stack = box :: ua.box_stack := by
            rw [s4]
            exact (ui_box_link_spec ua box (ui_build_key str_hash_seed ui label) flags label).2.2.2.1
          obtain ⟨ut', htag', -, -, -, -, -, -, -, t8, t9⟩ :=
            ui_box_signal_tags_spec us box ua.box_stack l4
          rw [htag] at htag'
          cases htag'
          rw [l1, a1] at c2
          first
          | (intro hp
             rw [t8]
             apply c1
             have := t9 box
             simp only [if_true] at this
             rw [this] at hp
             exact hp)
          | (rw [t8]; exact c2)

/-- The invariant of the pass behind claim C35: a declared box that reports
`pressed` is the active box. -/
theorem push_pressed_active {str_hash_seed : String → UiKey → UiKey} {ui ui' : Ui}
    {flags : Nat} {label : String} {box : BoxId}
    (h : ui_box_push_str str_hash_seed ui flags label = .ok (ui', box))
    (I : PassInv str_hash_seed ui)
    (A : ∀ b ∈ ui.depth_first, (ui.boxes b).signal.pressed = true → ui.active = some b) :
    ∀ b ∈ ui'.depth_first, (ui'.boxes b).signal.pressed = true → ui'.active = some b := by
  have P := ui_box_push_str_spec h
  have hnd := push_not_declared P I
  obtain ⟨h1, h2, h3⟩ := ui_box_push_str_pressed h
  intro b hb hp
  rw [P.hdepth_first, List.mem_append, List.mem_singleton] at hb
  rcases hb with hb | hb
  · have hne : b ≠ box := fun e => hnd (e ▸ hb)
    rw [h3 b hne] at hp
    have hact := A b hb hp
    rcases h2 with h2 | ⟨h2, -⟩ | ⟨h2, -⟩
    · rw [h2]; exact hact
    · rw [h2] at hact; cases hact
    · rw [h2] at hact
      exact absurd (Option.some.inj hact).symm hne
  · subst hb
    exact h1 hp

theorem run_ops_pressed_active {str_hash_seed : String → UiKey → UiKey} {ops : List BuildOp}
    {ui ui' : Ui} (h : run_ops str_hash_seed ui ops = .ok ui') (I : PassInv str_hash_seed ui)
    (A : ∀ b ∈ ui.depth_first, (ui.boxes b).signal.pressed = true → ui.active = some b) :
    ∀ b ∈ ui'.depth_first, (ui'.boxes b).signal.pressed = true → ui'.active = some b := by
  induction ops generalizing ui with
  | nil => cases h; exact A
  | cons op rest ih =>
    unfold run_ops at h
    split at h
    · cases h
    · rename_i u1 hop
      refine ih h (run_op_pass_inv hop I) ?_
      cases op with
      | push flags label =>
        simp only [run_op] at hop
        split at hop
        · cases hop
        · rename_i u2 box hpush
          cases hop
          exact push_pressed_active hpush I A
      | pop =>
        simp only [run_op, ui_pop_parent] at hop
        split at hop
        · cases hop
        · cases hop; exact A

/-- The invariant of the pass behind claim C37: the parent of a declared box is
declared before it. -/
theorem push_parents_before {str_hash_seed : String → UiKey → UiKey} {ui ui' : Ui}
    {flags : Nat} {label : String} {box : BoxId}
    (h : ui_box_push_str str_hash_seed ui flags label = .ok (ui', box))
    (I : PassInv str_hash_seed ui) (B : ParentsBefore ui.boxes ui.depth_first) :
    ParentsBefore ui'.boxes ui'.depth_first := by
  have P := ui_box_push_str_spec h
  have hnd := push_not_declared P I
  intro i b p hi hpar
  rw [P.hdepth_first] at hi ⊢
  by_cases hlt : i < ui.depth_first.length
  · rw [List.getElem?_append_left hlt] at hi
    have hb : b ∈ ui.depth_first := List.mem_iff_getElem?.2 ⟨i, hi⟩
    have hne : b ≠ box := fun e => hnd (e ▸ hb)
    obtain ⟨ch, hch⟩ := P.hothers b hne
    rw [hch] at hpar
    obtain ⟨j, hj, hjp⟩ := B i b p hi hpar
    exact ⟨j, hj, by rw [List.getElem?_append_left (by omega)]; exact hjp⟩
  · have hge : ui.depth_first.length ≤ i := by omega
    rw [List.getElem?_append_right hge] at hi
    have hb : b = box := by
      have : b ∈ [box] := List.mem_iff_getElem?.2 ⟨_, hi⟩
      simpa using this
    subst hb
    rw [P.hparent] at hpar
    have hp : p ∈ ui.depth_first :=
      I.stack_declared p (List.mem_of_mem_head? hpar)
    obtain ⟨j, hj, hjp⟩ := List.getElem_of_mem hp
    exact ⟨j, by omega, by rw [List.getElem?_append_left hj, List.getElem?_eq_getElem hj, hjp]⟩

theorem run_ops_declared_spec {str_hash_seed : String → UiKey → UiKey} {ops : List BuildOp}
    {ui ui' : Ui} (h : run_ops str_hash_seed ui ops = .ok ui') (I : PassInv str_hash_seed ui)
    (B : ParentsBefore ui.boxes ui.depth_first) :
    ∃ declared, run_ops_declared str_hash_seed ui ops = .ok declared ∧
      ui'.depth_first = ui.depth_first ++ declared ∧
      ParentsBefore ui'.boxes ui'.depth_first := by
  induction ops generalizing ui with
  | nil => cases h; exact ⟨[], rfl, by simp, B⟩
  | cons op rest ih =>
    unfold run_ops at h
    split at h
    · cases h
    · rename_i u1 hop
      have I1 := run_op_pass_inv hop I
      cases op with
      | push flags label =>
        simp only [run_op] at hop
        split at hop
        · cases hop
        · rename_i u2 box hpush
          cases hop
          obtain ⟨declared, hd1, hd2, hd3⟩ := ih h I1 (push_parents_before hpush I B)
          refine ⟨box :: declared, ?_, ?_, hd3⟩
          · simp only [run_ops_declared, hpush, hd1]
          · rw [hd2, (ui_box_push_str_spec hpush).hdepth_first, List.append_assoc]
            rfl
      | pop =>
        simp only [run_op] at hop
        have hop' := hop
        unfold ui_pop_parent at hop
        split at hop
        · cases hop
        · cases hop
          obtain ⟨declared, hd1, hd2, hd3⟩ := ih h I1 B
          refine ⟨declared, ?_, hd2, hd3⟩
          simp only [run_ops_declared, hop', hd1]

theorem rebuild_pass_run {str_hash_seed : String → UiKey → UiKey} {ui ui' : Ui}
    {ops : List BuildOp} (h : rebuild_pass str_hash_seed ui ops = .ok ui') :
    ∃ u1, run_ops str_hash_seed (depth_first_reset ui) ops = .ok u1 ∧
      ui' = gc_toggle (gc_sweep u1) := by
  unfold rebuild_pass at h
  split at h
  · cases h
  · rename_i u1 hrun
    cases h
    exact ⟨u1, hrun, rfl⟩

/-- C37. At the end of a rebuild pass that returns, `depth_first` is the list of
the boxes that the calls of `ui_box_push_str` of the pass returned, in the order
of the calls; no box is listed twice; and every listed box that has a parent is
listed after its parent. -/
theorem rebuild_pass_depth_first (str_hash_seed : String → UiKey → UiKey) (ui ui' : Ui)
    (ops : List BuildOp) (S : PassStart ui)
    (h : rebuild_pass str_hash_seed ui ops = .ok ui') :
    ∃ declared, run_ops_declared str_hash_seed (depth_first_reset ui) ops = .ok declared ∧
      ui'.depth_first = declared ∧ declared.Nodup ∧ ParentsBefore ui'.boxes ui'.depth_first := by
  obtain ⟨u1, hrun, rfl⟩ := rebuild_pass_run h
  have I0 : PassInv str_hash_seed (depth_first_reset ui) := pass_start_pass_inv S
  have I1 := run_ops_pass_inv hrun I0
  have B0 : ParentsBefore (depth_first_reset ui).boxes (depth_first_reset ui).depth_first := by
    intro i b p hi
    simp [depth_first_reset] at hi
  obtain ⟨declared, hd1, hd2, hd3⟩ := run_ops_declared_spec hrun I0 B0
  have hd : u1.depth_first = declared := by
    rw [hd2]; simp [depth_first_reset]
  refine ⟨declared, hd1, hd, ?_, hd3⟩
  rw [← hd]
  exact I1.depth_nodup

theorem demo_pass1_run :
    rebuild_pass demo_hash demo_init demo_pass1 = .ok demo_v0 ∧
      run_ops_declared demo_hash (depth_first_reset demo_init) demo_pass1 = .ok [0, 1, 2] ∧
      demo_v0.depth_first = [0, 1, 2] ∧
      (demo_v0.boxes 0).parent = none ∧ (demo_v0.boxes 1).parent = some 0 ∧
      (demo_v0.boxes 2).parent = some 0 := by
  refine ⟨by rfl, by rfl, by rfl, by rfl, by rfl, by rfl⟩

theorem rebuild_pass_depth_first_witness :
    (PassStart demo_init ∧ rebuild_pass demo_hash demo_init demo_pass1 = .ok demo_v0) ∧
      ∃ declared, run_ops_declared demo_hash (depth_first_reset demo_init) demo_pass1 =
          .ok declared ∧
        demo_v0.depth_first = declared ∧ declared.Nodup ∧
        ParentsBefore demo_v0.boxes demo_v0.depth_first :=
  ⟨⟨ui_init_pass_start 800 600 demo_event, demo_pass1_run.1⟩,
    rebuild_pass_depth_first demo_hash demo_init demo_v0 demo_pass1
      (ui_init_pass_start 800 600 demo_event) demo_pass1_run.1⟩

/-! ## Claim C35: at most one pressed box -/

/-- C35. After a rebuild pass that returns, whatever the event and the values
of `ui->active` and `ui->hovered` before it: at most one box of `depth_first`
(the boxes declared in the pass) has `signal.pressed` set, such a box is
`ui->active`, and the identity map holds no other boxes than the declared
ones. -/
theorem rebuild_pass_one_pressed (str_hash_seed : String → UiKey → UiKey) (ui ui' : Ui)
    (ops : List BuildOp) (S : PassStart ui)
    (h : rebuild_pass str_hash_seed ui ops = .ok ui') :
    OnePressed ui'.boxes ui'.depth_first ∧
      (∀ b ∈ ui'.depth_first, (ui'.boxes b).signal.pressed = true → ui'.active = some b) ∧
      (∀ b ∈ ui'.box_cache.map Prod.snd, b ∈ ui'.depth_first) := by
  obtain ⟨u1, hrun, rfl⟩ := rebuild_pass_run h
  have I0 : PassInv str_hash_seed (depth_first_reset ui) := pass_start_pass_inv S
  have I1 := run_ops_pass_inv hrun I0
  have A1 := run_ops_pressed_active hrun I0 (by intro b hb; simp [depth_first_reset] at hb)
  have hc : (gc_sweep u1).box_cache = u1.box_cache.filter
      (fun e : UiKey × BoxId => decide ((u1.boxes e.2).gc_flag = u1.gc_flag)) := by
    simp [gc_sweep, sweep_slots_eq]
  have ha : (gc_sweep u1).active = u1.active.bind
      (fun a => if a ∈ evicted u1.boxes u1.gc_flag u1.box_cache then none else some a) := by
    simp [gc_sweep, sweep_slots_eq]
  have hact : ∀ b ∈ u1.depth_first, (u1.boxes b).signal.pressed = true →
      (gc_sweep u1).active = some b := by
    intro b hb hp
    rw [ha, A1 b hb hp]
    obtain ⟨e, he, rfl⟩ := List.mem_map.1 (I1.declared b hb)
    have hne : e.2 ∉ evicted u1.boxes u1.gc_flag u1.box_cache := fun hev =>
      (mem_evicted.1 hev).2 ((I1.marked e he).2 hb)
    simp [hne]
  refine ⟨?_, hact, ?_⟩
  · intro b hb c hc' hpb hpc
    have h1 := hact b hb hpb
    have h2 := hact c hc' hpc
    rw [h1] at h2
    exact Option.some.inj h2
  · intro b hb
    obtain ⟨e, he, rfl⟩ := List.mem_map.1 hb
    have he' : e ∈ (gc_sweep u1).box_cache := he
    rw [hc, List.mem_filter] at he'
    exact (I1.marked e he'.1).1 (by simpa using he'.2)

theorem same_store_event_hovered (u : Ui) (e : Event) (hv : Option BoxId) :
    SameStore u { u with event := e, hovered := hv } :=
  ⟨rfl, rfl, rfl, rfl, rfl, fun _ => rfl, fun _ => rfl⟩

theorem demo_press_pass_start : PassStart demo_press_pass :=
  same_store_pass_start
    (same_store_event_hovered demo_v0 ⟨.EVENT_KEY_PRESS, 0, 0, GLFW_MOUSE_BUTTON_LEFT, 0, 0⟩ (some 2))
    (reachable_pass_start demo_reach_v0)

theorem demo_press_run :
    rebuild_pass demo_hash demo_press_pass demo_press_ops = .ok demo_pressed ∧
      demo_pressed.depth_first = [0, 1, 2] ∧ demo_pressed.active = some 2 ∧
      (demo_pressed.boxes 0).signal.pressed = false ∧
      (demo_pressed.boxes 1).signal.pressed = false ∧
      (demo_pressed.boxes 2).signal.pressed = true := by
  refine ⟨by rfl, by rfl, by rfl, by rfl, by rfl, by rfl⟩

theorem rebuild_pass_one_pressed_witness :
    (PassStart demo_press_pass ∧
      rebuild_pass demo_hash demo_press_pass demo_press_ops = .ok demo_pressed) ∧
    OnePressed demo_pressed.boxes demo_pressed.depth_first ∧
      (∀ b ∈ demo_pressed.depth_first, (demo_pressed.boxes b).signal.pressed = true →
        demo_pressed.active = some b) ∧
      (∀ b ∈ demo_pressed.box_cache.map Prod.snd, b ∈ demo_pressed.depth_first) :=
  ⟨⟨demo_press_pass_start, demo_press_run.1⟩,
    rebuild_pass_one_pressed demo_hash demo_press_pass demo_pressed demo_press_ops
      demo_press_pass_start demo_press_run.1⟩

/-! ## Claim C38: the index read by `find_prev_focus` -/

/-- The index that `find_next_focus` reads is a remainder by the count: its
bounds check does not fail when `depth_first` is not empty, whatever
`focus_idx` is. -/
theorem find_next_focus_loop_in_range (start fuel : Nat) (ui : Ui)
    (h : ui.depth_first ≠ []) : find_next_focus_loop start fuel ui ≠ .error .panic := by
  induction fuel generalizing ui with
  | zero => simp [find_next_focus_loop]
  | succ n ih =>
    have hlen : ui.depth_first.length ≠ 0 := fun e => h (List.length_eq_zero.1 e)
    have hlt : ((ui.focus_idx + 1) % 2 ^ 64) % ui.depth_first.length < ui.depth_first.length :=
      Nat.mod_lt _ (Nat.pos_of_ne_zero hlen)
    unfold find_next_focus_loop
    simp only [hlen, if_false, List.getElem?_eq_getElem hlt]
    split
    · simp
    · split
      · simp
      · exact ih _ h
/-- C38 at the failing input: a first frame declares the root and three boxes
that can take the focus; in the second frame Shift+Tab sets `focus_idx` to 3 and
the build code declares the root and one box, so that `depth_first` has two
entries; in the third frame Shift+Tab makes `find_prev_focus` read
`depth_first` at index 2, which is not below the count, and the bounds check of
`array_get` fails. -/
theorem find_prev_focus_stale_index :
    ui_frame_event demo_hash demo_build_three 800 600 demo_init demo_event = .ok demo_h1 ∧
      demo_h1.depth_first = [0, 1, 2, 3] ∧ demo_h1.focus_idx = 0 ∧
      ui_frame_event demo_hash demo_build_one 800 600 demo_h1 demo_shift_tab = .ok demo_h2 ∧
      demo_h2.depth_first = [0, 1] ∧ demo_h2.focus_idx = 3 ∧ demo_h2.focused = some 3 ∧
      (demo_h2.focus_idx + 2 ^ 64 - 1) % 2 ^ 64 = 2 ∧
      demo_h2.depth_first[2]? = none ∧
      find_prev_focus demo_h2 = .error .panic ∧
      ui_frame_event demo_hash demo_build_one 800 600 demo_h2 demo_shift_tab = .error .panic := by
  refine ⟨by rfl, by rfl, by rfl, by rfl, by rfl, by rfl, by rfl, by rfl, by rfl, by rfl, by rfl⟩

/-! ## Claim C36: the interaction singletons after the sweep -/

/-- C36 at the failing input: a frame declares the root and three boxes; in the
next frame Tab gives the focus to box 1 and the hit test leaves box 1 in
`ui->hovered`; the build code of the third frame declares the root only.  After
the sweep of that frame box 1 is on the free list and not in the identity map,
and `ui->focused` and `ui->hovered` are still box 1: the sweep resets
`ui->active` only.  In a fourth frame that declares three new boxes, the one
that takes box 1 from the free list reports `signal.focused`. -/
theorem gc_sweep_keeps_focused_hovered :
    ui_frame_event demo_hash demo_build_three 800 600 demo_h1 demo_tab = .ok demo_k1 ∧
      demo_k1.focused = some 1 ∧ demo_k1.box_cache.map Prod.snd = [0, 1, 2, 3] ∧
      demo_k2.focused = some 1 ∧ demo_k2.hovered = some 1 ∧
      ui_frame_event demo_hash demo_build_none 800 600 demo_k2 demo_event = .ok demo_k3 ∧
      demo_k3.depth_first = [0] ∧ demo_k3.box_cache.map Prod.snd = [0] ∧
      demo_k3.free_boxes = [3, 2, 1] ∧
      demo_k3.focused = some 1 ∧ demo_k3.hovered = some 1 ∧ demo_k3.active = none ∧
      ui_frame_event demo_hash demo_build_new 800 600 demo_k3 demo_event = .ok demo_k4 ∧
      demo_k4.depth_first = [0, 3, 2, 1] ∧ (demo_k4.boxes 1).label = "ffffff" ∧
      (demo_k4.boxes 1).signal.focused = true := by
  refine ⟨by rfl, by rfl, by rfl, by rfl, by rfl, by rfl, by rfl, by rfl, by rfl, by rfl, by rfl,
    by rfl, by rfl, by rfl, by rfl, by rfl⟩

/-! ## Claim C33: the focus-follow rule of the scroll box -/

/-- The focus-follow rule of `ui_scroll_box_pop` leaves the context as it is
unless the event is a press of Tab and `focus_idx` is at least the index that
`ui_scroll_box_push` stored in `scratch`. -/
theorem ui_scroll_box_follow_idle (ui : Ui) (container : BoxId)
    (h : ¬ (ui.focus_idx ≥ (ui.boxes container).scratch ∧ ui.event.tag = .EVENT_KEY_PRESS ∧
      ui.event.key = GLFW_KEY_TAB)) :
    ui_scroll_box_follow ui container = .ok ui := by
  unfold ui_scroll_box_follow
  simp only [decide_eq_true_eq]
  rw [if_neg h]

theorem ok_or_of_ok (d : Ui) (r : Except Fault Ui) (h : r.toBool = true) :
    r = .ok (ok_or d r) := by
  cases r with
  | error e => cases h
  | ok u => rfl

/-- C33 at the failing input: the scroll container (box 1, index 1 of
`depth_first`) is at the top of the parent stack with offset 0, the event is a
press of Tab, and the focused box 3 is a child of the root, declared after the
container by the previous pass (`focus_idx` = 3) and laid out below its view.
The focus-follow rule moves the vertical offset of the container to -150, and
`ui_scroll_box_pop` returns with that offset; at another event the offset stays
0. -/
theorem ui_scroll_box_follow_sibling :
    (demo_follow.box_stack = [1, 0] ∧ demo_follow.focused = some 3 ∧
      demo_follow.focus_idx = 3 ∧ (demo_follow.boxes 1).scratch = 1 ∧
      (demo_follow.boxes 3).parent = some 0 ∧ (demo_follow.boxes 0).parent = none ∧
      (demo_follow.boxes 1).children = [2] ∧ (demo_follow.boxes 2).children = [] ∧
      (demo_follow.boxes 1).content.y = 0) ∧
    (ui_scroll_box_follow demo_follow 1 = .ok demo_follow_mid ∧
      (demo_follow_mid.boxes 1).content.y = -150) ∧
    (ui_scroll_box_pop demo_hash demo_follow = .ok demo_follow_out ∧
      (demo_follow_out.boxes 1).content.y = -150) ∧
    (ui_scroll_box_pop demo_hash demo_follow_idle = .ok demo_follow_idle_out ∧
      (demo_follow_idle_out.boxes 1).content.y = 0) := by
  refine ⟨⟨by rfl, by rfl, by rfl, by rfl, by rfl, by rfl, by rfl, by rfl, by rfl⟩,
    ⟨ok_or_of_ok _ _ (by decide!), by decide!⟩, ⟨ok_or_of_ok _ _ (by decide!), by decide!⟩,
    ⟨ok_or_of_ok _ _ (by decide!), by decide!⟩⟩
/-! ## Claim C9: `animate_f32` in binary32 -/

theorem sig_shift_full (bits n : Nat) :
    n / 2 ^ sig_shift bits n n 0 < 2 ^ bits ∧
      (0 < sig_shift bits n n 0 → 2 ^ bits ≤ n / 2 ^ (sig_shift bits n n 0 - 1)) := by
  constructor
  · apply sig_shift_lt
    rw [Nat.zero_add, Nat.div_eq_of_lt (Nat.lt_two_pow n)]
    exact Nat.pow_pos (by decide)
  · intro h
    exact sig_shift_least bits n n 0 h

/-- The shift of a number that has `bits` bits left after `k` shifts and more
after `k - 1`. -/
theorem sig_shift_eq (bits n k : Nat) (hk : 0 < k) (hlo : 2 ^ bits ≤ n / 2 ^ (k - 1))
    (hhi : n / 2 ^ k < 2 ^ bits) : sig_shift bits n n 0 = k := by
  obtain ⟨h1, h2⟩ := sig_shift_full bits n
  generalize sig_shift bits n n 0 = K at h1 h2
  by_contra hne
  rcases Nat.lt_or_gt_of_ne hne with hlt | hgt
  · have : n / 2 ^ (k - 1) ≤ n / 2 ^ K :=
      Nat.div_le_div_left (Nat.pow_le_pow_right (by decide) (by omega)) (Nat.pow_pos (by decide))
    omega
  · have h3 := h2 (by omega)
    have : n / 2 ^ (K - 1) ≤ n / 2 ^ k :=
      Nat.div_le_div_left (Nat.pow_le_pow_right (by decide) (by omega)) (Nat.pow_pos (by decide))
    omega

/-- The result of the rounding is a multiple of a power of two by a number of
at most `bits` bits, or by `2 ^ bits`. -/
theorem round_sig_form (bits n : Nat) :
    ∃ q k, round_sig bits n = q * 2 ^ k ∧ q ≤ 2 ^ bits := by
  unfold round_sig
  obtain ⟨h1, _⟩ := sig_shift_full bits n
  generalize sig_shift bits n n 0 = K at h1
  simp only
  split
  · exact ⟨n / 2 ^ K + 1, K, rfl, by omega⟩
  · exact ⟨n / 2 ^ K, K, rfl, by omega⟩

/-- Rounding twice is rounding once. -/
theorem round_sig_idem (bits n : Nat) (hb : 1 ≤ bits) :
    round_sig bits (round_sig bits n) = round_sig bits n := by
  obtain ⟨q, k, he, hq⟩ := round_sig_form bits n
  rw [he]
  by_cases hlt : q < 2 ^ bits
  · exact round_sig_exact bits q k hlt
  · have hq' : q = 2 ^ bits := by omega
    rw [hq', ← pow_add]
    have := round_sig_exact bits 1 (bits + k) (Nat.one_lt_two_pow_iff.2 (by omega))
    simpa using this

/-- The rounding does not pass a power of two. -/
theorem round_sig_le_pow (bits n j : Nat) (hb : 1 ≤ bits) (h : n ≤ 2 ^ j) :
    round_sig bits n ≤ 2 ^ j := by
  unfold round_sig
  obtain ⟨h1, h2⟩ := sig_shift_full bits n
  generalize sig_shift bits n n 0 = K at h1 h2
  simp only
  have hpos : 0 < 2 ^ K := Nat.pow_pos (by decide)
  by_cases hKj : K ≤ j
  · have hsplit : 2 ^ j = 2 ^ (j - K) * 2 ^ K := by
      rw [← pow_add]; congr 1; omega
    have hq : n / 2 ^ K * 2 ^ K ≤ n := Nat.div_mul_le_self _ _
    by_cases hex : n % 2 ^ K = 0
    · rw [if_neg (by rw [hex]; omega)]
      omega
    · have hlt : n / 2 ^ K < 2 ^ (j - K) := by
        by_contra hge
        have hge' : 2 ^ (j - K) ≤ n / 2 ^ K := Nat.le_of_not_lt hge
        have := Nat.mul_le_mul_right (2 ^ K) hge'
        rw [← hsplit] at this
        have hn : n = 2 ^ j := by omega
        rw [hn, hsplit, Nat.mul_mod_left] at hex
        exact hex rfl
      rw [hsplit]
      split
      · exact Nat.mul_le_mul_right _ hlt
      · exact Nat.mul_le_mul_right _ (le_of_lt hlt)
  · have h3 := h2 (by omega)
    have hle : n / 2 ^ (K - 1) ≤ 1 := by
      have h4 : n / 2 ^ (K - 1) ≤ 2 ^ j / 2 ^ j :=
        le_trans (Nat.div_le_div_right h)
          (Nat.div_le_div_left (Nat.pow_le_pow_right (by decide) (by omega))
            (Nat.pow_pos (by decide)))
      rwa [Nat.div_self (Nat.pow_pos (by decide))] at h4
    have h2b : 2 ≤ 2 ^ bits := by
      calc 2 = 2 ^ 1 := rfl
        _ ≤ 2 ^ bits := Nat.pow_le_pow_right (by decide) hb
    omega
/-- The ratio of a multiple of `d` to `d` is rounded as the number itself. -/
theorem round_sig_ratio_mul (bits n d : Nat) (hd : 0 < d) :
    round_sig_ratio bits (n * d) d = round_sig bits n := by
  unfold round_sig_ratio round_sig
  rw [Nat.mul_div_cancel _ hd]
  generalize sig_shift bits n n 0 = K
  have hpos : 0 < 2 ^ K := Nat.pow_pos (by decide)
  have hq : n * d / (d * 2 ^ K) = n / 2 ^ K := by
    rw [Nat.mul_comm n d, Nat.mul_div_mul_left _ _ hd]
  have hr : n * d % (d * 2 ^ K) = d * (n % 2 ^ K) := by
    rw [Nat.mul_comm n d, Nat.mul_mod_mul_left]
  simp only [hq, hr]
  have e1 : (d * 2 ^ K < 2 * (d * (n % 2 ^ K))) ↔ (2 ^ K < 2 * (n % 2 ^ K)) := by
    rw [show 2 * (d * (n % 2 ^ K)) = d * (2 * (n % 2 ^ K)) by ring]
    exact Nat.mul_lt_mul_left hd
  have e2 : (d * 2 ^ K = 2 * (d * (n % 2 ^ K))) ↔ (2 ^ K = 2 * (n % 2 ^ K)) := by
    rw [show 2 * (d * (n % 2 ^ K)) = d * (2 * (n % 2 ^ K)) by ring]
    exact Nat.mul_right_inj (by omega)
  simp only [e1, e2]

/-- An increment of at most half a unit in the last place is absorbed: for an
even significand `m` of 24 bits, the sum of `m * 2 ^ (e + 1)` and a number up
to `2 ^ e` is rounded back to `m * 2 ^ (e + 1)` (a tie goes to the even
significand). -/
theorem round_sig_absorbs (m e x : Nat) (hm1 : 2 ^ 23 ≤ m) (hm2 : m < 2 ^ 24) (heven : m % 2 = 0)
    (hx : x ≤ 2 ^ e) : round_sig 24 (m * 2 ^ (e + 1) + x) = m * 2 ^ (e + 1) := by
  have hpos : 0 < 2 ^ (e + 1) := Nat.pow_pos (by decide)
  have hxlt : x < 2 ^ (e + 1) := by
    calc x ≤ 2 ^ e := hx
      _ < 2 ^ (e + 1) := Nat.pow_lt_pow_right (by decide) (by omega)
  have hq : (m * 2 ^ (e + 1) + x) / 2 ^ (e + 1) = m := by
    rw [Nat.add_comm, Nat.add_mul_div_right _ _ hpos, Nat.div_eq_of_lt hxlt, Nat.zero_add]
  have hr : (m * 2 ^ (e + 1) + x) % 2 ^ (e + 1) = x := by
    rw [Nat.add_comm, Nat.add_mul_mod_self_right]
    exact Nat.mod_eq_of_lt hxlt
  have hK : sig_shift 24 (m * 2 ^ (e + 1) + x) (m * 2 ^ (e + 1) + x) 0 = e + 1 := by
    apply sig_shift_eq 24 _ (e + 1) (by omega)
    · have h1 : m * 2 ^ (e + 1) / 2 ^ e ≤ (m * 2 ^ (e + 1) + x) / 2 ^ e :=
        Nat.div_le_div_right (Nat.le_add_right _ _)
      have h2 : m * 2 ^ (e + 1) / 2 ^ e = 2 * m := by
        rw [pow_succ, ← Nat.mul_assoc, Nat.mul_comm (m * 2 ^ e) 2, Nat.mul_comm m (2 ^ e),
          ← Nat.mul_assoc, Nat.mul_comm 2 (2 ^ e), Nat.mul_assoc,
          Nat.mul_div_cancel_left _ (Nat.pow_pos (by decide))]
      rw [h2] at h1
      show 2 ^ 24 ≤ (m * 2 ^ (e + 1) + x) / 2 ^ (e + 1 - 1)
      rw [Nat.add_sub_cancel]
      have : (2 : Nat) ^ 24 = 2 * 2 ^ 23 := by norm_num
      omega
    · rw [hq]; exact hm2
  unfold round_sig
  simp only [hK, hq, hr]
  rw [if_neg]
  rintro (h | ⟨_, h⟩)
  · have : 2 ^ (e + 1) = 2 * 2 ^ e := by rw [pow_succ]; ring
    omega
  · omega
theorem f32_round_natCast (n : Nat) : f32_round (n : Int) = ((round_sig 24 n : Nat) : Int) := by
  unfold f32_round
  rw [if_neg (by omega)]
  simp

theorem f32_mul_one_natCast (n : Nat) :
    f32_mul (f32_of_int 1) (n : Int) = ((round_sig 24 n : Nat) : Int) := by
  have hprod : f32_of_int 1 * (n : Int) = ((n * 2 ^ 149 : Nat) : Int) := by
    unfold f32_of_int
    push_cast
    ring
  unfold f32_mul
  rw [hprod, if_neg (by omega), Int.natAbs_ofNat, round_sig_ratio_mul _ _ _ (Nat.pow_pos (by decide))]

/-- One call of `animate_f32` in binary32 that leaves the live value where it
is: the live value has the even significand `m` and the unit `2 ^ (e + 1)` in
the last place, the target is 1 above it (more than `epsilon`), and `powf`
returns a value `p` with `1 - p` at most `2 ^ e`, half a unit in the last
place. The increment `1 * (1 - p)` is then at most half a unit, and the sum is
rounded back to the live value. -/
theorem animate_f32_b32_stall_step (powf : Int → Int → Int) (dt duration ratio : Int)
    (m e : Nat) (current final : Int)
    (hcur : current = ((m * 2 ^ (e + 1) : Nat) : Int))
    (hm1 : 2 ^ 23 ≤ m) (hm2 : m < 2 ^ 24) (heven : m % 2 = 0)
    (hdist : f32_sub final current = f32_of_int 1)
    (hfar : ¬ |f32_sub current final| ≤ F32_EPSILON)
    (hdiv : f32_div dt duration = .ok ratio)
    (hlo : f32_of_int 1 - ((2 ^ e : Nat) : Int) ≤ powf F32_EPSILON ratio)
    (hhi : powf F32_EPSILON ratio ≤ f32_of_int 1) :
    animate_f32_b32 powf dt current final duration = .ok current := by
  unfold animate_f32_b32
  simp only
  rw [if_neg hfar, hdiv]
  simp only
  rw [hdist]
  obtain ⟨a, ha⟩ : ∃ a : Nat, f32_of_int 1 - powf F32_EPSILON ratio = (a : Int) :=
    ⟨(f32_of_int 1 - powf F32_EPSILON ratio).toNat, by
      rw [Int.toNat_of_nonneg]
      omega⟩
  have ha_le : a ≤ 2 ^ e := by
    have h2 : (a : Int) ≤ ((2 ^ e : Nat) : Int) := by
      rw [← ha]
      omega
    exact_mod_cast h2
  have hx := round_sig_le_pow 24 a e (by decide) ha_le
  unfold f32_sub
  rw [ha, f32_round_natCast, f32_mul_one_natCast, round_sig_idem 24 a (by decide)]
  unfold f32_add
  rw [hcur, ← Nat.cast_add, f32_round_natCast, round_sig_absorbs m e _ hm1 hm2 heven hx]

set_option maxRecDepth 8192 in
/-- A live value that one call leaves where it is stays there under any number
of calls. -/
theorem animate_f32_b32_iterate_fixed (powf : Int → Int → Int) (dt duration current final : Int)
    (hstep : animate_f32_b32 powf dt current final duration = .ok current) (n : Nat) :
    animate_f32_b32_iterate powf dt final duration n current = .ok current := by
  induction n with
  | zero => unfold animate_f32_b32_iterate; rfl
  | succ n ih =>
    unfold animate_f32_b32_iterate
    rw [hstep]
    exact ih

/-- The live value 500 with the target 501 stays where it is under any number
of calls, when `powf` returns a value between 1 - 2^-16 and 1 for the frame
time and the duration: the unit in the last place of 500 is 2^-15. -/
theorem animate_f32_b32_stall_500 (powf : Int → Int → Int) (dt duration ratio : Int)
    (hdiv : f32_div dt duration = .ok ratio)
    (hlo : 65535 * 2 ^ 133 ≤ powf F32_EPSILON ratio)
    (hhi : powf F32_EPSILON ratio ≤ 65536 * 2 ^ 133) (n : Nat) :
    animate_f32_b32_iterate powf dt (f32_of_int 501) duration n (f32_of_int 500) =
      .ok (f32_of_int 500) := by
  have h1 : f32_of_int 1 = 65536 * 2 ^ 133 := by decide!
  have h2 : ((2 ^ 133 : Nat) : Int) = 2 ^ 133 := by norm_num
  exact animate_f32_b32_iterate_fixed powf dt duration _ _
    (animate_f32_b32_stall_step powf dt duration ratio 16384000 133 _ _ (by decide!)
      (by norm_num) (by norm_num) (by norm_num) (by decide!) (by decide!) hdiv
      (by rw [h1, h2]; omega) (by rw [h1]; exact hhi)) n

/-- The live value 1000000 with the target 1000001 stays where it is under any
number of calls, when `powf` returns a value between 0.96875 and 1 for the
frame time and the duration: the unit in the last place of 1000000 is
0.0625. -/
theorem animate_f32_b32_stall_iterate (powf : Int → Int → Int) (dt duration ratio : Int)
    (hdiv : f32_div dt duration = .ok ratio)
    (hlo : 31 * 2 ^ 144 ≤ powf F32_EPSILON ratio) (hhi : powf F32_EPSILON ratio ≤ 32 * 2 ^ 144)
    (n : Nat) :
    animate_f32_b32_iterate powf dt (f32_of_int 1000001) duration n (f32_of_int 1000000) =
      .ok (f32_of_int 1000000) := by
  have h1 : f32_of_int 1 = 32 * 2 ^ 144 := by decide!
  have h2 : ((2 ^ 144 : Nat) : Int) = 2 ^ 144 := by norm_num
  exact animate_f32_b32_iterate_fixed powf dt duration _ _
    (animate_f32_b32_stall_step powf dt duration ratio 16000000 144 _ _ (by decide!)
      (by norm_num) (by norm_num) (by norm_num) (by decide!) (by decide!) hdiv
      (by rw [h1, h2]; omega) (by rw [h1]; exact hhi)) n

theorem f32_div_returns (a b : Int) (hb : b ≠ 0) : ∃ ratio, f32_div a b = .ok ratio := by
  unfold f32_div
  rw [if_neg hb]
  split <;> exact ⟨_, rfl⟩

/-- C9 at the failing input: the live value 500, the target 501, the duration
10000 and the frame time 0.016 (all binary32 values, and the quotient
`ui->dt/duration` is finite).  The value of 0.001 ^ 0.0000016 is 0.9999889; for
every `powf` that returns a value between 1 - 2^-16 = 0.9999847 and 1 for this
quotient, the live value is 500 after any number of calls of `animate_f32`, so
also after the 625000 calls that cover the duration, as the sample `powf`
shows: the remaining distance is the initial distance, 1, which is not zero,
not within a thousandth of the initial distance, and not within a thousandth
of the target.  With the live value 1000000, the target 1000001 and the
duration 10 the same happens for every `powf` that returns a value between
0.96875 and 1 (0.001 ^ 0.0016 is 0.9890084), after 625 calls as after any
number. -/
theorem animate_f32_b32_stalls :
    (f32_round demo_dt_b32 = demo_dt_b32 ∧ f32_round F32_EPSILON = F32_EPSILON ∧
      fault_of (f32_div demo_dt_b32 (f32_of_int 10000)) = none ∧
      fault_of (f32_div demo_dt_b32 (f32_of_int 10)) = none) ∧
    (∀ (powf : Int → Int → Int) (ratio : Int),
      f32_div demo_dt_b32 (f32_of_int 10000) = .ok ratio →
      65535 * 2 ^ 133 ≤ powf F32_EPSILON ratio → powf F32_EPSILON ratio ≤ 65536 * 2 ^ 133 →
      ∀ n, animate_f32_b32_iterate powf demo_dt_b32 (f32_of_int 501) (f32_of_int 10000) n
        (f32_of_int 500) = .ok (f32_of_int 500)) ∧
    animate_f32_b32_iterate demo_powf_slow demo_dt_b32 (f32_of_int 501) (f32_of_int 10000) 625000
      (f32_of_int 500) = .ok (f32_of_int 500) ∧
    (10000 * 2 ^ 149 ≤ 625000 * demo_dt_b32 ∧
      f32_of_int 501 - f32_of_int 500 = f32_of_int 1 ∧
      ¬ (1000 * (f32_of_int 501 - f32_of_int 500) ≤ f32_of_int 1) ∧
      ¬ (1000 * (f32_of_int 501 - f32_of_int 500) ≤ f32_of_int 501)) ∧
    (∀ (powf : Int → Int → Int) (ratio : Int),
      f32_div demo_dt_b32 (f32_of_int 10) = .ok ratio →
      31 * 2 ^ 144 ≤ powf F32_EPSILON ratio → powf F32_EPSILON ratio ≤ 32 * 2 ^ 144 →
      ∀ n, animate_f32_b32_iterate powf demo_dt_b32 (f32_of_int 1000001) (f32_of_int 10) n
        (f32_of_int 1000000) = .ok (f32_of_int 1000000)) ∧
    animate_f32_b32_iterate demo_powf_b32 demo_dt_b32 (f32_of_int 1000001) (f32_of_int 10) 625
      (f32_of_int 1000000) = .ok (f32_of_int 1000000) := by
  obtain ⟨r1, hr1⟩ := f32_div_returns demo_dt_b32 (f32_of_int 10000) (by decide!)
  obtain ⟨r2, hr2⟩ := f32_div_returns demo_dt_b32 (f32_of_int 10) (by decide!)
  refine ⟨⟨by decide!, by decide!, by rw [hr1]; rfl, by rw [hr2]; rfl⟩, ?_, ?_,
    ⟨by decide!, by decide!, by decide!, by decide!⟩, ?_, ?_⟩
  · intro powf ratio hr hlo hhi n
    exact animate_f32_b32_stall_500 powf _ _ ratio hr hlo hhi n
  · exact animate_f32_b32_stall_500 demo_powf_slow _ _ r1 hr1
      (show (65535 * 2 ^ 133 : Int) ≤ 16777031 * 2 ^ 125 by norm_num)
      (show (16777031 * 2 ^ 125 : Int) ≤ 65536 * 2 ^ 133 by norm_num) 625000
  · intro powf ratio hr hlo hhi n
    exact animate_f32_b32_stall_iterate powf _ _ ratio hr hlo hhi n
  · exact animate_f32_b32_stall_iterate demo_powf_b32 _ _ r2 hr2
      (show (31 * 2 ^ 144 : Int) ≤ 16592808 * 2 ^ 125 by norm_num)
      (show (16592808 * 2 ^ 125 : Int) ≤ 32 * 2 ^ 144 by norm_num) 625

/-! ## Claim C30: the topmost hovered box, in binary32 -/

theorem compute_rect_intersect_f32_exact (a b : UiRectF32) (h : ExactSums a b) :
    compute_rect_intersect_f32 a b = rect_meet a b := by
  obtain ⟨⟨sx0, sx1, dx, _⟩, ⟨sy0, sy1, dy, _⟩⟩ := h
  unfold compute_rect_intersect_f32 rect_meet
  simp only [sx0, sx1, sy0, sy1, dx, dy]

theorem strictly_inside_rect_meet (a b : UiRectF32) (p : Vec2F32) :
    strictly_inside (rect_meet a b) p = (strictly_inside a p && strictly_inside b p) := by
  have hx := axis_intersect a.x a.w b.x b.w p.x
  have hy := axis_intersect a.y a.h b.y b.h p.y
  unfold strictly_inside rect_meet
  rw [Bool.eq_iff_iff]
  simp only [Bool.and_eq_true, decide_eq_true_eq]
  constructor
  · rintro ⟨⟨⟨h1, h2⟩, h3⟩, h4⟩
    obtain ⟨⟨a1, a2⟩, b1, b2⟩ := hx.1 ⟨h1, h2⟩
    obtain ⟨⟨c1, c2⟩, d1, d2⟩ := hy.1 ⟨h3, h4⟩
    exact ⟨⟨⟨⟨a1, a2⟩, c1⟩, c2⟩, ⟨⟨b1, b2⟩, d1⟩, d2⟩
  · rintro ⟨⟨⟨⟨a1, a2⟩, c1⟩, c2⟩, ⟨⟨b1, b2⟩, d1⟩, d2⟩
    obtain ⟨h1, h2⟩ := hx.2 ⟨⟨a1, a2⟩, b1, b2⟩
    obtain ⟨h3, h4⟩ := hy.2 ⟨⟨c1, c2⟩, d1, d2⟩
    exact ⟨⟨⟨h1, h2⟩, h3⟩, h4⟩

/-- A point is strictly inside the intersection of the rects of a list that is
not empty exactly when it is strictly inside each of them. -/
theorem strictly_inside_meet_all (p : Vec2F32) :
    ∀ (regions : List UiRectF32), regions ≠ [] →
      strictly_inside (meet_all regions) p = regions.all (fun r => strictly_inside r p) := by
  intro regions
  induction regions with
  | nil => intro h; exact absurd rfl h
  | cons r rest ih =>
    intro _
    cases rest with
    | nil => simp [meet_all]
    | cons r2 rest2 =>
      simp only [meet_all, List.all_cons]
      rw [strictly_inside_rect_meet, ih (by simp)]
      simp only [List.all_cons]

/-- Without rounding, the test of the code against the intersection is the
test against the two rects in exact arithmetic. -/
theorem within_box_f32_meet (a b : UiRectF32) (h : ExactSums a b) (p : Vec2F32) :
    within_box_f32 (compute_rect_intersect_f32 a b) p =
      (strictly_inside a p && strictly_inside b p) := by
  rw [within_box_f32_intersect_exact a b h p]
  obtain ⟨⟨sx0, sx1, _, _⟩, ⟨sy0, sy1, _, _⟩⟩ := h
  unfold within_box_f32 strictly_inside
  simp only [sx0, sx1, sy0, sy1, gt_iff_lt]

theorem meet_all_cons (r : UiRectF32) (regions : List UiRectF32) (h : regions ≠ []) :
    meet_all (r :: regions) = rect_meet r (meet_all regions) := by
  cases regions with
  | nil => exact absurd rfl h
  | cons r2 rest => rfl

theorem last_qualifying_append (boxes : BoxId → UiBoxF32) (mouse : Vec2F32) (old : Option BoxId)
    (l1 l2 : List (BoxId × List UiRectF32)) :
    last_qualifying boxes mouse old (l1 ++ l2) =
      last_qualifying boxes mouse (last_qualifying boxes mouse old l1) l2 := by
  unfold last_qualifying
  rw [List.filter_append, List.getLast?_append]
  cases (List.filter (hit_qualifies boxes mouse) l2).getLast? with
  | none => simp
  | some e => simp

theorem last_qualifying_single (boxes : BoxId → UiBoxF32) (mouse : Vec2F32)
    (old : Option BoxId) (e : BoxId × List UiRectF32) :
    last_qualifying boxes mouse old [e] =
      if hit_qualifies boxes mouse e then some e.1 else old := by
  unfold last_qualifying
  by_cases h : hit_qualifies boxes mouse e = true
  · simp [List.filter_cons, h]
  · simp [List.filter_cons, h]

theorem last_qualifying_cons (boxes : BoxId → UiBoxF32) (mouse : Vec2F32) (old : Option BoxId)
    (e : BoxId × List UiRectF32) (l : List (BoxId × List UiRectF32)) :
    last_qualifying boxes mouse old (e :: l) =
      last_qualifying boxes mouse (if hit_qualifies boxes mouse e then some e.1 else old) l := by
  have := last_qualifying_append boxes mouse old [e] l
  rw [last_qualifying_single] at this
  exact this

/-- The first statement of the walk at a box whose test is not rounded: the
box takes `ui->hovered` exactly when it qualifies. -/
theorem hit_test_f32_state (ui : UiF32) (h : Option BoxId) (regions : List UiRectF32)
    (rest : List UiRectF32) (box : BoxId) (hne : regions ≠ [])
    (hex : ExactSums (ui.boxes box).rect (meet_all regions)) :
    hit_test_f32 (hit_state_f32 ui h (meet_all regions :: rest)) box =
      .ok (hit_state_f32 ui
        (if hit_qualifies ui.boxes ui.mouse (box, regions) then some box else h)
        (meet_all regions :: rest)) := by
  have hw := within_box_f32_meet _ _ hex ui.mouse
  rw [strictly_inside_meet_all ui.mouse regions hne] at hw
  unfold hit_test_f32 hit_qualifies
  by_cases hc : (ui.boxes box).flags &&& UI_BOX_CLICK_THROUGH = 0
  · by_cases hq : (strictly_inside (ui.boxes box).rect ui.mouse &&
        regions.all (fun r => strictly_inside r ui.mouse)) = true
    · have hq' := hq
      rw [Bool.and_eq_true] at hq'
      simp only [hit_state_f32, hc, if_true, hw, hq, decide_True, Bool.true_and, hq'.1, hq'.2]
    · have hq2 : (strictly_inside (ui.boxes box).rect ui.mouse &&
          regions.all (fun r => strictly_inside r ui.mouse)) = false := by simpa using hq
      simp only [hit_state_f32, hc, if_true, hw, hq2, decide_True, Bool.true_and,
        Bool.and_assoc]
      simp
  · simp [hit_state_f32, hc]
/-- The push of the walk at a box whose operations are not rounded: the new
top of the clip stack is the intersection of the rects that clip the children
of the box. -/
theorem hit_push_clip_f32_state (ui : UiF32) (h : Option BoxId) (regions : List UiRectF32)
    (rest : List UiRectF32) (box : BoxId) (hne : regions ≠ [])
    (hex : (ui.boxes box).flags &&& UI_BOX_CLIPPING ≠ 0 →
      InnerExact (ui.boxes box) ∧ ExactSums (inner_rect (ui.boxes box)) (meet_all regions)) :
    ∃ cs, hit_push_clip_f32 (hit_state_f32 ui h (meet_all regions :: rest)) box =
        .ok (hit_state_f32 ui h (meet_all (regions_below ui.boxes regions box) :: cs)) ∧
      ((ui.boxes box).flags &&& UI_BOX_CLIPPING ≠ 0 → cs = meet_all regions :: rest) ∧
      (¬ (ui.boxes box).flags &&& UI_BOX_CLIPPING ≠ 0 → cs = rest) := by
  unfold hit_push_clip_f32 regions_below
  by_cases hc : (ui.boxes box).flags &&& UI_BOX_CLIPPING ≠ 0
  · obtain ⟨⟨i1, i2, i3, i4⟩, hsum⟩ := hex hc
    refine ⟨meet_all regions :: rest, ?_, fun _ => rfl, fun hn => absurd hc hn⟩
    have hflags : (ui.boxes box).flags ||| UI_BOX_CLIPPING = (ui.boxes box).flags :=
      or_eq_of_and_ne_zero _ hc
    have hbox : ({ (ui.boxes box) with
        flags := (ui.boxes box).flags ||| UI_BOX_CLIPPING } : UiBoxF32) = ui.boxes box := by
      rw [hflags]
    have hpush : ui_push_clip_box_f32 (hit_state_f32 ui h (meet_all regions :: rest)) box =
        .ok (hit_state_f32 ui h
          (meet_all (inner_rect (ui.boxes box) :: regions) :: meet_all regions :: rest),
          meet_all (inner_rect (ui.boxes box) :: regions)) := by
      unfold ui_push_clip_box_f32
      simp only [hit_state_f32, hbox, Function.update_eq_self, i1, i2, i3, i4,
        ui_push_clip_rect_f32]
      have hin : (⟨(ui.boxes box).rect.x + (ui.boxes box).border_widths.z,
          (ui.boxes box).rect.y + (ui.boxes box).border_widths.y,
          (ui.boxes box).rect.w -
            ((ui.boxes box).border_widths.x + (ui.boxes box).border_widths.z),
          (ui.boxes box).rect.h -
            ((ui.boxes box).border_widths.w + (ui.boxes box).border_widths.y)⟩ :
          UiRectF32) = inner_rect (ui.boxes box) := rfl
      rw [hin, compute_rect_intersect_f32_exact _ _ hsum, ← meet_all_cons _ _ hne]
    simp only [hit_state_f32] at hpush ⊢
    simp only [hc, ne_eq, not_false_eq_true, if_true, hpush]
  · refine ⟨rest, ?_, fun h' => absurd h' hc, fun _ => rfl⟩
    simp only [hit_state_f32, hc, if_false]

theorem hit_pop_clip_f32_state (ui : UiF32) (h : Option BoxId) (top top' : UiRectF32)
    (rest cs : List UiRectF32) (box : BoxId)
    (h1 : (ui.boxes box).flags &&& UI_BOX_CLIPPING ≠ 0 → cs = top :: rest)
    (h2 : ¬ (ui.boxes box).flags &&& UI_BOX_CLIPPING ≠ 0 → cs = rest ∧ top' = top) :
    hit_pop_clip_f32 (hit_state_f32 ui h (top' :: cs)) box =
      .ok (hit_state_f32 ui h (top :: rest)) := by
  unfold hit_pop_clip_f32
  by_cases hc : (ui.boxes box).flags &&& UI_BOX_CLIPPING ≠ 0
  · rw [h1 hc]
    simp only [hit_state_f32, hc, ne_eq, not_false_eq_true, if_true, ui_pop_clip_f32]
  · obtain ⟨e1, e2⟩ := h2 hc
    rw [e1, e2]
    simp only [hit_state_f32, hc, if_false]

theorem regions_below_ne_nil (boxes : BoxId → UiBoxF32) (regions : List UiRectF32) (box : BoxId)
    (hne : regions ≠ []) : regions_below boxes regions box ≠ [] := by
  unfold regions_below
  split
  · simp
  · exact hne

theorem find_children_f32_state (ui : UiF32) (rank : BoxId → Nat) (fuel : Nat)
    (ih : ∀ box h regions rest, rank box < fuel → regions ≠ [] →
      (∀ e ∈ preorder_regions ui.boxes fuel regions box, HitExact ui.boxes e) →
      find_topmost_hovered_box_f32_fuel fuel (hit_state_f32 ui h (meet_all regions :: rest)) box =
        .ok (hit_state_f32 ui
          (last_qualifying ui.boxes ui.mouse h (preorder_regions ui.boxes fuel regions box))
          (meet_all regions :: rest)))
    (l : List BoxId) :
    ∀ h regions rest, (∀ c ∈ l, rank c < fuel) → regions ≠ [] →
      (∀ e ∈ (l.map (fun child => preorder_regions ui.boxes fuel regions child)).flatten,
        HitExact ui.boxes e) →
      l.foldlM (fun u child => find_topmost_hovered_box_f32_fuel fuel u child)
          (hit_state_f32 ui h (meet_all regions :: rest)) =
        .ok (hit_state_f32 ui
          (last_qualifying ui.boxes ui.mouse h
            ((l.map (fun child => preorder_regions ui.boxes fuel regions child)).flatten))
          (meet_all regions :: rest)) := by
  induction l with
  | nil => intro h regions rest _ _ _; rfl
  | cons c l ihl =>
    intro h regions rest hr hne hex
    simp only [List.map_cons, List.flatten_cons, List.mem_append] at hex
    rw [List.foldlM_cons, ih c h regions rest (hr c (List.mem_cons_self _ _)) hne
      (fun e he => hex e (Or.inl he))]
    simp only [bind, Except.bind]
    rw [ihl _ regions rest (fun x hx => hr x (List.mem_cons_of_mem _ hx)) hne
      (fun e he => hex e (Or.inr he))]
    simp only [List.map_cons, List.flatten_cons, last_qualifying_append]

/-- The walk from a state of the hit test, when no operation is rounded: it
returns, the clip stack is the one on entry, and the hovered box is the last
qualifying box of the pre-order listing. -/
theorem find_topmost_hovered_box_f32_state (ui : UiF32) (rank : BoxId → Nat)
    (hrank : ∀ b c, c ∈ (ui.boxes b).children → rank c < rank b) :
    ∀ fuel box h regions rest, rank box < fuel → regions ≠ [] →
      (∀ e ∈ preorder_regions ui.boxes fuel regions box, HitExact ui.boxes e) →
      find_topmost_hovered_box_f32_fuel fuel (hit_state_f32 ui h (meet_all regions :: rest)) box =
        .ok (hit_state_f32 ui
          (last_qualifying ui.boxes ui.mouse h (preorder_regions ui.boxes fuel regions box))
          (meet_all regions :: rest)) := by
  intro fuel
  induction fuel with
  | zero => intro box h regions rest hr; omega
  | succ fuel ih =>
    intro box h regions rest hr hne hex
    simp only [preorder_regions, List.mem_cons] at hex
    obtain ⟨hex0, hexc⟩ := hex (box, regions) (Or.inl rfl)
    obtain ⟨cs, hpush, hc1, hc2⟩ := hit_push_clip_f32_state ui
      (if hit_qualifies ui.boxes ui.mouse (box, regions) then some box else h) regions rest box
      hne hexc
    have hch := find_children_f32_state ui rank fuel ih (ui.boxes box).children
      (if hit_qualifies ui.boxes ui.mouse (box, regions) then some box else h)
      (regions_below ui.boxes regions box) cs
      (fun c hc => by have := hrank box c hc; omega)
      (regions_below_ne_nil _ _ _ hne)
      (fun e he => hex e (Or.inr he))
    have hpop := hit_pop_clip_f32_state ui
      (last_qualifying ui.boxes ui.mouse
        (if hit_qualifies ui.boxes ui.mouse (box, regions) then some box else h)
        ((List.map (fun child =>
          preorder_regions ui.boxes fuel (regions_below ui.boxes regions box) child)
          (ui.boxes box).children).flatten))
      (meet_all regions) (meet_all (regions_below ui.boxes regions box)) rest cs box hc1
      (fun hn => ⟨hc2 hn, by unfold regions_below; rw [if_neg hn]⟩)
    have hb : (hit_state_f32 ui
        (if hit_qualifies ui.boxes ui.mouse (box, regions) then some box else h)
        (meet_all (regions_below ui.boxes regions box) :: cs)).boxes = ui.boxes := rfl
    rw [find_topmost_hovered_box_f32_fuel, hit_test_f32_state ui h regions rest box hne hex0]
    simp only [hpush, hb, hch, hpop, preorder_regions, last_qualifying_cons]

theorem hit_state_f32_self (ui : UiF32) : hit_state_f32 ui ui.hovered ui.clip_stack = ui := rfl

/-- C30, amended. In binary32 arithmetic, for a tree of boxes (the children of
a box rank below it) of depth at most `box_count` and a clip stack with the
top `top`: when no sum or difference of the walk is rounded (`HitExact` at
every box of the pre-order listing), `find_topmost_hovered_box` returns and
changes nothing but `ui->hovered`. If at least one box of the listing
qualifies (it lacks the click-through flag, and the pointer is strictly inside
its rect, strictly inside `top` and strictly inside the inner rect of each of
its clipping ancestors), `ui->hovered` is the last such box of the listing;
else it is left as it was. -/
theorem find_topmost_hovered_box_f32_last (ui : UiF32) (root : BoxId) (rank : BoxId → Nat)
    (top : UiRectF32) (rest : List UiRectF32) (hclip : ui.clip_stack = top :: rest)
    (hrank : ∀ b c, c ∈ (ui.boxes b).children → rank c < rank b)
    (hroot : rank root ≤ ui.box_count)
    (hexact : ∀ e ∈ preorder_regions ui.boxes (ui.box_count + 1) [top] root,
      HitExact ui.boxes e) :
    ∃ hovered, find_topmost_hovered_box_f32 ui root = .ok { ui with hovered := hovered } ∧
      (∀ e, ((preorder_regions ui.boxes (ui.box_count + 1) [top] root).filter
          (hit_qualifies ui.boxes ui.mouse)).getLast? = some e → hovered = some e.1) ∧
      ((preorder_regions ui.boxes (ui.box_count + 1) [top] root).filter
          (hit_qualifies ui.boxes ui.mouse) = [] → hovered = ui.hovered) := by
  have h := find_topmost_hovered_box_f32_state ui rank hrank (ui.box_count + 1) root ui.hovered
    [top] rest (by omega) (by simp) hexact
  have hm : meet_all [top] = top := rfl
  rw [hm, ← hclip, hit_state_f32_self] at h
  refine ⟨last_qualifying ui.boxes ui.mouse ui.hovered
    (preorder_regions ui.boxes (ui.box_count + 1) [top] root), ?_, ?_, ?_⟩
  · unfold find_topmost_hovered_box_f32
    rw [h]
    rfl
  · intro e he
    simp only [last_qualifying, he]
  · intro he
    simp only [last_qualifying, he, List.getLast?_nil]

set_option maxRecDepth 100000 in
/-- C30, the claim in binary32: it fails. A single box with the rect
(-1, 0, 16777218, 10) lies under the clip rect (-3, 0, 33554432, 10), and the
pointer is at (16777215, 5): the box lacks the click-through flag, and the
pointer is strictly inside its rect (-1 < 16777215 < 16777217) and strictly
inside the clip rect, so the box qualifies, and it is the only box. The walk
leaves `ui->hovered` null: the size of the intersection, 16777217, is rounded
to 16777216, and the far edge -1 + 16777216 is the pointer's coordinate. -/
theorem find_topmost_hovered_box_f32_counterexample :
    preorder_regions demo_hit_wide.boxes 2 [demo_rect_b] 0 = [(0, [demo_rect_b])] ∧
      hit_qualifies demo_hit_wide.boxes demo_hit_wide.mouse (0, [demo_rect_b]) = true ∧
      (demo_hit_wide.boxes 0).rect.x < demo_hit_wide.mouse.x ∧
      demo_hit_wide.mouse.x < (demo_hit_wide.boxes 0).rect.x + (demo_hit_wide.boxes 0).rect.w ∧
      compute_rect_intersect_f32 demo_rect_a demo_rect_b =
        ⟨f32_of_int (-1), f32_of_int 0, f32_of_int 16777216, f32_of_int 10⟩ ∧
      hovered_f32_of (find_topmost_hovered_box_f32 demo_hit_wide 0) = some none := by
  refine ⟨by decide!, by decide!, by decide!, by decide!, by decide!, by decide!⟩

/-- A rank for the tree of `demo_hit_f32`. -/
theorem demo_hit_f32_rank (mouse : Vec2F32) (b c : BoxId)
    (hc : c ∈ ((demo_hit_f32 mouse).boxes b).children) :
    (if c = 0 then 2 else if c = 1 then 1 else 0) <
      (if b = 0 then 2 else if b = 1 then 1 else 0) := by
  by_cases h0 : b = 0
  · subst h0
    simp [demo_hit_f32] at hc
    rcases hc with rfl | rfl <;> simp
  · by_cases h1 : b = 1
    · subst h1
      simp [demo_hit_f32] at hc
      subst hc
      simp
    · by_cases h2 : b = 2
      · subst h2
        simp [demo_hit_f32] at hc
      · simp [demo_hit_f32, h0, h1, h2] at hc

set_option maxRecDepth 100000 in
/-- The sample tree with whole numbers: no operation is rounded; with the
pointer at (10, 10) the walk leaves the box 2 hovered (inside the inner rect
(2, 2, 36, 36) of its clipping parent), and with the pointer at (60, 60) the
root. -/
theorem demo_hit_f32_run :
    (∀ e ∈ preorder_regions (demo_hit_f32 ⟨f32_of_int 10, f32_of_int 10⟩).boxes 5
        [⟨f32_of_int 0, f32_of_int 0, f32_of_int 800, f32_of_int 600⟩] 0,
      HitExact (demo_hit_f32 ⟨f32_of_int 10, f32_of_int 10⟩).boxes e) ∧
    (preorder_regions (demo_hit_f32 ⟨f32_of_int 10, f32_of_int 10⟩).boxes 5
        [⟨f32_of_int 0, f32_of_int 0, f32_of_int 800, f32_of_int 600⟩] 0).map Prod.fst =
      [0, 1, 2, 3] ∧
    hovered_f32_of (find_topmost_hovered_box_f32
      (demo_hit_f32 ⟨f32_of_int 10, f32_of_int 10⟩) 0) = some (some 2) ∧
    hovered_f32_of (find_topmost_hovered_box_f32
      (demo_hit_f32 ⟨f32_of_int 60, f32_of_int 60⟩) 0) = some (some 0) := by
  refine ⟨by decide!, by decide!, by decide!, by decide!⟩

theorem find_topmost_hovered_box_f32_last_witness :
    ((demo_hit_f32 ⟨f32_of_int 10, f32_of_int 10⟩).clip_stack =
        [⟨f32_of_int 0, f32_of_int 0, f32_of_int 800, f32_of_int 600⟩] ∧
      (∀ b c, c ∈ ((demo_hit_f32 ⟨f32_of_int 10, f32_of_int 10⟩).boxes b).children →
        (if c = 0 then 2 else if c = 1 then 1 else 0) <
          (if b = 0 then 2 else if b = 1 then 1 else 0)) ∧
      (∀ e ∈ preorder_regions (demo_hit_f32 ⟨f32_of_int 10, f32_of_int 10⟩).boxes 5
          [⟨f32_of_int 0, f32_of_int 0, f32_of_int 800, f32_of_int 600⟩] 0,
        HitExact (demo_hit_f32 ⟨f32_of_int 10, f32_of_int 10⟩).boxes e)) ∧
    ∃ hovered, find_topmost_hovered_box_f32 (demo_hit_f32 ⟨f32_of_int 10, f32_of_int 10⟩) 0 =
        .ok { demo_hit_f32 ⟨f32_of_int 10, f32_of_int 10⟩ with hovered := hovered } ∧
      (∀ e, ((preorder_regions (demo_hit_f32 ⟨f32_of_int 10, f32_of_int 10⟩).boxes
          ((demo_hit_f32 ⟨f32_of_int 10, f32_of_int 10⟩).box_count + 1)
          [⟨f32_of_int 0, f32_of_int 0, f32_of_int 800, f32_of_int 600⟩] 0).filter
          (hit_qualifies (demo_hit_f32 ⟨f32_of_int 10, f32_of_int 10⟩).boxes
            (demo_hit_f32 ⟨f32_of_int 10, f32_of_int 10⟩).mouse)).getLast? = some e →
        hovered = some e.1) ∧
      ((preorder_regions (demo_hit_f32 ⟨f32_of_int 10, f32_of_int 10⟩).boxes
          ((demo_hit_f32 ⟨f32_of_int 10, f32_of_int 10⟩).box_count + 1)
          [⟨f32_of_int 0, f32_of_int 0, f32_of_int 800, f32_of_int 600⟩] 0).filter
          (hit_qualifies (demo_hit_f32 ⟨f32_of_int 10, f32_of_int 10⟩).boxes
            (demo_hit_f32 ⟨f32_of_int 10, f32_of_int 10⟩).mouse) = [] →
        hovered = (demo_hit_f32 ⟨f32_of_int 10, f32_of_int 10⟩).hovered) :=
  ⟨⟨rfl, demo_hit_f32_rank _, demo_hit_f32_run.1⟩,
    find_topmost_hovered_box_f32_last (demo_hit_f32 ⟨f32_of_int 10, f32_of_int 10⟩) 0
      (fun b => if b = 0 then 2 else if b = 1 then 1 else 0)
      ⟨f32_of_int 0, f32_of_int 0, f32_of_int 800, f32_of_int 600⟩ [] rfl
      (demo_hit_f32_rank _) (by decide) demo_hit_f32_run.1⟩
end Mykron
